import Mathlib

/-!
# grpc-ditto: the mock request matcher

A shallow embedding of `internal/dittomock/requestmatcher.go` and the
properties of its matching engine.

Conventions of the embedding:

* Go `string` and `[]byte` values are lists of characters.
* A Go function returning `(T, error)` returns a pair whose second component
  is `none` for a `nil` error.
* A Go function that can dereference a `nil` pointer or index out of range
  returns an `Option`; `none` is the run-time panic.
* Calls into third-party packages (`encoding/json`, `jsonslice`, `io/ioutil`,
  the non-ASCII part of `strings.EqualFold`) are the fields of `Lib`.
* The logger is write-only; the warnings `Match` logs are returned with its
  result.
-/

namespace Dittomock

/-- A Go `[]byte`. -/
abbrev Bytes := List Char

/-- A Go `string`. -/
abbrev GoString := List Char

/-- An error value produced inside a third-party package, by its message. -/
abbrev LibError := List Char

/-- The Go `error` values this file can produce. `ErrNotMatched` is the
package-level sentinel; `external` is an error handed back unchanged from a
third-party call; `jsonsliceMatching` is
`fmt.Errorf("jsonslice matching: %w, expr: %s", err, expr)`. -/
inductive GoError where
  | ErrNotMatched : GoError
  | external (err : LibError) : GoError
  | jsonsliceMatching (err : LibError) (expr : GoString) : GoError
  deriving DecidableEq, Repr

/-- Modelled from the spec: the type `JSONPathWrapper` is declared outside
`requestmatcher.go`; section 6 gives `matchesJsonPath` the fields
`expression`, `partial` (bool), `equals` (string) and `contains` (string). -/
structure JSONPathWrapper where
  Expression : GoString
  Partial : Bool
  Equals : GoString
  Contains : GoString
  deriving DecidableEq, Repr

/-- Modelled from the spec: a body pattern has the optional fields
`equalToJson` (a raw JSON value) and `matchesJsonPath` (a pointer, `nil` when
absent). -/
structure DittoBodyPattern where
  EqualToJson : Bytes
  MatchesJsonPath : Option JSONPathWrapper
  deriving DecidableEq, Repr

/-- Modelled from the spec: a request has a `method` and an ordered sequence
of body patterns. -/
structure DittoRequest where
  Method : GoString
  BodyPatterns : List DittoBodyPattern
  deriving DecidableEq, Repr

/-- Modelled from the spec: the response is a payload handed back verbatim
and never interpreted by the matcher. -/
structure DittoResponse where
  Body : Bytes
  deriving DecidableEq, Repr

/-- Modelled from the spec: a mock pairs a request pattern with a response.
`Request` is a pointer (`*DittoRequest`) in the source, so it can be `nil`. -/
structure DittoMock where
  Request : Option DittoRequest
  Response : DittoResponse
  deriving DecidableEq, Repr

/-- The third-party calls made by `requestmatcher.go`. -/
structure Lib where
  /-- The Go values `json.Unmarshal` stores into an `interface{}`. -/
  Value : Type
  /-- The call `jsonslice.Get(jsonSrc, expression)`. -/
  jsonsliceGet : Bytes → GoString → Except LibError Bytes
  /-- The call `json.Unmarshal(src, &val)` with `val interface{}`. -/
  jsonUnmarshal : Bytes → Except LibError Value
  /-- The call `json.Marshal(val)`. -/
  jsonMarshal : Value → Except LibError Bytes
  /-- The call `json.Unmarshal(val, &strVal)` with `strVal` a string holding `""`. -/
  jsonUnmarshalString : Bytes → Except LibError GoString
  /-- The slow path of `strings.EqualFold`, entered at the first position
  where either string has a non-ASCII byte. -/
  equalFoldUnicode : GoString → GoString → Bool
  /-- The call `ioutil.ReadFile(path)`. -/
  readFile : GoString → Except LibError Bytes
  /-- The call `json.Unmarshal(js, &msg)` with `msg json.RawMessage`. -/
  jsonUnmarshalRaw : Bytes → Except LibError Bytes
  /-- The call `json.Unmarshal(msg, &mocks)` with `mocks []DittoMock`: the
  slice as the call leaves it, and the error. -/
  jsonUnmarshalMocks : Bytes → List DittoMock × Option LibError
  /-- The call `json.Unmarshal(msg, &m)` with `m DittoMock`. -/
  jsonUnmarshalMock : Bytes → DittoMock × Option LibError

/-- The mock index `map[string][]DittoMock`. -/
abbrev Rules := GoString → Option (List DittoMock)

/-- The empty map `map[string][]DittoMock{}`. -/
def emptyRules : Rules := fun _ => none

/-- The struct `RequestMatcher`, without its logger. -/
structure RequestMatcher where
  rules : Rules
  mocksPath : GoString

/-- What a call of `Match` produces: the two return values and the errors it
passed to `logger.Warnw`, oldest first. -/
structure MatchResult where
  response : Option DittoResponse
  err : Option GoError
  warnings : List GoError
  deriving DecidableEq, Repr

/-- The predicate `strings.HasPrefix`. -/
def startsWith : GoString → GoString → Bool
  | _, [] => true
  | [], _ :: _ => false
  | c :: s, d :: p => c == d && startsWith s p

/-- The function `strings.Contains(s, substr)`. -/
def stringsContains : GoString → GoString → Bool
  | [], substr => startsWith [] substr
  | c :: s, substr => startsWith (c :: s) substr || stringsContains s substr

/-- The function `strings.EqualFold(s, t)`: the ASCII fast path of the Go
library; the Unicode path is `Lib.equalFoldUnicode` on the two suffixes. -/
def stringsEqualFold (L : Lib) : GoString → GoString → Bool
  | [], [] => true
  | [], _ :: _ => false
  | _ :: _, [] => false
  | sr :: s, tr :: t =>
    if 0x80 ≤ sr.toNat ∨ 0x80 ≤ tr.toNat then L.equalFoldUnicode (sr :: s) (tr :: t)
    else if tr = sr then stringsEqualFold L s t
    else
      let lo := if tr.toNat < sr.toNat then tr else sr
      let hi := if tr.toNat < sr.toNat then sr else tr
      if 'A'.toNat ≤ lo.toNat ∧ lo.toNat ≤ 'Z'.toNat ∧ hi.toNat = lo.toNat + 32 then
        stringsEqualFold L s t
      else false

/-- The function `canonicalJSON`. -/
def canonicalJSON (L : Lib) (src : Bytes) : Bytes × Option GoError :=
  match L.jsonUnmarshal src with
  | .error err => ([], some (.external err))
  | .ok val =>
    match L.jsonMarshal val with
    | .error err => ([], some (.external err))
    | .ok canonicalJson => (canonicalJson, none)

/-- The function `jsonMatcher`. -/
def jsonMatcher (L : Lib) (jsonVal expetedJson : Bytes) : Bool × Option GoError :=
  match canonicalJSON L jsonVal with
  | (_, some err) => (false, some err)
  | (src, none) =>
    match canonicalJSON L expetedJson with
    | (_, some err) => (false, some err)
    | (expected, none) => (decide (src = expected), none)

/-- The function `jsonPathMatcher`; its caller has checked `pattern != nil`. -/
def jsonPathMatcher (L : Lib) (jsonSrc : Bytes) (pattern : JSONPathWrapper) :
    Bool × Option GoError :=
  match L.jsonsliceGet jsonSrc pattern.Expression with
  | .error err => (false, some (.jsonsliceMatching err pattern.Expression))
  | .ok val =>
    if val.length = 0 then (false, none)
    else if pattern.Partial then (decide (val.length > 0), none)
    else if pattern.Equals ≠ [] then
      match L.jsonUnmarshalString val with
      | .error err => (false, some (.external err))
      | .ok strVal => (stringsEqualFold L strVal pattern.Equals, none)
    else if pattern.Contains ≠ [] then (stringsContains val pattern.Contains, none)
    else (false, none)

/-- The test `err != nil || !val` guarding both early returns of `matches`. -/
def failed (r : Bool × Option GoError) : Bool :=
  r.2.isSome || !r.1

/-- The first `if` of the loop body of `matches`, on the equality document
of `pattern`, entered with the local `result`: `.error r` is an early
`return r`, `.ok result1` falls through with the local updated. -/
def equalStep (L : Lib) (json : Bytes) (pattern : DittoBodyPattern) (result : Bool) :
    Except (Bool × Option GoError) Bool :=
  if pattern.EqualToJson.length > 0 then
    if failed (jsonMatcher L json pattern.EqualToJson) then
      .error (false, (jsonMatcher L json pattern.EqualToJson).2)
    else .ok true
  else .ok result

/-- The second `if` of the loop body of `matches`, on the path query of
`pattern`. -/
def pathStep (L : Lib) (json : Bytes) (pattern : DittoBodyPattern) (result : Bool) :
    Except (Bool × Option GoError) Bool :=
  match pattern.MatchesJsonPath with
  | none => .ok result
  | some p =>
    if failed (jsonPathMatcher L json p) then .error (false, (jsonPathMatcher L json p).2)
    else .ok true

/-- One iteration of the loop of `matches` on `pattern`. -/
def matchesStep (L : Lib) (json : Bytes) (pattern : DittoBodyPattern) (result : Bool) :
    Except (Bool × Option GoError) Bool :=
  match equalStep L json pattern result with
  | .error r => .error r
  | .ok result1 => pathStep L json pattern result1

/-- The loop of `matches` over the remaining body patterns. -/
def matchesLoop (L : Lib) (json : Bytes) : List DittoBodyPattern → Bool → Bool × Option GoError
  | [], result => (result, none)
  | pattern :: rest, result =>
    match matchesStep L json pattern result with
    | .error r => r
    | .ok result1 => matchesLoop L json rest result1

/-- The method `matches`; `none` is the panic of reading `req.BodyPatterns`
through a `nil` request. -/
def RequestMatcher.matches (L : Lib) (json : Bytes) (req : Option DittoRequest) :
    Option (Bool × Option GoError) :=
  match req with
  | none => none
  | some r => some (matchesLoop L json r.BodyPatterns false)

/-- The loop of `Match` over the remaining mocks of the bucket, with the
warnings logged so far. -/
def matchLoop (L : Lib) (json : Bytes) : List DittoMock → List GoError → Option MatchResult
  | [], log => some ⟨none, some .ErrNotMatched, log⟩
  | mock :: rest, log =>
    match RequestMatcher.matches L json mock.Request with
    | none => none
    | some (_, some err) => matchLoop L json rest (log ++ [err])
    | some (res, none) =>
      if res then some ⟨some mock.Response, none, log⟩
      else matchLoop L json rest log

/-- The method `Match`; `none` is a panic. -/
def RequestMatcher.Match (L : Lib) (rm : RequestMatcher) (method : GoString) (json : Bytes) :
    Option MatchResult :=
  match rm.rules method with
  | none => some ⟨none, some .ErrNotMatched, []⟩
  | some mocks => matchLoop L json mocks []

/-- The function `mergeMocks`, returning the map it has mutated; `none` is the
panic of reading `m.Request.Method` through a `nil` request. -/
def mergeMocks : List DittoMock → Rules → Option Rules
  | [], group => some group
  | m :: rest, group =>
    match m.Request with
    | none => none
    | some req =>
      let methodMocks : List DittoMock :=
        match group req.Method with
        | some found => found
        | none => []
      mergeMocks rest (fun k => if k = req.Method then some (methodMocks ++ [m]) else group k)

/-- The method `loadMock`; `none` is the panic of `msg[0]` on an empty
message. -/
def loadMock (L : Lib) (mockJson : GoString) : Option (List DittoMock × Option GoError) :=
  match L.readFile mockJson with
  | .error err => some ([], some (.external err))
  | .ok js =>
    match L.jsonUnmarshalRaw js with
    | .error err => some ([], some (.external err))
    | .ok msg =>
      match msg with
      | [] => none
      | c :: _ =>
        if c = '[' then
          match L.jsonUnmarshalMocks msg with
          | (mocks, some err) => some (mocks, some (.external err))
          | (mocks, none) => some (mocks, none)
        else
          match L.jsonUnmarshalMock msg with
          | (_, some err) => some ([], some (.external err))
          | (m, none) => some ([] ++ [m], none)

/-! ## A model of `encoding/json` -/

namespace Json

/-- A finite `float64`: the sign and the magnitude `mant * 2 ^ exp`. -/
structure Float64 where
  neg : Bool
  mant : Nat
  exp : Int
  deriving DecidableEq, Repr

/-- A JSON number literal: the sign and the magnitude `digits * 10 ^ exp10`. -/
structure NumLit where
  neg : Bool
  digits : Nat
  exp10 : Int
  deriving DecidableEq, Repr

/-- The magnitude of a literal as a fraction `num / den`. -/
def NumLit.num (n : NumLit) : Nat := n.digits * 10 ^ n.exp10.toNat
def NumLit.den (n : NumLit) : Nat := 10 ^ (-n.exp10).toNat

/-- Round half to even of `n / d`. -/
def divRoundEven (n d : Nat) : Nat :=
  let q := n / d
  let r := n % d
  if 2 * r > d ∨ (2 * r = d ∧ q % 2 = 1) then q + 1 else q

/-- The integer part of `(n / d) / 2 ^ e`. -/
def scaledFloor (n d : Nat) (e : Int) : Nat :=
  (n * 2 ^ (-e).toNat) / (d * 2 ^ e.toNat)

/-- The least exponent from `e` on, within `fuel` steps, at which the integer part of
`(n / d) / 2 ^ e` is below `2 ^ 53`. -/
def findExp (n d : Nat) : Nat → Int → Int
  | 0, e => e
  | fuel + 1, e => if scaledFloor n d e < 2 ^ 53 then e else findExp n d fuel (e + 1)

/-- The number of binary digits of `n`, within `fuel` steps. -/
def bitLength : Nat → Nat → Nat
  | 0, _ => 0
  | fuel + 1, n => if n = 0 then 0 else bitLength fuel (n / 2) + 1

/-- A lower bound of the binary logarithm of `n / d`. -/
def log2Lower (n d : Nat) : Int :=
  (bitLength n n : Int) - (bitLength d d : Int) - 2

/-- The function `strconv.ParseFloat(s, 64)` on the magnitude `n / d`, rounding to the nearest
`float64`, ties to even; `none` is a value out of range. -/
def roundFloat (neg : Bool) (n d : Nat) : Option Float64 :=
  let e := findExp n d 8 (max (-1074) (log2Lower n d - 52))
  let m := divRoundEven (n * 2 ^ (-e).toNat) (d * 2 ^ e.toNat)
  let m1 := if m = 2 ^ 53 then 2 ^ 52 else m
  let e1 := if m = 2 ^ 53 then e + 1 else e
  if m ≥ 2 ^ 53 + 1 ∨ e1 > 971 then none
  else some ⟨neg, m1, if m1 = 0 then 0 else e1⟩

def NumLit.toFloat (n : NumLit) : Option Float64 := roundFloat n.neg n.num n.den

inductive Token where
  | beginObject | endObject | beginArray | endArray | colon | comma
  | string (s : GoString)
  | number (n : NumLit)
  | litTrue | litFalse | litNull
  deriving DecidableEq, Repr

def isDigit (c : Char) : Bool := decide (48 ≤ c.toNat ∧ c.toNat ≤ 57)

def isSpace (c : Char) : Bool := c == ' ' || c == '\t' || c == '\r' || c == '\n'

/-- The leading decimal digits of the input, and the rest. -/
def spanDigits : List Char → List Char × List Char
  | [] => ([], [])
  | c :: s => if isDigit c then (c :: (spanDigits s).1, (spanDigits s).2) else ([], c :: s)

/-- The number written by a string of decimal digits. -/
def digitsValue (ds : List Char) : Nat :=
  ds.foldl (fun acc c => acc * 10 + (c.toNat - 48)) 0

/-- The integer part of a number: `0`, or a non-zero digit and more digits. -/
def scanInt : List Char → Option (List Char × List Char)
  | [] => none
  | c :: rest =>
    if c = '0' then some (['0'], rest)
    else if isDigit c then some (spanDigits (c :: rest))
    else none

/-- The optional fraction of a number: a point and at least one digit. -/
def scanFraction : List Char → Option (List Char × List Char)
  | [] => some ([], [])
  | c :: rest =>
    if c = '.' then
      match spanDigits rest with
      | ([], _) => none
      | (ds, rest1) => some (ds, rest1)
    else some ([], c :: rest)

/-- The optional sign of an exponent. -/
def scanSign : List Char → Bool × List Char
  | [] => (false, [])
  | c :: rest => if c = '-' then (true, rest) else if c = '+' then (false, rest) else (false, c :: rest)

/-- The optional exponent of a number: `e` or `E`, an optional sign and at least one digit. -/
def scanExponent : List Char → Option (Int × List Char)
  | [] => some (0, [])
  | c :: rest =>
    if c = 'e' ∨ c = 'E' then
      match spanDigits (scanSign rest).2 with
      | ([], _) => none
      | (ds, rest1) =>
        some (if (scanSign rest).1 then -(digitsValue ds : Int) else (digitsValue ds : Int), rest1)
    else some (0, c :: rest)

/-- The optional minus sign of a number. -/
def scanMinus : List Char → Bool × List Char
  | [] => (false, [])
  | c :: rest => if c = '-' then (true, rest) else (false, c :: rest)

/-- A number literal at the head of the input. -/
def scanNumber (s : List Char) : Option (NumLit × List Char) :=
  match scanInt (scanMinus s).2 with
  | none => none
  | some (ip, s2) =>
    match scanFraction s2 with
    | none => none
    | some (fp, s3) =>
      match scanExponent s3 with
      | none => none
      | some (e, s4) => some (⟨(scanMinus s).1, digitsValue (ip ++ fp), e - fp.length⟩, s4)

/-- The value of a hexadecimal digit. -/
def hexVal (c : Char) : Option Nat :=
  if 48 ≤ c.toNat ∧ c.toNat ≤ 57 then some (c.toNat - 48)
  else if 97 ≤ c.toNat ∧ c.toNat ≤ 102 then some (c.toNat - 87)
  else if 65 ≤ c.toNat ∧ c.toNat ≤ 70 then some (c.toNat - 55)
  else none

/-- The value of four hexadecimal digits. -/
def hex4 (a b c d : Char) : Option Nat :=
  match hexVal a, hexVal b, hexVal c, hexVal d with
  | some x, some y, some z, some w => some (((x * 16 + y) * 16 + z) * 16 + w)
  | _, _, _, _ => none

/-- The function `getu4`: the code unit of an escape `\uXXXX` at the head of the input. -/
def getu4 : List Char → Option Nat
  | b :: u :: a1 :: a2 :: a3 :: a4 :: _ => if b = '\\' ∧ u = 'u' then hex4 a1 a2 a3 a4 else none
  | _ => none

/-- The character of a one-letter escape. -/
def simpleEscape (c : Char) : Option Char :=
  if c = '"' then some '"'
  else if c = '\\' then some '\\'
  else if c = '/' then some '/'
  else if c = 'b' then some (Char.ofNat 8)
  else if c = 'f' then some (Char.ofNat 12)
  else if c = 'n' then some '\n'
  else if c = 'r' then some '\r'
  else if c = 't' then some '\t'
  else none

/-- The rune an escape `\uXXXX` with code unit `rr` stands for, and whether the escape
that follows it, with code unit `next`, is consumed with it as a surrogate pair. -/
def decodeUnit (rr : Nat) (next : Option Nat) : Char × Bool :=
  if 0xd800 ≤ rr ∧ rr < 0xe000 then
    match next with
    | some rr1 =>
      if rr < 0xdc00 ∧ 0xdc00 ≤ rr1 ∧ rr1 < 0xe000 then
        (Char.ofNat ((rr - 0xd800) * 1024 + (rr1 - 0xdc00) + 0x10000), true)
      else (Char.ofNat 0xfffd, false)
    | none => (Char.ofNat 0xfffd, false)
  else (Char.ofNat rr, false)

/-- The string literal whose opening quote has been read: its value and the input after its
closing quote. -/
def scanString : Nat → List Char → Option (GoString × List Char)
  | 0, _ => none
  | _ + 1, [] => none
  | fuel + 1, c :: rest =>
    if c = '"' then some ([], rest)
    else if c = '\\' then
      match rest with
      | [] => none
      | e :: rest1 =>
        if e = 'u' then
          match getu4 (c :: rest) with
          | none => none
          | some rr =>
            let r := decodeUnit rr (getu4 (rest.drop 5))
            match scanString fuel (rest.drop (if r.2 then 11 else 5)) with
            | none => none
            | some (s, rest2) => some (r.1 :: s, rest2)
        else
          match simpleEscape e with
          | none => none
          | some ch =>
            match scanString fuel rest1 with
            | none => none
            | some (s, rest2) => some (ch :: s, rest2)
    else if c.toNat < 0x20 then none
    else
      match scanString fuel rest with
      | none => none
      | some (s, rest2) => some (c :: s, rest2)

/-- The input split into tokens, white space between tokens dropped. -/
def tokenizeAux : Nat → List Char → Except LibError (List Token)
  | 0, _ => .error "unexpected end of JSON input".data
  | _ + 1, [] => .ok []
  | fuel + 1, c :: rest =>
    let next (t : Token) (rest1 : List Char) : Except LibError (List Token) :=
      match tokenizeAux fuel rest1 with
      | .error e => .error e
      | .ok ts => .ok (t :: ts)
    if isSpace c then tokenizeAux fuel rest
    else if c = '{' then next .beginObject rest
    else if c = '}' then next .endObject rest
    else if c = '[' then next .beginArray rest
    else if c = ']' then next .endArray rest
    else if c = ':' then next .colon rest
    else if c = ',' then next .comma rest
    else if c = '"' then
      match scanString (rest.length + 1) rest with
      | none => .error "invalid character in string literal".data
      | some (s, rest1) => next (.string s) rest1
    else if c = '-' ∨ isDigit c then
      match scanNumber (c :: rest) with
      | none => .error "invalid character in numeric literal".data
      | some (n, rest1) => next (.number n) rest1
    else if c :: rest.take 3 = "true".data then next .litTrue (rest.drop 3)
    else if c :: rest.take 4 = "false".data then next .litFalse (rest.drop 4)
    else if c :: rest.take 3 = "null".data then next .litNull (rest.drop 3)
    else .error "invalid character looking for beginning of value".data

def tokenize (s : Bytes) : Except LibError (List Token) :=
  tokenizeAux (s.length + 1) s

/-- A parsed JSON document: the members of an object in the order written. -/
inductive Doc where
  | null : Doc
  | bool (b : Bool) : Doc
  | number (n : NumLit) : Doc
  | string (s : GoString) : Doc
  | array (elems : List Doc) : Doc
  | object (members : List (GoString × Doc)) : Doc

/-- The nesting limit of the decoder. -/
def maxNestingDepth : Nat := 10000

mutual
/-- A value at the head of the tokens, under `depth` enclosing arrays and objects. -/
def parseValue : Nat → Nat → List Token → Option (Doc × List Token)
  | 0, _, _ => none
  | _ + 1, _, [] => none
  | fuel + 1, depth, t :: rest =>
    match t with
    | .litNull => some (.null, rest)
    | .litTrue => some (.bool true, rest)
    | .litFalse => some (.bool false, rest)
    | .number n => some (.number n, rest)
    | .string s => some (.string s, rest)
    | .beginArray =>
      if depth + 1 > maxNestingDepth then none
      else
        match rest with
        | .endArray :: rest1 => some (.array [], rest1)
        | _ =>
          match parseElements fuel (depth + 1) rest with
          | none => none
          | some (xs, rest1) => some (.array xs, rest1)
    | .beginObject =>
      if depth + 1 > maxNestingDepth then none
      else
        match rest with
        | .endObject :: rest1 => some (.object [], rest1)
        | _ =>
          match parseMembers fuel (depth + 1) rest with
          | none => none
          | some (ms, rest1) => some (.object ms, rest1)
    | _ => none
/-- The elements of an array up to its closing bracket. -/
def parseElements : Nat → Nat → List Token → Option (List Doc × List Token)
  | 0, _, _ => none
  | fuel + 1, depth, ts =>
    match parseValue fuel depth ts with
    | none => none
    | some (x, rest) =>
      match rest with
      | .endArray :: rest1 => some ([x], rest1)
      | .comma :: rest1 =>
        match parseElements fuel depth rest1 with
        | none => none
        | some (xs, rest2) => some (x :: xs, rest2)
      | _ => none
/-- The members of an object up to its closing brace. -/
def parseMembers : Nat → Nat → List Token → Option (List (GoString × Doc) × List Token)
  | 0, _, _ => none
  | fuel + 1, depth, ts =>
    match ts with
    | .string k :: .colon :: rest =>
      match parseValue fuel depth rest with
      | none => none
      | some (x, rest1) =>
        match rest1 with
        | .endObject :: rest2 => some ([(k, x)], rest2)
        | .comma :: rest2 =>
          match parseMembers fuel depth rest2 with
          | none => none
          | some (ms, rest3) => some ((k, x) :: ms, rest3)
        | _ => none
    | _ => none
end

/-- The document the tokens spell, when they spell exactly one value. -/
def parseTokens (ts : List Token) : Except LibError Doc :=
  match parseValue (ts.length + 1) 0 ts with
  | some (d, []) => .ok d
  | some (_, _ :: _) => .error "invalid character after top-level value".data
  | none => .error "unexpected end of JSON input".data

/-- The function `checkValid` and the scan that follows it: the document the bytes spell. -/
def parse (s : Bytes) : Except LibError Doc :=
  match tokenize s with
  | .error e => .error e
  | .ok ts => parseTokens ts

/-- The Go values `json.Unmarshal` stores into an `interface{}`: `nil`, `bool`, `float64`,
`string`, `[]interface{}` and `map[string]interface{}`, a map being the list of its entries
in increasing key order. -/
inductive JValue where
  | null : JValue
  | bool (b : Bool) : JValue
  | number (f : Float64) : JValue
  | string (s : GoString) : JValue
  | array (elems : List JValue) : JValue
  | object (entries : List (GoString × JValue)) : JValue

/-- The order `<` of Go strings. -/
def strLt : GoString → GoString → Bool
  | [], [] => false
  | [], _ :: _ => true
  | _ :: _, [] => false
  | a :: s, b :: t =>
    if a.toNat < b.toNat then true else if b.toNat < a.toNat then false else strLt s t

/-- The assignment `m[k] = v`. -/
def mapInsert (k : GoString) (v : JValue) : List (GoString × JValue) → List (GoString × JValue)
  | [] => [(k, v)]
  | (k1, v1) :: rest =>
    if k = k1 then (k, v) :: rest
    else if strLt k k1 then (k, v) :: (k1, v1) :: rest
    else (k1, v1) :: mapInsert k v rest

mutual
/-- The Go value a document decodes to. -/
def decode : Doc → Except LibError JValue
  | .null => .ok .null
  | .bool b => .ok (.bool b)
  | .number n =>
    match n.toFloat with
    | none => .error "json: cannot unmarshal number into Go value of type float64".data
    | some f => .ok (.number f)
  | .string s => .ok (.string s)
  | .array xs =>
    match decodeElems xs with
    | .error e => .error e
    | .ok vs => .ok (.array vs)
  | .object ms =>
    match decodeMembers ms [] with
    | .error e => .error e
    | .ok m => .ok (.object m)
/-- The slice the elements of an array decode to. -/
def decodeElems : List Doc → Except LibError (List JValue)
  | [] => .ok []
  | x :: xs =>
    match decode x with
    | .error e => .error e
    | .ok v =>
      match decodeElems xs with
      | .error e => .error e
      | .ok vs => .ok (v :: vs)
/-- The map `m` after the members are assigned to it in order. -/
def decodeMembers : List (GoString × Doc) → List (GoString × JValue) →
    Except LibError (List (GoString × JValue))
  | [], m => .ok m
  | (k, x) :: ms, m =>
    match decode x with
    | .error e => .error e
    | .ok v => decodeMembers ms (mapInsert k v m)
end

/-- The call `json.Unmarshal(src, &val)` with `val interface{}`. -/
def unmarshal (src : Bytes) : Except LibError JValue :=
  match parse src with
  | .error e => .error e
  | .ok d => decode d

/-- A hexadecimal digit. -/
def hexDigit (n : Nat) : Char :=
  "0123456789abcdef".data.getD n '0'

/-- The bytes `json.Marshal` writes for one character of a string. -/
def escapeChar (c : Char) : List Char :=
  if c = '"' ∨ c = '\\' then ['\\', c]
  else if c = '\n' then ['\\', 'n']
  else if c = '\r' then ['\\', 'r']
  else if c = '\t' then ['\\', 't']
  else if c.toNat < 0x20 ∨ c = '<' ∨ c = '>' ∨ c = '&' then
    ['\\', 'u', '0', '0', hexDigit (c.toNat / 16), hexDigit (c.toNat % 16)]
  else if c.toNat = 0x2028 ∨ c.toNat = 0x2029 then
    ['\\', 'u', '2', '0', '2', hexDigit (c.toNat % 16)]
  else [c]

/-- A string as `json.Marshal` writes it. -/
def quote (s : GoString) : List Char :=
  '"' :: (s.flatMap escapeChar ++ ['"'])

/-- The least `k` from `k` on, within `fuel` steps, with `n / d < 10 ^ (k + 1)`. -/
def findExp10 (n d : Nat) : Nat → Int → Int
  | 0, k => k
  | fuel + 1, k =>
    if n * 10 ^ (-(k + 1)).toNat < d * 10 ^ (k + 1).toNat then k else findExp10 n d fuel (k + 1)

/-- The two decimals with last digit at `10 ^ s` that enclose `n / d`, the nearer one first
(the even one on a tie); the single one when `n / d` is such a decimal. -/
def candidates (n d : Nat) (s : Int) : List Nat :=
  let n1 := n * 10 ^ (-s).toNat
  let d1 := d * 10 ^ s.toNat
  let lo := n1 / d1
  let r := n1 % d1
  if r = 0 then [lo]
  else if 2 * r < d1 ∨ (2 * r = d1 ∧ lo % 2 = 0) then [lo, lo + 1]
  else [lo + 1, lo]

/-- The digits of `digits * 10 ^ s` without trailing zeros, and the position of the decimal
point after the first of them. -/
def normalize : Nat → Nat → Int → Nat × Int
  | 0, digits, s => (digits, s)
  | fuel + 1, digits, s =>
    if digits ≠ 0 ∧ digits % 10 = 0 then normalize fuel (digits / 10) (s + 1) else (digits, s)

/-- The `%e` form of the digits `ds` with the decimal point `dp` places after their start,
after `json.Marshal` has turned `e-0X` into `e-X`. -/
def formatE (ds : List Char) (dp : Int) : List Char :=
  let exp := dp - 1
  let mantissa := if ds.length > 1 then ds.take 1 ++ '.' :: ds.drop 1 else ds
  let ex := Nat.toDigits 10 exp.natAbs
  if exp < 0 then mantissa ++ 'e' :: '-' :: ex
  else mantissa ++ 'e' :: '+' :: (if ex.length < 2 then '0' :: ex else ex)

/-- The `%f` form of the digits `ds` with the decimal point `dp` places after their start. -/
def formatF (ds : List Char) (dp : Int) : List Char :=
  let intPart :=
    if dp > 0 then ds.take dp.toNat ++ List.replicate (dp.toNat - ds.length) '0' else ['0']
  let frac :=
    if (ds.length : Int) > dp then
      '.' :: (List.replicate (-dp).toNat '0' ++ ds.drop dp.toNat)
    else []
  intPart ++ frac

/-- The text of the decimal `digits * 10 ^ s` of a non-zero `float64` of magnitude `n / d`:
`%e` below `1e-6` and from `1e21` on, `%f` otherwise. -/
def renderDecimal (neg : Bool) (n d : Nat) (digits : Nat) (s : Int) : List Char :=
  let norm := normalize 800 digits s
  let ds := Nat.toDigits 10 norm.1
  let dp := norm.2 + ds.length
  let tiny : Bool := decide (n * 2 ^ 72 < 4722366482869645 * d)
  let useE : Bool := tiny || decide (10 ^ 21 * d ≤ n)
  (if neg then ['-'] else []) ++ (if useE then formatE ds dp else formatF ds dp)

/-- The text is a number literal that `strconv.ParseFloat` maps to `f`. -/
def parsesTo (text : List Char) (f : Float64) : Bool :=
  match scanNumber text with
  | some (lit, []) => decide (lit.toFloat = some f)
  | _ => false

/-- The first text, with `p` digits or more, within `fuel` steps, that parses back to `f`. -/
def shortest (f : Float64) (n d : Nat) (k : Int) : Nat → Nat → Option (List Char)
  | 0, _ => none
  | fuel + 1, p =>
    match ((candidates n d (k - p + 1)).map (renderDecimal f.neg n d · (k - p + 1))).find?
        (parsesTo · f) with
    | some text => some text
    | none => shortest f n d k fuel (p + 1)

/-- The call `strconv.AppendFloat(b, f, fmt, -1, 64)` of `json.Marshal`: the text with the
smallest number of digits that `strconv.ParseFloat` maps to `f`. -/
def formatFloat (f : Float64) : Option (List Char) :=
  if f.mant = 0 then
    if parsesTo (if f.neg then "-0".data else "0".data) f then
      some (if f.neg then "-0".data else "0".data)
    else none
  else
    shortest f (f.mant * 2 ^ f.exp.toNat) (2 ^ (-f.exp).toNat)
      (findExp10 (f.mant * 2 ^ f.exp.toNat) (2 ^ (-f.exp).toNat) 16
        ((log2Lower (f.mant * 2 ^ f.exp.toNat) (2 ^ (-f.exp).toNat) * 30103) / 100000 - 2))
      800 1

mutual
/-- The bytes `json.Marshal` writes for a value. -/
def encode : JValue → Option (List Char)
  | .null => some "null".data
  | .bool b => some (if b then "true".data else "false".data)
  | .number f => formatFloat f
  | .string s => some (quote s)
  | .array xs =>
    match xs with
    | [] => some "[]".data
    | x :: rest =>
      match encode x, encodeElems rest with
      | some a, some b => some ('[' :: (a ++ b))
      | _, _ => none
  | .object ms =>
    match ms with
    | [] => some "{}".data
    | (k, x) :: rest =>
      match encode x, encodeEntries rest with
      | some a, some b => some ('{' :: (quote k ++ ':' :: (a ++ b)))
      | _, _ => none
/-- The remaining elements of an array, each after a comma, and the closing bracket. -/
def encodeElems : List JValue → Option (List Char)
  | [] => some [']']
  | x :: rest =>
    match encode x, encodeElems rest with
    | some a, some b => some (',' :: (a ++ b))
    | _, _ => none
/-- The remaining entries of a map, each after a comma, and the closing brace. -/
def encodeEntries : List (GoString × JValue) → Option (List Char)
  | [] => some ['}']
  | (k, x) :: rest =>
    match encode x, encodeEntries rest with
    | some a, some b => some (',' :: (quote k ++ ':' :: (a ++ b)))
    | _, _ => none
end

/-- The call `json.Marshal(val)`. -/
def marshal (v : JValue) : Except LibError Bytes :=
  match encode v with
  | some b => .ok b
  | none => .error "json: unsupported value".data

/-- The characters a number literal is written with. -/
def numChar (c : Char) : Bool :=
  isDigit c || c == '-' || c == '+' || c == '.' || c == 'e' || c == 'E'

/-- The first character `json.Marshal` writes for a value of each kind. -/
def headOf : JValue → Char → Prop
  | .null, c => c = 'n'
  | .bool _, c => c = 't' ∨ c = 'f'
  | .number _, c => numChar c = true
  | .string _, c => c = '"'
  | .array _, c => c = '['
  | .object _, c => c = '{'

/-- Nothing written in numbers follows: the text is empty or starts with another character. -/
def Closed (r : List Char) : Prop :=
  ∀ c rest, r = c :: rest → numChar c = false

/-- The kind of a value, as a number. -/
def kind : JValue → Nat
  | .null => 0
  | .bool _ => 1
  | .number _ => 2
  | .string _ => 3
  | .array _ => 4
  | .object _ => 5

/-- The kind of value a character starts. -/
def charKind (c : Char) : Nat :=
  if c = 'n' then 0
  else if c = 't' ∨ c = 'f' then 1
  else if c = '"' then 3
  else if c = '[' then 4
  else if c = '{' then 5
  else 2

end Json

/-- The two values `Match` returns to its caller. -/
def MatchResult.returned (r : MatchResult) : Option DittoResponse × Option GoError :=
  (r.response, r.err)

/-- The mock's request pattern evaluates to an error on the payload. -/
def erroring (L : Lib) (json : Bytes) (m : DittoMock) : Bool :=
  match RequestMatcher.matches L json m.Request with
  | some (_, some _) => true
  | _ => false

/-- The errors the request patterns of `mocks` evaluate to, in order. -/
def evalErrors (L : Lib) (json : Bytes) : List DittoMock → List GoError
  | [] => []
  | m :: rest =>
    match RequestMatcher.matches L json m.Request with
    | some (_, some err) => err :: evalErrors L json rest
    | _ => evalErrors L json rest

/-- The call `json.Unmarshal(val, &strVal)` with `strVal` a string holding
`""`: a JSON string is stored decoded, `null` leaves the variable as it is, and
any other value is an error. -/
def Json.unmarshalString (src : Bytes) : Except LibError GoString :=
  match Json.parse src with
  | .error e => .error e
  | .ok (.string s) => .ok s
  | .ok .null => .ok []
  | .ok _ => .error "json: cannot unmarshal value into Go value of type string".data

/-- The library `base` with the calls into `encoding/json` that `canonicalJSON`
and `jsonPathMatcher` make replaced by their model `Json`. -/
def encodingJSON (base : Lib) : Lib :=
  { base with
    Value := Json.JValue
    jsonUnmarshal := Json.unmarshal
    jsonMarshal := Json.marshal
    jsonUnmarshalString := Json.unmarshalString }

/-- The payload `{"token":"bearer"}`. -/
def tokenBearer : Bytes := "\x7b\"token\":\"bearer\"\x7d".data

/-- The payload `{"token":"Bear"}`. -/
def tokenBear : Bytes := "\x7b\"token\":\"Bear\"\x7d".data

/-- The payload `{"token":null}`. -/
def tokenNull : Bytes := "\x7b\"token\":null\x7d".data

/-- The payload `{}`, which has no field `token`. -/
def tokenMissing : Bytes := "\x7b\x7d".data

/-- The answers of `jsonslice.Get` to the queries the examples make: the raw
value of the field `token` of the four payloads above (nothing when the field
is missing) and the error of the malformed path `$[`. No other query is
answered. -/
def jsonsliceAnswers (src : Bytes) (expr : GoString) : Except LibError Bytes :=
  if expr = "$.token".data then
    if src = tokenBearer then .ok "\"bearer\"".data
    else if src = tokenBear then .ok "\"Bear\"".data
    else if src = tokenNull then .ok "null".data
    else if src = tokenMissing then .ok []
    else .error "query not answered".data
  else if expr = "$[".data then .error "path: unexpected end of path".data
  else .error "query not answered".data

/-- The bytes without the white space at their two ends. -/
def trimSpace (s : Bytes) : Bytes :=
  ((s.dropWhile Json.isSpace).reverse.dropWhile Json.isSpace).reverse

/-- The library used to evaluate the matcher on concrete inputs: the model
`Json` of `encoding/json`, the answers `jsonsliceAnswers`, plain equality for
the Unicode path of `strings.EqualFold`, and a file system with the one file
`mocks/empty.json`, which holds `[]`. Of the mock documents only `[]` is
decoded. -/
def goLib : Lib where
  Value := Json.JValue
  jsonsliceGet := jsonsliceAnswers
  jsonUnmarshal := Json.unmarshal
  jsonMarshal := Json.marshal
  jsonUnmarshalString := Json.unmarshalString
  equalFoldUnicode := fun s t => decide (s = t)
  readFile := fun path =>
    if path = "mocks/empty.json".data then .ok "[]".data
    else .error "open: no such file or directory".data
  jsonUnmarshalRaw := fun js =>
    match Json.parse js with
    | .error e => .error e
    | .ok _ => .ok (trimSpace js)
  jsonUnmarshalMocks := fun msg =>
    if msg = "[]".data then ([], none) else ([], some "document not decoded".data)
  jsonUnmarshalMock := fun _ => (⟨none, ⟨[]⟩⟩, some "document not decoded".data)

/-- A mock for `method` with the single body pattern `equalToJson: doc`. -/
def equalMock (method doc body : GoString) : DittoMock :=
  ⟨some ⟨method, [⟨doc, none⟩]⟩, ⟨body⟩⟩

/-- A mock for `method` whose single body pattern is the path query `p`. -/
def pathMock (method : GoString) (p : JSONPathWrapper) (body : GoString) : DittoMock :=
  ⟨some ⟨method, [⟨[], some p⟩]⟩, ⟨body⟩⟩

/-- The bucket used to instantiate the matching theorems: a mock whose path
query is malformed, then two mocks for the same document. -/
def demoBucket : List DittoMock :=
  [pathMock "Greet".data ⟨"$[".data, true, [], []⟩ "zero".data,
   equalMock "Greet".data "1".data "one".data,
   equalMock "Greet".data "1".data "two".data]

/-- A matcher whose index holds `demoBucket` under the method `Greet`. -/
def demoMatcher : RequestMatcher :=
  ⟨fun k => if k = "Greet".data then some demoBucket else none, []⟩

/-- The matcher `demoMatcher` with the erroring mock of its bucket removed. -/
def demoMatcherFiltered : RequestMatcher :=
  ⟨fun k => if k = "Greet".data then some demoBucket.tail else none, []⟩

/-- The mocks of `mocks` whose request names the method `k`, in order. -/
def presented (k : GoString) (mocks : List DittoMock) : List DittoMock :=
  mocks.filter (fun m => decide (m.Request.map DittoRequest.Method = some k))

/-- The bucket of `k` in `group`, empty when the key is absent. -/
def bucketOf (group : Rules) (k : GoString) : List DittoMock :=
  (group k).getD []

/-- The index after merging the batches in order into the empty index, as
`WithMocks` and the file walk of `NewRequestMatcher` do; `none` when a merge
panics. -/
def buildIndex : List (List DittoMock) → Rules → Option Rules
  | [], group => some group
  | batch :: rest, group =>
    match mergeMocks batch group with
    | none => none
    | some group1 => buildIndex rest group1

/-- A matcher whose only mock has an equality pattern. -/
def equalOnlyMatcher : RequestMatcher :=
  ⟨fun k => if k = "Greet".data then some [equalMock "Greet".data "1".data "one".data]
    else none, []⟩

/-- A matcher whose only mock has a malformed path query. -/
def badPathMatcher : RequestMatcher :=
  ⟨fun k => if k = "Greet".data then
      some [pathMock "Greet".data ⟨"$[".data, true, [], []⟩ "zero".data]
    else none, []⟩

/-- What `badPathMatcher` answers: no response, the sentinel, and the wrapped
query error in the log. -/
def badPathResult : MatchResult :=
  ⟨none, some .ErrNotMatched, [.jsonsliceMatching "path: unexpected end of path".data "$[".data]⟩

/-- Two batches for the merge theorems: the same mock twice and a mock of
another method, then one more mock of the first method. -/
def demoBatches : List (List DittoMock) :=
  [[equalMock "Greet".data "1".data "one".data, equalMock "Bye".data "1".data "bye".data,
    equalMock "Greet".data "1".data "one".data],
   [equalMock "Greet".data "2".data "two".data]]

/-- The invariant of the index: every mock stored under a key comes from
`source` and has a request naming that key. -/
def Isolated (source : List DittoMock) (group : Rules) : Prop :=
  ∀ k bucket m, group k = some bucket → m ∈ bucket →
    m ∈ source ∧ ∃ req, m.Request = some req ∧ req.Method = k

/-- The index built from `demoBatches`. -/
def demoIndex : Rules :=
  (buildIndex demoBatches emptyRules).getD emptyRules

/-- The code of the lower-case form of an ASCII letter code. -/
def lowerCode (n : Nat) : Nat :=
  if 65 ≤ n ∧ n ≤ 90 then n + 32 else n

/-- Equality ignoring case, in the words of the spec: the two strings are the
same once every upper-case ASCII letter is replaced by its lower-case form. -/
def equalIgnoringCase (s t : GoString) : Bool :=
  decide (s.map (fun c => lowerCode c.toNat) = t.map (fun c => lowerCode c.toNat))

/-- Every byte of the string is below `utf8.RuneSelf`. -/
def isASCII (s : GoString) : Prop :=
  ∀ c ∈ s, c.toNat < 0x80

/-- A path-query pattern in `partial` mode on the expression `$.token`. -/
def partialToken : JSONPathWrapper :=
  ⟨"$.token".data, true, [], []⟩

/-- A path-query pattern in `equals` mode with the target `Bearer`. -/
def equalsBearer : JSONPathWrapper :=
  ⟨"$.token".data, false, "Bearer".data, []⟩

/-- The document `{"a":1,"b":2}` of the spec. -/
def docAB : Bytes := "\x7b\"a\":1,\"b\":2\x7d".data

/-- The document `{"b":2, "a":1}` of the spec: the keys of `docAB` in the other
order, with a space. -/
def docBA : Bytes := "\x7b\"b\":2, \"a\":1\x7d".data

/-- The Go value both `docAB` and `docBA` decode to. -/
def valueAB : Json.JValue :=
  .object [("a".data, .number ⟨false, 4503599627370496, -52⟩),
    ("b".data, .number ⟨false, 4503599627370496, -51⟩)]

/-- A path-query pattern in `contains` mode with the target `ear`. -/
def containsEar : JSONPathWrapper :=
  ⟨"$.token".data, false, [], "ear".data⟩

/-- One populated matching strategy of a body pattern. -/
inductive Strategy where
  | equality (doc : Bytes) : Strategy
  | pathQuery (q : JSONPathWrapper) : Strategy
  deriving DecidableEq, Repr

/-- The outcome of one strategy on the payload. -/
def Strategy.eval (L : Lib) (json : Bytes) : Strategy → Bool × Option GoError
  | .equality doc => jsonMatcher L json doc
  | .pathQuery q => jsonPathMatcher L json q

/-- The strategies a body pattern populates, in the order `matches` evaluates
them: the equality document if it is not empty, then the path query if it is
not `nil`. -/
def strategiesOf (p : DittoBodyPattern) : List Strategy :=
  (if p.EqualToJson.length > 0 then [Strategy.equality p.EqualToJson] else []) ++
    (match p.MatchesJsonPath with
      | some q => [Strategy.pathQuery q]
      | none => [])

/-- The strategies of a body-pattern sequence in evaluation order. -/
def allStrategies (ps : List DittoBodyPattern) : List Strategy :=
  ps.flatMap strategiesOf

/-- The outcome of the first strategy, in order, that evaluates negative or
with an error, under a negative verdict; `none` when every strategy evaluates
positive without error. -/
def firstFailure (L : Lib) (json : Bytes) : List Strategy → Option (Bool × Option GoError)
  | [] => none
  | s :: rest =>
    if failed (s.eval L json) then some (false, (s.eval L json).2)
    else firstFailure L json rest

/-- The verdict of a request pattern in the words of the spec: the outcome of
the first failing strategy if there is one, and otherwise positive exactly
when at least one strategy was evaluated. -/
def verdictOf (L : Lib) (json : Bytes) (ps : List DittoBodyPattern) : Bool × Option GoError :=
  match firstFailure L json (allStrategies ps) with
  | some r => r
  | none => (!(allStrategies ps).isEmpty, none)

/-- A request whose first body pattern is the equality document `1` and whose
second body pattern sets neither an equality document nor a path query. -/
def equalThenEmpty : DittoRequest :=
  ⟨"Greet".data, [⟨"1".data, none⟩, ⟨[], none⟩]⟩

/-- A request with the equality document `{}` followed by a path query in
`partial` mode for the field `token`. -/
def equalThenPath : DittoRequest :=
  ⟨"Greet".data, [⟨tokenMissing, none⟩, ⟨[], some partialToken⟩]⟩

/-- A request with one body pattern that populates both the equality document
`{"token":"bearer"}` and a path query in `partial` mode for the field
`token`. -/
def equalAndPath : DittoRequest :=
  ⟨"Greet".data, [⟨tokenBearer, some partialToken⟩]⟩

/-- The values `strconv.ParseFloat` returns: zero, or a magnitude below `2 ^ 53` at an
exponent from `-1074` to `971`, with the leading bit set unless the exponent is the least. -/
def Json.Float64.Valid (f : Json.Float64) : Prop :=
  (f.mant = 0 ∧ f.exp = 0) ∨
    (f.mant ≠ 0 ∧ f.mant < 2 ^ 53 ∧ -1074 ≤ f.exp ∧ f.exp ≤ 971 ∧
      (2 ^ 52 ≤ f.mant ∨ f.exp = -1074))

instance Json.Float64.decidableValid (f : Json.Float64) : Decidable f.Valid := by
  unfold Json.Float64.Valid
  infer_instance

/-- The literal the scanner reads from the text `json.Marshal` writes for a number. -/
def Json.litOf (f : Json.Float64) : Json.NumLit :=
  match Json.formatFloat f with
  | some t =>
    match Json.scanNumber t with
    | some (lit, _) => lit
    | none => ⟨f.neg, 0, 0⟩
  | none => ⟨f.neg, 0, 0⟩

/-- The tokens `ts` in front of the tokens of the rest of the input. -/
def Json.prepend (ts : List Json.Token) :
    Except LibError (List Json.Token) → Except LibError (List Json.Token)
  | .ok tr => .ok (ts ++ tr)
  | .error e => .error e

mutual
/-- The tokens of the bytes `json.Marshal` writes for a value. -/
def Json.toksOf : Json.JValue → List Json.Token
  | .null => [.litNull]
  | .bool b => [if b then .litTrue else .litFalse]
  | .number f => [.number (Json.litOf f)]
  | .string s => [.string s]
  | .array xs =>
    match xs with
    | [] => [.beginArray, .endArray]
    | x :: rest => .beginArray :: (Json.toksOf x ++ Json.toksElems rest)
  | .object ms =>
    match ms with
    | [] => [.beginObject, .endObject]
    | (k, x) :: rest =>
      .beginObject :: .string k :: .colon :: (Json.toksOf x ++ Json.toksEntries rest)
/-- The tokens of the remaining elements of an array and its closing bracket. -/
def Json.toksElems : List Json.JValue → List Json.Token
  | [] => [.endArray]
  | x :: rest => .comma :: (Json.toksOf x ++ Json.toksElems rest)
/-- The tokens of the remaining entries of a map and its closing brace. -/
def Json.toksEntries : List (GoString × Json.JValue) → List Json.Token
  | [] => [.endObject]
  | (k, x) :: rest =>
    .comma :: .string k :: .colon :: (Json.toksOf x ++ Json.toksEntries rest)
end

mutual
/-- The document the parser builds from the bytes `json.Marshal` writes for a value. -/
def Json.docOf : Json.JValue → Json.Doc
  | .null => .null
  | .bool b => .bool b
  | .number f => .number (Json.litOf f)
  | .string s => .string s
  | .array xs => .array (Json.docsOf xs)
  | .object ms => .object (Json.membersOf ms)
/-- The documents of the elements of an array. -/
def Json.docsOf : List Json.JValue → List Json.Doc
  | [] => []
  | x :: rest => Json.docOf x :: Json.docsOf rest
/-- The members of the entries of a map. -/
def Json.membersOf : List (GoString × Json.JValue) → List (GoString × Json.Doc)
  | [] => []
  | (k, x) :: rest => (k, Json.docOf x) :: Json.membersOf rest
end

mutual
/-- The number of arrays and maps a value nests. -/
def Json.JValue.depth : Json.JValue → Nat
  | .null => 0
  | .bool _ => 0
  | .number _ => 0
  | .string _ => 0
  | .array xs => Json.depthElems xs + 1
  | .object ms => Json.depthEntries ms + 1
/-- The greatest depth among the elements of an array. -/
def Json.depthElems : List Json.JValue → Nat
  | [] => 0
  | x :: rest => max x.depth (Json.depthElems rest)
/-- The greatest depth among the entries of a map. -/
def Json.depthEntries : List (GoString × Json.JValue) → Nat
  | [] => 0
  | (_, x) :: rest => max x.depth (Json.depthEntries rest)
end

mutual
/-- The number of arrays and objects a document nests. -/
def Json.Doc.depth : Json.Doc → Nat
  | .null => 0
  | .bool _ => 0
  | .number _ => 0
  | .string _ => 0
  | .array xs => Json.depthDocs xs + 1
  | .object ms => Json.depthMembers ms + 1
/-- The greatest depth among the elements of an array document. -/
def Json.depthDocs : List Json.Doc → Nat
  | [] => 0
  | x :: rest => max x.depth (Json.depthDocs rest)
/-- The greatest depth among the members of an object document. -/
def Json.depthMembers : List (GoString × Json.Doc) → Nat
  | [] => 0
  | (_, x) :: rest => max x.depth (Json.depthMembers rest)
end

/-- The keys are in strictly increasing order. -/
def Json.sortedKeys : List GoString → Bool
  | [] => true
  | k :: rest => rest.all (fun k1 => Json.strLt k k1) && Json.sortedKeys rest

mutual
/-- The values `json.Unmarshal` stores: every number is a valid `float64` and every map
lists its entries in strictly increasing key order. -/
def Json.JValue.wf : Json.JValue → Bool
  | .null => true
  | .bool _ => true
  | .number f => decide f.Valid
  | .string _ => true
  | .array xs => Json.wfElems xs
  | .object ms => Json.sortedKeys (ms.map Prod.fst) && Json.wfEntries ms
/-- Every element is well formed. -/
def Json.wfElems : List Json.JValue → Bool
  | [] => true
  | x :: rest => x.wf && Json.wfElems rest
/-- Every entry holds a well-formed value. -/
def Json.wfEntries : List (GoString × Json.JValue) → Bool
  | [] => true
  | (_, x) :: rest => x.wf && Json.wfEntries rest
end

/-! ## Tokens one at a time, added white space, and definition files -/

/-- The token at the head of an input that does not start with white space, and the input
after it: one step of `tokenizeAux`. -/
def Json.nextToken : List Char → Except LibError (Json.Token × List Char)
  | [] => .error "unexpected end of JSON input".data
  | c :: rest =>
    if c = '{' then .ok (.beginObject, rest)
    else if c = '}' then .ok (.endObject, rest)
    else if c = '[' then .ok (.beginArray, rest)
    else if c = ']' then .ok (.endArray, rest)
    else if c = ':' then .ok (.colon, rest)
    else if c = ',' then .ok (.comma, rest)
    else if c = '"' then
      match Json.scanString (rest.length + 1) rest with
      | none => .error "invalid character in string literal".data
      | some (s, rest1) => .ok (.string s, rest1)
    else if c = '-' ∨ Json.isDigit c then
      match Json.scanNumber (c :: rest) with
      | none => .error "invalid character in numeric literal".data
      | some (n, rest1) => .ok (.number n, rest1)
    else if c :: rest.take 3 = "true".data then .ok (.litTrue, rest.drop 3)
    else if c :: rest.take 4 = "false".data then .ok (.litFalse, rest.drop 4)
    else if c :: rest.take 3 = "null".data then .ok (.litNull, rest.drop 3)
    else .error "invalid character looking for beginning of value".data

/-- The input with white space added: its tokens are numbered from `i`, the bytes `f j` are
added in front of token number `j` and, behind the last token, in front of the end of the
input; the white space already there is kept. From the first place at which no token can be
read the input is left as it is. -/
def Json.respaceAux (f : Nat → Bytes) : Nat → Nat → List Char → List Char
  | 0, _, s => s
  | _ + 1, i, [] => f i
  | fuel + 1, i, c :: rest =>
    if Json.isSpace c then c :: Json.respaceAux f fuel i rest
    else
      match Json.nextToken (c :: rest) with
      | .error _ => c :: rest
      | .ok (_, r) =>
        f i ++ (c :: rest).take ((c :: rest).length - r.length) ++ Json.respaceAux f fuel (i + 1) r

/-- The document with the bytes `f i` added in front of its token number `i`, the first
being number 0, and `f n` added at its end, after the last of its `n` tokens. -/
def Json.respace (f : Nat → Bytes) (s : Bytes) : Bytes :=
  Json.respaceAux f (s.length + 1) 0 s

/-- The input after its first `k` tokens, the white space in front of each skipped. -/
def Json.dropTokens : Nat → List Char → Option (List Char)
  | 0, s => some s
  | k + 1, s =>
    match Json.nextToken (s.dropWhile Json.isSpace) with
    | .error _ => none
    | .ok (_, r) => Json.dropTokens k r

/-- The input after the value at its head: the tokens of the value are those the parser
consumes, and the input is cut behind the last of them, as the scanner of the decoder stops
at the end of a value. -/
def Json.valueEnd (s : List Char) : Option (List Char) :=
  match Json.tokenize s with
  | .error _ => none
  | .ok ts =>
    match Json.parseValue (ts.length + 1) 0 ts with
    | none => none
    | some (_, rest) => Json.dropTokens (ts.length - rest.length) s

/-- The bytes of the value at the head of the input, from its first byte to its last, the
white space in front of it skipped, and the input after it. -/
def Json.splitValue (s : List Char) : Option (Bytes × List Char) :=
  match Json.valueEnd (s.dropWhile Json.isSpace) with
  | none => none
  | some r =>
    some ((s.dropWhile Json.isSpace).take ((s.dropWhile Json.isSpace).length - r.length), r)

/-- The bytes of each element of an array, in the order written, from the input after its
opening bracket or after a comma. -/
def Json.elementsAux : Nat → List Char → Option (List Bytes)
  | 0, _ => none
  | fuel + 1, s =>
    match Json.splitValue s with
    | none => none
    | some (e, r) =>
      match r.dropWhile Json.isSpace with
      | [] => none
      | c :: r1 =>
        if c = ']' then some [e]
        else if c = ',' then
          match Json.elementsAux fuel r1 with
          | none => none
          | some es => some (e :: es)
        else none

/-- The bytes of each element of the array that a valid document spells, in the order
written. -/
def Json.elements (msg : Bytes) : Option (List Bytes) :=
  match msg.dropWhile Json.isSpace with
  | [] => none
  | c :: rest =>
    if c = '[' then
      match rest.dropWhile Json.isSpace with
      | [] => none
      | d :: _ => if d = ']' then some [] else Json.elementsAux (rest.length + 1) rest
    else none

/-- The call `json.Unmarshal(js, &msg)` with `msg json.RawMessage`: the document is checked,
and the bytes of its value, from the first to the last, are stored. -/
def Json.unmarshalRaw (js : Bytes) : Except LibError Bytes :=
  match Json.parse js with
  | .error e => .error e
  | .ok _ =>
    match Json.splitValue js with
    | none => .error "unexpected end of JSON input".data
    | some (msg, _) => .ok msg

/-- The first error of a sequence of results: the error the decoder saves. -/
def Json.firstError : List (Option LibError) → Option LibError
  | [] => none
  | some e :: _ => some e
  | none :: rest => Json.firstError rest

/-- The call `json.Unmarshal(msg, &xs)` with `xs` an empty slice, given the call `dec`
that decodes one value into a zero element: an array is decoded element by element, in the
order written, into a slice of as many elements; an element that cannot be stored does not
stop the decoding, and the first such error is returned at the end. The value `null` and a
value that is no array leave the slice empty, the latter with an error. -/
def Json.unmarshalSlice {α : Type} (dec : Bytes → α × Option LibError) (msg : Bytes) :
    List α × Option LibError :=
  match Json.parse msg with
  | .error e => ([], some e)
  | .ok (.array _) =>
    match Json.elements msg with
    | none => ([], some "unexpected end of JSON input".data)
    | some es => (es.map (fun e => (dec e).1), Json.firstError (es.map (fun e => (dec e).2)))
  | .ok .null => ([], none)
  | .ok _ => ([], some "json: cannot unmarshal value into Go value of a slice type".data)

/-- The library `base` with the two calls of `loadMock` that store a raw message and a
slice of mocks replaced by their model; decoding one mock remains the call of `base`. -/
def decodingMocks (base : Lib) : Lib :=
  { base with
    jsonUnmarshalRaw := Json.unmarshalRaw
    jsonUnmarshalMocks := Json.unmarshalSlice base.jsonUnmarshalMock }

/-- The key and the bytes of the value of each member of an object, in the order written,
from the input after its opening brace or after a comma. -/
def Json.membersAux : Nat → List Char → Option (List (GoString × Bytes))
  | 0, _ => none
  | fuel + 1, s =>
    match Json.nextToken (s.dropWhile Json.isSpace) with
    | .ok (.string k, r) =>
      match r.dropWhile Json.isSpace with
      | [] => none
      | c :: r1 =>
        if c = ':' then
          match Json.splitValue r1 with
          | none => none
          | some (v, r2) =>
            match r2.dropWhile Json.isSpace with
            | [] => none
            | d :: r3 =>
              if d = '}' then some [(k, v)]
              else if d = ',' then
                match Json.membersAux fuel r3 with
                | none => none
                | some ms => some ((k, v) :: ms)
              else none
        else none
    | _ => none

/-- The key and the bytes of the value of each member of the object that a valid document
spells, in the order written. -/
def Json.members (msg : Bytes) : Option (List (GoString × Bytes)) :=
  match msg.dropWhile Json.isSpace with
  | [] => none
  | c :: rest =>
    if c = '{' then
      match rest.dropWhile Json.isSpace with
      | [] => none
      | d :: _ => if d = '}' then some [] else Json.membersAux (rest.length + 1) rest
    else none

/-- The key of a member as the decoder compares it with the name of a struct field:
letters in upper case, the long s and the Kelvin sign as `S` and `K`. -/
def Json.foldName (k : GoString) : GoString :=
  k.map (fun c =>
    if c.toNat = 0x17f then 'S'
    else if c.toNat = 0x212a then 'K'
    else if 'a'.toNat ≤ c.toNat ∧ c.toNat ≤ 'z'.toNat then Char.ofNat (c.toNat - 32)
    else c)

/-- The error that stands for every `UnmarshalTypeError` of the decoder. -/
def Json.mismatch : LibError := "json: cannot unmarshal value into Go value".data

/-- The bytes of the member that the decoder stores in the struct field `name`, if there is
one. An object that writes the key of a field twice is not decoded. -/
def Json.fieldOf (name : GoString) (ms : List (GoString × Bytes)) :
    Except LibError (Option Bytes) :=
  match ms.filter (fun m => Json.foldName m.1 = Json.foldName name) with
  | [] => .ok none
  | [m] => .ok (some m.2)
  | _ => .error "json: key written twice, document not decoded".data

/-- A member decoded into a zero Go `string`: `null` stores nothing. -/
def Json.stringField (v : Option Bytes) : GoString × Option LibError :=
  match v with
  | none => ([], none)
  | some text =>
    match Json.parse text with
    | .ok (.string s) => (s, none)
    | .ok .null => ([], none)
    | .ok _ => ([], some Json.mismatch)
    | .error e => ([], some e)

/-- A member decoded into a zero Go `bool`: `null` stores nothing. -/
def Json.boolField (v : Option Bytes) : Bool × Option LibError :=
  match v with
  | none => (false, none)
  | some text =>
    match Json.parse text with
    | .ok (.bool b) => (b, none)
    | .ok .null => (false, none)
    | .ok _ => (false, some Json.mismatch)
    | .error e => (false, some e)

/-- Modelled from the spec: section 6 gives `matchesJsonPath` as an object with the fields
`expression`, `partial` (bool), `equals` (string) and `contains` (string). The call
`json.Unmarshal` of a member into a nil `*JSONPathWrapper`: `null` leaves the pointer nil,
any other value allocates the struct, and an object fills its fields. -/
def Json.unmarshalPath (text : Bytes) : Option JSONPathWrapper × Option LibError :=
  match Json.parse text with
  | .error e => (none, some e)
  | .ok .null => (none, none)
  | .ok (.object _) =>
    match Json.members text with
    | none => (none, some "unexpected end of JSON input".data)
    | some ms =>
      match Json.fieldOf "expression".data ms, Json.fieldOf "partial".data ms,
        Json.fieldOf "equals".data ms, Json.fieldOf "contains".data ms with
      | .ok e, .ok p, .ok q, .ok c =>
        (some ⟨(Json.stringField e).1, (Json.boolField p).1, (Json.stringField q).1,
            (Json.stringField c).1⟩,
          Json.firstError [(Json.stringField e).2, (Json.boolField p).2, (Json.stringField q).2,
            (Json.stringField c).2])
      | _, _, _, _ => (none, some "json: key written twice, document not decoded".data)
  | .ok _ => (some ⟨[], false, [], []⟩, some Json.mismatch)

/-- Modelled from the spec: section 6 gives a body pattern as an object with the optional
fields `equalToJson` (a raw JSON value) and `matchesJsonPath`. The call `json.Unmarshal` of
an element into a zero `DittoBodyPattern`: the raw value is stored as its bytes. -/
def Json.unmarshalPattern (text : Bytes) : DittoBodyPattern × Option LibError :=
  match Json.parse text with
  | .error e => (⟨[], none⟩, some e)
  | .ok .null => (⟨[], none⟩, none)
  | .ok (.object _) =>
    match Json.members text with
    | none => (⟨[], none⟩, some "unexpected end of JSON input".data)
    | some ms =>
      match Json.fieldOf "equalToJson".data ms, Json.fieldOf "matchesJsonPath".data ms with
      | .ok e, .ok none => (⟨e.getD [], none⟩, none)
      | .ok e, .ok (some p) => (⟨e.getD [], (Json.unmarshalPath p).1⟩, (Json.unmarshalPath p).2)
      | _, _ => (⟨[], none⟩, some "json: key written twice, document not decoded".data)
  | .ok _ => (⟨[], none⟩, some Json.mismatch)

/-- Modelled from the spec: section 6 gives `request` the fields `method` (string) and
`bodyPatterns` (array). The call `json.Unmarshal` of a member into a nil `*DittoRequest`:
`null` leaves the pointer nil, any other value allocates the struct, and an object fills
its fields. -/
def Json.unmarshalRequest (text : Bytes) : Option DittoRequest × Option LibError :=
  match Json.parse text with
  | .error e => (none, some e)
  | .ok .null => (none, none)
  | .ok (.object _) =>
    match Json.members text with
    | none => (none, some "unexpected end of JSON input".data)
    | some ms =>
      match Json.fieldOf "method".data ms, Json.fieldOf "bodyPatterns".data ms with
      | .ok m, .ok none => (some ⟨(Json.stringField m).1, []⟩, (Json.stringField m).2)
      | .ok m, .ok (some ps) =>
        (some ⟨(Json.stringField m).1, (Json.unmarshalSlice Json.unmarshalPattern ps).1⟩,
          Json.firstError [(Json.stringField m).2,
            (Json.unmarshalSlice Json.unmarshalPattern ps).2])
      | _, _ => (none, some "json: key written twice, document not decoded".data)
  | .ok _ => (some ⟨[], []⟩, some Json.mismatch)

/-- Modelled from the spec: section 6 gives a definition as an object with the fields
`request` and `response`, and section 3 the response as a payload that is not interpreted:
its bytes are stored. The call `json.Unmarshal(msg, &m)` with `m` a zero `DittoMock`. -/
def Json.unmarshalMock (text : Bytes) : DittoMock × Option LibError :=
  match Json.parse text with
  | .error e => (⟨none, ⟨[]⟩⟩, some e)
  | .ok .null => (⟨none, ⟨[]⟩⟩, none)
  | .ok (.object _) =>
    match Json.members text with
    | none => (⟨none, ⟨[]⟩⟩, some "unexpected end of JSON input".data)
    | some ms =>
      match Json.fieldOf "request".data ms, Json.fieldOf "response".data ms with
      | .ok none, .ok b => (⟨none, ⟨b.getD []⟩⟩, none)
      | .ok (some r), .ok b =>
        (⟨(Json.unmarshalRequest r).1, ⟨b.getD []⟩⟩, (Json.unmarshalRequest r).2)
      | _, _ => (⟨none, ⟨[]⟩⟩, some "json: key written twice, document not decoded".data)
  | .ok _ => (⟨none, ⟨[]⟩⟩, some Json.mismatch)

/-- A definition file with an array of two mocks for one method: the first with the
equality document `{"a":1,"b":2}`, the second with a path query in `equals` mode. -/
def pairDocument : Bytes :=
  ("[\n \x7b\"request\": \x7b\"method\": \"/greet.Greeter/SayHello\", "
    ++ "\"bodyPatterns\": [\x7b\"equalToJson\": \x7b\"a\":1,\"b\":2\x7d\x7d]\x7d, "
    ++ "\"response\": \x7b\"message\":\"hi\"\x7d\x7d,\n"
    ++ " \x7b\"request\": \x7b\"method\": \"/greet.Greeter/SayHello\", "
    ++ "\"bodyPatterns\": [\x7b\"matchesJsonPath\": "
    ++ "\x7b\"expression\": \"$.token\", \"equals\": \"Bearer\"\x7d\x7d]\x7d, "
    ++ "\"response\": [1]\x7d\n]\n").data

/-- A definition file with a single mock. -/
def singleDocument : Bytes :=
  (" \x7b\"request\":\x7b\"method\":\"/greet.Greeter/SayHello\","
    ++ "\"bodyPatterns\":[\x7b\"equalToJson\":\x7b\"a\":1,\"b\":2\x7d\x7d]\x7d,"
    ++ "\"response\":\x7b\"ok\":true\x7d\x7d\n").data

/-- The two mocks of `pairDocument`, in the order written. -/
def pairMocks : List DittoMock :=
  [equalMock "/greet.Greeter/SayHello".data docAB "\x7b\"message\":\"hi\"\x7d".data,
    pathMock "/greet.Greeter/SayHello".data equalsBearer "[1]".data]

/-- The mock of `singleDocument`. -/
def singleMocks : List DittoMock :=
  [equalMock "/greet.Greeter/SayHello".data docAB "\x7b\"ok\":true\x7d".data]

/-- A file system with three definition files: an array of two mocks, a single mock, and
a document that breaks off. -/
def mockFiles (path : GoString) : Except LibError Bytes :=
  if path = "mocks/pair.json".data then .ok pairDocument
  else if path = "mocks/single.json".data then .ok singleDocument
  else if path = "mocks/broken.json".data then .ok "[\x7b".data
  else .error "open: no such file or directory".data

/-- The library `goLib` with the files `mockFiles` and the decoding of one mock
`Json.unmarshalMock`. -/
def mockBase : Lib :=
  { goLib with
    readFile := mockFiles
    jsonUnmarshalMock := Json.unmarshalMock }

/-! ## Properties -/

set_option exponentiation.threshold 5000
set_option maxRecDepth 1000000

theorem matchLoop_cons_positive (L : Lib) (json : Bytes) (m : DittoMock)
    (post : List DittoMock) (log : List GoError)
    (hm : RequestMatcher.matches L json m.Request = some (true, none)) :
    matchLoop L json (m :: post) log = some ⟨some m.Response, none, log⟩ := by
  simp [matchLoop, hm]

theorem matchLoop_cons_error (L : Lib) (json : Bytes) (m : DittoMock)
    (post : List DittoMock) (log : List GoError) (v : Bool) (e : GoError)
    (hm : RequestMatcher.matches L json m.Request = some (v, some e)) :
    matchLoop L json (m :: post) log = matchLoop L json post (log ++ [e]) := by
  simp [matchLoop, hm]

theorem matchLoop_cons_negative (L : Lib) (json : Bytes) (m : DittoMock)
    (post : List DittoMock) (log : List GoError)
    (hm : RequestMatcher.matches L json m.Request = some (false, none)) :
    matchLoop L json (m :: post) log = matchLoop L json post log := by
  simp [matchLoop, hm]

theorem matchLoop_cons_nil_request (L : Lib) (json : Bytes) (m : DittoMock)
    (post : List DittoMock) (log : List GoError)
    (hm : RequestMatcher.matches L json m.Request = none) :
    matchLoop L json (m :: post) log = none := by
  simp [matchLoop, hm]

/-- Every outcome of evaluating one request pattern is of one of four kinds. -/
theorem matches_cases (L : Lib) (json : Bytes) (m : DittoMock) :
    RequestMatcher.matches L json m.Request = none ∨
    RequestMatcher.matches L json m.Request = some (true, none) ∨
    RequestMatcher.matches L json m.Request = some (false, none) ∨
    ∃ v e, RequestMatcher.matches L json m.Request = some (v, some e) := by
  rcases h : RequestMatcher.matches L json m.Request with _ | ⟨v, _ | e⟩
  · simp
  · cases v <;> simp
  · exact Or.inr (Or.inr (Or.inr ⟨v, e, rfl⟩))

theorem matches_isSome (L : Lib) (json : Bytes) (m : DittoMock) (h : m.Request ≠ none) :
    ∃ r, RequestMatcher.matches L json m.Request = some r := by
  cases hr : m.Request with
  | none => exact absurd hr h
  | some r => exact ⟨_, rfl⟩

/-- Mocks that evaluate without a positive verdict are passed over; their
errors go to the log. -/
theorem matchLoop_append_rejected (L : Lib) (json : Bytes) (pre rest : List DittoMock) :
    ∀ log : List GoError,
    (∀ x ∈ pre, ∃ r, RequestMatcher.matches L json x.Request = some r ∧ failed r = true) →
    matchLoop L json (pre ++ rest) log
      = matchLoop L json rest (log ++ evalErrors L json pre) := by
  induction pre with
  | nil => intro log _; simp [evalErrors]
  | cons x pre ih =>
    intro log h
    obtain ⟨⟨v, e⟩, hx, hf⟩ := h x (List.mem_cons_self _ _)
    have hpre := fun y hy => h y (List.mem_cons_of_mem _ hy)
    cases e with
    | some e =>
      rw [List.cons_append, matchLoop_cons_error L json x _ log v e hx, ih _ hpre]
      simp [evalErrors, hx]
    | none =>
      have hv : v = false := by simpa [failed] using hf
      subst hv
      rw [List.cons_append, matchLoop_cons_negative L json x _ log hx, ih _ hpre]
      simp [evalErrors, hx]

/-- The values returned by the loop of `Match` do not depend on the log. -/
theorem matchLoop_returned_log (L : Lib) (json : Bytes) (mocks : List DittoMock) :
    ∀ log log' : List GoError,
    (matchLoop L json mocks log).map MatchResult.returned
      = (matchLoop L json mocks log').map MatchResult.returned := by
  induction mocks with
  | nil => intro log log'; simp [matchLoop, MatchResult.returned]
  | cons m rest ih =>
    intro log log'
    rcases matches_cases L json m with h | h | h | ⟨v, e, h⟩
    · simp [matchLoop, h]
    · simp [matchLoop, h, MatchResult.returned]
    · simp only [matchLoop_cons_negative L json m rest _ h]; exact ih _ _
    · simp only [matchLoop_cons_error L json m rest _ v e h]; exact ih _ _

/-- A bucket whose mocks all have a request and one of which evaluates
positive splits at the earliest positive mock. -/
theorem exists_first_positive (L : Lib) (json : Bytes) (mocks : List DittoMock)
    (hreq : ∀ m ∈ mocks, m.Request ≠ none)
    (hpos : ∃ m ∈ mocks, RequestMatcher.matches L json m.Request = some (true, none)) :
    ∃ pre m post, mocks = pre ++ m :: post ∧
      (∀ x ∈ pre, ∃ r, RequestMatcher.matches L json x.Request = some r ∧ failed r = true) ∧
      RequestMatcher.matches L json m.Request = some (true, none) := by
  induction mocks with
  | nil => obtain ⟨m, hm, _⟩ := hpos; cases hm
  | cons x rest ih =>
    rcases matches_cases L json x with h | h | h | ⟨v, e, h⟩
    · obtain ⟨r, hr⟩ := matches_isSome L json x (hreq x (List.mem_cons_self _ _))
      rw [h] at hr; cases hr
    · exact ⟨[], x, rest, rfl, by simp, h⟩
    all_goals
      have hrest : ∃ m ∈ rest, RequestMatcher.matches L json m.Request = some (true, none) := by
        obtain ⟨m, hm, hp⟩ := hpos
        rcases List.mem_cons.mp hm with rfl | hm
        · rw [h] at hp; cases hp
        · exact ⟨m, hm, hp⟩
      obtain ⟨pre, m, post, hsplit, hpre, hm⟩ :=
        ih (fun y hy => hreq y (List.mem_cons_of_mem _ hy)) hrest
      refine ⟨x :: pre, m, post, by simp [hsplit], ?_, hm⟩
      intro y hy
      rcases List.mem_cons.mp hy with rfl | hy
      · exact ⟨_, h, by simp [failed]⟩
      · exact hpre y hy

/-- The loop of `Match` on a bucket split at its earliest positive mock. -/
theorem matchLoop_split (L : Lib) (json : Bytes) (pre post : List DittoMock) (m : DittoMock)
    (hpre : ∀ x ∈ pre, ∃ r, RequestMatcher.matches L json x.Request = some r ∧ failed r = true)
    (hm : RequestMatcher.matches L json m.Request = some (true, none)) :
    matchLoop L json (pre ++ m :: post) []
      = some ⟨some m.Response, none, evalErrors L json pre⟩ := by
  rw [matchLoop_append_rejected L json pre _ [] hpre, matchLoop_cons_positive L json m post _ hm]
  simp

/-- C1: first-match precedence. When the bucket stored under the method holds
a mock that evaluates positive without error (every mock of the bucket having a
request), `Match` returns without error the response of the earliest such
mock; every mock before it evaluated negative or with an error, and the mocks
after it can be replaced by any others without changing the result. -/
theorem Match_first_match (L : Lib) (rm : RequestMatcher) (method : GoString) (json : Bytes)
    (mocks : List DittoMock)
    (hb : rm.rules method = some mocks)
    (hreq : ∀ m ∈ mocks, m.Request ≠ none)
    (hpos : ∃ m ∈ mocks, RequestMatcher.matches L json m.Request = some (true, none)) :
    ∃ pre m post, mocks = pre ++ m :: post ∧
      (∀ x ∈ pre, ∃ r, RequestMatcher.matches L json x.Request = some r ∧ failed r = true) ∧
      RequestMatcher.matches L json m.Request = some (true, none) ∧
      rm.Match L method json = some ⟨some m.Response, none, evalErrors L json pre⟩ ∧
      ∀ (rm' : RequestMatcher) (post' : List DittoMock),
        rm'.rules method = some (pre ++ m :: post') →
        rm'.Match L method json = rm.Match L method json := by
  obtain ⟨pre, m, post, hsplit, hpre, hm⟩ := exists_first_positive L json mocks hreq hpos
  have hmatch : rm.Match L method json
      = some ⟨some m.Response, none, evalErrors L json pre⟩ := by
    simp only [RequestMatcher.Match, hb, hsplit]
    exact matchLoop_split L json pre post m hpre hm
  refine ⟨pre, m, post, hsplit, hpre, hm, hmatch, ?_⟩
  intro rm' post' hb'
  rw [hmatch]
  simp only [RequestMatcher.Match, hb']
  exact matchLoop_split L json pre post' m hpre hm

/-- An instance of `Match_first_match`: in `demoBucket` the first mock errors
and the second is the earliest positive one. -/
theorem Match_first_match_witness :
    ∃ pre m post, demoBucket = pre ++ m :: post ∧
      (∀ x ∈ pre, ∃ r, RequestMatcher.matches goLib "1".data x.Request = some r ∧
        failed r = true) ∧
      RequestMatcher.matches goLib "1".data m.Request = some (true, none) ∧
      demoMatcher.Match goLib "Greet".data "1".data
        = some ⟨some m.Response, none, evalErrors goLib "1".data pre⟩ ∧
      ∀ (rm' : RequestMatcher) (post' : List DittoMock),
        rm'.rules "Greet".data = some (pre ++ m :: post') →
        rm'.Match goLib "Greet".data "1".data
          = demoMatcher.Match goLib "Greet".data "1".data :=
  Match_first_match goLib demoMatcher "Greet".data "1".data demoBucket
    (by decide) (by decide) ⟨equalMock "Greet".data "1".data "two".data, by decide, by decide⟩

/-- A bucket in which no mock is positive and every mock has a request is
walked to its end. -/
theorem matchLoop_none_positive (L : Lib) (json : Bytes) (mocks : List DittoMock)
    (hreq : ∀ m ∈ mocks, m.Request ≠ none)
    (hneg : ∀ m ∈ mocks, RequestMatcher.matches L json m.Request ≠ some (true, none)) :
    matchLoop L json mocks [] = some ⟨none, some .ErrNotMatched, evalErrors L json mocks⟩ := by
  have hrej : ∀ x ∈ mocks,
      ∃ r, RequestMatcher.matches L json x.Request = some r ∧ failed r = true := by
    intro x hx
    rcases matches_cases L json x with h | h | h | ⟨v, e, h⟩
    · obtain ⟨r, hr⟩ := matches_isSome L json x (hreq x hx)
      rw [h] at hr; cases hr
    · exact absurd h (hneg x hx)
    · exact ⟨_, h, by simp [failed]⟩
    · exact ⟨_, h, by simp [failed]⟩
  have h := matchLoop_append_rejected L json mocks [] [] hrej
  simpa [matchLoop] using h

/-- C2: `Match` fails with `ErrNotMatched` and no response exactly when the
index has no bucket for the method or no mock of the bucket evaluates positive
without error (every mock of the bucket having a request); on a method absent
from the index the result is `ErrNotMatched` with nothing logged, whatever the
payload and whatever the library does. -/
theorem Match_not_matched_iff (L : Lib) (rm : RequestMatcher) (method : GoString)
    (json : Bytes)
    (hreq : ∀ mocks, rm.rules method = some mocks → ∀ m ∈ mocks, m.Request ≠ none) :
    ((∃ w, rm.Match L method json = some ⟨none, some .ErrNotMatched, w⟩) ↔
      (rm.rules method = none ∨
        ∃ mocks, rm.rules method = some mocks ∧
          ∀ m ∈ mocks, RequestMatcher.matches L json m.Request ≠ some (true, none))) ∧
    (rm.rules method = none → ∀ (L' : Lib) (json' : Bytes),
      rm.Match L' method json' = some ⟨none, some .ErrNotMatched, []⟩) := by
  constructor
  · constructor
    · rintro ⟨w, hw⟩
      cases hb : rm.rules method with
      | none => exact Or.inl rfl
      | some mocks =>
        refine Or.inr ⟨mocks, rfl, ?_⟩
        intro m hm hp
        obtain ⟨pre, m', post, hsplit, hpre, hm'⟩ :=
          exists_first_positive L json mocks (hreq mocks hb) ⟨m, hm, hp⟩
        have := matchLoop_split L json pre post m' hpre hm'
        simp only [RequestMatcher.Match, hb, hsplit, this] at hw
        cases hw
    · rintro (hb | ⟨mocks, hb, hneg⟩)
      · exact ⟨[], by simp [RequestMatcher.Match, hb]⟩
      · refine ⟨evalErrors L json mocks, ?_⟩
        simp only [RequestMatcher.Match, hb]
        exact matchLoop_none_positive L json mocks (hreq mocks hb) hneg
  · intro hb L' json'
    simp [RequestMatcher.Match, hb]

/-- An instance of `Match_not_matched_iff`: `demoMatcher` on the payload `2`,
which no mock of its bucket accepts. -/
theorem Match_not_matched_iff_witness :
    ((∃ w, demoMatcher.Match goLib "Greet".data "2".data
        = some ⟨none, some .ErrNotMatched, w⟩) ↔
      (demoMatcher.rules "Greet".data = none ∨
        ∃ mocks, demoMatcher.rules "Greet".data = some mocks ∧
          ∀ m ∈ mocks,
            RequestMatcher.matches goLib "2".data m.Request ≠ some (true, none))) ∧
    (demoMatcher.rules "Greet".data = none → ∀ (L' : Lib) (json' : Bytes),
      demoMatcher.Match L' "Greet".data json' = some ⟨none, some .ErrNotMatched, []⟩) :=
  Match_not_matched_iff goLib demoMatcher "Greet".data "2".data
    (by
      intro mocks h
      have : mocks = demoBucket := by
        have h' : some demoBucket = some mocks := h
        exact (Option.some.inj h').symm
      subst this
      decide)

/-- Removing the erroring mocks of a bucket does not change what the loop of
`Match` returns. -/
theorem matchLoop_filter_erroring (L : Lib) (json : Bytes) (mocks : List DittoMock) :
    ∀ log log' : List GoError,
    (matchLoop L json mocks log).map MatchResult.returned
      = (matchLoop L json (mocks.filter (fun m => !erroring L json m)) log').map
          MatchResult.returned := by
  induction mocks with
  | nil => intro log log'; simp [matchLoop, MatchResult.returned]
  | cons m rest ih =>
    intro log log'
    rcases matches_cases L json m with h | h | h | ⟨v, e, h⟩
    · have he : erroring L json m = false := by simp [erroring, h]
      simp [List.filter_cons, he, matchLoop, h]
    · have he : erroring L json m = false := by simp [erroring, h]
      simp [List.filter_cons, he, matchLoop, h, MatchResult.returned]
    · have he : erroring L json m = false := by simp [erroring, h]
      simp only [List.filter_cons, he, Bool.not_false, if_true,
        matchLoop_cons_negative L json m _ _ h]
      exact ih _ _
    · have he : erroring L json m = true := by simp [erroring, h]
      simp only [List.filter_cons, he, Bool.not_true, Bool.false_eq_true, if_false,
        matchLoop_cons_error L json m _ _ v e h]
      exact ih _ _

/-- C3: faulty rule skip. A mock whose evaluation ends in an error never
aborts `Match`: the values `Match` returns are those it returns on the bucket
with all erroring mocks removed, and when every mock before a positive mock
evaluated to an error or to a plain negative verdict, `Match` returns the
response of that later mock, the errors having gone to the log. -/
theorem Match_skips_erroring (L : Lib) (rm rm' : RequestMatcher) (method : GoString)
    (json : Bytes) (mocks : List DittoMock)
    (hb : rm.rules method = some mocks)
    (hb' : rm'.rules method = some (mocks.filter (fun m => !erroring L json m))) :
    (rm.Match L method json).map MatchResult.returned
      = (rm'.Match L method json).map MatchResult.returned ∧
    ∀ pre m post, mocks = pre ++ m :: post →
      (∀ x ∈ pre, erroring L json x = true ∨
        RequestMatcher.matches L json x.Request = some (false, none)) →
      RequestMatcher.matches L json m.Request = some (true, none) →
      rm.Match L method json = some ⟨some m.Response, none, evalErrors L json pre⟩ := by
  constructor
  · simp only [RequestMatcher.Match, hb, hb']
    exact matchLoop_filter_erroring L json mocks [] []
  · intro pre m post hsplit hpre hm
    simp only [RequestMatcher.Match, hb, hsplit]
    refine matchLoop_split L json pre post m ?_ hm
    intro x hx
    rcases hpre x hx with he | hn
    · rcases matches_cases L json x with h | h | h | ⟨v, e, h⟩
      · simp [erroring, h] at he
      · simp [erroring, h] at he
      · simp [erroring, h] at he
      · exact ⟨_, h, by simp [failed]⟩
    · exact ⟨_, hn, by simp [failed]⟩

/-- An instance of `Match_skips_erroring`: `demoMatcher` and the same matcher
without the mock whose path query is malformed. -/
theorem Match_skips_erroring_witness :
    (demoMatcher.Match goLib "Greet".data "1".data).map MatchResult.returned
      = (demoMatcherFiltered.Match goLib "Greet".data "1".data).map MatchResult.returned ∧
    ∀ pre m post, demoBucket = pre ++ m :: post →
      (∀ x ∈ pre, erroring goLib "1".data x = true ∨
        RequestMatcher.matches goLib "1".data x.Request = some (false, none)) →
      RequestMatcher.matches goLib "1".data m.Request = some (true, none) →
      demoMatcher.Match goLib "Greet".data "1".data
        = some ⟨some m.Response, none, evalErrors goLib "1".data pre⟩ :=
  Match_skips_erroring goLib demoMatcher demoMatcherFiltered "Greet".data "1".data
    demoBucket (by decide) (by decide)

/-- The loop of `Match` ends with a response and no error, or with no
response and `ErrNotMatched`; its log is the log it started with followed by
the evaluation errors of the mocks it walked over, which are all the mocks of
the bucket when there is no response. -/
theorem matchLoop_shape (L : Lib) (json : Bytes) (mocks : List DittoMock) :
    ∀ (log : List GoError) (r : MatchResult), matchLoop L json mocks log = some r →
    ((∃ resp, r.response = some resp ∧ r.err = none) ∨
      (r.response = none ∧ r.err = some .ErrNotMatched)) ∧
    ∃ pre post, mocks = pre ++ post ∧ r.warnings = log ++ evalErrors L json pre ∧
      (r.response = none → post = []) := by
  induction mocks with
  | nil =>
    intro log r h
    simp only [matchLoop, Option.some.injEq] at h
    subst h
    exact ⟨Or.inr ⟨rfl, rfl⟩, [], [], rfl, by simp [evalErrors], fun _ => rfl⟩
  | cons m rest ih =>
    intro log r h
    rcases matches_cases L json m with hm | hm | hm | ⟨v, e, hm⟩
    · rw [matchLoop_cons_nil_request L json m rest log hm] at h; cases h
    · rw [matchLoop_cons_positive L json m rest log hm, Option.some.injEq] at h
      subst h
      exact ⟨Or.inl ⟨_, rfl, rfl⟩, [], m :: rest, rfl, by simp [evalErrors],
        fun h => by cases h⟩
    · rw [matchLoop_cons_negative L json m rest log hm] at h
      obtain ⟨hshape, pre, post, hsplit, hw, hpost⟩ := ih log r h
      exact ⟨hshape, m :: pre, post, by simp [hsplit], by simp [evalErrors, hm, hw], hpost⟩
    · rw [matchLoop_cons_error L json m rest log v e hm] at h
      obtain ⟨hshape, pre, post, hsplit, hw, hpost⟩ := ih _ r h
      exact ⟨hshape, m :: pre, post, by simp [hsplit], by simp [evalErrors, hm, hw], hpost⟩

/-- An error of `canonicalJSON` comes unchanged from the JSON library. -/
theorem canonicalJSON_err (L : Lib) (src : Bytes) (e : GoError)
    (h : (canonicalJSON L src).2 = some e) : ∃ le, e = .external le := by
  unfold canonicalJSON at h
  cases hu : L.jsonUnmarshal src with
  | error le => simp only [hu] at h; exact ⟨le, by simpa using h.symm⟩
  | ok val =>
    cases hm : L.jsonMarshal val with
    | error le => simp only [hu, hm] at h; exact ⟨le, by simpa using h.symm⟩
    | ok b => simp [hu, hm] at h

/-- An error of `jsonMatcher` comes unchanged from the JSON library. -/
theorem jsonMatcher_err (L : Lib) (a b : Bytes) (e : GoError)
    (h : (jsonMatcher L a b).2 = some e) : ∃ le, e = .external le := by
  unfold jsonMatcher at h
  rcases ha : canonicalJSON L a with ⟨x, _ | ea⟩
  · rw [ha] at h
    rcases hb : canonicalJSON L b with ⟨y, _ | eb⟩
    · rw [hb] at h; simp at h
    · rw [hb] at h
      simp only [Option.some.injEq] at h
      subst h
      exact canonicalJSON_err L b eb (by rw [hb])
  · rw [ha] at h
    simp only [Option.some.injEq] at h
    subst h
    exact canonicalJSON_err L a ea (by rw [ha])

/-- An error of `jsonPathMatcher` is a wrapped query error or a decoding
error of the string value. -/
theorem jsonPathMatcher_err (L : Lib) (json : Bytes) (q : JSONPathWrapper) (e : GoError)
    (h : (jsonPathMatcher L json q).2 = some e) :
    (∃ le, e = .jsonsliceMatching le q.Expression) ∨ ∃ le, e = .external le := by
  unfold jsonPathMatcher at h
  cases hg : L.jsonsliceGet json q.Expression with
  | error le => rw [hg] at h; exact Or.inl ⟨le, by simpa using h.symm⟩
  | ok val =>
    rw [hg] at h
    simp only at h
    split_ifs at h
    · cases hs : L.jsonUnmarshalString val with
      | error le => rw [hs] at h; exact Or.inr ⟨le, by simpa using h.symm⟩
      | ok str => rw [hs] at h; simp at h

/-- An early return of the equality check carries a negative verdict and
the outcome of `jsonMatcher`. -/
theorem equalStep_error (L : Lib) (json : Bytes) (p : DittoBodyPattern) (result : Bool)
    (r : Bool × Option GoError) (h : equalStep L json p result = .error r) :
    p.EqualToJson.length > 0 ∧ failed (jsonMatcher L json p.EqualToJson) = true ∧
      r = (false, (jsonMatcher L json p.EqualToJson).2) := by
  unfold equalStep at h
  by_cases h1 : p.EqualToJson.length > 0
  · by_cases h2 : failed (jsonMatcher L json p.EqualToJson) = true
    · simp only [h1, h2, if_true, Except.error.injEq] at h
      exact ⟨h1, h2, h.symm⟩
    · simp [h1, h2] at h
  · simp [h1] at h

/-- An early return of the path query carries a negative verdict and the
outcome of `jsonPathMatcher`. -/
theorem pathStep_error (L : Lib) (json : Bytes) (p : DittoBodyPattern) (result : Bool)
    (r : Bool × Option GoError) (h : pathStep L json p result = .error r) :
    ∃ q, p.MatchesJsonPath = some q ∧ failed (jsonPathMatcher L json q) = true ∧
      r = (false, (jsonPathMatcher L json q).2) := by
  unfold pathStep at h
  cases hp : p.MatchesJsonPath with
  | none => simp [hp] at h
  | some q =>
    simp only [hp] at h
    by_cases h3 : failed (jsonPathMatcher L json q) = true
    · simp only [h3, if_true, Except.error.injEq] at h
      exact ⟨q, rfl, h3, h.symm⟩
    · simp [h3] at h

/-- An early return of one iteration of `matches` carries a negative verdict
and, when it carries an error, a lower-level one. -/
theorem matchesStep_error (L : Lib) (json : Bytes) (p : DittoBodyPattern) (result : Bool)
    (r : Bool × Option GoError) (h : matchesStep L json p result = .error r) :
    r.1 = false ∧ r.2 ≠ some .ErrNotMatched := by
  unfold matchesStep at h
  cases he : equalStep L json p result with
  | error r1 =>
    simp only [he, Except.error.injEq] at h
    subst h
    obtain ⟨_, _, hr⟩ := equalStep_error L json p result r1 he
    subst hr
    refine ⟨rfl, ?_⟩
    intro hc
    obtain ⟨le, hle⟩ := jsonMatcher_err L json _ _ hc
    cases hle
  | ok result1 =>
    simp only [he] at h
    obtain ⟨q, _, _, hr⟩ := pathStep_error L json p result1 r h
    subst hr
    refine ⟨rfl, ?_⟩
    intro hc
    rcases jsonPathMatcher_err L json q _ hc with ⟨le, hle⟩ | ⟨le, hle⟩ <;> cases hle

/-- The error of one request-pattern evaluation is never the sentinel. -/
theorem matchesLoop_err_ne_sentinel (L : Lib) (json : Bytes) (ps : List DittoBodyPattern) :
    ∀ result : Bool, (matchesLoop L json ps result).2 ≠ some .ErrNotMatched := by
  induction ps with
  | nil => intro result; simp [matchesLoop]
  | cons p rest ih =>
    intro result
    cases hs : matchesStep L json p result with
    | error r =>
      simp only [matchesLoop, hs]
      exact (matchesStep_error L json p result r hs).2
    | ok result1 =>
      simp only [matchesLoop, hs]
      exact ih result1

/-- No evaluation error of a bucket is the sentinel. -/
theorem evalErrors_ne_sentinel (L : Lib) (json : Bytes) (mocks : List DittoMock) :
    ∀ e ∈ evalErrors L json mocks, e ≠ .ErrNotMatched := by
  induction mocks with
  | nil => intro e he; simp [evalErrors] at he
  | cons m rest ih =>
    intro e he
    rcases matches_cases L json m with hm | hm | hm | ⟨v, e', hm⟩
    · simp only [evalErrors, hm] at he; exact ih e he
    · simp only [evalErrors, hm] at he; exact ih e he
    · simp only [evalErrors, hm] at he; exact ih e he
    · simp only [evalErrors, hm, List.mem_cons] at he
      rcases he with rfl | he
      · cases hr : m.Request with
        | none => simp [RequestMatcher.matches, hr] at hm
        | some req =>
          simp only [RequestMatcher.matches, hr, Option.some.injEq] at hm
          have := matchesLoop_err_ne_sentinel L json req.BodyPatterns false
          rw [hm] at this
          intro hc
          exact this (by rw [hc])
      · exact ih e he

/-- C4 (counterexample): an unparseable payload compared with an equality
pattern, and a malformed path query, both make the mock's evaluation end in a
lower-level error, and `Match` returns `ErrNotMatched`, not that error. -/
theorem Match_hides_lower_level_error :
    RequestMatcher.matches goLib "\x7b".data
        (equalMock "Greet".data "1".data "one".data).Request
      = some (false, some (.external "unexpected end of JSON input".data)) ∧
    equalOnlyMatcher.Match goLib "Greet".data "\x7b".data
      = some ⟨none, some .ErrNotMatched, [.external "unexpected end of JSON input".data]⟩ ∧
    RequestMatcher.matches goLib "1".data
        (pathMock "Greet".data ⟨"$[".data, true, [], []⟩ "zero".data).Request
      = some (false, some (.jsonsliceMatching "path: unexpected end of path".data "$[".data)) ∧
    badPathMatcher.Match goLib "Greet".data "1".data
      = some ⟨none, some .ErrNotMatched, [.jsonsliceMatching "path: unexpected end of path".data "$[".data]⟩ := by
  decide

/-- C4 (amended): `Match` never returns a lower-level error. It ends with a
response and a nil error, or with no response and `ErrNotMatched`; the errors
of the mocks it evaluated, none of which is `ErrNotMatched`, are exactly what
it logged, and with no response it evaluated the whole bucket. -/
theorem Match_error_is_sentinel (L : Lib) (rm : RequestMatcher) (method : GoString)
    (json : Bytes) (r : MatchResult) (h : rm.Match L method json = some r) :
    ((∃ resp, r.response = some resp ∧ r.err = none) ∨
      (r.response = none ∧ r.err = some .ErrNotMatched)) ∧
    (∀ e ∈ r.warnings, e ≠ .ErrNotMatched) ∧
    ∀ mocks, rm.rules method = some mocks →
      ∃ pre post, mocks = pre ++ post ∧ r.warnings = evalErrors L json pre ∧
        (r.response = none → post = []) := by
  cases hb : rm.rules method with
  | none =>
    simp only [RequestMatcher.Match, hb, Option.some.injEq] at h
    subst h
    exact ⟨Or.inr ⟨rfl, rfl⟩, by simp, by simp⟩
  | some mocks =>
    simp only [RequestMatcher.Match, hb] at h
    obtain ⟨hshape, pre, post, hsplit, hw, hpost⟩ := matchLoop_shape L json mocks [] r h
    simp only [List.nil_append] at hw
    refine ⟨hshape, ?_, ?_⟩
    · rw [hw]; exact evalErrors_ne_sentinel L json pre
    · intro mocks' hm'
      cases hm'
      exact ⟨pre, post, hsplit, hw, hpost⟩

/-- An instance of `Match_error_is_sentinel`: the matcher with a malformed
path query. -/
theorem Match_error_is_sentinel_witness :
    ((∃ resp, badPathResult.response = some resp ∧
        badPathResult.err = none) ∨
      (badPathResult.response = none ∧
        badPathResult.err
          = some .ErrNotMatched)) ∧
    (∀ e ∈ badPathResult.warnings,
      e ≠ .ErrNotMatched) ∧
    ∀ mocks, badPathMatcher.rules "Greet".data = some mocks →
      ∃ pre post, mocks = pre ++ post ∧
        badPathResult.warnings
          = evalErrors goLib "1".data pre ∧
        (badPathResult.response = none →
          post = []) :=
  Match_error_is_sentinel goLib badPathMatcher "Greet".data "1".data
    badPathResult (by decide)

/-- The function `mergeMocks` completes exactly when every mock has a request. -/
theorem mergeMocks_isSome_iff (mocks : List DittoMock) :
    ∀ group : Rules, (∃ group', mergeMocks mocks group = some group') ↔
      ∀ m ∈ mocks, m.Request ≠ none := by
  induction mocks with
  | nil => intro group; simp [mergeMocks]
  | cons m rest ih =>
    intro group
    cases hr : m.Request with
    | none =>
      simp only [mergeMocks, hr, List.mem_cons, forall_eq_or_imp]
      simp
    | some req =>
      simp only [mergeMocks, hr, List.mem_cons, forall_eq_or_imp]
      rw [ih]
      simp

theorem presented_cons (k : GoString) (m : DittoMock) (rest : List DittoMock) :
    presented k (m :: rest)
      = if m.Request.map DittoRequest.Method = some k then m :: presented k rest
        else presented k rest := by
  simp [presented, List.filter_cons]

/-- After a completed merge every bucket is the old bucket followed by the
presented mocks of its method; a key no presented mock names keeps its entry. -/
theorem mergeMocks_bucket (mocks : List DittoMock) :
    ∀ (group group' : Rules), mergeMocks mocks group = some group' →
    ∀ k, (presented k mocks = [] → group' k = group k) ∧
      (presented k mocks ≠ [] → group' k = some (bucketOf group k ++ presented k mocks)) := by
  induction mocks with
  | nil =>
    intro group group' h k
    simp only [mergeMocks, Option.some.injEq] at h
    subst h
    simp [presented]
  | cons m rest ih =>
    intro group group' h k
    cases hr : m.Request with
    | none => simp [mergeMocks, hr] at h
    | some req =>
      simp only [mergeMocks, hr] at h
      obtain ⟨h1, h2⟩ := ih _ group' h k
      have hbucket : (match group req.Method with
          | some found => found
          | none => []) = bucketOf group req.Method := by
        unfold bucketOf
        cases group req.Method <;> rfl
      rw [hbucket] at h1 h2
      rw [presented_cons, hr]
      by_cases hk : k = req.Method
      · subst hk
        simp only [Option.map_some', if_true]
        refine ⟨fun hc => (by cases hc), fun _ => ?_⟩
        by_cases hp : presented req.Method rest = []
        · rw [h1 hp, hp]; simp
        · rw [h2 hp]; simp [bucketOf]
      · have hk' : ¬ (some req.Method = some k) := fun hc => hk (Option.some.inj hc).symm
        simp only [Option.map_some', hk', if_false]
        constructor
        · intro hp; rw [h1 hp]; simp [hk]
        · intro hp; rw [h2 hp]; simp [bucketOf, hk]

/-- C5: `mergeMocks` is an order-preserving append per method without
deduplication. For mocks that all have a request the merge completes, and for
every method name the new bucket is the old bucket (empty if absent) followed
by the presented mocks of that method in the order presented; a key that no
presented mock names keeps its entry, and every mock occurs in the new bucket
as often as in the old bucket and among the presented mocks together. -/
theorem mergeMocks_appends (mocks : List DittoMock) (group : Rules)
    (hreq : ∀ m ∈ mocks, m.Request ≠ none) :
    ∃ group', mergeMocks mocks group = some group' ∧
      ∀ k, (presented k mocks = [] → group' k = group k) ∧
        (presented k mocks ≠ [] →
          group' k = some (bucketOf group k ++ presented k mocks)) ∧
        bucketOf group' k = bucketOf group k ++ presented k mocks ∧
        ∀ m, (bucketOf group' k).count m
          = (bucketOf group k).count m + (presented k mocks).count m := by
  obtain ⟨group', hg⟩ := (mergeMocks_isSome_iff mocks group).mpr hreq
  refine ⟨group', hg, ?_⟩
  intro k
  obtain ⟨h1, h2⟩ := mergeMocks_bucket mocks group group' hg k
  have h3 : bucketOf group' k = bucketOf group k ++ presented k mocks := by
    by_cases hp : presented k mocks = []
    · simp [bucketOf, h1 hp, hp]
    · simp [bucketOf, h2 hp]
  refine ⟨h1, h2, h3, ?_⟩
  intro m
  rw [h3, List.count_append]

/-- An instance of `mergeMocks_appends`: the first batch of `demoBatches`,
which holds the same mock twice, merged into the index of `demoMatcher`. -/
theorem mergeMocks_appends_witness :
    ∃ group', mergeMocks (demoBatches.headD []) demoMatcher.rules = some group' ∧
      ∀ k, (presented k (demoBatches.headD []) = [] → group' k = demoMatcher.rules k) ∧
        (presented k (demoBatches.headD []) ≠ [] →
          group' k
            = some (bucketOf demoMatcher.rules k ++ presented k (demoBatches.headD []))) ∧
        bucketOf group' k
          = bucketOf demoMatcher.rules k ++ presented k (demoBatches.headD []) ∧
        ∀ m, (bucketOf group' k).count m
          = (bucketOf demoMatcher.rules k).count m
            + (presented k (demoBatches.headD [])).count m :=
  mergeMocks_appends (demoBatches.headD []) demoMatcher.rules (by decide)

/-- A response returned by the loop of `Match` is the response of a mock of
the bucket that evaluated positive. -/
theorem matchLoop_response_mem (L : Lib) (json : Bytes) (mocks : List DittoMock) :
    ∀ (log : List GoError) (r : MatchResult) (resp : DittoResponse),
    matchLoop L json mocks log = some r → r.response = some resp →
    ∃ m ∈ mocks, m.Response = resp ∧
      RequestMatcher.matches L json m.Request = some (true, none) := by
  induction mocks with
  | nil =>
    intro log r resp h hresp
    simp only [matchLoop, Option.some.injEq] at h
    subst h
    cases hresp
  | cons m rest ih =>
    intro log r resp h hresp
    rcases matches_cases L json m with hm | hm | hm | ⟨v, e, hm⟩
    · rw [matchLoop_cons_nil_request L json m rest log hm] at h; cases h
    · rw [matchLoop_cons_positive L json m rest log hm, Option.some.injEq] at h
      subst h
      simp only [Option.some.injEq] at hresp
      exact ⟨m, List.mem_cons_self _ _, hresp, hm⟩
    · rw [matchLoop_cons_negative L json m rest log hm] at h
      obtain ⟨m', hmem, h1, h2⟩ := ih log r resp h hresp
      exact ⟨m', List.mem_cons_of_mem _ hmem, h1, h2⟩
    · rw [matchLoop_cons_error L json m rest log v e hm] at h
      obtain ⟨m', hmem, h1, h2⟩ := ih _ r resp h hresp
      exact ⟨m', List.mem_cons_of_mem _ hmem, h1, h2⟩

theorem mem_presented (k : GoString) (mocks : List DittoMock) (m : DittoMock)
    (h : m ∈ presented k mocks) :
    m ∈ mocks ∧ ∃ req, m.Request = some req ∧ req.Method = k := by
  simp only [presented, List.mem_filter, decide_eq_true_eq] at h
  refine ⟨h.1, ?_⟩
  cases hr : m.Request with
  | none => rw [hr] at h; simp at h
  | some req => rw [hr] at h; exact ⟨req, rfl, by simpa using h.2⟩

/-- A completed merge keeps the invariant of the index. -/
theorem mergeMocks_isolated (source mocks : List DittoMock) (group group' : Rules)
    (hinv : Isolated source group) (h : mergeMocks mocks group = some group') :
    Isolated (source ++ mocks) group' := by
  intro k bucket m hk hm
  obtain ⟨h1, h2⟩ := mergeMocks_bucket mocks group group' h k
  by_cases hp : presented k mocks = []
  · rw [h1 hp] at hk
    obtain ⟨hs, hreq⟩ := hinv k bucket m hk hm
    exact ⟨List.mem_append_left _ hs, hreq⟩
  · rw [h2 hp, Option.some.injEq] at hk
    subst hk
    rcases List.mem_append.mp hm with hm | hm
    · cases hg : group k with
      | none => simp [bucketOf, hg] at hm
      | some b =>
        simp only [bucketOf, hg, Option.getD_some] at hm
        obtain ⟨hs, hreq⟩ := hinv k b m hg hm
        exact ⟨List.mem_append_left _ hs, hreq⟩
    · obtain ⟨hs, hreq⟩ := mem_presented k mocks m hm
      exact ⟨List.mem_append_right _ hs, hreq⟩

/-- Merging batches one after the other keeps the invariant of the index. -/
theorem buildIndex_isolated (batches : List (List DittoMock)) :
    ∀ (source : List DittoMock) (group group' : Rules), Isolated source group →
    buildIndex batches group = some group' → Isolated (source ++ batches.flatten) group' := by
  induction batches with
  | nil =>
    intro source group group' hinv h
    simp only [buildIndex, Option.some.injEq] at h
    subst h
    simpa using hinv
  | cons batch rest ih =>
    intro source group group' hinv h
    cases hm : mergeMocks batch group with
    | none => simp [buildIndex, hm] at h
    | some group1 =>
      simp only [buildIndex, hm] at h
      have := ih (source ++ batch) group1 group' (mergeMocks_isolated source batch group group1 hinv hm) h
      simpa [List.append_assoc] using this

/-- C6: method isolation. In an index built from the empty index by any
number of completed `mergeMocks` calls, every mock stored under a key is one
of the merged mocks and its request names that key; so a response `Match`
returns for a method is the response of a merged mock registered under that
method which evaluated positive, and for a method that no merged mock names
`Match` answers `ErrNotMatched` whatever the other methods hold. -/
theorem buildIndex_method_isolation (batches : List (List DittoMock)) (group : Rules)
    (h : buildIndex batches emptyRules = some group) :
    (∀ k bucket m, group k = some bucket → m ∈ bucket →
      m ∈ batches.flatten ∧ ∃ req, m.Request = some req ∧ req.Method = k) ∧
    (∀ (L : Lib) (path method : GoString) (json : Bytes) (r : MatchResult)
      (resp : DittoResponse),
      (⟨group, path⟩ : RequestMatcher).Match L method json = some r →
      r.response = some resp →
      ∃ m ∈ batches.flatten, (∃ req, m.Request = some req ∧ req.Method = method) ∧
        m.Response = resp ∧
        RequestMatcher.matches L json m.Request = some (true, none)) ∧
    (∀ (L : Lib) (path method : GoString) (json : Bytes),
      (∀ m ∈ batches.flatten, ∀ req, m.Request = some req → req.Method ≠ method) →
      (⟨group, path⟩ : RequestMatcher).Match L method json
        = some ⟨none, some .ErrNotMatched, []⟩) := by
  have hinv : Isolated batches.flatten group := by
    have h0 : Isolated [] emptyRules := by
      intro k bucket m hk
      simp [emptyRules] at hk
    simpa using buildIndex_isolated batches [] emptyRules group h0 h
  refine ⟨hinv, ?_, ?_⟩
  · intro L path method json r resp hr hresp
    cases hb : group method with
    | none =>
      simp only [RequestMatcher.Match, hb, Option.some.injEq] at hr
      subst hr
      cases hresp
    | some mocks =>
      simp only [RequestMatcher.Match, hb] at hr
      obtain ⟨m, hmem, h1, h2⟩ := matchLoop_response_mem L json mocks [] r resp hr hresp
      obtain ⟨hs, hreq⟩ := hinv method mocks m hb hmem
      exact ⟨m, hs, hreq, h1, h2⟩
  · intro L path method json hnone
    cases hb : group method with
    | none => simp [RequestMatcher.Match, hb]
    | some mocks =>
      cases mocks with
      | nil => simp [RequestMatcher.Match, hb, matchLoop]
      | cons m rest =>
        obtain ⟨hs, req, hreq, hk⟩ := hinv method (m :: rest) m hb (List.mem_cons_self _ _)
        exact absurd hk (hnone m hs req hreq)

/-- An instance of `buildIndex_method_isolation`: the index built from
`demoBatches`. -/
theorem buildIndex_method_isolation_witness :
    (∀ k bucket m, demoIndex k = some bucket → m ∈ bucket →
      m ∈ demoBatches.flatten ∧ ∃ req, m.Request = some req ∧ req.Method = k) ∧
    (∀ (L : Lib) (path method : GoString) (json : Bytes) (r : MatchResult)
      (resp : DittoResponse),
      (⟨demoIndex, path⟩ : RequestMatcher).Match L method json = some r →
      r.response = some resp →
      ∃ m ∈ demoBatches.flatten, (∃ req, m.Request = some req ∧ req.Method = method) ∧
        m.Response = resp ∧
        RequestMatcher.matches L json m.Request = some (true, none)) ∧
    (∀ (L : Lib) (path method : GoString) (json : Bytes),
      (∀ m ∈ demoBatches.flatten, ∀ req, m.Request = some req → req.Method ≠ method) →
      (⟨demoIndex, path⟩ : RequestMatcher).Match L method json
        = some ⟨none, some .ErrNotMatched, []⟩) :=
  buildIndex_method_isolation demoBatches demoIndex rfl

/-- C9: partial mode is an existence check. When the query executes without
error, a pattern with `partial` set gives no error, and a positive verdict
exactly when the query result is non-empty. -/
theorem jsonPathMatcher_partial (L : Lib) (json : Bytes) (pattern : JSONPathWrapper)
    (val : Bytes) (hp : pattern.Partial = true)
    (hg : L.jsonsliceGet json pattern.Expression = .ok val) :
    (jsonPathMatcher L json pattern).2 = none ∧
    ((jsonPathMatcher L json pattern).1 = true ↔ val ≠ []) := by
  unfold jsonPathMatcher
  simp only [hg, hp, if_true]
  cases val with
  | nil => simp
  | cons c rest => simp

/-- An instance of `jsonPathMatcher_partial`: the query `$.token` on the
payload `{"token":"bearer"}`. -/
theorem jsonPathMatcher_partial_witness :
    (jsonPathMatcher goLib tokenBearer partialToken).2 = none ∧
    ((jsonPathMatcher goLib tokenBearer partialToken).1 = true ↔
      "\"bearer\"".data ≠ []) :=
  jsonPathMatcher_partial goLib tokenBearer partialToken "\"bearer\"".data rfl rfl

theorem Char_eq_of_toNat (a b : Char) (h : a.toNat = b.toNat) : a = b := by
  have := congrArg Char.ofNat h
  simpa using this

/-- The letter test of the ASCII path of `strings.EqualFold` holds exactly
when the two bytes have the same lower-case form. -/
theorem foldCond_iff (a b : Char) (hne : ¬ b = a) :
    (('A'.toNat ≤ (if b.toNat < a.toNat then b else a).toNat ∧
      (if b.toNat < a.toNat then b else a).toNat ≤ 'Z'.toNat ∧
      (if b.toNat < a.toNat then a else b).toNat
        = (if b.toNat < a.toNat then b else a).toNat + 32) ↔
     lowerCode a.toNat = lowerCode b.toNat) := by
  have hA : 'A'.toNat = 65 := by decide
  have hZ : 'Z'.toNat = 90 := by decide
  have hn : a.toNat ≠ b.toNat := fun h => hne (Char_eq_of_toNat a b h).symm
  rw [hA, hZ]
  unfold lowerCode
  split_ifs <;> omega

/-- On ASCII strings `strings.EqualFold` is equality ignoring case. -/
theorem stringsEqualFold_ascii (L : Lib) (s : GoString) :
    ∀ t : GoString, isASCII s → isASCII t →
    stringsEqualFold L s t = equalIgnoringCase s t := by
  induction s with
  | nil =>
    intro t _ _
    cases t <;> simp [stringsEqualFold, equalIgnoringCase]
  | cons a s ih =>
    intro t hs ht
    cases t with
    | nil => simp [stringsEqualFold, equalIgnoringCase]
    | cons b t =>
      have ha : a.toNat < 0x80 := hs a (List.mem_cons_self _ _)
      have hb : b.toNat < 0x80 := ht b (List.mem_cons_self _ _)
      have ih' := ih t (fun c hc => hs c (List.mem_cons_of_mem _ hc))
        (fun c hc => ht c (List.mem_cons_of_mem _ hc))
      have hnon : ¬ (0x80 ≤ a.toNat ∨ 0x80 ≤ b.toNat) := by omega
      unfold stringsEqualFold
      simp only [hnon, if_false]
      by_cases hba : b = a
      · subst hba
        simp only [if_true, ih']
        simp [equalIgnoringCase]
      · simp only [hba, if_false]
        by_cases hl : lowerCode a.toNat = lowerCode b.toNat
        · rw [if_pos ((foldCond_iff a b hba).mpr hl), ih']
          simp [equalIgnoringCase, hl]
        · rw [if_neg (fun hc => hl ((foldCond_iff a b hba).mp hc))]
          simp [equalIgnoringCase, hl]

/-- C10 (counterexample): the query `$.token` on the payload
`{"token":null}` yields `null`, which is not a string, and in equals mode
`jsonPathMatcher` returns a negative verdict with no error. -/
theorem jsonPathMatcher_equals_null_no_error :
    goLib.jsonsliceGet tokenNull equalsBearer.Expression = .ok "null".data ∧
    Json.parse "null".data = .ok .null ∧
    jsonPathMatcher goLib tokenNull equalsBearer = (false, none) :=
  ⟨rfl, rfl, by decide⟩

/-! ## Properties of the model of `encoding/json` -/

namespace Json

theorem strLt_irrefl (a : GoString) : strLt a a = false := by
  induction a with
  | nil => rfl
  | cons c s ih => simp [strLt, ih]

theorem strLt_asymm (a : GoString) : ∀ b, strLt a b = true → strLt b a = false := by
  induction a with
  | nil => intro b h; cases b <;> simp_all [strLt]
  | cons c s ih =>
    intro b h
    cases b with
    | nil => simp [strLt] at h
    | cons d t =>
      simp only [strLt] at h ⊢
      by_cases h1 : c.toNat < d.toNat
      · have h2 : ¬ d.toNat < c.toNat := by omega
        simp [h1, h2]
      · by_cases h2 : d.toNat < c.toNat
        · simp [h1, h2] at h
        · simp only [h1, h2, if_false] at h ⊢
          exact ih t h

theorem strLt_trans (a : GoString) : ∀ b c, strLt a b = true → strLt b c = true →
    strLt a c = true := by
  induction a with
  | nil =>
    intro b c h1 h2
    cases b with
    | nil => simp [strLt] at h1
    | cons d t => cases c <;> simp_all [strLt]
  | cons x s ih =>
    intro b c h1 h2
    cases b with
    | nil => simp [strLt] at h1
    | cons y t =>
      cases c with
      | nil => simp [strLt] at h2
      | cons z u =>
        simp only [strLt] at h1 h2 ⊢
        by_cases hxy : x.toNat < y.toNat
        · by_cases hyz : y.toNat < z.toNat
          · have : x.toNat < z.toNat := by omega
            simp [this]
          · by_cases hzy : z.toNat < y.toNat
            · simp [hyz, hzy] at h2
            · have : x.toNat < z.toNat := by omega
              simp [this]
        · by_cases hyx : y.toNat < x.toNat
          · simp [hxy, hyx] at h1
          · simp only [hxy, hyx, if_false] at h1
            by_cases hyz : y.toNat < z.toNat
            · have : x.toNat < z.toNat := by omega
              simp [this]
            · by_cases hzy : z.toNat < y.toNat
              · simp [hyz, hzy] at h2
              · simp only [hyz, hzy, if_false] at h2
                have h3 : ¬ x.toNat < z.toNat := by omega
                have h4 : ¬ z.toNat < x.toNat := by omega
                simp only [h3, h4, if_false]
                exact ih t u h1 h2

theorem strLt_total (a : GoString) : ∀ b, a = b ∨ strLt a b = true ∨ strLt b a = true := by
  induction a with
  | nil => intro b; cases b <;> simp [strLt]
  | cons x s ih =>
    intro b
    cases b with
    | nil => simp [strLt]
    | cons y t =>
      simp only [strLt]
      by_cases hxy : x.toNat < y.toNat
      · simp [hxy]
      · by_cases hyx : y.toNat < x.toNat
        · simp [hyx]
        · have hxy' : x = y := Char_eq_of_toNat x y (by omega)
          subst hxy'
          simp only [hxy, if_false]
          rcases ih t with h | h | h
          · left; rw [h]
          · right; left; exact h
          · right; right; exact h

/-- Two assignments to different keys commute. -/
theorem mapInsert_comm (k k' : GoString) (v v' : JValue) (hk : k ≠ k') :
    ∀ m, mapInsert k v (mapInsert k' v' m) = mapInsert k' v' (mapInsert k v m) := by
  have hk' : k' ≠ k := fun h => hk h.symm
  intro m
  induction m with
  | nil =>
    simp only [mapInsert, hk, hk', if_false]
    rcases strLt_total k k' with h | h | h
    · exact absurd h hk
    · simp [h, strLt_asymm k k' h]
    · simp [h, strLt_asymm k' k h]
  | cons e rest ih =>
    obtain ⟨k1, v1⟩ := e
    rcases strLt_total k k1 with h1 | h1 | h1 <;> rcases strLt_total k' k1 with h2 | h2 | h2
    · exact absurd (h1.trans h2.symm) hk
    · subst h1
      simp [mapInsert, hk, hk', h2, strLt_asymm k' k h2]
    · subst h1
      have h3 := strLt_asymm k k' h2
      have hne : ¬ k' = k := hk'
      simp [mapInsert, hk, hk', h2, h3]
    · subst h2
      have h3 := strLt_asymm k k' h1
      simp [mapInsert, hk, hk', h1, h3]
    · have n1 : k ≠ k1 := fun h => by rw [h, strLt_irrefl] at h1; cases h1
      have n2 : k' ≠ k1 := fun h => by rw [h, strLt_irrefl] at h2; cases h2
      rcases strLt_total k k' with h | h | h
      · exact absurd h hk
      · simp [mapInsert, hk, hk', h1, h2, n1, n2, h, strLt_asymm k k' h]
      · simp [mapInsert, hk, hk', h1, h2, n1, n2, h, strLt_asymm k' k h]
    · have n1 : k ≠ k1 := fun h => by rw [h, strLt_irrefl] at h1; cases h1
      have n2 : k' ≠ k1 := fun h => by rw [h, strLt_irrefl] at h2; cases h2
      have h3 := strLt_asymm k1 k' h2
      have h4 := strLt_trans k k1 k' h1 h2
      have h5 := strLt_asymm k k' h4
      simp [mapInsert, hk, hk', h1, h2, n1, n2, h3, h4, h5]
    · subst h2
      have h3 := strLt_asymm k' k h1
      simp [mapInsert, hk, hk', h1, h3]
    · have n1 : k ≠ k1 := fun h => by rw [h, strLt_irrefl] at h1; cases h1
      have n2 : k' ≠ k1 := fun h => by rw [h, strLt_irrefl] at h2; cases h2
      have h3 := strLt_asymm k1 k h1
      have h4 := strLt_trans k' k1 k h2 h1
      have h5 := strLt_asymm k' k h4
      simp [mapInsert, hk, hk', h1, h2, n1, n2, h3, h4, h5]
    · have n1 : k ≠ k1 := fun h => by rw [h, strLt_irrefl] at h1; cases h1
      have n2 : k' ≠ k1 := fun h => by rw [h, strLt_irrefl] at h2; cases h2
      have h3 := strLt_asymm k1 k h1
      have h4 := strLt_asymm k1 k' h2
      simp [mapInsert, hk, hk', h1, h2, n1, n2, h3, h4, ih]

theorem decodeMembers_cons_ok (k : GoString) (x : Doc) (ms : List (GoString × Doc))
    (m r : List (GoString × JValue)) :
    decodeMembers ((k, x) :: ms) m = .ok r ↔
      ∃ v, decode x = .ok v ∧ decodeMembers ms (mapInsert k v m) = .ok r := by
  rw [decodeMembers]
  cases h : decode x with
  | error e => simp
  | ok v => simp

/-- Members with pairwise different keys decode to the same map in every order. -/
theorem decodeMembers_perm {ms ms' : List (GoString × Doc)} (hp : ms.Perm ms') :
    (ms.map Prod.fst).Nodup → ∀ m r, decodeMembers ms m = .ok r →
      decodeMembers ms' m = .ok r := by
  induction hp with
  | nil => intro _ m r h; exact h
  | cons x _ ih =>
    intro hnd m r h
    obtain ⟨k, d⟩ := x
    rw [decodeMembers_cons_ok] at h ⊢
    obtain ⟨v, hv, hr⟩ := h
    exact ⟨v, hv, ih (List.nodup_cons.mp hnd).2 _ _ hr⟩
  | swap x y l =>
    intro hnd m r h
    obtain ⟨k, d⟩ := x
    obtain ⟨k', d'⟩ := y
    rw [decodeMembers_cons_ok] at h
    obtain ⟨v', hv', h⟩ := h
    rw [decodeMembers_cons_ok] at h
    obtain ⟨v, hv, h⟩ := h
    rw [decodeMembers_cons_ok]
    refine ⟨v, hv, ?_⟩
    rw [decodeMembers_cons_ok]
    refine ⟨v', hv', ?_⟩
    have hne : k' ≠ k := by
      intro hc
      have h1 := (List.nodup_cons.mp hnd).1
      apply h1
      rw [hc]
      exact List.mem_cons_self _ _
    rw [mapInsert_comm k' k v' v hne]
    exact h
  | trans h1 _ ih1 ih2 =>
    intro hnd m r h
    have hnd2 := (List.Perm.nodup_iff (h1.map Prod.fst)).mp hnd
    exact ih2 hnd2 m r (ih1 hnd m r h)

/-- Members with the same keys and values that decode alike decode to the same map. -/
theorem decodeMembers_congr (ms : List (GoString × Doc)) :
    ∀ ms', List.Forall₂ (fun a b => a.1 = b.1 ∧ decode a.2 = decode b.2) ms ms' →
    ∀ m, decodeMembers ms m = decodeMembers ms' m := by
  induction ms with
  | nil => intro ms' h m; cases h; rfl
  | cons a l ih =>
    intro ms' h m
    cases h with
    | cons hab hl =>
      rename_i b l'
      obtain ⟨k, d⟩ := a
      obtain ⟨k', d'⟩ := b
      obtain ⟨hk, hd⟩ := hab
      simp only at hk hd
      subst hk
      rw [decodeMembers, decodeMembers, hd]
      cases decode d' with
      | error e => rfl
      | ok v => exact ih l' hl _

/-- Elements that decode alike decode to the same slice. -/
theorem decodeElems_congr (xs : List Doc) :
    ∀ ys, List.Forall₂ (fun a b => decode a = decode b) xs ys →
    decodeElems xs = decodeElems ys := by
  induction xs with
  | nil => intro ys h; cases h; rfl
  | cons a l ih =>
    intro ys h
    cases h with
    | cons hab hl =>
      rw [decodeElems, decodeElems, hab, ih _ hl]

theorem spanDigits_spec (s : List Char) :
    s = (spanDigits s).1 ++ (spanDigits s).2 ∧ ∀ c ∈ (spanDigits s).1, numChar c = true := by
  induction s with
  | nil => simp [spanDigits]
  | cons c s ih =>
    unfold spanDigits
    by_cases h : isDigit c = true
    · simp only [h, if_true, List.cons_append, List.mem_cons]
      refine ⟨by rw [← ih.1], ?_⟩
      rintro x (rfl | hx)
      · simp [numChar, h]
      · exact ih.2 x hx
    · simp [h]

theorem scanInt_spec (s ip rest : List Char) (h : scanInt s = some (ip, rest)) :
    s = ip ++ rest ∧ ip ≠ [] ∧ ∀ c ∈ ip, numChar c = true := by
  cases s with
  | nil => simp [scanInt] at h
  | cons c t =>
    unfold scanInt at h
    by_cases h0 : c = '0'
    · simp only [h0, if_true, Option.some.injEq, Prod.mk.injEq] at h
      obtain ⟨rfl, rfl⟩ := h
      subst h0
      refine ⟨rfl, by simp, ?_⟩
      intro x hx
      simp only [List.mem_singleton] at hx
      subst hx
      decide
    · by_cases hd : isDigit c = true
      · simp only [h0, hd, if_true, if_false, Option.some.injEq] at h
        have hs := spanDigits_spec (c :: t)
        rw [h] at hs
        refine ⟨hs.1, ?_, hs.2⟩
        intro hc
        have : spanDigits (c :: t) = (c :: (spanDigits t).1, (spanDigits t).2) := by
          simp [spanDigits, hd]
        rw [this] at h
        simp only [Prod.mk.injEq] at h
        rw [hc] at h
        exact absurd h.1 (by simp)
      · simp [h0, hd] at h

theorem scanFraction_spec (s fp rest : List Char) (h : scanFraction s = some (fp, rest)) :
    ∃ pre, s = pre ++ rest ∧ ∀ c ∈ pre, numChar c = true := by
  cases s with
  | nil =>
    simp only [scanFraction, Option.some.injEq, Prod.mk.injEq] at h
    obtain ⟨_, rfl⟩ := h
    exact ⟨[], rfl, by simp⟩
  | cons c t =>
    unfold scanFraction at h
    by_cases hc : c = '.'
    · simp only [hc, if_true] at h
      have hs := spanDigits_spec t
      rcases hsp : spanDigits t with ⟨ds, r1⟩
      rw [hsp] at h hs
      cases ds with
      | nil => simp at h
      | cons d ds =>
        simp only [Option.some.injEq, Prod.mk.injEq] at h
        obtain ⟨_, rfl⟩ := h
        refine ⟨'.' :: d :: ds, by rw [hc, hs.1]; rfl, ?_⟩
        intro x hx
        rcases List.mem_cons.mp hx with rfl | hx
        · decide
        · exact hs.2 x hx
    · simp only [hc, if_false, Option.some.injEq, Prod.mk.injEq] at h
      obtain ⟨_, rfl⟩ := h
      exact ⟨[], rfl, by simp⟩

theorem scanSign_spec (s : List Char) :
    ∃ pre, s = pre ++ (scanSign s).2 ∧ ∀ c ∈ pre, numChar c = true := by
  cases s with
  | nil => exact ⟨[], rfl, by simp⟩
  | cons c t =>
    unfold scanSign
    by_cases h1 : c = '-'
    · subst h1
      exact ⟨['-'], by simp, by simp; decide⟩
    · by_cases h2 : c = '+'
      · subst h2
        exact ⟨['+'], by simp, by simp; decide⟩
      · exact ⟨[], by simp [h1, h2], by simp⟩

theorem scanExponent_spec (s : List Char) (e : Int) (rest : List Char)
    (h : scanExponent s = some (e, rest)) :
    ∃ pre, s = pre ++ rest ∧ ∀ c ∈ pre, numChar c = true := by
  cases s with
  | nil =>
    simp only [scanExponent, Option.some.injEq, Prod.mk.injEq] at h
    obtain ⟨_, rfl⟩ := h
    exact ⟨[], rfl, by simp⟩
  | cons c t =>
    unfold scanExponent at h
    by_cases hc : c = 'e' ∨ c = 'E'
    · simp only [hc, if_true] at h
      obtain ⟨sg, hsg1, hsg2⟩ := scanSign_spec t
      have hs := spanDigits_spec (scanSign t).2
      rcases hsp : spanDigits (scanSign t).2 with ⟨ds, r1⟩
      rw [hsp] at h hs
      cases ds with
      | nil => simp at h
      | cons d ds =>
        simp only [Option.some.injEq, Prod.mk.injEq] at h
        obtain ⟨_, rfl⟩ := h
        refine ⟨c :: (sg ++ d :: ds), ?_, ?_⟩
        · have hs1 : (scanSign t).2 = d :: ds ++ r1 := hs.1
          rw [hs1] at hsg1
          simp only [List.cons_append, List.append_assoc]
          rw [hsg1]
          simp
        · intro x hx
          rcases List.mem_cons.mp hx with rfl | hx
          · rcases hc with rfl | rfl <;> decide
          · rcases List.mem_append.mp hx with hx | hx
            · exact hsg2 x hx
            · exact hs.2 x hx
    · simp only [hc, if_false, Option.some.injEq, Prod.mk.injEq] at h
      obtain ⟨_, rfl⟩ := h
      exact ⟨[], rfl, by simp⟩

theorem scanMinus_spec (s : List Char) :
    ∃ pre, s = pre ++ (scanMinus s).2 ∧ ∀ c ∈ pre, numChar c = true := by
  cases s with
  | nil => exact ⟨[], rfl, by simp⟩
  | cons c t =>
    unfold scanMinus
    by_cases h1 : c = '-'
    · subst h1
      exact ⟨['-'], by simp, by simp; decide⟩
    · exact ⟨[], by simp [h1], by simp⟩

/-- A number literal is written with the characters of numbers only. -/
theorem scanNumber_spec (s : List Char) (lit : NumLit) (rest : List Char)
    (h : scanNumber s = some (lit, rest)) :
    ∃ pre, s = pre ++ rest ∧ pre ≠ [] ∧ ∀ c ∈ pre, numChar c = true := by
  unfold scanNumber at h
  rcases hi : scanInt (scanMinus s).2 with _ | ⟨ip, s2⟩
  · simp [hi] at h
  · simp only [hi] at h
    rcases hf : scanFraction s2 with _ | ⟨fp, s3⟩
    · simp [hf] at h
    · simp only [hf] at h
      rcases he : scanExponent s3 with _ | ⟨e, s4⟩
      · simp [he] at h
      · simp only [he, Option.some.injEq, Prod.mk.injEq] at h
        obtain ⟨_, rfl⟩ := h
        obtain ⟨pm, h0, hm⟩ := scanMinus_spec s
        obtain ⟨h1, h2, h3⟩ := scanInt_spec _ ip s2 hi
        obtain ⟨pf, h4, h5⟩ := scanFraction_spec s2 fp s3 hf
        obtain ⟨pe, h6, h7⟩ := scanExponent_spec s3 e s4 he
        refine ⟨pm ++ ip ++ pf ++ pe, ?_, ?_, ?_⟩
        · rw [h1, h4, h6] at h0
          simpa using h0
        · cases ip with
          | nil => exact absurd rfl h2
          | cons c t => simp
        · intro c hc
          simp only [List.mem_append] at hc
          rcases hc with ((hc | hc) | hc) | hc
          · exact hm c hc
          · exact h3 c hc
          · exact h5 c hc
          · exact h7 c hc

theorem parsesTo_spec (t : List Char) (f : Float64) (h : parsesTo t f = true) :
    ∃ lit, scanNumber t = some (lit, []) ∧ lit.toFloat = some f := by
  unfold parsesTo at h
  rcases hs : scanNumber t with _ | ⟨lit, rest⟩
  · simp [hs] at h
  · cases rest with
    | nil =>
      simp only [hs, decide_eq_true_eq] at h
      exact ⟨lit, rfl, h⟩
    | cons c r => simp [hs] at h

theorem shortest_parsesTo (f : Float64) (n d : Nat) (k : Int) (fuel : Nat) :
    ∀ (p : Nat) (t : List Char), shortest f n d k fuel p = some t → parsesTo t f = true := by
  induction fuel with
  | zero => intro p t h; simp [shortest] at h
  | succ fuel ih =>
    intro p t h
    unfold shortest at h
    rcases hf : ((candidates n d (k - p + 1)).map
        (renderDecimal f.neg n d · (k - p + 1))).find? (parsesTo · f) with _ | text
    · rw [hf] at h
      exact ih _ _ h
    · rw [hf] at h
      simp only [Option.some.injEq] at h
      subst h
      have := List.find?_some hf
      exact this

/-- The text `json.Marshal` writes for a number parses back to the number. -/
theorem formatFloat_parsesTo (f : Float64) (t : List Char) (h : formatFloat f = some t) :
    parsesTo t f = true := by
  unfold formatFloat at h
  by_cases hm : f.mant = 0
  · simp only [hm, if_true] at h
    by_cases hp : parsesTo (if f.neg = true then "-0".data else "0".data) f = true
    · simp only [hp, if_true, Option.some.injEq] at h
      rw [← h]; exact hp
    · simp [hp] at h
  · simp only [hm, if_false] at h
    exact shortest_parsesTo _ _ _ _ _ _ _ h

/-- Two numbers written alike are the same number. -/
theorem formatFloat_inj (f g : Float64) (t : List Char) (hf : formatFloat f = some t)
    (hg : formatFloat g = some t) : f = g := by
  obtain ⟨lit, h1, h2⟩ := parsesTo_spec t f (formatFloat_parsesTo f t hf)
  obtain ⟨lit', h1', h2'⟩ := parsesTo_spec t g (formatFloat_parsesTo g t hg)
  rw [h1] at h1'
  simp only [Option.some.injEq, Prod.mk.injEq, and_true] at h1'
  subst h1'
  rw [h2] at h2'
  exact Option.some.inj h2'

/-- A number is written with the characters of numbers, at least one. -/
theorem formatFloat_chars (f : Float64) (t : List Char) (hf : formatFloat f = some t) :
    t ≠ [] ∧ ∀ c ∈ t, numChar c = true := by
  obtain ⟨lit, h1, _⟩ := parsesTo_spec t f (formatFloat_parsesTo f t hf)
  obtain ⟨pre, h3, h4, h5⟩ := scanNumber_spec t lit [] h1
  simp only [List.append_nil] at h3
  subst h3
  exact ⟨h4, h5⟩

/-- The part of the input in front of the first character that is not written in numbers
is determined by the input. -/
theorem numChars_append_inj (a : List Char) :
    ∀ (b r r' : List Char), (∀ c ∈ a, numChar c = true) → (∀ c ∈ b, numChar c = true) →
    (∀ c rest, r = c :: rest → numChar c = false) →
    (∀ c rest, r' = c :: rest → numChar c = false) →
    a ++ r = b ++ r' → a = b ∧ r = r' := by
  induction a with
  | nil =>
    intro b r r' _ hb hr _ h
    cases b with
    | nil => exact ⟨rfl, by simpa using h⟩
    | cons c b =>
      simp only [List.nil_append, List.cons_append] at h
      have := hr c _ h
      rw [hb c (List.mem_cons_self _ _)] at this
      cases this
  | cons x a ih =>
    intro b r r' ha hb hr hr' h
    cases b with
    | nil =>
      simp only [List.nil_append, List.cons_append] at h
      have := hr' x _ h.symm
      rw [ha x (List.mem_cons_self _ _)] at this
      cases this
    | cons y b =>
      simp only [List.cons_append, List.cons.injEq] at h
      obtain ⟨rfl, h⟩ := h
      obtain ⟨h1, h2⟩ := ih b r r' (fun c hc => ha c (List.mem_cons_of_mem _ hc))
        (fun c hc => hb c (List.mem_cons_of_mem _ hc)) hr hr' h
      exact ⟨by rw [h1], h2⟩

theorem hexVal_hexDigit : ∀ i < 16, hexVal (hexDigit i) = some i := by
  decide

/-- One character written by `json.Marshal` is read back by the scanner. -/
theorem scanString_escapeChar (c : Char) (fuel : Nat) (Y : List Char) :
    scanString (fuel + 1) (escapeChar c ++ Y)
      = match scanString fuel Y with
        | none => none
        | some (s, rest) => some (c :: s, rest) := by
  have hdec : ∀ nx, ¬ (0xd800 ≤ c.toNat ∧ c.toNat < 0xe000) →
      decodeUnit c.toNat nx = (c, false) := by
    intro nx h
    simp [decodeUnit, h]
  have h0 : hexVal '0' = some 0 := by decide
  have h2' : hexVal '2' = some 2 := by decide
  unfold escapeChar
  by_cases h1 : c = '"' ∨ c = '\\'
  · rw [if_pos h1]
    rcases h1 with rfl | rfl
    · cases hs : scanString fuel Y <;> simp [scanString, simpleEscape, hs]
    · cases hs : scanString fuel Y <;> simp [scanString, simpleEscape, hs]
  rw [if_neg h1]
  have hq : c ≠ '"' := fun h => h1 (Or.inl h)
  have hb : c ≠ '\\' := fun h => h1 (Or.inr h)
  by_cases h2 : c = '\n'
  · rw [if_pos h2]
    subst h2
    cases hs : scanString fuel Y <;> simp [scanString, simpleEscape, hs]
  rw [if_neg h2]
  by_cases h3 : c = '\r'
  · rw [if_pos h3]
    subst h3
    cases hs : scanString fuel Y <;> simp [scanString, simpleEscape, hs]
  rw [if_neg h3]
  by_cases h4 : c = '\t'
  · rw [if_pos h4]
    subst h4
    cases hs : scanString fuel Y <;> simp [scanString, simpleEscape, hs]
  rw [if_neg h4]
  by_cases h5 : c.toNat < 0x20 ∨ c = '<' ∨ c = '>' ∨ c = '&'
  · rw [if_pos h5]
    have hlt : c.toNat < 64 := by
      rcases h5 with h | rfl | rfl | rfl
      · omega
      · decide
      · decide
      · decide
    have hd1 := hexVal_hexDigit (c.toNat / 16) (by omega)
    have hd2 := hexVal_hexDigit (c.toNat % 16) (by omega)
    have hrr : getu4 ('\\' :: 'u' :: '0' :: '0' :: hexDigit (c.toNat / 16) ::
        hexDigit (c.toNat % 16) :: Y) = some c.toNat := by
      simp only [getu4, hex4, h0, hd1, hd2, and_self, if_true, Option.some.injEq]
      omega
    have hd := hdec (getu4 Y) (by omega)
    cases hs : scanString fuel Y <;>
      simp [scanString, hrr, hd, hs]
  rw [if_neg h5]
  by_cases h6 : c.toNat = 0x2028 ∨ c.toNat = 0x2029
  · rw [if_pos h6]
    have hd2 := hexVal_hexDigit (c.toNat % 16) (by omega)
    have hrr : getu4 ('\\' :: 'u' :: '2' :: '0' :: '2' ::
        hexDigit (c.toNat % 16) :: Y) = some c.toNat := by
      simp only [getu4, hex4, h0, h2', hd2, and_self, if_true, Option.some.injEq]
      omega
    have hd := hdec (getu4 Y) (by omega)
    cases hs : scanString fuel Y <;>
      simp [scanString, hrr, hd, hs]
  rw [if_neg h6]
  have hge : ¬ c.toNat < 0x20 := fun h => h5 (Or.inl h)
  cases hs : scanString fuel Y <;>
    simp [scanString, hb, hq, hge, hs]

/-- A string written by `json.Marshal` is read back by the scanner. -/
theorem scanString_quote (s : GoString) :
    ∀ (fuel : Nat) (Y : List Char), s.length + 1 ≤ fuel →
    scanString fuel (s.flatMap escapeChar ++ '"' :: Y) = some (s, Y) := by
  induction s with
  | nil =>
    intro fuel Y h
    cases fuel with
    | zero => omega
    | succ fuel => simp [scanString]
  | cons c s ih =>
    intro fuel Y h
    cases fuel with
    | zero => omega
    | succ fuel =>
      simp only [List.flatMap_cons, List.append_assoc]
      rw [scanString_escapeChar, ih fuel Y (by simpa using h)]

/-- Two strings written alike, whatever follows them, are the same string. -/
theorem quote_inj (s s' : GoString) (r r' : List Char) (h : quote s ++ r = quote s' ++ r') :
    s = s' ∧ r = r' := by
  unfold quote at h
  simp only [List.cons_append, List.append_assoc, List.singleton_append, List.cons.injEq,
    true_and, List.nil_append] at h
  have h1 := scanString_quote s (s.length + s'.length + 1) r (by omega)
  have h2 := scanString_quote s' (s.length + s'.length + 1) r' (by omega)
  rw [h, h2] at h1
  simp only [Option.some.injEq, Prod.mk.injEq] at h1
  exact ⟨h1.1.symm, h1.2.symm⟩

theorem encode_head (v : JValue) (a : List Char) (h : encode v = some a) :
    ∃ c rest, a = c :: rest ∧ headOf v c := by
  cases v with
  | null =>
    simp only [encode, Option.some.injEq] at h
    exact ⟨'n', _, h.symm, rfl⟩
  | bool b =>
    simp only [encode, Option.some.injEq] at h
    cases b
    · exact ⟨'f', _, h.symm, Or.inr rfl⟩
    · exact ⟨'t', _, h.symm, Or.inl rfl⟩
  | number f =>
    simp only [encode] at h
    obtain ⟨hne, hall⟩ := formatFloat_chars f a h
    cases a with
    | nil => exact absurd rfl hne
    | cons c rest => exact ⟨c, rest, rfl, hall c (List.mem_cons_self _ _)⟩
  | string s =>
    simp only [encode, Option.some.injEq] at h
    exact ⟨'"', _, h.symm, rfl⟩
  | array xs =>
    cases xs with
    | nil =>
      simp only [encode, Option.some.injEq] at h
      exact ⟨'[', _, h.symm, rfl⟩
    | cons x rest =>
      simp only [encode] at h
      cases h1 : encode x <;> cases h2 : encodeElems rest <;> simp [h1, h2] at h
      exact ⟨'[', _, h.symm, rfl⟩
  | object ms =>
    cases ms with
    | nil =>
      simp only [encode, Option.some.injEq] at h
      exact ⟨'{', _, h.symm, rfl⟩
    | cons m rest =>
      obtain ⟨k, x⟩ := m
      simp only [encode] at h
      cases h1 : encode x <;> cases h2 : encodeEntries rest <;> simp [h1, h2] at h
      exact ⟨'{', _, h.symm, rfl⟩

theorem encodeElems_closed (xs : List JValue) (a r : List Char)
    (h : encodeElems xs = some a) : Closed (a ++ r) := by
  cases xs with
  | nil =>
    simp only [encodeElems, Option.some.injEq] at h
    subst h
    intro c rest hc
    simp only [List.singleton_append, List.cons.injEq] at hc
    rw [← hc.1]; decide
  | cons x rest =>
    simp only [encodeElems] at h
    cases h1 : encode x <;> cases h2 : encodeElems rest <;> simp [h1, h2] at h
    subst h
    intro c rest hc
    simp only [List.cons_append, List.cons.injEq] at hc
    rw [← hc.1]; decide

theorem encodeEntries_closed (ms : List (GoString × JValue)) (a r : List Char)
    (h : encodeEntries ms = some a) : Closed (a ++ r) := by
  cases ms with
  | nil =>
    simp only [encodeEntries, Option.some.injEq] at h
    subst h
    intro c rest hc
    simp only [List.singleton_append, List.cons.injEq] at hc
    rw [← hc.1]; decide
  | cons m rest =>
    obtain ⟨k, x⟩ := m
    simp only [encodeEntries] at h
    cases h1 : encode x <;> cases h2 : encodeEntries rest <;> simp [h1, h2] at h
    subst h
    intro c rest hc
    simp only [List.cons_append, List.cons.injEq] at hc
    rw [← hc.1]; decide

/-- The first character of a written value tells its kind. -/
theorem headOf_kind (v : JValue) (c : Char) (hv : headOf v c) : charKind c = kind v := by
  cases v with
  | null => simp only [headOf] at hv; subst hv; rfl
  | bool b => simp only [headOf] at hv; rcases hv with rfl | rfl <;> rfl
  | string s => simp only [headOf] at hv; subst hv; rfl
  | array xs => simp only [headOf] at hv; subst hv; rfl
  | object ms => simp only [headOf] at hv; subst hv; rfl
  | number f =>
    simp only [headOf] at hv
    have n1 : c ≠ 'n' := by intro h; subst h; revert hv; decide
    have n2 : c ≠ 't' := by intro h; subst h; revert hv; decide
    have n3 : c ≠ 'f' := by intro h; subst h; revert hv; decide
    have n4 : c ≠ '"' := by intro h; subst h; revert hv; decide
    have n5 : c ≠ '[' := by intro h; subst h; revert hv; decide
    have n6 : c ≠ '{' := by intro h; subst h; revert hv; decide
    simp [charKind, kind, n1, n2, n3, n4, n5, n6]

/-- Values written with the same first character are of the same kind. -/
theorem encode_kind (v w : JValue) (a b r r' : List Char) (ha : encode v = some a)
    (hb : encode w = some b) (h : a ++ r = b ++ r') : kind v = kind w := by
  obtain ⟨c, ra, rfl, hc⟩ := encode_head v a ha
  obtain ⟨c', rb, rfl, hc'⟩ := encode_head w b hb
  simp only [List.cons_append, List.cons.injEq] at h
  rw [← headOf_kind v c hc, ← headOf_kind w c' hc', h.1]

theorem encode_array_cons (x : JValue) (rest : List JValue) (a : List Char)
    (h : encode (.array (x :: rest)) = some a) :
    ∃ ex er, encode x = some ex ∧ encodeElems rest = some er ∧ a = '[' :: (ex ++ er) := by
  simp only [encode] at h
  cases h1 : encode x <;> cases h2 : encodeElems rest <;> simp [h1, h2] at h
  exact ⟨_, _, rfl, rfl, h.symm⟩

theorem encodeElems_cons (x : JValue) (rest : List JValue) (a : List Char)
    (h : encodeElems (x :: rest) = some a) :
    ∃ ex er, encode x = some ex ∧ encodeElems rest = some er ∧ a = ',' :: (ex ++ er) := by
  simp only [encodeElems] at h
  cases h1 : encode x <;> cases h2 : encodeElems rest <;> simp [h1, h2] at h
  exact ⟨_, _, rfl, rfl, h.symm⟩

theorem encode_object_cons (k : GoString) (x : JValue) (rest : List (GoString × JValue))
    (a : List Char) (h : encode (.object ((k, x) :: rest)) = some a) :
    ∃ ex er, encode x = some ex ∧ encodeEntries rest = some er ∧
      a = '{' :: (quote k ++ ':' :: (ex ++ er)) := by
  simp only [encode] at h
  cases h1 : encode x <;> cases h2 : encodeEntries rest <;> simp [h1, h2] at h
  exact ⟨_, _, rfl, rfl, h.symm⟩

theorem encodeEntries_cons (k : GoString) (x : JValue) (rest : List (GoString × JValue))
    (a : List Char) (h : encodeEntries ((k, x) :: rest) = some a) :
    ∃ ex er, encode x = some ex ∧ encodeEntries rest = some er ∧
      a = ',' :: (quote k ++ ':' :: (ex ++ er)) := by
  simp only [encodeEntries] at h
  cases h1 : encode x <;> cases h2 : encodeEntries rest <;> simp [h1, h2] at h
  exact ⟨_, _, rfl, rfl, h.symm⟩

/-- A written value never starts with a closing bracket, a closing brace or a comma. -/
theorem encode_head_ne (v : JValue) (a r : List Char) (h : encode v = some a) (c : Char)
    (hc : c = ']' ∨ c = '}' ∨ c = ',') (Y : List Char) : a ++ r ≠ c :: Y := by
  obtain ⟨d, ra, rfl, hd⟩ := encode_head v a h
  intro heq
  simp only [List.cons_append, List.cons.injEq] at heq
  have hk := headOf_kind v d hd
  rw [heq.1] at hk
  have : charKind c = 2 := by rcases hc with rfl | rfl | rfl <;> rfl
  rw [this] at hk
  cases v with
  | number f =>
    simp only [headOf] at hd
    rw [heq.1] at hd
    rcases hc with rfl | rfl | rfl <;> revert hd <;> decide
  | null => simp [kind] at hk
  | bool b => simp [kind] at hk
  | string s => simp [kind] at hk
  | array xs => simp [kind] at hk
  | object ms => simp [kind] at hk

mutual
/-- Two values written alike, whatever follows them, are the same value. -/
theorem encode_inj : ∀ (v w : JValue) (a b r r' : List Char), encode v = some a →
    encode w = some b → a ++ r = b ++ r' → Closed r → Closed r' → v = w ∧ r = r'
  | .null, w, a, b, r, r', ha, hb, h, _, _ => by
    have hk := encode_kind _ w a b r r' ha hb h
    cases w <;> simp only [kind] at hk <;> try omega
    simp only [encode, Option.some.injEq] at ha hb
    subst ha hb
    exact ⟨rfl, List.append_cancel_left h⟩
  | .bool x, w, a, b, r, r', ha, hb, h, _, _ => by
    have hk := encode_kind _ w a b r r' ha hb h
    cases w <;> simp only [kind] at hk <;> try omega
    rename_i y
    simp only [encode, Option.some.injEq] at ha hb
    subst ha hb
    cases x <;> cases y
    · exact ⟨rfl, List.append_cancel_left h⟩
    · simp at h
    · simp at h
    · exact ⟨rfl, List.append_cancel_left h⟩
  | .number f, w, a, b, r, r', ha, hb, h, hr, hr' => by
    have hk := encode_kind _ w a b r r' ha hb h
    cases w <;> simp only [kind] at hk <;> try omega
    rename_i g
    simp only [encode] at ha hb
    obtain ⟨_, hca⟩ := formatFloat_chars f a ha
    obtain ⟨_, hcb⟩ := formatFloat_chars g b hb
    obtain ⟨hab, hrr⟩ := numChars_append_inj a b r r' hca hcb hr hr' h
    subst hab
    exact ⟨by rw [formatFloat_inj f g a ha hb], hrr⟩
  | .string s, w, a, b, r, r', ha, hb, h, _, _ => by
    have hk := encode_kind _ w a b r r' ha hb h
    cases w <;> simp only [kind] at hk <;> try omega
    rename_i t
    simp only [encode, Option.some.injEq] at ha hb
    subst ha hb
    obtain ⟨h1, h2⟩ := quote_inj s t r r' h
    exact ⟨by rw [h1], h2⟩
  | .array [], w, a, b, r, r', ha, hb, h, _, _ => by
    have hk := encode_kind _ w a b r r' ha hb h
    cases w <;> simp only [kind] at hk <;> try omega
    rename_i ys
    simp only [encode, Option.some.injEq] at ha
    subst ha
    cases ys with
    | nil =>
      simp only [encode, Option.some.injEq] at hb
      subst hb
      exact ⟨rfl, List.append_cancel_left h⟩
    | cons y ys =>
      obtain ⟨ey, er, h1, h2, rfl⟩ := encode_array_cons y ys b hb
      exfalso
      have h3 : ey ++ (er ++ r') = ']' :: r := by
        have : "[]".data ++ r = '[' :: (']' :: r) := rfl
        rw [this] at h
        simp only [List.cons_append, List.cons.injEq, true_and, List.append_assoc] at h
        exact h.symm
      exact encode_head_ne y ey _ h1 ']' (Or.inl rfl) _ h3
  | .array (x :: xs), w, a, b, r, r', ha, hb, h, hr, hr' => by
    have hk := encode_kind _ w a b r r' ha hb h
    cases w <;> simp only [kind] at hk <;> try omega
    rename_i ys
    obtain ⟨ex, er, h1, h2, rfl⟩ := encode_array_cons x xs a ha
    cases ys with
    | nil =>
      simp only [encode, Option.some.injEq] at hb
      subst hb
      exfalso
      have h3 : ex ++ (er ++ r) = ']' :: r' := by
        have : "[]".data ++ r' = '[' :: (']' :: r') := rfl
        rw [this] at h
        simp only [List.cons_append, List.cons.injEq, true_and, List.append_assoc] at h
        exact h
      exact encode_head_ne x ex _ h1 ']' (Or.inl rfl) _ h3
    | cons y ys =>
      obtain ⟨ey, er', h1', h2', rfl⟩ := encode_array_cons y ys b hb
      simp only [List.cons_append, List.cons.injEq, true_and, List.append_assoc] at h
      obtain ⟨hxy, hrest⟩ := encode_inj x y ex ey (er ++ r) (er' ++ r') h1 h1' h
        (encodeElems_closed xs er r h2) (encodeElems_closed ys er' r' h2')
      obtain ⟨hxs, hrr⟩ := encodeElems_inj xs ys er er' r r' h2 h2' hrest
      exact ⟨by rw [hxy, hxs], hrr⟩
  | .object [], w, a, b, r, r', ha, hb, h, _, _ => by
    have hk := encode_kind _ w a b r r' ha hb h
    cases w <;> simp only [kind] at hk <;> try omega
    rename_i ns
    simp only [encode, Option.some.injEq] at ha
    subst ha
    cases ns with
    | nil =>
      simp only [encode, Option.some.injEq] at hb
      subst hb
      exact ⟨rfl, List.append_cancel_left h⟩
    | cons n ns =>
      obtain ⟨k, y⟩ := n
      obtain ⟨ey, er, h1, h2, rfl⟩ := encode_object_cons k y ns b hb
      exfalso
      have : "{}".data ++ r = '{' :: ('}' :: r) := rfl
      rw [this] at h
      simp [quote] at h
  | .object ((k, x) :: ms), w, a, b, r, r', ha, hb, h, hr, hr' => by
    have hk := encode_kind _ w a b r r' ha hb h
    cases w <;> simp only [kind] at hk <;> try omega
    rename_i ns
    obtain ⟨ex, er, h1, h2, rfl⟩ := encode_object_cons k x ms a ha
    cases ns with
    | nil =>
      simp only [encode, Option.some.injEq] at hb
      subst hb
      exfalso
      have : "{}".data ++ r' = '{' :: ('}' :: r') := rfl
      rw [this] at h
      simp [quote] at h
    | cons n ns =>
      obtain ⟨k', y⟩ := n
      obtain ⟨ey, er', h1', h2', rfl⟩ := encode_object_cons k' y ns b hb
      simp only [List.cons_append, List.cons.injEq, true_and, List.append_assoc] at h
      obtain ⟨hkk, hrest⟩ := quote_inj k k' _ _ h
      simp only [List.cons.injEq, true_and] at hrest
      obtain ⟨hxy, hrest2⟩ := encode_inj x y ex ey (er ++ r) (er' ++ r') h1 h1' hrest
        (encodeEntries_closed ms er r h2) (encodeEntries_closed ns er' r' h2')
      obtain ⟨hms, hrr⟩ := encodeEntries_inj ms ns er er' r r' h2 h2' hrest2
      exact ⟨by rw [hkk, hxy, hms], hrr⟩
/-- Two tails of arrays written alike are the same. -/
theorem encodeElems_inj : ∀ (xs ys : List JValue) (a b r r' : List Char),
    encodeElems xs = some a → encodeElems ys = some b → a ++ r = b ++ r' → xs = ys ∧ r = r'
  | [], ys, a, b, r, r', ha, hb, h => by
    simp only [encodeElems, Option.some.injEq] at ha
    subst ha
    cases ys with
    | nil =>
      simp only [encodeElems, Option.some.injEq] at hb
      subst hb
      exact ⟨rfl, List.append_cancel_left h⟩
    | cons y ys =>
      obtain ⟨ey, er, _, _, rfl⟩ := encodeElems_cons y ys b hb
      simp at h
  | x :: xs, ys, a, b, r, r', ha, hb, h => by
    obtain ⟨ex, er, h1, h2, rfl⟩ := encodeElems_cons x xs a ha
    cases ys with
    | nil =>
      simp only [encodeElems, Option.some.injEq] at hb
      subst hb
      simp at h
    | cons y ys =>
      obtain ⟨ey, er', h1', h2', rfl⟩ := encodeElems_cons y ys b hb
      simp only [List.cons_append, List.cons.injEq, true_and, List.append_assoc] at h
      obtain ⟨hxy, hrest⟩ := encode_inj x y ex ey (er ++ r) (er' ++ r') h1 h1' h
        (encodeElems_closed xs er r h2) (encodeElems_closed ys er' r' h2')
      obtain ⟨hxs, hrr⟩ := encodeElems_inj xs ys er er' r r' h2 h2' hrest
      exact ⟨by rw [hxy, hxs], hrr⟩
/-- Two tails of maps written alike are the same. -/
theorem encodeEntries_inj : ∀ (ms ns : List (GoString × JValue)) (a b r r' : List Char),
    encodeEntries ms = some a → encodeEntries ns = some b → a ++ r = b ++ r' →
    ms = ns ∧ r = r'
  | [], ns, a, b, r, r', ha, hb, h => by
    simp only [encodeEntries, Option.some.injEq] at ha
    subst ha
    cases ns with
    | nil =>
      simp only [encodeEntries, Option.some.injEq] at hb
      subst hb
      exact ⟨rfl, List.append_cancel_left h⟩
    | cons n ns =>
      obtain ⟨k, y⟩ := n
      obtain ⟨ey, er, _, _, rfl⟩ := encodeEntries_cons k y ns b hb
      simp at h
  | (k, x) :: ms, ns, a, b, r, r', ha, hb, h => by
    obtain ⟨ex, er, h1, h2, rfl⟩ := encodeEntries_cons k x ms a ha
    cases ns with
    | nil =>
      simp only [encodeEntries, Option.some.injEq] at hb
      subst hb
      simp at h
    | cons n ns =>
      obtain ⟨k', y⟩ := n
      obtain ⟨ey, er', h1', h2', rfl⟩ := encodeEntries_cons k' y ns b hb
      simp only [List.cons_append, List.cons.injEq, true_and, List.append_assoc] at h
      obtain ⟨hkk, hrest⟩ := quote_inj k k' _ _ h
      simp only [List.cons.injEq, true_and] at hrest
      obtain ⟨hxy, hrest2⟩ := encode_inj x y ex ey (er ++ r) (er' ++ r') h1 h1' hrest
        (encodeEntries_closed ms er r h2) (encodeEntries_closed ns er' r' h2')
      obtain ⟨hms, hrr⟩ := encodeEntries_inj ms ns er er' r r' h2 h2' hrest2
      exact ⟨by rw [hkk, hxy, hms], hrr⟩
end

end Json

/-! ## Canonical comparison -/

/-- The canonical form of a document that decodes to a value `json.Marshal`
can write. -/
theorem canonicalJSON_of_value (base : Lib) (src x : Bytes) (v : Json.JValue)
    (hu : Json.unmarshal src = .ok v) (hm : Json.marshal v = .ok x) :
    canonicalJSON (encodingJSON base) src = (x, none) := by
  have h1 : (encodingJSON base).jsonUnmarshal src = .ok v := hu
  have h2 : (encodingJSON base).jsonMarshal v = .ok x := hm
  unfold canonicalJSON
  rw [h1]
  simp only
  rw [h2]

theorem marshal_ok_iff (v : Json.JValue) (x : Bytes) :
    Json.marshal v = .ok x ↔ Json.encode v = some x := by
  unfold Json.marshal
  cases h : Json.encode v <;> simp

/-- C7 (counterexample): the documents `9007199254740993` and
`9007199254740992` are parsed as two different numbers, and `jsonMatcher`
returns a positive verdict for them: both are stored as the same `float64`. -/
theorem jsonMatcher_equates_different_numbers :
    Json.parse "9007199254740993".data = .ok (.number ⟨false, 9007199254740993, 0⟩) ∧
    Json.parse "9007199254740992".data = .ok (.number ⟨false, 9007199254740992, 0⟩) ∧
    jsonMatcher goLib "9007199254740993".data "9007199254740992".data = (true, none) :=
  ⟨rfl, rfl, by decide⟩

/-! ## Path-query modes and request patterns -/

theorem startsWith_iff (s : GoString) : ∀ p : GoString, startsWith s p = true ↔ p <+: s := by
  induction s with
  | nil =>
    intro p
    cases p with
    | nil => simp [startsWith]
    | cons d p => simp [startsWith]
  | cons c s ih =>
    intro p
    cases p with
    | nil => simp [startsWith]
    | cons d p =>
      simp only [startsWith, Bool.and_eq_true, beq_iff_eq, ih, List.cons_prefix_cons]
      constructor
      · rintro ⟨h1, h2⟩; exact ⟨h1.symm, h2⟩
      · rintro ⟨h1, h2⟩; exact ⟨h1.symm, h2⟩

/-- The function `strings.Contains` holds exactly when the second string is a
run of consecutive bytes of the first. -/
theorem stringsContains_iff (s : GoString) :
    ∀ substr : GoString, stringsContains s substr = true ↔ substr <:+: s := by
  induction s with
  | nil =>
    intro substr
    rw [stringsContains, startsWith_iff, List.infix_nil, List.prefix_nil]
  | cons c s ih =>
    intro substr
    rw [stringsContains, Bool.or_eq_true, startsWith_iff, ih, List.infix_cons_iff]

/-- C11: contains mode is a substring test on the raw result text. For a
pattern in contains mode (`partial` unset, no `equals` target, target `t` not
empty) whose query yields a non-empty result, `jsonPathMatcher` returns no
error, and a positive verdict exactly when `t` is a run of consecutive bytes
of the raw result; the target `err` is found in the raw value
`"server error"` and not in `"ok"`. -/
theorem jsonPathMatcher_contains (L : Lib) (json : Bytes) (pattern : JSONPathWrapper)
    (val : Bytes) (hp : pattern.Partial = false) (he : pattern.Equals = [])
    (ht : pattern.Contains ≠ [])
    (hg : L.jsonsliceGet json pattern.Expression = .ok val) (hv : val ≠ []) :
    (jsonPathMatcher L json pattern).2 = none ∧
    ((jsonPathMatcher L json pattern).1 = true ↔ pattern.Contains <:+: val) ∧
    stringsContains "\"server error\"".data "err".data = true ∧
    stringsContains "\"ok\"".data "err".data = false := by
  have hlen : ¬ val.length = 0 := by
    cases val with
    | nil => exact absurd rfl hv
    | cons c rest => simp
  have heq : jsonPathMatcher L json pattern = (stringsContains val pattern.Contains, none) := by
    unfold jsonPathMatcher
    simp [hg, hlen, hp, he, ht]
  refine ⟨by rw [heq], ?_, by decide, by decide⟩
  rw [heq]
  exact stringsContains_iff val pattern.Contains

/-- An instance of `jsonPathMatcher_contains`: the target `ear` against the
payload `{"token":"bearer"}`. -/
theorem jsonPathMatcher_contains_witness :
    (jsonPathMatcher goLib tokenBearer containsEar).2 = none ∧
    ((jsonPathMatcher goLib tokenBearer containsEar).1 = true ↔
      containsEar.Contains <:+: "\"bearer\"".data) ∧
    stringsContains "\"server error\"".data "err".data = true ∧
    stringsContains "\"ok\"".data "err".data = false :=
  jsonPathMatcher_contains goLib tokenBearer containsEar "\"bearer\"".data rfl rfl
    (by decide) rfl (by decide)

/-- C15: an empty query result is a negative verdict without error in every
mode: whatever the `partial`, `equals` and `contains` settings of the pattern,
when the query executes without error and yields nothing, `jsonPathMatcher`
returns negative with no error, without decoding anything. -/
theorem jsonPathMatcher_empty_result (L : Lib) (json : Bytes) (pattern : JSONPathWrapper)
    (hg : L.jsonsliceGet json pattern.Expression = .ok []) :
    jsonPathMatcher L json pattern = (false, none) := by
  unfold jsonPathMatcher
  simp [hg]

/-- An instance of `jsonPathMatcher_empty_result`: equals mode on the payload
`{}`, which has no field `token`. -/
theorem jsonPathMatcher_empty_result_witness :
    jsonPathMatcher goLib tokenMissing equalsBearer = (false, none) :=
  jsonPathMatcher_empty_result goLib tokenMissing equalsBearer rfl

/-- C16: a path-query pattern with no mode set never matches: with `partial`
false and both targets unset the verdict is negative for every payload and
expression, and there is no error whenever the query executes without error. -/
theorem jsonPathMatcher_no_mode (L : Lib) (json : Bytes) (pattern : JSONPathWrapper)
    (hp : pattern.Partial = false) (he : pattern.Equals = []) (hc : pattern.Contains = []) :
    (jsonPathMatcher L json pattern).1 = false ∧
    ∀ val, L.jsonsliceGet json pattern.Expression = .ok val →
      jsonPathMatcher L json pattern = (false, none) := by
  unfold jsonPathMatcher
  cases hg : L.jsonsliceGet json pattern.Expression with
  | error e => simp
  | ok val =>
    simp only [hp, he, hc]
    by_cases hl : val.length = 0
    · simp [hl]
    · simp [hl]

/-- An instance of `jsonPathMatcher_no_mode`: the query `$.token` with no mode
on the payload `{"token":"bearer"}`. -/
theorem jsonPathMatcher_no_mode_witness :
    (jsonPathMatcher goLib tokenBearer ⟨"$.token".data, false, [], []⟩).1 = false ∧
    ∀ val, goLib.jsonsliceGet tokenBearer
        (⟨"$.token".data, false, [], []⟩ : JSONPathWrapper).Expression = .ok val →
      jsonPathMatcher goLib tokenBearer ⟨"$.token".data, false, [], []⟩ = (false, none) :=
  jsonPathMatcher_no_mode goLib tokenBearer ⟨"$.token".data, false, [], []⟩ rfl rfl rfl

/-- C17: mode precedence. With `partial` set the outcome of `jsonPathMatcher`
does not depend on the `equals` and `contains` targets, and any non-empty
result matches; with `partial` unset and an `equals` target that is not empty
the outcome does not depend on the `contains` target. -/
theorem jsonPathMatcher_mode_precedence (L : Lib) (json : Bytes) (expr e c e' c' : GoString) :
    jsonPathMatcher L json ⟨expr, true, e, c⟩ = jsonPathMatcher L json ⟨expr, true, e', c'⟩ ∧
    (∀ val, L.jsonsliceGet json expr = .ok val → val ≠ [] →
      jsonPathMatcher L json ⟨expr, true, e, c⟩ = (true, none)) ∧
    (e ≠ [] →
      jsonPathMatcher L json ⟨expr, false, e, c⟩ = jsonPathMatcher L json ⟨expr, false, e, c'⟩) := by
  refine ⟨?_, ?_, ?_⟩
  · unfold jsonPathMatcher
    cases hg : L.jsonsliceGet json expr with
    | error err => simp
    | ok val => simp
  · intro val hg hv
    have hlen : ¬ val.length = 0 := by
      cases val with
      | nil => exact absurd rfl hv
      | cons c rest => simp
    unfold jsonPathMatcher
    simp only [hg, hlen, if_false, if_true]
    simp
    omega
  · intro he
    unfold jsonPathMatcher
    cases hg : L.jsonsliceGet json expr with
    | error err => simp
    | ok val => simp [he]

theorem firstFailure_append (L : Lib) (json : Bytes) (xs ys : List Strategy) :
    firstFailure L json (xs ++ ys)
      = match firstFailure L json xs with
        | some r => some r
        | none => firstFailure L json ys := by
  induction xs with
  | nil => rfl
  | cons s rest ih =>
    simp only [List.cons_append, firstFailure]
    by_cases hf : failed (s.eval L json) = true
    · simp only [hf, if_true]
    · simp only [hf, if_false, Bool.false_eq_true]
      exact ih

/-- One iteration of the loop of `matches` evaluates the strategies of the
pattern in order and returns at the first that fails. -/
theorem matchesStep_eq (L : Lib) (json : Bytes) (p : DittoBodyPattern) (result : Bool) :
    matchesStep L json p result
      = match firstFailure L json (strategiesOf p) with
        | some r => .error r
        | none => .ok (result || !(strategiesOf p).isEmpty) := by
  unfold matchesStep equalStep pathStep strategiesOf
  by_cases h1 : p.EqualToJson.length > 0
  · simp only [h1, if_true]
    by_cases h2 : failed (jsonMatcher L json p.EqualToJson) = true
    · simp only [h2, if_true, List.cons_append, List.nil_append, firstFailure, Strategy.eval]
    · simp only [h2, if_false, Bool.false_eq_true, List.cons_append, List.nil_append,
        firstFailure, Strategy.eval]
      cases hq : p.MatchesJsonPath with
      | none => simp [firstFailure]
      | some q =>
        by_cases h3 : failed (jsonPathMatcher L json q) = true
        · simp only [h3, if_true, firstFailure, Strategy.eval]
        · simp [h3, firstFailure, Strategy.eval]
  · simp only [h1, if_false, List.nil_append]
    cases hq : p.MatchesJsonPath with
    | none => simp [firstFailure]
    | some q =>
      by_cases h3 : failed (jsonPathMatcher L json q) = true
      · simp only [h3, if_true, firstFailure, Strategy.eval]
      · simp [h3, firstFailure, Strategy.eval]

/-- The loop of `matches` returns the outcome of the first failing strategy
of the remaining patterns, and otherwise its local `result`, set if a strategy
was evaluated. -/
theorem matchesLoop_eq (L : Lib) (json : Bytes) (ps : List DittoBodyPattern) :
    ∀ result : Bool,
    matchesLoop L json ps result
      = match firstFailure L json (allStrategies ps) with
        | some r => r
        | none => (result || !(allStrategies ps).isEmpty, none) := by
  induction ps with
  | nil => intro result; simp [matchesLoop, allStrategies, firstFailure]
  | cons p rest ih =>
    intro result
    have hall : allStrategies (p :: rest) = strategiesOf p ++ allStrategies rest := by
      simp [allStrategies]
    rw [matchesLoop, matchesStep_eq, hall, firstFailure_append]
    cases hf : firstFailure L json (strategiesOf p) with
    | some r => rfl
    | none =>
      simp only
      rw [ih]
      cases hr : firstFailure L json (allStrategies rest) with
      | some r => rfl
      | none =>
        simp only [Prod.mk.injEq, and_true]
        cases result <;> cases h1 : (strategiesOf p).isEmpty <;>
          cases h2 : (allStrategies rest).isEmpty <;>
          simp_all [List.isEmpty_iff]

/-- The method `matches` computes the verdict of the request pattern. -/
theorem matches_eq_verdictOf (L : Lib) (json : Bytes) (req : DittoRequest) :
    RequestMatcher.matches L json (some req) = some (verdictOf L json req.BodyPatterns) := by
  simp only [RequestMatcher.matches, matchesLoop_eq, verdictOf, Bool.false_or]

theorem failed_eq_false_iff (r : Bool × Option GoError) :
    failed r = false ↔ r = (true, none) := by
  obtain ⟨v, e⟩ := r
  cases v <;> cases e <;> simp [failed]

theorem strategiesOf_eq_nil_iff (p : DittoBodyPattern) :
    strategiesOf p = [] ↔ p.EqualToJson = [] ∧ p.MatchesJsonPath = none := by
  unfold strategiesOf
  cases h1 : p.EqualToJson <;> cases h2 : p.MatchesJsonPath <;> simp

theorem allStrategies_eq_nil_iff (ps : List DittoBodyPattern) :
    allStrategies ps = [] ↔ ∀ p ∈ ps, p.EqualToJson = [] ∧ p.MatchesJsonPath = none := by
  induction ps with
  | nil => simp [allStrategies]
  | cons p rest ih =>
    have hall : allStrategies (p :: rest) = strategiesOf p ++ allStrategies rest := by
      simp [allStrategies]
    rw [hall, List.append_eq_nil, ih, strategiesOf_eq_nil_iff]
    simp

theorem mem_allStrategies (ps : List DittoBodyPattern) (s : Strategy) :
    s ∈ allStrategies ps ↔ ∃ p ∈ ps, s ∈ strategiesOf p := by
  simp [allStrategies, List.mem_flatMap]

theorem firstFailure_eq_none_iff (L : Lib) (json : Bytes) (xs : List Strategy) :
    firstFailure L json xs = none ↔ ∀ s ∈ xs, s.eval L json = (true, none) := by
  induction xs with
  | nil => simp [firstFailure]
  | cons s rest ih =>
    simp only [firstFailure, List.mem_cons, forall_eq_or_imp]
    by_cases hf : failed (s.eval L json) = true
    · simp only [hf, if_true]
      constructor
      · intro h; cases h
      · rintro ⟨h, _⟩
        rw [h] at hf
        simp [failed] at hf
    · simp only [hf, if_false, Bool.false_eq_true, ih]
      have := (failed_eq_false_iff (s.eval L json)).mp (by simpa using hf)
      simp [this]

theorem firstFailure_split (L : Lib) (json : Bytes) (pre post : List Strategy) (s : Strategy)
    (hpre : ∀ x ∈ pre, failed (x.eval L json) = false)
    (hs : failed (s.eval L json) = true) :
    firstFailure L json (pre ++ s :: post) = some (false, (s.eval L json).2) := by
  induction pre with
  | nil => simp [firstFailure, hs]
  | cons x rest ih =>
    have hx := hpre x (List.mem_cons_self _ _)
    simp only [List.cons_append, firstFailure, hx, Bool.false_eq_true, if_false]
    exact ih (fun y hy => hpre y (List.mem_cons_of_mem _ hy))

/-- A failure is a negative verdict. -/
theorem firstFailure_fst (L : Lib) (json : Bytes) (xs : List Strategy)
    (r : Bool × Option GoError) (h : firstFailure L json xs = some r) : r.1 = false := by
  induction xs with
  | nil => simp [firstFailure] at h
  | cons s rest ih =>
    simp only [firstFailure] at h
    by_cases hf : failed (s.eval L json) = true
    · simp only [hf, if_true, Option.some.injEq] at h
      rw [← h]
    · simp only [hf, if_false, Bool.false_eq_true] at h
      exact ih h

/-- The verdict is positive without error exactly when some strategy is
populated and every populated strategy evaluates positive without error. -/
theorem verdictOf_eq_true_iff (L : Lib) (json : Bytes) (ps : List DittoBodyPattern) :
    verdictOf L json ps = (true, none) ↔
      allStrategies ps ≠ [] ∧ ∀ s ∈ allStrategies ps, s.eval L json = (true, none) := by
  unfold verdictOf
  cases hf : firstFailure L json (allStrategies ps) with
  | some r =>
    have h1 := firstFailure_fst L json _ r hf
    have h2 : ¬ ∀ s ∈ allStrategies ps, s.eval L json = (true, none) := by
      intro hc
      rw [(firstFailure_eq_none_iff L json _).mpr hc] at hf
      cases hf
    constructor
    · intro h
      simp only at h
      rw [h] at h1
      cases h1
    · rintro ⟨_, h⟩
      exact absurd h h2
  | none =>
    have h2 := (firstFailure_eq_none_iff L json _).mp hf
    cases hl : allStrategies ps with
    | nil => simp
    | cons s rest =>
      rw [hl] at h2
      simp only [List.isEmpty_cons, Bool.not_false, ne_eq, reduceCtorEq, not_false_eq_true,
        true_and, true_iff]
      exact h2

/-- C12: the verdict of a request pattern is positive only if at least one
element of its body-pattern sequence produced a positive verdict. On an empty
sequence, and on a sequence in which no element populates an equality document
or a path query, `matches` returns a negative verdict with no error; a positive
verdict comes with an element one of whose populated strategies evaluated
positive without error. -/
theorem matches_needs_positive_element (L : Lib) (json : Bytes) (req : DittoRequest) :
    ((∀ p ∈ req.BodyPatterns, p.EqualToJson = [] ∧ p.MatchesJsonPath = none) →
      RequestMatcher.matches L json (some req) = some (false, none)) ∧
    (req.BodyPatterns = [] → RequestMatcher.matches L json (some req) = some (false, none)) ∧
    (RequestMatcher.matches L json (some req) = some (true, none) →
      ∃ p ∈ req.BodyPatterns, ∃ s ∈ strategiesOf p, s.eval L json = (true, none)) := by
  have hnone : (∀ p ∈ req.BodyPatterns, p.EqualToJson = [] ∧ p.MatchesJsonPath = none) →
      RequestMatcher.matches L json (some req) = some (false, none) := by
    intro h
    have hnil := (allStrategies_eq_nil_iff req.BodyPatterns).mpr h
    rw [matches_eq_verdictOf, verdictOf, hnil]
    rfl
  refine ⟨hnone, ?_, ?_⟩
  · intro h
    apply hnone
    rw [h]
    intro p hp
    cases hp
  · intro h
    rw [matches_eq_verdictOf, Option.some.injEq, verdictOf_eq_true_iff] at h
    obtain ⟨hne, hall⟩ := h
    cases hl : allStrategies req.BodyPatterns with
    | nil => exact absurd hl hne
    | cons s rest =>
      have hs : s ∈ allStrategies req.BodyPatterns := by rw [hl]; exact List.mem_cons_self _ _
      obtain ⟨p, hp, hsp⟩ := (mem_allStrategies _ _).mp hs
      exact ⟨p, hp, s, hsp, hall s hs⟩

/-- An instance of `matches_needs_positive_element`: the request
`equalThenEmpty`. -/
theorem matches_needs_positive_element_witness :
    ((∀ p ∈ equalThenEmpty.BodyPatterns, p.EqualToJson = [] ∧ p.MatchesJsonPath = none) →
      RequestMatcher.matches goLib "1".data (some equalThenEmpty) = some (false, none)) ∧
    (equalThenEmpty.BodyPatterns = [] →
      RequestMatcher.matches goLib "1".data (some equalThenEmpty) = some (false, none)) ∧
    (RequestMatcher.matches goLib "1".data (some equalThenEmpty) = some (true, none) →
      ∃ p ∈ equalThenEmpty.BodyPatterns, ∃ s ∈ strategiesOf p,
        s.eval goLib "1".data = (true, none)) :=
  matches_needs_positive_element goLib "1".data equalThenEmpty

/-- C13 (counterexample): the second body pattern of `equalThenEmpty` sets
neither an equality document nor a path query, and `matches` returns a
positive verdict on the payload `1`. -/
theorem matches_skips_empty_element :
    equalThenEmpty.BodyPatterns = [⟨"1".data, none⟩, ⟨[], none⟩] ∧
    RequestMatcher.matches goLib "1".data (some equalThenEmpty) = some (true, none) :=
  ⟨rfl, by decide⟩

/-- C13 (amended): a request pattern is a conjunction over the strategies its
body patterns populate. The verdict of `matches` is positive without error
exactly when at least one element populates an equality document or a path
query and every populated strategy of every element evaluates positive
without error; an element that sets neither is skipped, so that the outcome is
the same with and without it, whatever the other elements are. -/
theorem matches_conjunction (L : Lib) (json : Bytes) (method : GoString)
    (pre post : List DittoBodyPattern) (p : DittoBodyPattern)
    (hp : p.EqualToJson = [] ∧ p.MatchesJsonPath = none) :
    RequestMatcher.matches L json (some ⟨method, pre ++ p :: post⟩)
      = RequestMatcher.matches L json (some ⟨method, pre ++ post⟩) ∧
    ∀ ps : List DittoBodyPattern,
      (RequestMatcher.matches L json (some ⟨method, ps⟩) = some (true, none) ↔
        (∃ q ∈ ps, q.EqualToJson ≠ [] ∨ q.MatchesJsonPath ≠ none) ∧
        ∀ q ∈ ps, ∀ s ∈ strategiesOf q, s.eval L json = (true, none)) := by
  constructor
  · have hnil := (strategiesOf_eq_nil_iff p).mpr hp
    have hall : allStrategies (pre ++ p :: post) = allStrategies (pre ++ post) := by
      simp [allStrategies, hnil]
    rw [matches_eq_verdictOf, matches_eq_verdictOf, verdictOf, verdictOf]
    simp only [hall]
  · intro ps
    rw [matches_eq_verdictOf, Option.some.injEq, verdictOf_eq_true_iff]
    constructor
    · rintro ⟨hne, hall⟩
      constructor
      · by_contra hc
        apply hne
        rw [allStrategies_eq_nil_iff]
        intro q hq
        by_contra hq'
        apply hc
        refine ⟨q, hq, ?_⟩
        by_cases h1 : q.EqualToJson = []
        · right
          intro h2
          exact hq' ⟨h1, h2⟩
        · left; exact h1
      · intro q hq s hs
        exact hall s ((mem_allStrategies ps s).mpr ⟨q, hq, hs⟩)
    · rintro ⟨⟨q, hq, hpop⟩, hall⟩
      constructor
      · intro hnil
        have := (allStrategies_eq_nil_iff ps).mp hnil q hq
        rcases hpop with h | h
        · exact h this.1
        · exact h this.2
      · intro s hs
        obtain ⟨q', hq', hs'⟩ := (mem_allStrategies ps s).mp hs
        exact hall q' hq' s hs'

/-- An instance of `matches_conjunction`: the empty second element of
`equalThenEmpty`. -/
theorem matches_conjunction_witness :
    RequestMatcher.matches goLib "1".data
        (some ⟨"Greet".data, [⟨"1".data, none⟩] ++ ⟨[], none⟩ :: []⟩)
      = RequestMatcher.matches goLib "1".data (some ⟨"Greet".data, [⟨"1".data, none⟩] ++ []⟩) ∧
    ∀ ps : List DittoBodyPattern,
      (RequestMatcher.matches goLib "1".data (some ⟨"Greet".data, ps⟩) = some (true, none) ↔
        (∃ q ∈ ps, q.EqualToJson ≠ [] ∨ q.MatchesJsonPath ≠ none) ∧
        ∀ q ∈ ps, ∀ s ∈ strategiesOf q, s.eval goLib "1".data = (true, none)) :=
  matches_conjunction goLib "1".data "Greet".data [⟨"1".data, none⟩] [] ⟨[], none⟩
    ⟨rfl, rfl⟩

/-! ## Short circuit, double strategies and totality of `Match` -/

/-- Among the strategies of a sequence with a failing one there is a first
failing one. -/
theorem exists_first_failed (L : Lib) (json : Bytes) (xs : List Strategy)
    (h : ∃ s ∈ xs, failed (s.eval L json) = true) :
    ∃ pre s post, xs = pre ++ s :: post ∧ (∀ x ∈ pre, failed (x.eval L json) = false) ∧
      failed (s.eval L json) = true := by
  induction xs with
  | nil =>
    obtain ⟨s, hs, _⟩ := h
    cases hs
  | cons x rest ih =>
    by_cases hx : failed (x.eval L json) = true
    · exact ⟨[], x, rest, rfl, (fun y hy => absurd hy (List.not_mem_nil y)), hx⟩
    · have hx' : failed (x.eval L json) = false := by
        cases hv : failed (x.eval L json) with
        | true => exact absurd hv hx
        | false => rfl
      obtain ⟨s, hs, hf⟩ := h
      have hrest : ∃ s ∈ rest, failed (s.eval L json) = true := by
        rcases List.mem_cons.mp hs with heq | hmem
        · subst heq
          exact absurd hf hx
        · exact ⟨s, hmem, hf⟩
      obtain ⟨pre, s', post, hsplit, hpre, hs'⟩ := ih hrest
      refine ⟨x :: pre, s', post, by rw [hsplit, List.cons_append], ?_, hs'⟩
      intro y hy
      rcases List.mem_cons.mp hy with heq | hmem
      · rw [heq]; exact hx'
      · exact hpre y hmem

/-- C14: short-circuit on failure. When some populated strategy of a request
pattern evaluates to a negative verdict or to an error, the strategies in
evaluation order split at a first such strategy `s`, every strategy before it
evaluating positive, and `matches` returns a negative verdict with the error
of `s` (no error for a plain mismatch); every request pattern whose strategies
agree up to `s` gets that same outcome, whatever strategies stand after it. -/
theorem matches_short_circuit (L : Lib) (json : Bytes) (req : DittoRequest)
    (h : ∃ s ∈ allStrategies req.BodyPatterns, failed (s.eval L json) = true) :
    ∃ pre s post, allStrategies req.BodyPatterns = pre ++ s :: post ∧
      (∀ x ∈ pre, x.eval L json = (true, none)) ∧
      failed (s.eval L json) = true ∧
      RequestMatcher.matches L json (some req) = some (false, (s.eval L json).2) ∧
      ∀ (req' : DittoRequest) (post' : List Strategy),
        allStrategies req'.BodyPatterns = pre ++ s :: post' →
        RequestMatcher.matches L json (some req') = some (false, (s.eval L json).2) := by
  obtain ⟨pre, s, post, hsplit, hpre, hs⟩ := exists_first_failed L json _ h
  have hmain : ∀ (r : DittoRequest) (p : List Strategy),
      allStrategies r.BodyPatterns = pre ++ s :: p →
      RequestMatcher.matches L json (some r) = some (false, (s.eval L json).2) := by
    intro r p hr
    rw [matches_eq_verdictOf, verdictOf, hr, firstFailure_split L json pre p s hpre hs]
  exact ⟨pre, s, post, hsplit, fun x hx => (failed_eq_false_iff _).mp (hpre x hx), hs,
    hmain req post hsplit, hmain⟩

/-- An instance of `matches_short_circuit`: in `equalThenPath` the equality
document `{}` matches the payload `{}` and the path query that follows finds
no field `token`. -/
theorem matches_short_circuit_witness :
    ∃ pre s post, allStrategies equalThenPath.BodyPatterns = pre ++ s :: post ∧
      (∀ x ∈ pre, x.eval goLib tokenMissing = (true, none)) ∧
      failed (s.eval goLib tokenMissing) = true ∧
      RequestMatcher.matches goLib tokenMissing (some equalThenPath)
        = some (false, (s.eval goLib tokenMissing).2) ∧
      ∀ (req' : DittoRequest) (post' : List Strategy),
        allStrategies req'.BodyPatterns = pre ++ s :: post' →
        RequestMatcher.matches goLib tokenMissing (some req')
          = some (false, (s.eval goLib tokenMissing).2) :=
  matches_short_circuit goLib tokenMissing equalThenPath
    ⟨Strategy.pathQuery partialToken, by decide, by decide⟩

/-- The outcome of the example of the spec: a matching equality element
followed by a failing path-query element gives a negative verdict. -/
theorem matches_equalThenPath :
    jsonMatcher goLib tokenMissing tokenMissing = (true, none) ∧
    RequestMatcher.matches goLib tokenMissing (some equalThenPath) = some (false, none) := by
  decide

/-- The function `canonicalJSON` does not call `jsonslice.Get`. -/
theorem canonicalJSON_get (L : Lib) (get : Bytes → GoString → Except LibError Bytes)
    (src : Bytes) :
    canonicalJSON { L with jsonsliceGet := get } src = canonicalJSON L src := by
  unfold canonicalJSON
  dsimp only
  cases L.jsonUnmarshal src with
  | error e => rfl
  | ok v => rfl

/-- The function `jsonMatcher` does not call `jsonslice.Get`. -/
theorem jsonMatcher_get (L : Lib) (get : Bytes → GoString → Except LibError Bytes)
    (a b : Bytes) :
    jsonMatcher { L with jsonsliceGet := get } a b = jsonMatcher L a b := by
  unfold jsonMatcher
  simp only [canonicalJSON_get]

/-- C18: a body pattern that populates both an equality document and a path
query is evaluated on both, equality first. On the one-element sequence the
verdict of `matches` is positive without error exactly when `jsonMatcher` and
`jsonPathMatcher` both are; when the equality check fails or errors, `matches`
returns its outcome under a negative verdict without running the path query:
the outcome is the same for every path query in the pattern and for every
behaviour of `jsonslice.Get`. -/
theorem matches_both_strategies (L : Lib) (json : Bytes) (method : GoString) (doc : Bytes)
    (q : JSONPathWrapper) (hdoc : doc ≠ []) :
    (RequestMatcher.matches L json (some ⟨method, [⟨doc, some q⟩]⟩) = some (true, none) ↔
      jsonMatcher L json doc = (true, none) ∧ jsonPathMatcher L json q = (true, none)) ∧
    (failed (jsonMatcher L json doc) = true →
      ∀ (get : Bytes → GoString → Except LibError Bytes) (q' : JSONPathWrapper),
        RequestMatcher.matches { L with jsonsliceGet := get } json
            (some ⟨method, [⟨doc, some q'⟩]⟩)
          = some (false, (jsonMatcher L json doc).2)) := by
  have hlen : doc.length > 0 := by
    cases doc with
    | nil => exact absurd rfl hdoc
    | cons c rest => simp
  have hstr : ∀ q' : JSONPathWrapper,
      allStrategies [(⟨doc, some q'⟩ : DittoBodyPattern)]
        = [Strategy.equality doc, Strategy.pathQuery q'] := by
    intro q'
    simp [allStrategies, strategiesOf, hlen]
  refine ⟨?_, ?_⟩
  · rw [matches_eq_verdictOf, Option.some.injEq, verdictOf_eq_true_iff, hstr]
    simp [Strategy.eval]
  · intro hf get q'
    have hsame := jsonMatcher_get L get json doc
    rw [matches_eq_verdictOf, verdictOf, hstr]
    simp [firstFailure, Strategy.eval, hsame, hf]

/-- An instance of `matches_both_strategies`: the pattern of `equalAndPath` on
the payload `{"token":"bearer"}`. -/
theorem matches_both_strategies_witness :
    (RequestMatcher.matches goLib tokenBearer
        (some ⟨"Greet".data, [⟨tokenBearer, some partialToken⟩]⟩) = some (true, none) ↔
      jsonMatcher goLib tokenBearer tokenBearer = (true, none) ∧
        jsonPathMatcher goLib tokenBearer partialToken = (true, none)) ∧
    (failed (jsonMatcher goLib tokenBearer tokenBearer) = true →
      ∀ (get : Bytes → GoString → Except LibError Bytes) (q' : JSONPathWrapper),
        RequestMatcher.matches { goLib with jsonsliceGet := get } tokenBearer
            (some ⟨"Greet".data, [⟨tokenBearer, some q'⟩]⟩)
          = some (false, (jsonMatcher goLib tokenBearer tokenBearer).2)) :=
  matches_both_strategies goLib tokenBearer "Greet".data tokenBearer partialToken (by decide)

/-- An instance of `jsonPathMatcher_mode_precedence`: the query `$.token` on
the payload `{"token":"bearer"}` with and without targets. -/
theorem jsonPathMatcher_mode_precedence_witness :
    jsonPathMatcher goLib tokenBearer ⟨"$.token".data, true, "Bearer".data, "ear".data⟩
      = jsonPathMatcher goLib tokenBearer ⟨"$.token".data, true, [], []⟩ ∧
    (∀ val, goLib.jsonsliceGet tokenBearer "$.token".data = .ok val → val ≠ [] →
      jsonPathMatcher goLib tokenBearer ⟨"$.token".data, true, "Bearer".data, "ear".data⟩
        = (true, none)) ∧
    ("Bearer".data ≠ [] →
      jsonPathMatcher goLib tokenBearer ⟨"$.token".data, false, "Bearer".data, "ear".data⟩
        = jsonPathMatcher goLib tokenBearer ⟨"$.token".data, false, "Bearer".data, []⟩) :=
  jsonPathMatcher_mode_precedence goLib tokenBearer "$.token".data "Bearer".data "ear".data
    [] []

/-- Every mock stored in an index built from the empty index has a request. -/
theorem buildIndex_requests (batches : List (List DittoMock)) (group : Rules)
    (h : buildIndex batches emptyRules = some group) :
    ∀ k bucket m, group k = some bucket → m ∈ bucket → m.Request ≠ none := by
  have hinv : Isolated batches.flatten group := by
    have h0 : Isolated [] emptyRules := by
      intro k bucket m hk
      simp [emptyRules] at hk
    simpa using buildIndex_isolated batches [] emptyRules group h0 h
  intro k bucket m hk hm
  obtain ⟨_, req, hreq, _⟩ := hinv k bucket m hk hm
  rw [hreq]
  simp

/-- The loop of `Match` returns when every mock has a request. -/
theorem matchLoop_total (L : Lib) (json : Bytes) (mocks : List DittoMock)
    (hreq : ∀ m ∈ mocks, m.Request ≠ none) :
    ∀ log : List GoError, ∃ r, matchLoop L json mocks log = some r := by
  induction mocks with
  | nil => intro log; exact ⟨_, rfl⟩
  | cons m rest ih =>
    intro log
    have ih' := ih (fun y hy => hreq y (List.mem_cons_of_mem _ hy))
    rcases matches_cases L json m with h | h | h | ⟨v, e, h⟩
    · obtain ⟨r, hr⟩ := matches_isSome L json m (hreq m (List.mem_cons_self _ _))
      rw [h] at hr; cases hr
    · exact ⟨_, matchLoop_cons_positive L json m rest log h⟩
    · rw [matchLoop_cons_negative L json m rest log h]; exact ih' _
    · rw [matchLoop_cons_error L json m rest log v e h]; exact ih' _

/-- C20: `Match` never dereferences a missing request. The function
`mergeMocks` completes exactly when every mock it is given has a request; so
every index built from the empty index by completed `mergeMocks` calls stores
only mocks with a request, and on such an index `Match` returns for every
library behaviour, method and payload, either with a response and no error or
with no response and `ErrNotMatched`. -/
theorem Match_total_on_built_index (batches : List (List DittoMock)) (group : Rules)
    (h : buildIndex batches emptyRules = some group) :
    (∀ (mocks : List DittoMock) (g : Rules),
      (∃ g', mergeMocks mocks g = some g') ↔ ∀ m ∈ mocks, m.Request ≠ none) ∧
    (∀ k bucket m, group k = some bucket → m ∈ bucket → m.Request ≠ none) ∧
    (∀ (L : Lib) (path method : GoString) (json : Bytes),
      ∃ r, (⟨group, path⟩ : RequestMatcher).Match L method json = some r ∧
        ((∃ resp, r.response = some resp ∧ r.err = none) ∨
          (r.response = none ∧ r.err = some .ErrNotMatched))) := by
  have hreq := buildIndex_requests batches group h
  refine ⟨fun mocks g => mergeMocks_isSome_iff mocks g, hreq, ?_⟩
  intro L path method json
  cases hb : group method with
  | none =>
    refine ⟨⟨none, some .ErrNotMatched, []⟩, ?_, Or.inr ⟨rfl, rfl⟩⟩
    simp only [RequestMatcher.Match, hb]
  | some mocks =>
    obtain ⟨r, hr⟩ := matchLoop_total L json mocks (fun m hm => hreq method mocks m hb hm) []
    refine ⟨r, ?_, (matchLoop_shape L json mocks [] r hr).1⟩
    simp only [RequestMatcher.Match, hb, hr]

/-- An instance of `Match_total_on_built_index`: the index `demoIndex` built
from `demoBatches`. -/
theorem Match_total_on_built_index_witness :
    (∀ (mocks : List DittoMock) (g : Rules),
      (∃ g', mergeMocks mocks g = some g') ↔ ∀ m ∈ mocks, m.Request ≠ none) ∧
    (∀ k bucket m, demoIndex k = some bucket → m ∈ bucket → m.Request ≠ none) ∧
    (∀ (L : Lib) (path method : GoString) (json : Bytes),
      ∃ r, (⟨demoIndex, path⟩ : RequestMatcher).Match L method json = some r ∧
        ((∃ resp, r.response = some resp ∧ r.err = none) ∨
          (r.response = none ∧ r.err = some .ErrNotMatched))) :=
  Match_total_on_built_index demoBatches demoIndex rfl

/-! ## Canonical forms: what `json.Marshal` writes is read back unchanged -/

theorem Json.bitLength_zero (fuel : Nat) : bitLength fuel 0 = 0 := by
  cases fuel <;> simp [bitLength]

/-- With enough fuel `bitLength` is the number of binary digits. -/
theorem Json.bitLength_spec : ∀ (fuel n : Nat), n ≤ fuel →
    n < 2 ^ bitLength fuel n ∧ (n ≠ 0 → 2 ^ (bitLength fuel n - 1) ≤ n) := by
  intro fuel
  induction fuel with
  | zero =>
    intro n h
    have : n = 0 := by omega
    subst this
    simp [bitLength]
  | succ fuel ih =>
    intro n h
    unfold bitLength
    by_cases hn : n = 0
    · simp [hn]
    · simp only [hn, if_false]
      have h2 : n / 2 ≤ fuel := by omega
      obtain ⟨h3, h4⟩ := ih (n / 2) h2
      constructor
      · rw [pow_succ]; omega
      · intro _
        simp only [Nat.add_sub_cancel]
        by_cases hh : n / 2 = 0
        · rw [hh, bitLength_zero]
          simp
          omega
        · have h5 := h4 hh
          have hb : bitLength fuel (n / 2) ≠ 0 := by
            intro hc
            rw [hc] at h3
            simp at h3
            omega
          obtain ⟨b, hb'⟩ : ∃ b, bitLength fuel (n / 2) = b + 1 := ⟨_, (Nat.succ_pred hb).symm⟩
          rw [hb'] at h5 ⊢
          simp only [Nat.add_sub_cancel] at h5
          rw [pow_succ]
          omega

theorem Json.bitLength_pos (n : Nat) (h : n ≠ 0) : bitLength n n ≠ 0 := by
  intro hc
  have := (bitLength_spec n n (le_refl _)).1
  rw [hc] at this
  simp at this
  exact h this

/-- The scaled value of an exact binary fraction `mant * 2 ^ exp` at an exponent not above
`exp` is an integer. -/
theorem Json.scaled_exact (n d mant : Nat) (exp e : Int)
    (hval : n * 2 ^ (-exp).toNat = mant * 2 ^ exp.toNat * d) (he : e ≤ exp) :
    n * 2 ^ (-e).toNat = mant * 2 ^ (exp - e).toNat * (d * 2 ^ e.toNat) := by
  have hsum : exp.toNat + (-e).toNat = (exp - e).toNat + e.toNat + (-exp).toNat := by omega
  have key : n * 2 ^ (-e).toNat * 2 ^ (-exp).toNat
      = mant * 2 ^ (exp - e).toNat * (d * 2 ^ e.toNat) * 2 ^ (-exp).toNat := by
    calc n * 2 ^ (-e).toNat * 2 ^ (-exp).toNat
        = (n * 2 ^ (-exp).toNat) * 2 ^ (-e).toNat := by ring
      _ = mant * 2 ^ exp.toNat * d * 2 ^ (-e).toNat := by rw [hval]
      _ = mant * d * 2 ^ (exp.toNat + (-e).toNat) := by rw [pow_add]; ring
      _ = mant * d * 2 ^ ((exp - e).toNat + e.toNat + (-exp).toNat) := by rw [hsum]
      _ = _ := by rw [pow_add, pow_add]; ring
  exact Nat.eq_of_mul_eq_mul_right (by positivity) key

theorem Json.scaledFloor_exact (n d mant : Nat) (exp e : Int) (hd : d ≠ 0)
    (hval : n * 2 ^ (-exp).toNat = mant * 2 ^ exp.toNat * d) (he : e ≤ exp) :
    scaledFloor n d e = mant * 2 ^ (exp - e).toNat := by
  unfold scaledFloor
  rw [scaled_exact n d mant exp e hval he]
  exact Nat.mul_div_cancel _ (by positivity)

theorem Json.findExp_bounds (n d : Nat) : ∀ (fuel : Nat) (e : Int),
    e ≤ findExp n d fuel e ∧ findExp n d fuel e ≤ e + fuel := by
  intro fuel
  induction fuel with
  | zero => intro e; simp [findExp]
  | succ fuel ih =>
    intro e
    unfold findExp
    by_cases h : scaledFloor n d e < 2 ^ 53
    · simp only [h, if_true]
      constructor <;> omega
    · simp only [h, if_false]
      have := ih (e + 1)
      constructor
      · omega
      · push_cast; omega

/-- The exponent `findExp` stops at is the start, or the scaled value one below it is out of
range. -/
theorem Json.findExp_prev (n d : Nat) : ∀ (fuel : Nat) (e : Int),
    findExp n d fuel e = e ∨
      (e < findExp n d fuel e ∧ 2 ^ 53 ≤ scaledFloor n d (findExp n d fuel e - 1)) := by
  intro fuel
  induction fuel with
  | zero => intro e; left; simp [findExp]
  | succ fuel ih =>
    intro e
    unfold findExp
    by_cases h : scaledFloor n d e < 2 ^ 53
    · left; simp only [h, if_true]
    · simp only [h, if_false]
      right
      rcases ih (e + 1) with h1 | ⟨h1, h2⟩
      · rw [h1]
        refine ⟨by omega, ?_⟩
        have : e + 1 - 1 = e := by omega
        rw [this]
        omega
      · exact ⟨by omega, h2⟩

theorem Json.findExp_reach (n d : Nat) (target : Int) (ht : scaledFloor n d target < 2 ^ 53) :
    ∀ (fuel : Nat) (e : Int), e ≤ target → target - e ≤ fuel →
    (∀ e1, e ≤ e1 → e1 < target → ¬ scaledFloor n d e1 < 2 ^ 53) →
    findExp n d fuel e = target := by
  intro fuel
  induction fuel with
  | zero =>
    intro e h1 h2 _
    simp only [findExp]
    omega
  | succ fuel ih =>
    intro e h1 h2 h3
    unfold findExp
    by_cases he : e = target
    · subst he
      simp only [ht, if_true]
    · have hlt : e < target := by omega
      simp only [h3 e (le_refl _) hlt, if_false]
      exact ih (e + 1) (by omega) (by push_cast at h2 ⊢; omega)
        (fun e1 h4 h5 => h3 e1 (by omega) h5)

theorem Json.pow2_lt (a b : Nat) (h : 2 ^ a < 2 ^ b) : a < b :=
  (Nat.pow_lt_pow_iff_right (by norm_num)).mp h

theorem Json.pow2_le (a b : Nat) (h : 2 ^ a ≤ 2 ^ b) : a ≤ b :=
  (Nat.pow_le_pow_iff_right (by norm_num)).mp h

theorem Json.divRoundEven_exact (q D : Nat) (hD : D ≠ 0) : divRoundEven (q * D) D = q := by
  unfold divRoundEven
  have h1 : q * D / D = q := Nat.mul_div_cancel _ (Nat.pos_of_ne_zero hD)
  have h2 : q * D % D = 0 := Nat.mul_mod_left _ _
  simp only [h1, h2]
  have : ¬ (2 * 0 > D ∨ 2 * 0 = D ∧ q % 2 = 1) := by omega
  simp only [this, if_false]

theorem Json.divRoundEven_bounds (n D : Nat) :
    n / D ≤ divRoundEven n D ∧ divRoundEven n D ≤ n / D + 1 := by
  unfold divRoundEven
  simp only
  split_ifs <;> constructor <;> omega

/-- The bit lengths of numerator and denominator bound the exponent of an exact binary
fraction. -/
theorem Json.exact_exp_bounds (n d mant : Nat) (exp : Int) (hd : d ≠ 0) (hm0 : mant ≠ 0)
    (hm : mant < 2 ^ 53)
    (hval : n * 2 ^ (-exp).toNat = mant * 2 ^ exp.toNat * d) :
    log2Lower n d - 52 ≤ exp ∧ (2 ^ 52 ≤ mant → exp - (log2Lower n d - 52) ≤ 2) := by
  have hn : n ≠ 0 := by
    intro hc
    rw [hc, Nat.zero_mul] at hval
    have : mant * 2 ^ exp.toNat * d ≠ 0 := by positivity
    exact this hval.symm
  obtain ⟨hn1, hn2⟩ := bitLength_spec n n (le_refl _)
  obtain ⟨hd1, hd2⟩ := bitLength_spec d d (le_refl _)
  have hn2 := hn2 hn
  have hd2 := hd2 hd
  have hbn := bitLength_pos n hn
  have hbd := bitLength_pos d hd
  unfold log2Lower
  constructor
  · have h1 : 2 ^ (bitLength n n - 1) * 2 ^ (-exp).toNat ≤ n * 2 ^ (-exp).toNat :=
      Nat.mul_le_mul_right _ hn2
    have h2 : mant * 2 ^ exp.toNat * d < 2 ^ 53 * 2 ^ exp.toNat * 2 ^ bitLength d d :=
      Nat.mul_lt_mul'' (Nat.mul_lt_mul_of_pos_right hm (by positivity)) hd1
    rw [hval] at h1
    have h3 := lt_of_le_of_lt h1 h2
    rw [← pow_add, ← pow_add, ← pow_add] at h3
    have h4 := pow2_lt _ _ h3
    omega
  · intro hnorm
    have h1 : n * 2 ^ (-exp).toNat < 2 ^ bitLength n n * 2 ^ (-exp).toNat :=
      Nat.mul_lt_mul_of_pos_right hn1 (by positivity)
    have h2 : 2 ^ 52 * 2 ^ exp.toNat * 2 ^ (bitLength d d - 1) ≤ mant * 2 ^ exp.toNat * d :=
      Nat.mul_le_mul (Nat.mul_le_mul_right _ hnorm) hd2
    rw [hval] at h1
    have h3 := lt_of_le_of_lt h2 h1
    rw [← pow_add, ← pow_add, ← pow_add] at h3
    have h4 := pow2_lt _ _ h3
    omega

/-- The function `roundFloat` returns a `float64` given as an exact fraction unchanged. -/
theorem Json.roundFloat_exact (neg : Bool) (n d mant : Nat) (exp : Int) (hd : d ≠ 0)
    (hm0 : mant ≠ 0) (hm : mant < 2 ^ 53) (hlo : -1074 ≤ exp) (hhi : exp ≤ 971)
    (hnorm : 2 ^ 52 ≤ mant ∨ exp = -1074)
    (hval : n * 2 ^ (-exp).toNat = mant * 2 ^ exp.toNat * d) :
    roundFloat neg n d = some ⟨neg, mant, exp⟩ := by
  obtain ⟨hb1, hb2⟩ := exact_exp_bounds n d mant exp hd hm0 hm hval
  have hat : scaledFloor n d exp = mant := by
    rw [scaledFloor_exact n d mant exp exp hd hval (le_refl _)]
    simp
  have hfind : findExp n d 8 (max (-1074) (log2Lower n d - 52)) = exp := by
    apply findExp_reach n d exp (by rw [hat]; exact hm)
    · omega
    · rcases hnorm with h | h
      · have := hb2 h
        push_cast
        omega
      · push_cast
        omega
    · intro e1 h1 h2
      rw [scaledFloor_exact n d mant exp e1 hd hval (le_of_lt h2)]
      rcases hnorm with h | h
      · have hg : (exp - e1).toNat ≠ 0 := by omega
        obtain ⟨g, hg'⟩ : ∃ g, (exp - e1).toNat = g + 1 := ⟨_, (Nat.succ_pred hg).symm⟩
        rw [hg', pow_succ]
        have : 1 ≤ 2 ^ g := Nat.one_le_two_pow
        nlinarith
      · omega
  have hdiv : divRoundEven (n * 2 ^ (-exp).toNat) (d * 2 ^ exp.toNat) = mant := by
    have h := scaled_exact n d mant exp exp hval (le_refl _)
    simp only [sub_self, Int.toNat_zero, pow_zero, mul_one] at h
    rw [h]
    exact divRoundEven_exact _ _ (by positivity)
  unfold roundFloat
  simp only [hfind, hdiv]
  have h1 : ¬ mant = 2 ^ 53 := by omega
  simp only [h1, if_false, hm0]
  have h2 : ¬ (mant ≥ 2 ^ 53 + 1 ∨ exp > 971) := by omega
  simp only [h2, if_false]

/-- Halving the scale: a scaled value from `2 ^ 53` on at `e - 1` is from `2 ^ 52` on at
`e`. -/
theorem Json.scaledFloor_step (n d : Nat) (e : Int) (hd : d ≠ 0)
    (h : 2 ^ 53 ≤ scaledFloor n d (e - 1)) : 2 ^ 52 ≤ scaledFloor n d e := by
  unfold scaledFloor at h ⊢
  have hpos : 0 < d * 2 ^ (e - 1).toNat := by positivity
  have hpos' : 0 < d * 2 ^ e.toNat := by positivity
  rw [Nat.le_div_iff_mul_le hpos] at h
  rw [Nat.le_div_iff_mul_le hpos']
  by_cases he : e ≤ 0
  · have h1 : (-(e - 1)).toNat = (-e).toNat + 1 := by omega
    have h2 : (e - 1).toNat = 0 := by omega
    have h3 : e.toNat = 0 := by omega
    rw [h1, h2, pow_succ 2 (-e).toNat] at h
    rw [h3]
    simp only [pow_zero, mul_one] at h ⊢
    have : n * (2 ^ (-e).toNat * 2) = 2 * (n * 2 ^ (-e).toNat) := by ring
    omega
  · have h1 : (-(e - 1)).toNat = 0 := by omega
    have h2 : e.toNat = (e - 1).toNat + 1 := by omega
    have h3 : (-e).toNat = 0 := by omega
    rw [h1] at h
    rw [h2, h3, pow_succ 2 (e - 1).toNat]
    simp only [pow_zero, mul_one] at h ⊢
    have : d * (2 ^ (e - 1).toNat * 2) = 2 * (d * 2 ^ (e - 1).toNat) := by ring
    omega

/-- At the exponent the estimate gives, the scaled value has its leading bit set. -/
theorem Json.scaledFloor_estimate (n d : Nat) (hn : n ≠ 0) (hd : d ≠ 0) :
    2 ^ 52 ≤ scaledFloor n d (log2Lower n d - 52) := by
  obtain ⟨hn1, hn2⟩ := bitLength_spec n n (le_refl _)
  obtain ⟨hd1, hd2⟩ := bitLength_spec d d (le_refl _)
  have hn2 := hn2 hn
  have hbn := bitLength_pos n hn
  have hbd := bitLength_pos d hd
  unfold scaledFloor
  rw [Nat.le_div_iff_mul_le (by positivity)]
  generalize he : log2Lower n d - 52 = e
  unfold log2Lower at he
  have h1 : 2 ^ 52 * (d * 2 ^ e.toNat) ≤ 2 ^ 52 * (2 ^ bitLength d d * 2 ^ e.toNat) :=
    Nat.mul_le_mul_left _ (Nat.mul_le_mul_right _ (le_of_lt hd1))
  have h2 : 2 ^ (bitLength n n - 1) * 2 ^ (-e).toNat ≤ n * 2 ^ (-e).toNat :=
    Nat.mul_le_mul_right _ hn2
  have h3 : 2 ^ 52 * (2 ^ bitLength d d * 2 ^ e.toNat)
      ≤ 2 ^ (bitLength n n - 1) * 2 ^ (-e).toNat := by
    rw [← pow_add, ← pow_add, ← pow_add]
    apply Nat.pow_le_pow_right (by norm_num)
    omega
  exact le_trans h1 (le_trans h3 h2)

/-- What `roundFloat` returns is a valid `float64`. -/
theorem Json.roundFloat_valid (neg : Bool) (n d : Nat) (f : Float64) (hd : d ≠ 0)
    (h : roundFloat neg n d = some f) : f.Valid ∧ f.neg = neg := by
  unfold roundFloat at h
  simp only at h
  generalize he : findExp n d 8 (max (-1074) (log2Lower n d - 52)) = e at h
  generalize hmm : divRoundEven (n * 2 ^ (-e).toNat) (d * 2 ^ e.toNat) = m at h
  have hge : max (-1074) (log2Lower n d - 52) ≤ e := by
    rw [← he]; exact (findExp_bounds n d 8 _).1
  have hq := divRoundEven_bounds (n * 2 ^ (-e).toNat) (d * 2 ^ e.toNat)
  rw [hmm] at hq
  have hsf : scaledFloor n d e ≤ m := hq.1
  have hn : m ≠ 0 → n ≠ 0 := by
    intro hm0 hc
    rw [hc] at hmm
    simp [divRoundEven] at hmm
    omega
  by_cases hm53 : m = 2 ^ 53
  · simp only [hm53, if_true] at h
    split_ifs at h with h1 h2
    · exact absurd h2 (by norm_num)
    simp only [Option.some.injEq] at h
    subst h
    refine ⟨?_, rfl⟩
    right
    exact ⟨by norm_num, by norm_num, by simp only; omega, by simp only; omega,
      Or.inl (le_refl _)⟩
  · simp only [hm53, if_false] at h
    split_ifs at h with h1 h2
    · simp only [Option.some.injEq] at h
      subst h
      exact ⟨Or.inl ⟨h2, rfl⟩, rfl⟩
    · simp only [Option.some.injEq] at h
      subst h
      refine ⟨?_, rfl⟩
      right
      refine ⟨h2, by simp only; omega, by simp only; omega, by simp only; omega, ?_⟩
      simp only
      by_cases hm1074 : e = -1074
      · right; exact hm1074
      · left
        rcases findExp_prev n d 8 (max (-1074) (log2Lower n d - 52)) with hp | ⟨_, hp⟩
        · rw [he] at hp
          have : e = log2Lower n d - 52 := by omega
          rw [this] at hsf
          exact le_trans (scaledFloor_estimate n d (hn h2) hd) hsf
        · rw [he] at hp
          exact le_trans (scaledFloor_step n d e hd hp) hsf

theorem Json.toFloat_valid (lit : NumLit) (f : Float64) (h : lit.toFloat = some f) :
    f.Valid ∧ f.neg = lit.neg := by
  unfold NumLit.toFloat at h
  exact roundFloat_valid _ _ _ f (by unfold NumLit.den; positivity) h

theorem Json.digitChar_spec : ∀ k < 10, isDigit (Nat.digitChar k) = true ∧
    (Nat.digitChar k).toNat - 48 = k ∧ (k ≠ 0 → Nat.digitChar k ≠ '0') := by
  decide

theorem Json.foldl_digits (b : List Char) : ∀ x : Nat,
    b.foldl (fun acc c => acc * 10 + (c.toNat - 48)) x
      = x * 10 ^ b.length + b.foldl (fun acc c => acc * 10 + (c.toNat - 48)) 0 := by
  induction b with
  | nil => intro x; simp
  | cons c b ih =>
    intro x
    simp only [List.foldl_cons, List.length_cons]
    rw [ih (x * 10 + (c.toNat - 48)), ih (0 * 10 + (c.toNat - 48))]
    ring

theorem Json.digitsValue_append (a b : List Char) :
    digitsValue (a ++ b) = digitsValue a * 10 ^ b.length + digitsValue b := by
  unfold digitsValue
  rw [List.foldl_append, foldl_digits]

theorem Json.digitsValue_zeros (k : Nat) : digitsValue (List.replicate k '0') = 0 := by
  induction k with
  | zero => rfl
  | succ k ih =>
    rw [List.replicate_succ]
    have : digitsValue ('0' :: List.replicate k '0')
        = digitsValue (['0'] ++ List.replicate k '0') := rfl
    rw [this, digitsValue_append, ih]
    have h0 : digitsValue ['0'] = 0 := by decide
    rw [h0]
    simp

theorem Json.isDigit_zeros (k : Nat) : ∀ c ∈ List.replicate k '0', isDigit c = true := by
  intro c hc
  rw [List.eq_of_mem_replicate hc]
  rfl

/-- The decimal digits `Nat.toDigits` writes in front of the accumulator. -/
theorem Json.toDigitsCore_spec : ∀ (fuel n : Nat) (acc : List Char), n < fuel →
    ∃ ds, Nat.toDigitsCore 10 fuel n acc = ds ++ acc ∧ ds ≠ [] ∧
      (∀ c ∈ ds, isDigit c = true) ∧ digitsValue ds = n ∧
      (n ≠ 0 → ds.head? ≠ some '0') := by
  intro fuel
  induction fuel with
  | zero => intro n acc h; omega
  | succ fuel ih =>
    intro n acc h
    have hd := digitChar_spec (n % 10) (Nat.mod_lt _ (by norm_num))
    unfold Nat.toDigitsCore
    simp only
    by_cases h0 : n / 10 = 0
    · simp only [h0, if_true]
      have hlt : n < 10 := by omega
      have hmod : n % 10 = n := Nat.mod_eq_of_lt hlt
      rw [hmod] at hd ⊢
      refine ⟨[Nat.digitChar n], rfl, by simp, ?_, ?_, ?_⟩
      · intro c hc
        rw [List.mem_singleton.mp hc]
        exact hd.1
      · simp only [digitsValue, List.foldl_cons, List.foldl_nil]
        omega
      · intro hn
        simp only [List.head?_cons, ne_eq, Option.some.injEq]
        exact hd.2.2 hn
    · simp only [h0, if_false]
      obtain ⟨ds, h1, h2, h3, h4, h5⟩ := ih (n / 10) (Nat.digitChar (n % 10) :: acc) (by omega)
      refine ⟨ds ++ [Nat.digitChar (n % 10)], by rw [h1]; simp, by simp, ?_, ?_, ?_⟩
      · intro c hc
        rcases List.mem_append.mp hc with hc | hc
        · exact h3 c hc
        · rw [List.mem_singleton.mp hc]
          exact hd.1
      · rw [digitsValue_append, h4]
        simp only [List.length_singleton, pow_one, digitsValue, List.foldl_cons, List.foldl_nil]
        omega
      · intro _
        cases ds with
        | nil => exact absurd rfl h2
        | cons c ds =>
          have := h5 h0
          simpa using this

theorem Json.toDigits_spec (n : Nat) :
    Nat.toDigits 10 n ≠ [] ∧ (∀ c ∈ Nat.toDigits 10 n, isDigit c = true) ∧
      digitsValue (Nat.toDigits 10 n) = n ∧ (n ≠ 0 → (Nat.toDigits 10 n).head? ≠ some '0') := by
  obtain ⟨ds, h1, h2, h3, h4, h5⟩ := toDigitsCore_spec (n + 1) n [] (by omega)
  unfold Nat.toDigits
  rw [h1, List.append_nil]
  exact ⟨h2, h3, h4, h5⟩

theorem Json.spanDigits_append (ds : List Char) (rest : List Char)
    (hds : ∀ c ∈ ds, isDigit c = true) (hrest : ∀ c r, rest = c :: r → isDigit c = false) :
    spanDigits (ds ++ rest) = (ds, rest) := by
  induction ds with
  | nil =>
    cases rest with
    | nil => rfl
    | cons c r =>
      simp only [List.nil_append, spanDigits, hrest c r rfl, Bool.false_eq_true, if_false]
  | cons c ds ih =>
    have hc := hds c (List.mem_cons_self _ _)
    have ih' := ih (fun x hx => hds x (List.mem_cons_of_mem _ hx))
    rw [List.cons_append, spanDigits]
    simp only [hc, if_true, ih']

theorem Json.spanDigits_all (ds : List Char) (hds : ∀ c ∈ ds, isDigit c = true) :
    spanDigits ds = (ds, []) := by
  have := spanDigits_append ds [] hds (fun c r h => by cases h)
  rwa [List.append_nil] at this

theorem Json.scanInt_digits (ds rest : List Char) (hds : ∀ c ∈ ds, isDigit c = true)
    (hne : ds ≠ []) (hhead : ds.head? ≠ some '0')
    (hrest : ∀ c r, rest = c :: r → isDigit c = false) :
    scanInt (ds ++ rest) = some (ds, rest) := by
  cases ds with
  | nil => exact absurd rfl hne
  | cons c t =>
    have hc0 : c ≠ '0' := by
      intro h
      apply hhead
      rw [h]
      rfl
    have hc := hds c (List.mem_cons_self _ _)
    have hsp := spanDigits_append (c :: t) rest hds hrest
    rw [List.cons_append] at hsp ⊢
    unfold scanInt
    simp only [hc0, if_false, hc, if_true, hsp]

theorem Json.scanFraction_digits (ds rest : List Char) (hds : ∀ c ∈ ds, isDigit c = true)
    (hne : ds ≠ []) (hrest : ∀ c r, rest = c :: r → isDigit c = false) :
    scanFraction ('.' :: (ds ++ rest)) = some (ds, rest) := by
  have hsp := spanDigits_append ds rest hds hrest
  unfold scanFraction
  simp only [if_true, hsp]

theorem Json.scanFraction_none (rest : List Char) (h : ∀ c r, rest = c :: r → c ≠ '.') :
    scanFraction rest = some ([], rest) := by
  cases rest with
  | nil => rfl
  | cons c r =>
    unfold scanFraction
    simp only [h c r rfl, if_false]

theorem Json.scanExponent_digits (sign : Char) (ex : List Char) (hs : sign = '-' ∨ sign = '+')
    (hex : ∀ c ∈ ex, isDigit c = true) (hne : ex ≠ []) :
    scanExponent ('e' :: sign :: ex)
      = some (if sign = '-' then -(digitsValue ex : Int) else (digitsValue ex : Int), []) := by
  have hsp := spanDigits_all ex hex
  have hsign : scanSign (sign :: ex) = (decide (sign = '-'), ex) := by
    rcases hs with rfl | rfl <;> rfl
  unfold scanExponent
  simp only [true_or, if_true, hsign, hsp]
  cases ex with
  | nil => exact absurd rfl hne
  | cons c t =>
    simp only [decide_eq_true_eq]

theorem Json.scanMinus_sign (neg : Bool) (body : List Char)
    (hb : ∀ c r, body = c :: r → c ≠ '-') :
    scanMinus ((if neg then ['-'] else []) ++ body) = (neg, body) := by
  cases neg with
  | true => rfl
  | false =>
    cases body with
    | nil => rfl
    | cons c r =>
      simp only [Bool.false_eq_true, if_false, List.nil_append, scanMinus, hb c r rfl]

theorem Json.scanNumber_of (s s1 s2 s3 s4 ip fp : List Char) (neg : Bool) (e : Int)
    (h0 : scanMinus s = (neg, s1)) (h1 : scanInt s1 = some (ip, s2))
    (h2 : scanFraction s2 = some (fp, s3)) (h3 : scanExponent s3 = some (e, s4)) :
    scanNumber s = some (⟨neg, digitsValue (ip ++ fp), e - fp.length⟩, s4) := by
  unfold scanNumber
  simp only [h0, h1, h2, h3]

theorem Json.isDigit_ne (c : Char) (h : isDigit c = true) :
    c ≠ '-' ∧ c ≠ '.' ∧ c ≠ 'e' := by
  refine ⟨?_, ?_, ?_⟩ <;> (intro hc; rw [hc] at h; revert h; decide)

/-- The `%f` text of decimal digits is read back as the number it writes. -/
theorem Json.scanNumber_formatF (neg : Bool) (ds : List Char) (dp : Int)
    (hds : ∀ c ∈ ds, isDigit c = true) (hne : ds ≠ []) (hhead : ds.head? ≠ some '0') :
    ∃ lit, scanNumber ((if neg then ['-'] else []) ++ formatF ds dp) = some (lit, []) ∧
      (lit = ⟨neg, digitsValue ds, dp - ds.length⟩ ∨
        ((ds.length : Int) ≤ dp ∧
          lit = ⟨neg, digitsValue ds * 10 ^ (dp - ds.length).toNat, 0⟩)) := by
  have hlen : 0 < ds.length := List.length_pos.mpr hne
  have hnil : ∀ c r, ([] : List Char) = c :: r → isDigit c = false := fun c r h => by cases h
  by_cases h1 : dp ≤ 0
  · -- `0.000ddd`
    have hf : formatF ds dp = '0' :: '.' :: (List.replicate (-dp).toNat '0' ++ ds ++ []) := by
      unfold formatF
      have h2 : ¬ dp > 0 := by omega
      have h3 : (ds.length : Int) > dp := by omega
      have h4 : dp.toNat = 0 := by omega
      simp only [h2, if_false, h3, if_true, h4, List.drop_zero]
      simp
    have hfd : ∀ c ∈ List.replicate (-dp).toNat '0' ++ ds, isDigit c = true := by
      intro c hc
      rcases List.mem_append.mp hc with hc | hc
      · exact isDigit_zeros _ c hc
      · exact hds c hc
    have hfne : List.replicate (-dp).toNat '0' ++ ds ≠ [] := by
      intro hc
      exact hne (List.append_eq_nil.mp hc).2
    refine ⟨_, ?_, Or.inl rfl⟩
    rw [hf]
    rw [scanNumber_of _ ('0' :: '.' :: (List.replicate (-dp).toNat '0' ++ ds ++ []))
      ('.' :: (List.replicate (-dp).toNat '0' ++ ds ++ [])) [] [] ['0']
      (List.replicate (-dp).toNat '0' ++ ds) neg 0
      (scanMinus_sign neg _ (fun c r h => by cases h; decide)) rfl
      (scanFraction_digits _ [] hfd hfne hnil) rfl]
    have hv : digitsValue (['0'] ++ (List.replicate (-dp).toNat '0' ++ ds)) = digitsValue ds := by
      rw [digitsValue_append, digitsValue_append, digitsValue_zeros]
      have h0 : digitsValue ['0'] = 0 := by decide
      rw [h0]
      simp
    rw [hv]
    have hl : (0 : Int) - ((List.replicate (-dp).toNat '0' ++ ds).length : Int)
        = dp - ds.length := by
      simp only [List.length_append, List.length_replicate]
      push_cast
      omega
    rw [hl]
  · obtain ⟨k, hk⟩ : ∃ k : Nat, dp = k := ⟨dp.toNat, by omega⟩
    subst hk
    have hk0 : 0 < k := by omega
    by_cases h2 : k < ds.length
    · -- `dd.ddd`
      have hf : formatF ds k = ds.take k ++ '.' :: (ds.drop k ++ []) := by
        unfold formatF
        have h3 : (k : Int) > 0 := by omega
        have h4 : (ds.length : Int) > k := by omega
        have h5 : k - ds.length = 0 := by omega
        have h6 : (-(k : Int)).toNat = 0 := by omega
        simp only [h3, if_true, h4, Int.toNat_ofNat, h5, h6, List.replicate_zero,
          List.append_nil, List.nil_append]
      have htake : ∀ c ∈ ds.take k, isDigit c = true :=
        fun c hc => hds c (List.mem_of_mem_take hc)
      have hdrop : ∀ c ∈ ds.drop k, isDigit c = true :=
        fun c hc => hds c (List.mem_of_mem_drop hc)
      have htne : ds.take k ≠ [] := by
        intro hc
        have := congrArg List.length hc
        simp only [List.length_take, List.length_nil] at this
        omega
      have hdne : ds.drop k ≠ [] := by
        intro hc
        have := congrArg List.length hc
        simp only [List.length_drop, List.length_nil] at this
        omega
      have hth : (ds.take k).head? ≠ some '0' := by
        cases ds with
        | nil => exact absurd rfl hne
        | cons c t =>
          obtain ⟨j, rfl⟩ : ∃ j, k = j + 1 := ⟨k - 1, by omega⟩
          simpa using hhead
      have hhd : ∀ c r, ds.take k ++ '.' :: (ds.drop k ++ []) = c :: r → c ≠ '-' := by
        intro c r h
        cases hd : ds.take k with
        | nil => exact absurd hd htne
        | cons x t =>
          rw [hd] at h
          simp only [List.cons_append, List.cons.injEq] at h
          rw [← h.1]
          exact (isDigit_ne x (htake x (by rw [hd]; exact List.mem_cons_self _ _))).1
      refine ⟨_, ?_, Or.inl rfl⟩
      rw [hf]
      rw [scanNumber_of _ (ds.take k ++ '.' :: (ds.drop k ++ []))
        ('.' :: (ds.drop k ++ [])) [] [] (ds.take k) (ds.drop k) neg 0
        (scanMinus_sign neg _ hhd)
        (scanInt_digits _ _ htake htne hth (fun c r h => by cases h; decide))
        (scanFraction_digits _ [] hdrop hdne hnil) rfl]
      rw [List.take_append_drop]
      have hl : (0 : Int) - ((ds.drop k).length : Int) = (k : Int) - ds.length := by
        simp only [List.length_drop]
        omega
      rw [hl]
    · -- `ddd000`
      have hf : formatF ds k = ds ++ List.replicate (k - ds.length) '0' ++ [] := by
        unfold formatF
        have h3 : (k : Int) > 0 := by omega
        have h4 : ¬ (ds.length : Int) > k := by omega
        have h5 : ds.take k = ds := List.take_of_length_le (by omega)
        simp only [h3, if_true, h4, if_false, Int.toNat_ofNat, h5, List.append_nil]
      have hall : ∀ c ∈ ds ++ List.replicate (k - ds.length) '0', isDigit c = true := by
        intro c hc
        rcases List.mem_append.mp hc with hc | hc
        · exact hds c hc
        · exact isDigit_zeros _ c hc
      have hane : ds ++ List.replicate (k - ds.length) '0' ≠ [] := by
        intro hc
        exact hne (List.append_eq_nil.mp hc).1
      have hah : (ds ++ List.replicate (k - ds.length) '0').head? ≠ some '0' := by
        cases ds with
        | nil => exact absurd rfl hne
        | cons c t => simpa using hhead
      have hhd : ∀ c r, ds ++ List.replicate (k - ds.length) '0' ++ [] = c :: r → c ≠ '-' := by
        intro c r h
        cases ds with
        | nil => exact absurd rfl hne
        | cons x t =>
          simp only [List.cons_append, List.cons.injEq] at h
          rw [← h.1]
          exact (isDigit_ne x (hds x (List.mem_cons_self _ _))).1
      refine ⟨_, ?_, Or.inr ⟨by omega, rfl⟩⟩
      rw [hf]
      rw [scanNumber_of _ (ds ++ List.replicate (k - ds.length) '0' ++ []) [] [] []
        (ds ++ List.replicate (k - ds.length) '0') [] neg 0
        (scanMinus_sign neg _ hhd)
        (scanInt_digits _ _ hall hane hah hnil) rfl rfl]
      rw [List.append_nil, digitsValue_append, digitsValue_zeros, List.length_replicate]
      have hk2 : ((k : Int) - (ds.length : Int)).toNat = k - ds.length := by omega
      rw [hk2]
      simp

/-- The `%e` text of decimal digits is read back as the number it writes. -/
theorem Json.scanNumber_formatE (neg : Bool) (ds : List Char) (dp : Int)
    (hds : ∀ c ∈ ds, isDigit c = true) (hne : ds ≠ []) (hhead : ds.head? ≠ some '0') :
    scanNumber ((if neg then ['-'] else []) ++ formatE ds dp)
      = some (⟨neg, digitsValue ds, dp - ds.length⟩, []) := by
  have hlen : 0 < ds.length := List.length_pos.mpr hne
  obtain ⟨hx1, hx2, hx3, _⟩ := toDigits_spec (dp - 1).natAbs
  -- the exponent part
  obtain ⟨sign, exd, hsign, hexd, hexne, hval, hf⟩ :
      ∃ (sign : Char) (exd : List Char), (sign = '-' ∨ sign = '+') ∧
        (∀ c ∈ exd, isDigit c = true) ∧ exd ≠ [] ∧
        (if sign = '-' then -(digitsValue exd : Int) else (digitsValue exd : Int)) = dp - 1 ∧
        formatE ds dp
          = (if ds.length > 1 then ds.take 1 ++ '.' :: ds.drop 1 else ds)
            ++ 'e' :: sign :: exd := by
    by_cases hneg : dp - 1 < 0
    · refine ⟨'-', Nat.toDigits 10 (dp - 1).natAbs, Or.inl rfl, hx2, hx1, ?_, ?_⟩
      · simp only [if_true, hx3]
        omega
      · unfold formatE
        simp only [hneg, if_true]
    · by_cases hpad : (Nat.toDigits 10 (dp - 1).natAbs).length < 2
      · refine ⟨'+', '0' :: Nat.toDigits 10 (dp - 1).natAbs, Or.inr rfl, ?_, by simp, ?_, ?_⟩
        · intro c hc
          rcases List.mem_cons.mp hc with rfl | hc
          · rfl
          · exact hx2 c hc
        · have h0 : ¬ ('+' = '-') := by decide
          simp only [h0, if_false]
          have : digitsValue ('0' :: Nat.toDigits 10 (dp - 1).natAbs)
              = digitsValue (['0'] ++ Nat.toDigits 10 (dp - 1).natAbs) := rfl
          rw [this, digitsValue_append, hx3]
          have h00 : digitsValue ['0'] = 0 := by decide
          rw [h00]
          simp only [zero_mul, zero_add]
          omega
        · unfold formatE
          simp only [hneg, if_false, hpad, if_true]
      · refine ⟨'+', Nat.toDigits 10 (dp - 1).natAbs, Or.inr rfl, hx2, hx1, ?_, ?_⟩
        · have h0 : ¬ ('+' = '-') := by decide
          simp only [h0, if_false, hx3]
          omega
        · unfold formatE
          simp only [hneg, if_false, hpad]
  have hexp := scanExponent_digits sign exd hsign hexd hexne
  rw [hval] at hexp
  rw [hf]
  have hhd : ∀ (tail : List Char) c r, ds ++ tail = c :: r → c ≠ '-' := by
    intro tail c r h
    cases ds with
    | nil => exact absurd rfl hne
    | cons x t =>
      simp only [List.cons_append, List.cons.injEq] at h
      rw [← h.1]
      exact (isDigit_ne x (hds x (List.mem_cons_self _ _))).1
  by_cases hl : ds.length > 1
  · simp only [hl, if_true]
    have htake : ∀ c ∈ ds.take 1, isDigit c = true :=
      fun c hc => hds c (List.mem_of_mem_take hc)
    have hdrop : ∀ c ∈ ds.drop 1, isDigit c = true :=
      fun c hc => hds c (List.mem_of_mem_drop hc)
    have htne : ds.take 1 ≠ [] := by
      intro hc
      have := congrArg List.length hc
      simp only [List.length_take, List.length_nil] at this
      omega
    have hdne : ds.drop 1 ≠ [] := by
      intro hc
      have := congrArg List.length hc
      simp only [List.length_drop, List.length_nil] at this
      omega
    have hth : (ds.take 1).head? ≠ some '0' := by
      cases ds with
      | nil => exact absurd rfl hne
      | cons c t => simpa using hhead
    have htext : ds.take 1 ++ '.' :: ds.drop 1 ++ 'e' :: sign :: exd
        = ds.take 1 ++ ('.' :: (ds.drop 1 ++ 'e' :: sign :: exd)) := by simp
    rw [htext]
    have hhd' : ∀ c r, ds.take 1 ++ ('.' :: (ds.drop 1 ++ 'e' :: sign :: exd)) = c :: r →
        c ≠ '-' := by
      intro c r h
      have h2 : ds ++ 'e' :: sign :: exd = ds.take 1 ++ (ds.drop 1 ++ 'e' :: sign :: exd) := by
        rw [← List.append_assoc, List.take_append_drop]
      cases hd : ds.take 1 with
      | nil => exact absurd hd htne
      | cons x t =>
        rw [hd] at h
        simp only [List.cons_append, List.cons.injEq] at h
        rw [← h.1]
        exact (isDigit_ne x (htake x (by rw [hd]; exact List.mem_cons_self _ _))).1
    rw [scanNumber_of _ (ds.take 1 ++ ('.' :: (ds.drop 1 ++ 'e' :: sign :: exd)))
      ('.' :: (ds.drop 1 ++ 'e' :: sign :: exd)) ('e' :: sign :: exd) []
      (ds.take 1) (ds.drop 1) neg (dp - 1)
      (scanMinus_sign neg _ hhd')
      (scanInt_digits _ _ htake htne hth (fun c r h => by cases h; decide))
      (scanFraction_digits _ _ hdrop hdne (fun c r h => by cases h; decide)) hexp]
    rw [List.take_append_drop]
    have hl2 : dp - 1 - ((ds.drop 1).length : Int) = dp - ds.length := by
      simp only [List.length_drop]
      omega
    rw [hl2]
  · simp only [hl, if_false]
    rw [scanNumber_of _ (ds ++ 'e' :: sign :: exd) ('e' :: sign :: exd) ('e' :: sign :: exd) []
      ds [] neg (dp - 1)
      (scanMinus_sign neg _ (hhd _))
      (scanInt_digits _ _ hds hne hhead (fun c r h => by cases h; decide))
      (scanFraction_none _ (fun c r h => by cases h; decide)) hexp]
    rw [List.append_nil]
    have hl2 : dp - 1 - (([] : List Char).length : Int) = dp - ds.length := by
      simp only [List.length_nil]
      omega
    rw [hl2]

theorem Json.normalize_spec : ∀ (fuel dg : Nat) (s : Int), dg ≠ 0 →
    (normalize fuel dg s).1 ≠ 0 ∧ s ≤ (normalize fuel dg s).2 ∧
      (normalize fuel dg s).1 * 10 ^ ((normalize fuel dg s).2 - s).toNat = dg := by
  intro fuel
  induction fuel with
  | zero => intro dg s h; simp [normalize, h]
  | succ fuel ih =>
    intro dg s h
    unfold normalize
    by_cases hc : dg ≠ 0 ∧ dg % 10 = 0
    · simp only [hc, ne_eq, not_false_eq_true, and_self, if_true]
      have hd : dg / 10 ≠ 0 := by omega
      obtain ⟨h1, h2, h3⟩ := ih (dg / 10) (s + 1) hd
      refine ⟨h1, by omega, ?_⟩
      have he : ((normalize fuel (dg / 10) (s + 1)).2 - s).toNat
          = ((normalize fuel (dg / 10) (s + 1)).2 - (s + 1)).toNat + 1 := by omega
      rw [he, pow_succ, ← mul_assoc, h3]
      omega
    · simp only [hc, if_false]
      simp [h]

/-- The text of a decimal is read back as a literal of the same value. -/
theorem Json.scanNumber_renderDecimal (neg : Bool) (n d dg : Nat) (s : Int) (hdg : dg ≠ 0) :
    ∃ lit, scanNumber (renderDecimal neg n d dg s) = some (lit, []) ∧ lit.neg = neg ∧
      lit.num * 10 ^ (-s).toNat = dg * 10 ^ s.toNat * lit.den := by
  obtain ⟨hn1, hn2, hn3⟩ := normalize_spec 800 dg s hdg
  obtain ⟨hx1, hx2, hx3, hx4⟩ := toDigits_spec (normalize 800 dg s).1
  have hx4 := hx4 hn1
  generalize hN : normalize 800 dg s = N at hn1 hn2 hn3 hx1 hx2 hx3 hx4
  have hpow : ∀ a b c e : Nat, a + b = c + e →
      N.1 * 10 ^ a * 10 ^ b = N.1 * 10 ^ c * 10 ^ e := by
    intro a b c e h
    rw [mul_assoc, mul_assoc, ← pow_add, ← pow_add, h]
  have hvalue : ∀ lit : NumLit,
      (lit = ⟨neg, N.1, N.2⟩ ∨ (0 ≤ N.2 ∧ lit = ⟨neg, N.1 * 10 ^ N.2.toNat, 0⟩)) →
      lit.neg = neg ∧ lit.num * 10 ^ (-s).toNat = dg * 10 ^ s.toNat * lit.den := by
    intro lit hl
    rw [← hn3]
    rcases hl with rfl | ⟨h0, rfl⟩
    · refine ⟨rfl, ?_⟩
      simp only [NumLit.num, NumLit.den]
      rw [hpow N.2.toNat (-s).toNat ((N.2 - s).toNat + s.toNat) (-N.2).toNat (by omega)]
      rw [pow_add]
      ring
    · refine ⟨rfl, ?_⟩
      simp only [NumLit.num, NumLit.den, Int.toNat_zero, pow_zero, mul_one, neg_zero]
      rw [hpow N.2.toNat (-s).toNat ((N.2 - s).toNat) s.toNat (by omega)]
  unfold renderDecimal
  simp only [hN]
  generalize (decide (n * 2 ^ 72 < 4722366482869645 * d) || decide (10 ^ 21 * d ≤ n)) = useE
  have h1 : N.2 + ((Nat.toDigits 10 N.1).length : Int) - (Nat.toDigits 10 N.1).length = N.2 := by
    omega
  cases useE with
  | true =>
    simp only [if_true]
    refine ⟨_, scanNumber_formatE neg _ _ hx2 hx1 hx4, ?_⟩
    apply hvalue
    left
    rw [h1, hx3]
  | false =>
    simp only [Bool.false_eq_true, if_false]
    obtain ⟨lit, hs, hl⟩ := scanNumber_formatF neg _ (N.2 + (Nat.toDigits 10 N.1).length)
      hx2 hx1 hx4
    refine ⟨lit, hs, ?_⟩
    apply hvalue
    rw [h1, hx3] at hl
    rcases hl with hl | ⟨h0, hl⟩
    · left; exact hl
    · right; exact ⟨by omega, hl⟩

theorem Json.findExp10_bounds (n d : Nat) : ∀ (fuel : Nat) (k : Int),
    k ≤ findExp10 n d fuel k ∧ findExp10 n d fuel k ≤ k + fuel := by
  intro fuel
  induction fuel with
  | zero => intro k; simp [findExp10]
  | succ fuel ih =>
    intro k
    unfold findExp10
    split_ifs
    · constructor <;> omega
    · have := ih (k + 1)
      constructor
      · omega
      · push_cast; omega

/-- The search for the shortest text ends when one of the precisions within its fuel has a
candidate that parses back. -/
theorem Json.shortest_some (f : Float64) (n d : Nat) (k : Int) : ∀ (fuel p : Nat),
    (∃ j, j < fuel ∧ ∃ t ∈ (candidates n d (k - ((p + j : Nat) : Int) + 1)).map
        (renderDecimal f.neg n d · (k - ((p + j : Nat) : Int) + 1)), parsesTo t f = true) →
    ∃ t, shortest f n d k fuel p = some t := by
  intro fuel
  induction fuel with
  | zero =>
    rintro p ⟨j, hj, _⟩
    omega
  | succ fuel ih =>
    rintro p ⟨j, hj, t, ht, hp⟩
    unfold shortest
    rcases hf : ((candidates n d (k - p + 1)).map (renderDecimal f.neg n d · (k - p + 1))).find?
        (parsesTo · f) with _ | text
    · simp only
      cases j with
      | zero =>
        simp only [Nat.add_zero] at ht
        have := List.find?_eq_none.mp hf t ht
        exact absurd hp this
      | succ j =>
        apply ih (p + 1)
        refine ⟨j, by omega, t, ?_, hp⟩
        have : p + 1 + j = p + (j + 1) := by omega
        rw [this]
        exact ht
    · exact ⟨text, rfl⟩

/-- The decimal expansion of a binary fraction is exact at the position of its last binary
digit. -/
theorem Json.candidates_exact (mant xp xn : Nat) :
    candidates (mant * 2 ^ xp) (2 ^ xn) (-(xn : Int)) = [mant * 2 ^ xp * 5 ^ xn] := by
  unfold candidates
  have h1 : (-(-(xn : Int))).toNat = xn := by omega
  have h2 : (-(xn : Int)).toNat = 0 := by omega
  have h3 : mant * 2 ^ xp * 10 ^ xn = mant * 2 ^ xp * 5 ^ xn * (2 ^ xn * 10 ^ 0) := by
    have : (10 : Nat) ^ xn = 5 ^ xn * 2 ^ xn := by
      rw [← Nat.mul_pow]
    rw [this]
    ring
  simp only [h1, h2, h3]
  have h4 : mant * 2 ^ xp * 5 ^ xn * (2 ^ xn * 10 ^ 0) % (2 ^ xn * 10 ^ 0) = 0 :=
    Nat.mul_mod_left _ _
  have h5 : mant * 2 ^ xp * 5 ^ xn * (2 ^ xn * 10 ^ 0) / (2 ^ xn * 10 ^ 0)
      = mant * 2 ^ xp * 5 ^ xn := Nat.mul_div_cancel _ (by positivity)
  simp only [h4, h5, if_true]

/-- The decimal exponent the search starts from is within reach of the exact expansion. -/
theorem Json.exp10_in_reach (mant : Nat) (exp : Int) (hm0 : mant ≠ 0) (hm : mant < 2 ^ 53)
    (hlo : -1074 ≤ exp) (hhi : exp ≤ 971) (hnorm : 2 ^ 52 ≤ mant ∨ exp = -1074) (k : Int)
    (hk : k = findExp10 (mant * 2 ^ exp.toNat) (2 ^ (-exp).toNat) 16
      ((log2Lower (mant * 2 ^ exp.toNat) (2 ^ (-exp).toNat) * 30103) / 100000 - 2)) :
    0 ≤ k + ((-exp).toNat : Int) ∧ k + ((-exp).toNat : Int) < 800 := by
  obtain ⟨hk1, hk2⟩ := findExp10_bounds (mant * 2 ^ exp.toNat) (2 ^ (-exp).toNat) 16
    ((log2Lower (mant * 2 ^ exp.toNat) (2 ^ (-exp).toNat) * 30103) / 100000 - 2)
  rw [← hk] at hk1 hk2
  have hn0 : mant * 2 ^ exp.toNat ≠ 0 := by positivity
  have hd0 : (2 : Nat) ^ (-exp).toNat ≠ 0 := by positivity
  obtain ⟨hn1, hn2⟩ := bitLength_spec _ _ (le_refl (mant * 2 ^ exp.toNat))
  obtain ⟨hd1, hd2⟩ := bitLength_spec _ _ (le_refl (2 ^ (-exp).toNat))
  have hn2 := hn2 hn0
  have hd2 := hd2 hd0
  have hbn := bitLength_pos _ hn0
  have hbd := bitLength_pos _ hd0
  have hbd1 := pow2_lt _ _ hd1
  have hbd2 := pow2_le _ _ hd2
  have hbn1 : bitLength (mant * 2 ^ exp.toNat) (mant * 2 ^ exp.toNat) - 1 < 53 + exp.toNat := by
    apply pow2_lt
    rw [pow_add]
    exact lt_of_le_of_lt hn2 (Nat.mul_lt_mul_of_pos_right hm (by positivity))
  have hbn2 : 2 ^ 52 ≤ mant →
      52 + exp.toNat < bitLength (mant * 2 ^ exp.toNat) (mant * 2 ^ exp.toNat) := by
    intro h
    apply pow2_lt
    rw [pow_add]
    exact lt_of_le_of_lt (Nat.mul_le_mul_right _ h) hn1
  unfold log2Lower at hk1 hk2
  generalize bitLength (mant * 2 ^ exp.toNat) (mant * 2 ^ exp.toNat) = bn at *
  generalize bitLength (2 ^ (-exp).toNat) (2 ^ (-exp).toNat) = bd at *
  rcases hnorm with h | h
  · have := hbn2 h
    constructor <;> omega
  · constructor <;> omega

/-- The function `formatFloat` writes every valid `float64`. -/
theorem Json.formatFloat_total (f : Float64) (hv : f.Valid) : ∃ t, formatFloat f = some t := by
  obtain ⟨neg, mant, exp⟩ := f
  rcases hv with ⟨h1, h2⟩ | ⟨hm0, hm, hlo, hhi, hnorm⟩
  · simp only at h1 h2
    subst h1
    subst h2
    cases neg
    · exact ⟨"0".data, by decide⟩
    · exact ⟨"-0".data, by decide⟩
  · simp only at hm0 hm hlo hhi hnorm
    unfold formatFloat
    simp only [hm0, if_false]
    generalize hk : findExp10 (mant * 2 ^ exp.toNat) (2 ^ (-exp).toNat) 16
      ((log2Lower (mant * 2 ^ exp.toNat) (2 ^ (-exp).toNat) * 30103) / 100000 - 2) = k
    obtain ⟨hr1, hr2⟩ := exp10_in_reach mant exp hm0 hm hlo hhi hnorm k hk.symm
    apply shortest_some
    refine ⟨(k + ((-exp).toNat : Int)).toNat, by omega, ?_⟩
    have hs : k - ((1 + (k + ((-exp).toNat : Int)).toNat : Nat) : Int) + 1
        = -(((-exp).toNat : Nat) : Int) := by
      push_cast
      omega
    rw [hs, candidates_exact]
    have hlo0 : mant * 2 ^ exp.toNat * 5 ^ (-exp).toNat ≠ 0 := by positivity
    obtain ⟨lit, hscan, hneg, hval⟩ := scanNumber_renderDecimal neg (mant * 2 ^ exp.toNat)
      (2 ^ (-exp).toNat) _ (-(((-exp).toNat : Nat) : Int)) hlo0
    refine ⟨_, by simp only [List.map_cons, List.map_nil]; exact List.mem_singleton.mpr rfl, ?_⟩
    unfold parsesTo
    simp only [hscan, decide_eq_true_eq]
    unfold NumLit.toFloat
    rw [hneg]
    apply roundFloat_exact neg lit.num lit.den mant exp (by unfold NumLit.den; positivity)
      hm0 hm hlo hhi hnorm
    have h1 : (-(-(((-exp).toNat : Nat) : Int))).toNat = (-exp).toNat := by omega
    have h2 : (-(((-exp).toNat : Nat) : Int)).toNat = 0 := by omega
    rw [h1, h2] at hval
    have h10 : (10 : Nat) ^ (-exp).toNat = 2 ^ (-exp).toNat * 5 ^ (-exp).toNat := by
      rw [← Nat.mul_pow]
    rw [h10] at hval
    apply Nat.eq_of_mul_eq_mul_right (show 0 < 5 ^ (-exp).toNat by positivity)
    calc lit.num * 2 ^ (-exp).toNat * 5 ^ (-exp).toNat
        = lit.num * (2 ^ (-exp).toNat * 5 ^ (-exp).toNat) := by ring
      _ = mant * 2 ^ exp.toNat * 5 ^ (-exp).toNat * 10 ^ 0 * lit.den := hval
      _ = mant * 2 ^ exp.toNat * lit.den * 5 ^ (-exp).toNat := by ring

theorem Json.Closed_spec (rest : List Char) (h : Closed rest) :
    ∀ c r, rest = c :: r →
      isDigit c = false ∧ c ≠ '.' ∧ c ≠ 'e' ∧ c ≠ 'E' ∧ c ≠ '-' ∧ c ≠ '+' := by
  intro c r hc
  have hn := h c r hc
  refine ⟨?_, ?_, ?_, ?_, ?_, ?_⟩
  · cases hd : isDigit c with
    | false => rfl
    | true => simp [numChar, hd] at hn
  all_goals (intro hx; rw [hx] at hn; revert hn; decide)

theorem Json.spanDigits_append_closed (s rest : List Char)
    (hrest : ∀ c r, rest = c :: r → isDigit c = false) :
    spanDigits (s ++ rest) = ((spanDigits s).1, (spanDigits s).2 ++ rest) := by
  induction s with
  | nil =>
    have := spanDigits_append [] rest (fun c hc => by cases hc) hrest
    simpa [spanDigits] using this
  | cons c s ih =>
    rw [List.cons_append, spanDigits, spanDigits]
    by_cases hc : isDigit c = true
    · simp only [hc, if_true, ih]
    · simp only [hc, Bool.false_eq_true, if_false, List.cons_append]

theorem Json.scanInt_append (s ip r rest : List Char) (h : scanInt s = some (ip, r))
    (hrest : Closed rest) : scanInt (s ++ rest) = some (ip, r ++ rest) := by
  have hcl := fun c r' hc => (Closed_spec rest hrest c r' hc).1
  cases s with
  | nil => simp [scanInt] at h
  | cons c t =>
    rw [List.cons_append]
    unfold scanInt at h ⊢
    by_cases h0 : c = '0'
    · simp only [h0, if_true, Option.some.injEq, Prod.mk.injEq] at h ⊢
      obtain ⟨rfl, rfl⟩ := h
      exact ⟨rfl, rfl⟩
    · by_cases hd : isDigit c = true
      · simp only [h0, hd, if_true, if_false, Option.some.injEq] at h ⊢
        have := spanDigits_append_closed (c :: t) rest hcl
        rw [List.cons_append] at this
        rw [this, h]
      · simp [h0, hd] at h

theorem Json.scanFraction_append (s fp r rest : List Char) (h : scanFraction s = some (fp, r))
    (hrest : Closed rest) : scanFraction (s ++ rest) = some (fp, r ++ rest) := by
  have hcl := fun c r' hc => (Closed_spec rest hrest c r' hc).1
  cases s with
  | nil =>
    simp only [scanFraction, Option.some.injEq, Prod.mk.injEq] at h
    obtain ⟨rfl, rfl⟩ := h
    simp only [List.nil_append]
    exact scanFraction_none rest (fun c r' hc => (Closed_spec rest hrest c r' hc).2.1)
  | cons c t =>
    rw [List.cons_append]
    unfold scanFraction at h ⊢
    by_cases hc : c = '.'
    · simp only [hc, if_true] at h ⊢
      rw [spanDigits_append_closed t rest hcl]
      rcases hsp : spanDigits t with ⟨ds, r1⟩
      rw [hsp] at h
      cases ds with
      | nil => simp at h
      | cons d ds =>
        simp only [Option.some.injEq, Prod.mk.injEq] at h ⊢
        obtain ⟨rfl, rfl⟩ := h
        exact ⟨rfl, rfl⟩
    · simp only [hc, if_false, Option.some.injEq, Prod.mk.injEq] at h ⊢
      obtain ⟨rfl, rfl⟩ := h
      exact ⟨rfl, rfl⟩

theorem Json.scanExponent_append (s : List Char) (e : Int) (r rest : List Char)
    (h : scanExponent s = some (e, r)) (hrest : Closed rest) :
    scanExponent (s ++ rest) = some (e, r ++ rest) := by
  have hcl := fun c r' hc => (Closed_spec rest hrest c r' hc).1
  cases s with
  | nil =>
    simp only [scanExponent, Option.some.injEq, Prod.mk.injEq] at h
    obtain ⟨rfl, rfl⟩ := h
    simp only [List.nil_append]
    cases rest with
    | nil => rfl
    | cons c r' =>
      obtain ⟨_, _, h3, h4, _⟩ := Closed_spec _ hrest c r' rfl
      unfold scanExponent
      have : ¬ (c = 'e' ∨ c = 'E') := by
        rintro (hc | hc)
        · exact h3 hc
        · exact h4 hc
      simp only [this, if_false]
  | cons c t =>
    rw [List.cons_append]
    unfold scanExponent at h ⊢
    by_cases hc : c = 'e' ∨ c = 'E'
    · simp only [hc, if_true] at h ⊢
      cases t with
      | nil => simp [scanSign, spanDigits] at h
      | cons x t' =>
        have hsign : scanSign (x :: t' ++ rest)
            = ((scanSign (x :: t')).1, (scanSign (x :: t')).2 ++ rest) := by
          rw [List.cons_append]
          unfold scanSign
          by_cases h1 : x = '-'
          · simp only [h1, if_true]
          · by_cases h2 : x = '+'
            · subst h2
              rfl
            · simp only [h1, h2, if_false, List.cons_append]
        rw [hsign]
        simp only
        rw [spanDigits_append_closed _ rest hcl]
        rcases hsp : spanDigits (scanSign (x :: t')).2 with ⟨ds, r1⟩
        rw [hsp] at h
        cases ds with
        | nil => simp at h
        | cons d ds =>
          simp only [Option.some.injEq, Prod.mk.injEq] at h ⊢
          obtain ⟨rfl, rfl⟩ := h
          exact ⟨rfl, rfl⟩
    · simp only [hc, if_false, Option.some.injEq, Prod.mk.injEq] at h ⊢
      obtain ⟨rfl, rfl⟩ := h
      exact ⟨rfl, rfl⟩

/-- A number literal is read the same when text that does not continue it follows. -/
theorem Json.scanNumber_append (s : List Char) (lit : NumLit) (r rest : List Char)
    (h : scanNumber s = some (lit, r)) (hrest : Closed rest) :
    scanNumber (s ++ rest) = some (lit, r ++ rest) := by
  unfold scanNumber at h
  rcases hi : scanInt (scanMinus s).2 with _ | ⟨ip, s2⟩
  · simp [hi] at h
  · simp only [hi] at h
    rcases hf : scanFraction s2 with _ | ⟨fp, s3⟩
    · simp [hf] at h
    · simp only [hf] at h
      rcases he : scanExponent s3 with _ | ⟨e, s4⟩
      · simp [he] at h
      · simp only [he, Option.some.injEq, Prod.mk.injEq] at h
        obtain ⟨rfl, rfl⟩ := h
        have hm : scanMinus (s ++ rest) = ((scanMinus s).1, (scanMinus s).2 ++ rest) := by
          cases s with
          | nil => simp [scanMinus, scanInt] at hi
          | cons c t =>
            rw [List.cons_append]
            unfold scanMinus
            by_cases h1 : c = '-'
            · simp only [h1, if_true]
            · simp only [h1, if_false, List.cons_append]
        exact scanNumber_of _ _ _ _ _ ip fp _ e hm (scanInt_append _ _ _ _ hi hrest)
          (scanFraction_append _ _ _ _ hf hrest) (scanExponent_append _ _ _ _ he hrest)

/-- A number literal starts with a minus sign or a digit. -/
theorem Json.scanNumber_head (c : Char) (s : List Char) (lit : NumLit) (r : List Char)
    (h : scanNumber (c :: s) = some (lit, r)) : c = '-' ∨ isDigit c = true := by
  by_cases h1 : c = '-'
  · left; exact h1
  · right
    unfold scanNumber at h
    have hm : scanMinus (c :: s) = (false, c :: s) := by
      unfold scanMinus
      simp only [h1, if_false]
    rw [hm] at h
    simp only at h
    unfold scanInt at h
    by_cases h0 : c = '0'
    · rw [h0]; rfl
    · by_cases hd : isDigit c = true
      · exact hd
      · simp [h0, hd] at h

theorem Json.prepend_prepend (a b : List Token) (x : Except LibError (List Token)) :
    prepend a (prepend b x) = prepend (a ++ b) x := by
  cases x with
  | error e => rfl
  | ok ts => simp [prepend]

theorem Json.tokenizeAux_beginArray (fuel : Nat) (rest : List Char) :
    tokenizeAux (fuel + 1) ('[' :: rest) = prepend [.beginArray] (tokenizeAux fuel rest) := by
  simp only [tokenizeAux]
  cases tokenizeAux fuel rest <;> rfl

theorem Json.tokenizeAux_endArray (fuel : Nat) (rest : List Char) :
    tokenizeAux (fuel + 1) (']' :: rest) = prepend [.endArray] (tokenizeAux fuel rest) := by
  simp only [tokenizeAux]
  cases tokenizeAux fuel rest <;> rfl

theorem Json.tokenizeAux_beginObject (fuel : Nat) (rest : List Char) :
    tokenizeAux (fuel + 1) ('{' :: rest) = prepend [.beginObject] (tokenizeAux fuel rest) := by
  simp only [tokenizeAux]
  cases tokenizeAux fuel rest <;> rfl

theorem Json.tokenizeAux_endObject (fuel : Nat) (rest : List Char) :
    tokenizeAux (fuel + 1) ('}' :: rest) = prepend [.endObject] (tokenizeAux fuel rest) := by
  simp only [tokenizeAux]
  cases tokenizeAux fuel rest <;> rfl

theorem Json.tokenizeAux_colon (fuel : Nat) (rest : List Char) :
    tokenizeAux (fuel + 1) (':' :: rest) = prepend [.colon] (tokenizeAux fuel rest) := by
  simp only [tokenizeAux]
  cases tokenizeAux fuel rest <;> rfl

theorem Json.tokenizeAux_comma (fuel : Nat) (rest : List Char) :
    tokenizeAux (fuel + 1) (',' :: rest) = prepend [.comma] (tokenizeAux fuel rest) := by
  simp only [tokenizeAux]
  cases tokenizeAux fuel rest <;> rfl

theorem Json.tokenizeAux_null (fuel : Nat) (rest : List Char) :
    tokenizeAux (fuel + 1) ("null".data ++ rest) = prepend [.litNull] (tokenizeAux fuel rest) := by
  show tokenizeAux (fuel + 1) ('n' :: 'u' :: 'l' :: 'l' :: rest) = _
  simp only [tokenizeAux]
  have h1 : isSpace 'n' = false := rfl
  have h2 : isDigit 'n' = false := rfl
  simp [h1, h2]
  cases tokenizeAux fuel rest <;> rfl

theorem Json.tokenizeAux_true (fuel : Nat) (rest : List Char) :
    tokenizeAux (fuel + 1) ("true".data ++ rest) = prepend [.litTrue] (tokenizeAux fuel rest) := by
  show tokenizeAux (fuel + 1) ('t' :: 'r' :: 'u' :: 'e' :: rest) = _
  simp only [tokenizeAux]
  have h1 : isSpace 't' = false := rfl
  have h2 : isDigit 't' = false := rfl
  simp [h1, h2]
  cases tokenizeAux fuel rest <;> rfl

theorem Json.tokenizeAux_false (fuel : Nat) (rest : List Char) :
    tokenizeAux (fuel + 1) ("false".data ++ rest)
      = prepend [.litFalse] (tokenizeAux fuel rest) := by
  show tokenizeAux (fuel + 1) ('f' :: 'a' :: 'l' :: 's' :: 'e' :: rest) = _
  simp only [tokenizeAux]
  have h1 : isSpace 'f' = false := rfl
  have h2 : isDigit 'f' = false := rfl
  simp [h1, h2]
  cases tokenizeAux fuel rest <;> rfl

theorem Json.escapeChar_length (c : Char) : 1 ≤ (escapeChar c).length := by
  unfold escapeChar
  split_ifs <;> simp

theorem Json.flatMap_escapeChar_length (s : GoString) :
    s.length ≤ (s.flatMap escapeChar).length := by
  induction s with
  | nil => simp
  | cons c s ih =>
    simp only [List.flatMap_cons, List.length_append, List.length_cons]
    have := escapeChar_length c
    omega

theorem Json.tokenizeAux_string (fuel : Nat) (s : GoString) (rest : List Char) :
    tokenizeAux (fuel + 1) (quote s ++ rest) = prepend [.string s] (tokenizeAux fuel rest) := by
  have hq : quote s ++ rest = '"' :: (s.flatMap escapeChar ++ '"' :: rest) := by
    simp [quote]
  have hs := scanString_quote s ((s.flatMap escapeChar ++ '"' :: rest).length + 1) rest (by
    have := flatMap_escapeChar_length s
    simp only [List.length_append, List.length_cons]
    omega)
  rw [hq]
  simp only [tokenizeAux]
  rw [hs]
  have h1 : isSpace '"' = false := rfl
  simp [h1]
  cases tokenizeAux fuel rest <;> rfl

theorem Json.numberHead_spec (c : Char) (h : c = '-' ∨ isDigit c = true) :
    isSpace c = false ∧ c ≠ '{' ∧ c ≠ '}' ∧ c ≠ '[' ∧ c ≠ ']' ∧ c ≠ ':' ∧ c ≠ ',' ∧
      c ≠ '"' := by
  rcases h with rfl | h
  · decide
  · refine ⟨?_, ?_, ?_, ?_, ?_, ?_, ?_, ?_⟩
    · cases hs : isSpace c with
      | false => rfl
      | true =>
        simp only [isSpace, Bool.or_eq_true, beq_iff_eq] at hs
        rcases hs with ((hs | hs) | hs) | hs <;> (rw [hs] at h; revert h; decide)
    all_goals (intro hx; rw [hx] at h; revert h; decide)

theorem Json.tokenizeAux_number (fuel : Nat) (t : List Char) (lit : NumLit) (rest : List Char)
    (ht : scanNumber t = some (lit, [])) (hrest : Closed rest) :
    tokenizeAux (fuel + 1) (t ++ rest) = prepend [.number lit] (tokenizeAux fuel rest) := by
  have happ := scanNumber_append t lit [] rest ht hrest
  rw [List.nil_append] at happ
  cases t with
  | nil => simp [scanNumber, scanMinus, scanInt] at ht
  | cons c t' =>
    have hhead := scanNumber_head c t' lit [] ht
    obtain ⟨h1, h2, h3, h4, h5, h6, h7, h8⟩ := numberHead_spec c hhead
    rw [List.cons_append] at happ ⊢
    simp only [tokenizeAux, h1, h2, h3, h4, h5, h6, h7, h8, Bool.false_eq_true, if_false]
    have hh : (c = '-' ∨ isDigit c = true) = True := eq_true hhead
    simp only [hh, if_true, happ]
    cases tokenizeAux fuel rest <;> rfl

theorem Json.litOf_eq (f : Float64) (text : List Char) (lit : NumLit) (r : List Char)
    (h1 : formatFloat f = some text) (h2 : scanNumber text = some (lit, r)) :
    litOf f = lit := by
  unfold litOf
  simp only [h1, h2]

mutual
/-- The tokenizer reads the bytes `json.Marshal` writes for a value as the tokens of the
value, one step of fuel for each. -/
theorem Json.tokenize_encode : ∀ (v : JValue) (text rest : List Char) (fuel : Nat),
    encode v = some text → Closed rest →
    tokenizeAux (fuel + (toksOf v).length) (text ++ rest)
      = prepend (toksOf v) (tokenizeAux fuel rest)
  | .null, text, rest, fuel, h, _ => by
    simp only [encode, Option.some.injEq] at h
    subst h
    simp only [toksOf, List.length_singleton]
    exact tokenizeAux_null fuel rest
  | .bool b, text, rest, fuel, h, _ => by
    simp only [encode, Option.some.injEq] at h
    subst h
    cases b
    · simp only [toksOf, List.length_singleton, Bool.false_eq_true, if_false]
      exact tokenizeAux_false fuel rest
    · simp only [toksOf, List.length_singleton, if_true]
      exact tokenizeAux_true fuel rest
  | .number f, text, rest, fuel, h, hcl => by
    simp only [encode] at h
    obtain ⟨lit, h1, _⟩ := parsesTo_spec text f (formatFloat_parsesTo f text h)
    have hl := litOf_eq f text lit [] h h1
    simp only [toksOf, hl, List.length_singleton]
    exact tokenizeAux_number fuel text lit rest h1 hcl
  | .string s, text, rest, fuel, h, _ => by
    simp only [encode, Option.some.injEq] at h
    subst h
    simp only [toksOf, List.length_singleton]
    exact tokenizeAux_string fuel s rest
  | .array [], text, rest, fuel, h, _ => by
    simp only [encode, Option.some.injEq] at h
    subst h
    show tokenizeAux (fuel + 1 + 1) ('[' :: ']' :: rest) = _
    rw [tokenizeAux_beginArray, tokenizeAux_endArray, prepend_prepend]
    rfl
  | .array (x :: xs), text, rest, fuel, h, _ => by
    obtain ⟨ex, er, h1, h2, rfl⟩ := encode_array_cons x xs text h
    have hf : fuel + (toksOf (.array (x :: xs))).length
        = fuel + (toksElems xs).length + (toksOf x).length + 1 := by
      simp only [toksOf, List.length_cons, List.length_append]
      omega
    have ht : '[' :: (ex ++ er) ++ rest = '[' :: (ex ++ (er ++ rest)) := by simp
    rw [hf, ht, tokenizeAux_beginArray,
      tokenize_encode x ex (er ++ rest) _ h1 (encodeElems_closed xs er rest h2),
      tokenize_elems xs er rest fuel h2, prepend_prepend, prepend_prepend]
    simp only [toksOf, List.singleton_append, List.cons_append, List.nil_append]
  | .object [], text, rest, fuel, h, _ => by
    simp only [encode, Option.some.injEq] at h
    subst h
    show tokenizeAux (fuel + 1 + 1) ('{' :: '}' :: rest) = _
    rw [tokenizeAux_beginObject, tokenizeAux_endObject, prepend_prepend]
    rfl
  | .object ((k, x) :: ms), text, rest, fuel, h, _ => by
    obtain ⟨ex, er, h1, h2, rfl⟩ := encode_object_cons k x ms text h
    have hf : fuel + (toksOf (.object ((k, x) :: ms))).length
        = fuel + (toksEntries ms).length + (toksOf x).length + 1 + 1 + 1 := by
      simp only [toksOf, List.length_cons, List.length_append]
      omega
    have ht : '{' :: (quote k ++ ':' :: (ex ++ er)) ++ rest
        = '{' :: (quote k ++ (':' :: (ex ++ (er ++ rest)))) := by simp
    rw [hf, ht, tokenizeAux_beginObject, tokenizeAux_string, tokenizeAux_colon,
      tokenize_encode x ex (er ++ rest) _ h1 (encodeEntries_closed ms er rest h2),
      tokenize_entries ms er rest fuel h2, prepend_prepend, prepend_prepend, prepend_prepend,
      prepend_prepend]
    simp only [toksOf, List.singleton_append, List.cons_append, List.nil_append]
theorem Json.tokenize_elems : ∀ (xs : List JValue) (text rest : List Char) (fuel : Nat),
    encodeElems xs = some text →
    tokenizeAux (fuel + (toksElems xs).length) (text ++ rest)
      = prepend (toksElems xs) (tokenizeAux fuel rest)
  | [], text, rest, fuel, h => by
    simp only [encodeElems, Option.some.injEq] at h
    subst h
    simp only [toksElems, List.length_singleton]
    exact tokenizeAux_endArray fuel rest
  | x :: xs, text, rest, fuel, h => by
    obtain ⟨ex, er, h1, h2, rfl⟩ := encodeElems_cons x xs text h
    have hf : fuel + (toksElems (x :: xs)).length
        = fuel + (toksElems xs).length + (toksOf x).length + 1 := by
      simp only [toksElems, List.length_cons, List.length_append]
      omega
    have ht : ',' :: (ex ++ er) ++ rest = ',' :: (ex ++ (er ++ rest)) := by simp
    rw [hf, ht, tokenizeAux_comma,
      tokenize_encode x ex (er ++ rest) _ h1 (encodeElems_closed xs er rest h2),
      tokenize_elems xs er rest fuel h2, prepend_prepend, prepend_prepend]
    simp only [toksElems, List.singleton_append, List.cons_append, List.nil_append]
theorem Json.tokenize_entries : ∀ (ms : List (GoString × JValue)) (text rest : List Char)
    (fuel : Nat), encodeEntries ms = some text →
    tokenizeAux (fuel + (toksEntries ms).length) (text ++ rest)
      = prepend (toksEntries ms) (tokenizeAux fuel rest)
  | [], text, rest, fuel, h => by
    simp only [encodeEntries, Option.some.injEq] at h
    subst h
    simp only [toksEntries, List.length_singleton]
    exact tokenizeAux_endObject fuel rest
  | (k, x) :: ms, text, rest, fuel, h => by
    obtain ⟨ex, er, h1, h2, rfl⟩ := encodeEntries_cons k x ms text h
    have hf : fuel + (toksEntries ((k, x) :: ms)).length
        = fuel + (toksEntries ms).length + (toksOf x).length + 1 + 1 + 1 := by
      simp only [toksEntries, List.length_cons, List.length_append]
      omega
    have ht : ',' :: (quote k ++ ':' :: (ex ++ er)) ++ rest
        = ',' :: (quote k ++ (':' :: (ex ++ (er ++ rest)))) := by simp
    rw [hf, ht, tokenizeAux_comma, tokenizeAux_string, tokenizeAux_colon,
      tokenize_encode x ex (er ++ rest) _ h1 (encodeEntries_closed ms er rest h2),
      tokenize_entries ms er rest fuel h2, prepend_prepend, prepend_prepend, prepend_prepend,
      prepend_prepend]
    simp only [toksEntries, List.singleton_append, List.cons_append, List.nil_append]
end

mutual
/-- A value is written with at least one byte for each of its tokens. -/
theorem Json.toksOf_length : ∀ (v : JValue) (text : List Char), encode v = some text →
    (toksOf v).length ≤ text.length
  | .null, text, h => by
    simp only [encode, Option.some.injEq] at h
    subst h
    decide
  | .bool b, text, h => by
    simp only [encode, Option.some.injEq] at h
    subst h
    cases b <;> decide
  | .number f, text, h => by
    simp only [encode] at h
    have := (formatFloat_chars f text h).1
    simp only [toksOf, List.length_singleton]
    exact List.length_pos.mpr this
  | .string s, text, h => by
    simp only [encode, Option.some.injEq] at h
    subst h
    simp [toksOf, quote]
  | .array [], text, h => by
    simp only [encode, Option.some.injEq] at h
    subst h
    decide
  | .array (x :: xs), text, h => by
    obtain ⟨ex, er, h1, h2, rfl⟩ := encode_array_cons x xs text h
    have := toksOf_length x ex h1
    have := toksElems_length xs er h2
    simp only [toksOf, List.length_cons, List.length_append]
    omega
  | .object [], text, h => by
    simp only [encode, Option.some.injEq] at h
    subst h
    decide
  | .object ((k, x) :: ms), text, h => by
    obtain ⟨ex, er, h1, h2, rfl⟩ := encode_object_cons k x ms text h
    have := toksOf_length x ex h1
    have := toksEntries_length ms er h2
    simp only [toksOf, List.length_cons, List.length_append, quote]
    omega
theorem Json.toksElems_length : ∀ (xs : List JValue) (text : List Char),
    encodeElems xs = some text → (toksElems xs).length ≤ text.length
  | [], text, h => by
    simp only [encodeElems, Option.some.injEq] at h
    subst h
    decide
  | x :: xs, text, h => by
    obtain ⟨ex, er, h1, h2, rfl⟩ := encodeElems_cons x xs text h
    have := toksOf_length x ex h1
    have := toksElems_length xs er h2
    simp only [toksElems, List.length_cons, List.length_append]
    omega
theorem Json.toksEntries_length : ∀ (ms : List (GoString × JValue)) (text : List Char),
    encodeEntries ms = some text → (toksEntries ms).length ≤ text.length
  | [], text, h => by
    simp only [encodeEntries, Option.some.injEq] at h
    subst h
    decide
  | (k, x) :: ms, text, h => by
    obtain ⟨ex, er, h1, h2, rfl⟩ := encodeEntries_cons k x ms text h
    have := toksOf_length x ex h1
    have := toksEntries_length ms er h2
    simp only [toksEntries, List.length_cons, List.length_append, quote]
    omega
end

/-- The tokens of the bytes `json.Marshal` writes for a value. -/
theorem Json.tokenize_marshal (v : JValue) (text : List Char) (h : encode v = some text) :
    tokenize text = .ok (toksOf v) := by
  have hlen := toksOf_length v text h
  have hcl : Closed [] := fun c r hc => by cases hc
  have := tokenize_encode v text [] (text.length - (toksOf v).length + 1) h hcl
  rw [List.append_nil] at this
  have hf : text.length - (toksOf v).length + 1 + (toksOf v).length = text.length + 1 := by
    omega
  rw [hf] at this
  unfold tokenize
  rw [this]
  simp [tokenizeAux, prepend]

/-- The tokens of a value start with a token that closes nothing. -/
theorem Json.toksOf_head (v : JValue) :
    ∃ t ts, toksOf v = t :: ts ∧ t ≠ .endArray ∧ t ≠ .endObject := by
  cases v with
  | null => exact ⟨.litNull, [], by simp only [toksOf], by simp, by simp⟩
  | bool b =>
    cases b
    · exact ⟨.litFalse, [], by simp [toksOf], by simp, by simp⟩
    · exact ⟨.litTrue, [], by simp [toksOf], by simp, by simp⟩
  | number f => exact ⟨.number (litOf f), [], by simp only [toksOf], by simp, by simp⟩
  | string s => exact ⟨.string s, [], by simp only [toksOf], by simp, by simp⟩
  | array xs =>
    cases xs with
    | nil => exact ⟨.beginArray, [.endArray], by simp only [toksOf], by simp, by simp⟩
    | cons x xs =>
      exact ⟨.beginArray, toksOf x ++ toksElems xs, by simp only [toksOf], by simp, by simp⟩
  | object ms =>
    cases ms with
    | nil => exact ⟨.beginObject, [.endObject], by simp only [toksOf], by simp, by simp⟩
    | cons m ms =>
      obtain ⟨k, x⟩ := m
      exact ⟨.beginObject, .string k :: .colon :: (toksOf x ++ toksEntries ms),
        by simp only [toksOf], by simp, by simp⟩

theorem Json.parseValue_array (fuel depth : Nat) (t : Token) (ts : List Token)
    (ht : t ≠ .endArray) (hd : depth + 1 ≤ maxNestingDepth) :
    parseValue (fuel + 1) depth (.beginArray :: t :: ts)
      = match parseElements fuel (depth + 1) (t :: ts) with
        | none => none
        | some (xs, rest1) => some (.array xs, rest1) := by
  have hnd : ¬ depth + 1 > maxNestingDepth := by omega
  cases t <;> first | exact absurd rfl ht | (simp only [parseValue, hnd, if_false])

theorem Json.parseValue_object (fuel depth : Nat) (t : Token) (ts : List Token)
    (ht : t ≠ .endObject) (hd : depth + 1 ≤ maxNestingDepth) :
    parseValue (fuel + 1) depth (.beginObject :: t :: ts)
      = match parseMembers fuel (depth + 1) (t :: ts) with
        | none => none
        | some (ms, rest1) => some (.object ms, rest1) := by
  have hnd : ¬ depth + 1 > maxNestingDepth := by omega
  cases t <;> first | exact absurd rfl ht | (simp only [parseValue, hnd, if_false])

mutual
/-- The parser builds the document of a value from its tokens, given fuel for each token
and room for its depth. -/
theorem Json.parse_toksOf : ∀ (v : JValue) (fuel depth : Nat) (trest : List Token),
    (toksOf v).length ≤ fuel → depth + v.depth ≤ maxNestingDepth →
    parseValue fuel depth (toksOf v ++ trest) = some (docOf v, trest)
  | .null, fuel, depth, trest, hf, _ => by
    obtain ⟨f, rfl⟩ : ∃ f, fuel = f + 1 := ⟨fuel - 1, by simp [toksOf] at hf; omega⟩
    simp only [toksOf, docOf, List.singleton_append, parseValue]
  | .bool b, fuel, depth, trest, hf, _ => by
    obtain ⟨f, rfl⟩ : ∃ f, fuel = f + 1 := ⟨fuel - 1, by simp [toksOf] at hf; omega⟩
    cases b <;> simp [toksOf, docOf, parseValue]
  | .number x, fuel, depth, trest, hf, _ => by
    obtain ⟨f, rfl⟩ : ∃ f, fuel = f + 1 := ⟨fuel - 1, by simp [toksOf] at hf; omega⟩
    simp only [toksOf, docOf, List.singleton_append, parseValue]
  | .string s, fuel, depth, trest, hf, _ => by
    obtain ⟨f, rfl⟩ : ∃ f, fuel = f + 1 := ⟨fuel - 1, by simp [toksOf] at hf; omega⟩
    simp only [toksOf, docOf, List.singleton_append, parseValue]
  | .array [], fuel, depth, trest, hf, hd => by
    obtain ⟨f, rfl⟩ : ∃ f, fuel = f + 1 := ⟨fuel - 1, by simp [toksOf] at hf; omega⟩
    have hnd : ¬ depth + 1 > maxNestingDepth := by
      simp only [JValue.depth, depthElems] at hd
      omega
    simp [toksOf, docOf, docsOf, parseValue, hnd]
  | .array (x :: xs), fuel, depth, trest, hf, hd => by
    simp only [toksOf, List.length_cons, List.length_append] at hf
    obtain ⟨f, rfl⟩ : ∃ f, fuel = f + 1 := ⟨fuel - 1, by omega⟩
    simp only [JValue.depth, depthElems] at hd
    obtain ⟨t, ts, hts, ht1, _⟩ := toksOf_head x
    have hx : ∀ fuel1 trest1, (toksOf x).length ≤ fuel1 →
        parseValue fuel1 (depth + 1) (toksOf x ++ trest1) = some (docOf x, trest1) :=
      fun fuel1 trest1 h => parse_toksOf x fuel1 (depth + 1) trest1 h (by omega)
    have hel := parse_elems xs (toksOf x) (docOf x) (toksOf x).length f (depth + 1) trest hx
      (by omega) (by omega)
    have htoks : toksOf (.array (x :: xs)) ++ trest
        = .beginArray :: t :: (ts ++ (toksElems xs ++ trest)) := by
      simp only [toksOf, hts, List.cons_append, List.append_assoc]
    rw [htoks, parseValue_array f depth t _ ht1 (by omega)]
    have hrest : t :: (ts ++ (toksElems xs ++ trest))
        = toksOf x ++ (toksElems xs ++ trest) := by
      rw [hts, List.cons_append]
    rw [hrest, hel]
    simp only [docOf, docsOf]
  | .object [], fuel, depth, trest, hf, hd => by
    obtain ⟨f, rfl⟩ : ∃ f, fuel = f + 1 := ⟨fuel - 1, by simp [toksOf] at hf; omega⟩
    have hnd : ¬ depth + 1 > maxNestingDepth := by
      simp only [JValue.depth, depthEntries] at hd
      omega
    simp [toksOf, docOf, membersOf, parseValue, hnd]
  | .object ((k, x) :: ms), fuel, depth, trest, hf, hd => by
    simp only [toksOf, List.length_cons, List.length_append] at hf
    obtain ⟨f, rfl⟩ : ∃ f, fuel = f + 1 := ⟨fuel - 1, by omega⟩
    simp only [JValue.depth, depthEntries] at hd
    have hx : ∀ fuel1 trest1, (toksOf x).length ≤ fuel1 →
        parseValue fuel1 (depth + 1) (toksOf x ++ trest1) = some (docOf x, trest1) :=
      fun fuel1 trest1 h => parse_toksOf x fuel1 (depth + 1) trest1 h (by omega)
    have hel := parse_members ms k (toksOf x) (docOf x) (toksOf x).length f (depth + 1) trest hx
      (by omega) (by omega)
    have htoks : toksOf (.object ((k, x) :: ms)) ++ trest
        = .beginObject :: .string k :: (.colon :: (toksOf x ++ (toksEntries ms ++ trest))) := by
      simp only [toksOf, List.cons_append, List.append_assoc]
    rw [htoks, parseValue_object f depth _ _ (by simp) (by omega), hel]
    simp only [docOf, membersOf]
theorem Json.parse_elems : ∀ (xs : List JValue) (ts0 : List Token) (d0 : Doc) (n0 : Nat)
    (fuel depth : Nat) (trest : List Token),
    (∀ fuel1 trest1, n0 ≤ fuel1 → parseValue fuel1 depth (ts0 ++ trest1) = some (d0, trest1)) →
    n0 + (toksElems xs).length ≤ fuel → depth + depthElems xs ≤ maxNestingDepth →
    parseElements fuel depth (ts0 ++ (toksElems xs ++ trest)) = some (d0 :: docsOf xs, trest)
  | [], ts0, d0, n0, fuel, depth, trest, h0, hf, _ => by
    simp only [toksElems, List.length_singleton] at hf
    obtain ⟨f, rfl⟩ : ∃ f, fuel = f + 1 := ⟨fuel - 1, by omega⟩
    simp only [parseElements, toksElems, List.singleton_append, h0 f _ (by omega), docsOf]
  | y :: ys, ts0, d0, n0, fuel, depth, trest, h0, hf, hd => by
    simp only [toksElems, List.length_cons, List.length_append] at hf
    obtain ⟨f, rfl⟩ : ∃ f, fuel = f + 1 := ⟨fuel - 1, by omega⟩
    simp only [depthElems] at hd
    have hy : ∀ fuel1 trest1, (toksOf y).length ≤ fuel1 →
        parseValue fuel1 depth (toksOf y ++ trest1) = some (docOf y, trest1) :=
      fun fuel1 trest1 h => parse_toksOf y fuel1 depth trest1 h (by omega)
    have hel := parse_elems ys (toksOf y) (docOf y) (toksOf y).length f depth trest hy
      (by omega) (by omega)
    simp only [parseElements, toksElems, List.cons_append, List.append_assoc,
      h0 f _ (by omega), hel, docsOf]
theorem Json.parse_members : ∀ (ms : List (GoString × JValue)) (k0 : GoString)
    (ts0 : List Token) (d0 : Doc) (n0 : Nat) (fuel depth : Nat) (trest : List Token),
    (∀ fuel1 trest1, n0 ≤ fuel1 → parseValue fuel1 depth (ts0 ++ trest1) = some (d0, trest1)) →
    n0 + 2 + (toksEntries ms).length ≤ fuel → depth + depthEntries ms ≤ maxNestingDepth →
    parseMembers fuel depth (.string k0 :: .colon :: (ts0 ++ (toksEntries ms ++ trest)))
      = some ((k0, d0) :: membersOf ms, trest)
  | [], k0, ts0, d0, n0, fuel, depth, trest, h0, hf, _ => by
    simp only [toksEntries, List.length_singleton] at hf
    obtain ⟨f, rfl⟩ : ∃ f, fuel = f + 1 := ⟨fuel - 1, by omega⟩
    simp only [parseMembers, toksEntries, List.singleton_append, h0 f _ (by omega), membersOf]
  | (k, y) :: ms, k0, ts0, d0, n0, fuel, depth, trest, h0, hf, hd => by
    simp only [toksEntries, List.length_cons, List.length_append] at hf
    obtain ⟨f, rfl⟩ : ∃ f, fuel = f + 1 := ⟨fuel - 1, by omega⟩
    simp only [depthEntries] at hd
    have hy : ∀ fuel1 trest1, (toksOf y).length ≤ fuel1 →
        parseValue fuel1 depth (toksOf y ++ trest1) = some (docOf y, trest1) :=
      fun fuel1 trest1 h => parse_toksOf y fuel1 depth trest1 h (by omega)
    have hel := parse_members ms k (toksOf y) (docOf y) (toksOf y).length f depth trest hy
      (by omega) (by omega)
    simp only [parseMembers, toksEntries, List.cons_append, List.append_assoc,
      h0 f _ (by omega), hel, membersOf]
end

/-- The parser reads the bytes `json.Marshal` writes for a value that is not too deep. -/
theorem Json.parse_marshal (v : JValue) (text : List Char) (h : encode v = some text)
    (hd : v.depth ≤ maxNestingDepth) : parse text = .ok (docOf v) := by
  unfold parse
  rw [tokenize_marshal v text h]
  simp only
  unfold parseTokens
  have := parse_toksOf v ((toksOf v).length + 1) 0 [] (by omega) (by omega)
  rw [List.append_nil] at this
  rw [this]

theorem Json.sortedKeys_append_cons (a : List GoString) (k : GoString) (r : List GoString)
    (h : sortedKeys (a ++ k :: r) = true) : ∀ x ∈ a, strLt x k = true := by
  induction a with
  | nil => intro x hx; cases hx
  | cons y a ih =>
    simp only [List.cons_append, sortedKeys, Bool.and_eq_true, List.all_eq_true] at h
    intro x hx
    rcases List.mem_cons.mp hx with rfl | hx
    · exact h.1 k (by simp)
    · exact ih h.2 x hx

/-- Assigning a key above every key of the map adds the entry at the end. -/
theorem Json.mapInsert_append (k : GoString) (v : JValue) (acc : List (GoString × JValue))
    (h : ∀ a ∈ acc, strLt a.1 k = true) : mapInsert k v acc = acc ++ [(k, v)] := by
  induction acc with
  | nil => rfl
  | cons a acc ih =>
    obtain ⟨k1, v1⟩ := a
    have h1 : strLt k1 k = true := h (k1, v1) (List.mem_cons_self _ _)
    have hne : k ≠ k1 := by
      intro hc
      rw [hc, strLt_irrefl] at h1
      cases h1
    have hnl : strLt k k1 = false := strLt_asymm k1 k h1
    simp only [mapInsert, hne, if_false, hnl, Bool.false_eq_true, List.cons_append]
    rw [ih (fun a ha => h a (List.mem_cons_of_mem _ ha))]

theorem Json.litOf_toFloat (f : Float64) (hv : f.Valid) : (litOf f).toFloat = some f := by
  obtain ⟨t, ht⟩ := formatFloat_total f hv
  obtain ⟨lit, h1, h2⟩ := parsesTo_spec t f (formatFloat_parsesTo f t ht)
  rw [litOf_eq f t lit [] ht h1]
  exact h2

mutual
/-- The document of a well-formed value decodes to the value. -/
theorem Json.decode_docOf : ∀ (v : JValue), v.wf = true → decode (docOf v) = .ok v
  | .null, _ => by simp only [docOf, decode]
  | .bool b, _ => by simp only [docOf, decode]
  | .number f, h => by
    simp only [JValue.wf, decide_eq_true_eq] at h
    simp only [docOf, decode, litOf_toFloat f h]
  | .string s, _ => by simp only [docOf, decode]
  | .array xs, h => by
    simp only [JValue.wf] at h
    simp only [docOf, decode, decodeElems_docsOf xs h]
  | .object ms, h => by
    simp only [JValue.wf, Bool.and_eq_true] at h
    have := decodeMembers_membersOf ms [] h.2 (by simpa using h.1)
    simp only [docOf, decode, this, List.nil_append]
theorem Json.decodeElems_docsOf : ∀ (xs : List JValue), wfElems xs = true →
    decodeElems (docsOf xs) = .ok xs
  | [], _ => by simp only [docsOf, decodeElems]
  | x :: xs, h => by
    simp only [wfElems, Bool.and_eq_true] at h
    simp only [docsOf, decodeElems, decode_docOf x h.1, decodeElems_docsOf xs h.2]
theorem Json.decodeMembers_membersOf : ∀ (ms acc : List (GoString × JValue)),
    wfEntries ms = true → sortedKeys ((acc ++ ms).map Prod.fst) = true →
    decodeMembers (membersOf ms) acc = .ok (acc ++ ms)
  | [], acc, _, _ => by simp only [membersOf, decodeMembers, List.append_nil]
  | (k, x) :: ms, acc, h, hs => by
    simp only [wfEntries, Bool.and_eq_true] at h
    have hlt : ∀ a ∈ acc, strLt a.1 k = true := by
      intro a ha
      have hs' : sortedKeys (acc.map Prod.fst ++ k :: ms.map Prod.fst) = true := by
        simpa using hs
      exact sortedKeys_append_cons _ k _ hs' a.1 (List.mem_map_of_mem _ ha)
    have hs2 : sortedKeys (((acc ++ [(k, x)]) ++ ms).map Prod.fst) = true := by
      simpa using hs
    have := decodeMembers_membersOf ms (acc ++ [(k, x)]) h.2 hs2
    simp only [membersOf, decodeMembers, decode_docOf x h.1, mapInsert_append k x acc hlt, this,
      List.append_assoc, List.singleton_append]
end

mutual
/-- The function `json.Marshal` writes every well-formed value. -/
theorem Json.encode_isSome : ∀ (v : JValue), v.wf = true → (encode v).isSome = true
  | .null, _ => by simp only [encode, Option.isSome_some]
  | .bool b, _ => by simp only [encode, Option.isSome_some]
  | .number f, h => by
    simp only [JValue.wf, decide_eq_true_eq] at h
    obtain ⟨t, ht⟩ := formatFloat_total f h
    simp only [encode, ht, Option.isSome_some]
  | .string s, _ => by simp only [encode, Option.isSome_some]
  | .array [], _ => by simp only [encode, Option.isSome_some]
  | .array (x :: xs), h => by
    simp only [JValue.wf, wfElems, Bool.and_eq_true] at h
    obtain ⟨a, ha⟩ := Option.isSome_iff_exists.mp (encode_isSome x h.1)
    obtain ⟨b, hb⟩ := Option.isSome_iff_exists.mp (encodeElems_isSome xs h.2)
    simp only [encode, ha, hb, Option.isSome_some]
  | .object [], _ => by simp only [encode, Option.isSome_some]
  | .object ((k, x) :: ms), h => by
    simp only [JValue.wf, wfEntries, Bool.and_eq_true] at h
    obtain ⟨a, ha⟩ := Option.isSome_iff_exists.mp (encode_isSome x h.2.1)
    obtain ⟨b, hb⟩ := Option.isSome_iff_exists.mp (encodeEntries_isSome ms h.2.2)
    simp only [encode, ha, hb, Option.isSome_some]
theorem Json.encodeElems_isSome : ∀ (xs : List JValue), wfElems xs = true →
    (encodeElems xs).isSome = true
  | [], _ => by simp only [encodeElems, Option.isSome_some]
  | x :: xs, h => by
    simp only [wfElems, Bool.and_eq_true] at h
    obtain ⟨a, ha⟩ := Option.isSome_iff_exists.mp (encode_isSome x h.1)
    obtain ⟨b, hb⟩ := Option.isSome_iff_exists.mp (encodeElems_isSome xs h.2)
    simp only [encodeElems, ha, hb, Option.isSome_some]
theorem Json.encodeEntries_isSome : ∀ (ms : List (GoString × JValue)), wfEntries ms = true →
    (encodeEntries ms).isSome = true
  | [], _ => by simp only [encodeEntries, Option.isSome_some]
  | (k, x) :: ms, h => by
    simp only [wfEntries, Bool.and_eq_true] at h
    obtain ⟨a, ha⟩ := Option.isSome_iff_exists.mp (encode_isSome x h.1)
    obtain ⟨b, hb⟩ := Option.isSome_iff_exists.mp (encodeEntries_isSome ms h.2)
    simp only [encodeEntries, ha, hb, Option.isSome_some]
end

theorem Json.mapInsert_keys (k : GoString) (v : JValue) (acc : List (GoString × JValue)) :
    ∀ x ∈ (mapInsert k v acc).map Prod.fst, x = k ∨ x ∈ acc.map Prod.fst := by
  induction acc with
  | nil =>
    intro x hx
    simp only [mapInsert, List.map_cons, List.map_nil, List.mem_singleton] at hx
    exact Or.inl hx
  | cons a acc ih =>
    obtain ⟨k1, v1⟩ := a
    intro x hx
    unfold mapInsert at hx
    split_ifs at hx with h1 h2
    · simp only [List.map_cons, List.mem_cons] at hx ⊢
      rcases hx with hx | hx
      · exact Or.inl hx
      · exact Or.inr (Or.inr hx)
    · simp only [List.map_cons, List.mem_cons] at hx ⊢
      rcases hx with hx | hx | hx
      · exact Or.inl hx
      · exact Or.inr (Or.inl hx)
      · exact Or.inr (Or.inr hx)
    · simp only [List.map_cons, List.mem_cons] at hx ⊢
      rcases hx with hx | hx
      · exact Or.inr (Or.inl hx)
      · rcases ih x hx with h | h
        · exact Or.inl h
        · exact Or.inr (Or.inr h)

/-- Assigning to a map keeps its keys in increasing order. -/
theorem Json.mapInsert_sorted (k : GoString) (v : JValue) (acc : List (GoString × JValue))
    (h : sortedKeys (acc.map Prod.fst) = true) :
    sortedKeys ((mapInsert k v acc).map Prod.fst) = true := by
  induction acc with
  | nil => rfl
  | cons a acc ih =>
    obtain ⟨k1, v1⟩ := a
    simp only [List.map_cons, sortedKeys, Bool.and_eq_true, List.all_eq_true] at h
    unfold mapInsert
    split_ifs with h1 h2
    · subst h1
      simp only [List.map_cons, sortedKeys, Bool.and_eq_true, List.all_eq_true]
      exact h
    · simp only [List.map_cons, sortedKeys, Bool.and_eq_true, List.all_eq_true, List.mem_cons]
      refine ⟨?_, h⟩
      intro x hx
      rcases hx with rfl | hx
      · exact h2
      · exact strLt_trans k k1 x h2 (h.1 x hx)
    · simp only [List.map_cons, sortedKeys, Bool.and_eq_true, List.all_eq_true]
      refine ⟨?_, ih h.2⟩
      intro x hx
      rcases mapInsert_keys k v acc x hx with rfl | hx
      · rcases strLt_total x k1 with h3 | h3 | h3
        · exact absurd h3 h1
        · exact absurd h3 h2
        · exact h3
      · exact h.1 x hx

theorem Json.mapInsert_wf (k : GoString) (v : JValue) (acc : List (GoString × JValue))
    (h : wfEntries acc = true) (hv : v.wf = true) : wfEntries (mapInsert k v acc) = true := by
  induction acc with
  | nil => simp only [mapInsert, wfEntries, hv, Bool.and_self]
  | cons a acc ih =>
    obtain ⟨k1, v1⟩ := a
    simp only [wfEntries, Bool.and_eq_true] at h
    unfold mapInsert
    split_ifs
    · simp only [wfEntries, hv, h.2, Bool.and_self]
    · simp only [wfEntries, hv, h.1, h.2, Bool.and_self]
    · simp only [wfEntries, h.1, ih h.2, Bool.and_self]

theorem Json.mapInsert_depth (k : GoString) (v : JValue) (acc : List (GoString × JValue)) :
    depthEntries (mapInsert k v acc) ≤ max v.depth (depthEntries acc) := by
  induction acc with
  | nil => simp [mapInsert, depthEntries]
  | cons a acc ih =>
    obtain ⟨k1, v1⟩ := a
    unfold mapInsert
    split_ifs
    · simp only [depthEntries]
      omega
    · simp only [depthEntries]
      omega
    · simp only [depthEntries]
      omega

mutual
/-- What `json.Unmarshal` stores is well formed and no deeper than the document. -/
theorem Json.decode_spec : ∀ (d : Doc) (v : JValue), decode d = .ok v →
    v.wf = true ∧ v.depth ≤ d.depth
  | .null, v, h => by
    simp only [decode, Except.ok.injEq] at h
    subst h
    exact ⟨rfl, le_refl _⟩
  | .bool b, v, h => by
    simp only [decode, Except.ok.injEq] at h
    subst h
    exact ⟨rfl, le_refl _⟩
  | .number n, v, h => by
    simp only [decode] at h
    cases hf : n.toFloat with
    | none => simp [hf] at h
    | some f =>
      simp only [hf, Except.ok.injEq] at h
      subst h
      simp only [JValue.wf, decide_eq_true_eq, JValue.depth, Doc.depth, le_refl, and_true]
      exact (toFloat_valid n f hf).1
  | .string s, v, h => by
    simp only [decode, Except.ok.injEq] at h
    subst h
    exact ⟨rfl, le_refl _⟩
  | .array xs, v, h => by
    simp only [decode] at h
    cases hx : decodeElems xs with
    | error e => simp [hx] at h
    | ok vs =>
      simp only [hx, Except.ok.injEq] at h
      subst h
      obtain ⟨h1, h2⟩ := decodeElems_spec xs vs hx
      simp only [JValue.wf, JValue.depth, Doc.depth]
      exact ⟨h1, by omega⟩
  | .object ms, v, h => by
    simp only [decode] at h
    cases hx : decodeMembers ms [] with
    | error e => simp [hx] at h
    | ok m =>
      simp only [hx, Except.ok.injEq] at h
      subst h
      obtain ⟨h1, h2, h3⟩ := decodeMembers_spec ms [] m hx rfl rfl
      simp only [JValue.wf, JValue.depth, Doc.depth, Bool.and_eq_true]
      simp only [depthEntries] at h3
      exact ⟨⟨h2, h1⟩, by omega⟩
theorem Json.decodeElems_spec : ∀ (xs : List Doc) (vs : List JValue),
    decodeElems xs = .ok vs → wfElems vs = true ∧ depthElems vs ≤ depthDocs xs
  | [], vs, h => by
    simp only [decodeElems, Except.ok.injEq] at h
    subst h
    exact ⟨rfl, le_refl _⟩
  | x :: xs, vs, h => by
    simp only [decodeElems] at h
    cases hx : decode x with
    | error e => simp [hx] at h
    | ok v =>
      cases hxs : decodeElems xs with
      | error e => simp [hx, hxs] at h
      | ok vs1 =>
        simp only [hx, hxs, Except.ok.injEq] at h
        subst h
        obtain ⟨h1, h2⟩ := decode_spec x v hx
        obtain ⟨h3, h4⟩ := decodeElems_spec xs vs1 hxs
        simp only [wfElems, h1, h3, Bool.and_self, depthElems, depthDocs, true_and]
        omega
theorem Json.decodeMembers_spec : ∀ (ms : List (GoString × Doc))
    (acc m : List (GoString × JValue)), decodeMembers ms acc = .ok m →
    wfEntries acc = true → sortedKeys (acc.map Prod.fst) = true →
    wfEntries m = true ∧ sortedKeys (m.map Prod.fst) = true ∧
      depthEntries m ≤ max (depthEntries acc) (depthMembers ms)
  | [], acc, m, h, hw, hs => by
    simp only [decodeMembers, Except.ok.injEq] at h
    subst h
    exact ⟨hw, hs, by simp [depthMembers]⟩
  | (k, x) :: ms, acc, m, h, hw, hs => by
    simp only [decodeMembers] at h
    cases hx : decode x with
    | error e => simp [hx] at h
    | ok v =>
      simp only [hx] at h
      obtain ⟨h1, h2⟩ := decode_spec x v hx
      obtain ⟨h3, h4, h5⟩ := decodeMembers_spec ms (mapInsert k v acc) m h
        (mapInsert_wf k v acc hw h1) (mapInsert_sorted k v acc hs)
      refine ⟨h3, h4, ?_⟩
      have := mapInsert_depth k v acc
      simp only [depthMembers]
      omega
end

/-- The documents the parser builds stay within the nesting limit. -/
theorem Json.parse_depth : ∀ (fuel : Nat),
    (∀ (depth : Nat) (ts : List Token) (doc : Doc) (rest : List Token),
      depth ≤ maxNestingDepth → parseValue fuel depth ts = some (doc, rest) →
      depth + doc.depth ≤ maxNestingDepth) ∧
    (∀ (depth : Nat) (ts : List Token) (xs : List Doc) (rest : List Token),
      depth ≤ maxNestingDepth → parseElements fuel depth ts = some (xs, rest) →
      depth + depthDocs xs ≤ maxNestingDepth) ∧
    (∀ (depth : Nat) (ts : List Token) (ms : List (GoString × Doc)) (rest : List Token),
      depth ≤ maxNestingDepth → parseMembers fuel depth ts = some (ms, rest) →
      depth + depthMembers ms ≤ maxNestingDepth) := by
  intro fuel
  induction fuel with
  | zero =>
    refine ⟨?_, ?_, ?_⟩
    · intro depth ts doc rest _ h
      simp [parseValue] at h
    · intro depth ts xs rest _ h
      simp [parseElements] at h
    · intro depth ts ms rest _ h
      simp [parseMembers] at h
  | succ fuel ih =>
    obtain ⟨ihv, ihe, ihm⟩ := ih
    refine ⟨?_, ?_, ?_⟩
    · intro depth ts doc rest hd h
      cases ts with
      | nil => simp [parseValue] at h
      | cons t ts =>
        cases t with
        | litNull =>
          simp only [parseValue, Option.some.injEq, Prod.mk.injEq] at h
          rw [← h.1]
          simpa [Doc.depth] using hd
        | litTrue =>
          simp only [parseValue, Option.some.injEq, Prod.mk.injEq] at h
          rw [← h.1]
          simpa [Doc.depth] using hd
        | litFalse =>
          simp only [parseValue, Option.some.injEq, Prod.mk.injEq] at h
          rw [← h.1]
          simpa [Doc.depth] using hd
        | number n =>
          simp only [parseValue, Option.some.injEq, Prod.mk.injEq] at h
          rw [← h.1]
          simpa [Doc.depth] using hd
        | string s =>
          simp only [parseValue, Option.some.injEq, Prod.mk.injEq] at h
          rw [← h.1]
          simpa [Doc.depth] using hd
        | beginArray =>
          simp only [parseValue] at h
          split_ifs at h with hlim
          split at h
          · simp only [Option.some.injEq, Prod.mk.injEq] at h
            rw [← h.1]
            simp only [Doc.depth, depthDocs]
            omega
          · cases he : parseElements fuel (depth + 1) ts with
            | none => simp [he] at h
            | some r =>
              obtain ⟨xs, rest1⟩ := r
              simp only [he, Option.some.injEq, Prod.mk.injEq] at h
              rw [← h.1]
              have := ihe (depth + 1) ts xs rest1 (by omega) he
              simp only [Doc.depth]
              omega
        | beginObject =>
          simp only [parseValue] at h
          split_ifs at h with hlim
          split at h
          · simp only [Option.some.injEq, Prod.mk.injEq] at h
            rw [← h.1]
            simp only [Doc.depth, depthMembers]
            omega
          · cases he : parseMembers fuel (depth + 1) ts with
            | none => simp [he] at h
            | some r =>
              obtain ⟨ms, rest1⟩ := r
              simp only [he, Option.some.injEq, Prod.mk.injEq] at h
              rw [← h.1]
              have := ihm (depth + 1) ts ms rest1 (by omega) he
              simp only [Doc.depth]
              omega
        | endArray => simp [parseValue] at h
        | endObject => simp [parseValue] at h
        | colon => simp [parseValue] at h
        | comma => simp [parseValue] at h
    · intro depth ts xs rest hd h
      simp only [parseElements] at h
      cases hv : parseValue fuel depth ts with
      | none => simp [hv] at h
      | some r =>
        obtain ⟨x, rest0⟩ := r
        have hx := ihv depth ts x rest0 hd hv
        simp only [hv] at h
        split at h
        · simp only [Option.some.injEq, Prod.mk.injEq] at h
          rw [← h.1]
          simp only [depthDocs]
          omega
        · rename_i rest1
          cases he : parseElements fuel depth rest1 with
          | none => simp [he] at h
          | some r1 =>
            obtain ⟨xs1, rest2⟩ := r1
            simp only [he, Option.some.injEq, Prod.mk.injEq] at h
            rw [← h.1]
            have := ihe depth rest1 xs1 rest2 hd he
            simp only [depthDocs]
            omega
        · simp at h
    · intro depth ts ms rest hd h
      simp only [parseMembers] at h
      split at h
      · rename_i k rest0
        cases hv : parseValue fuel depth rest0 with
        | none => simp [hv] at h
        | some r =>
          obtain ⟨x, rest1⟩ := r
          have hx := ihv depth rest0 x rest1 hd hv
          simp only [hv] at h
          split at h
          · simp only [Option.some.injEq, Prod.mk.injEq] at h
            rw [← h.1]
            simp only [depthMembers]
            omega
          · rename_i rest2
            cases he : parseMembers fuel depth rest2 with
            | none => simp [he] at h
            | some r1 =>
              obtain ⟨ms1, rest3⟩ := r1
              simp only [he, Option.some.injEq, Prod.mk.injEq] at h
              rw [← h.1]
              have := ihm depth rest2 ms1 rest3 hd he
              simp only [depthMembers]
              omega
          · simp at h
      · simp at h

/-- A document that `parse` accepts nests no deeper than the limit. -/
theorem Json.parse_ok_depth (s : Bytes) (d : Doc) (h : parse s = .ok d) :
    d.depth ≤ maxNestingDepth := by
  unfold parse at h
  cases ht : tokenize s with
  | error e => simp [ht] at h
  | ok ts =>
    simp only [ht] at h
    unfold parseTokens at h
    cases hp : parseValue (ts.length + 1) 0 ts with
    | none => simp [hp] at h
    | some r =>
      obtain ⟨doc, rest⟩ := r
      have := (parse_depth (ts.length + 1)).1 0 ts doc rest (Nat.zero_le _) hp
      cases rest with
      | nil =>
        simp only [hp, Except.ok.injEq] at h
        subst h
        omega
      | cons t rest => simp [hp] at h

/-- What `json.Unmarshal` stores, `json.Marshal` writes, and `json.Unmarshal` reads what
was written as the same value. -/
theorem Json.unmarshal_marshal (s : Bytes) (v : JValue) (h : unmarshal s = .ok v) :
    ∃ text, encode v = some text ∧ unmarshal text = .ok v := by
  unfold unmarshal at h
  cases hp : parse s with
  | error e => simp [hp] at h
  | ok d =>
    simp only [hp] at h
    obtain ⟨hwf, hdep⟩ := decode_spec d v h
    have hd := parse_ok_depth s d hp
    obtain ⟨text, ht⟩ := Option.isSome_iff_exists.mp (encode_isSome v hwf)
    refine ⟨text, ht, ?_⟩
    unfold unmarshal
    rw [parse_marshal v text ht (by omega)]
    exact decode_docOf v hwf

/-- The verdict of `jsonMatcher` on two documents with canonical forms. -/
theorem jsonMatcher_of_canonical (L : Lib) (a b x y : Bytes)
    (ha : canonicalJSON L a = (x, none)) (hb : canonicalJSON L b = (y, none)) :
    jsonMatcher L a b = (decide (x = y), none) := by
  unfold jsonMatcher
  rw [ha]
  simp only
  rw [hb]

/-- Parsing into a value is more than syntax: the literal `1e400` is a number the parser
accepts, and `json.Unmarshal` rejects it because it is out of the range of `float64`. -/
theorem unmarshal_out_of_range :
    Json.parse "1e400".data = .ok (.number ⟨false, 1, 400⟩) ∧
    Json.unmarshal "1e400".data
      = .error "json: cannot unmarshal number into Go value of type float64".data :=
  ⟨rfl, rfl⟩

/-- C19: `canonicalJSON` produces a canonical form. For every document `d` that
`json.Unmarshal` parses into a value, `canonicalJSON d` succeeds with some bytes `c`; `c` is
itself parsed, into the same value; canonicalising `c` again returns `c` unchanged; hence
`jsonMatcher d c` is positive, `jsonMatcher` is reflexive at `d`, and for every other
parseable document `jsonMatcher` returns no error and the same outcome in both orders. -/
theorem canonicalJSON_canonical (base : Lib) (d : Bytes) (v : Json.JValue)
    (h : Json.unmarshal d = .ok v) :
    ∃ c, canonicalJSON (encodingJSON base) d = (c, none) ∧
      Json.unmarshal c = .ok v ∧
      canonicalJSON (encodingJSON base) c = (c, none) ∧
      jsonMatcher (encodingJSON base) d c = (true, none) ∧
      jsonMatcher (encodingJSON base) d d = (true, none) ∧
      ∀ (d1 : Bytes) (v1 : Json.JValue), Json.unmarshal d1 = .ok v1 →
        (jsonMatcher (encodingJSON base) d d1).2 = none ∧
        jsonMatcher (encodingJSON base) d d1 = jsonMatcher (encodingJSON base) d1 d := by
  obtain ⟨c, hc, hu⟩ := Json.unmarshal_marshal d v h
  have hm : Json.marshal v = .ok c := (marshal_ok_iff v c).mpr hc
  have h1 := canonicalJSON_of_value base d c v h hm
  have h2 := canonicalJSON_of_value base c c v hu hm
  refine ⟨c, h1, hu, h2, ?_, ?_, ?_⟩
  · rw [jsonMatcher_of_canonical _ d c c c h1 h2]
    simp
  · rw [jsonMatcher_of_canonical _ d d c c h1 h1]
    simp
  · intro d1 v1 hd1
    obtain ⟨c1, hc1, _⟩ := Json.unmarshal_marshal d1 v1 hd1
    have hm1 : Json.marshal v1 = .ok c1 := (marshal_ok_iff v1 c1).mpr hc1
    have h3 := canonicalJSON_of_value base d1 c1 v1 hd1 hm1
    rw [jsonMatcher_of_canonical _ d d1 c c1 h1 h3, jsonMatcher_of_canonical _ d1 d c1 c h3 h1]
    refine ⟨rfl, ?_⟩
    have : decide (c = c1) = decide (c1 = c) := by
      by_cases hcc : c = c1
      · subst hcc; rfl
      · have hcc' : ¬ c1 = c := fun hx => hcc hx.symm
        simp [hcc, hcc']
    rw [this]

/-- An instance of `canonicalJSON_canonical`: the document `{"b":2, "a":1}` of the spec,
which is parsed into `valueAB`. -/
theorem canonicalJSON_canonical_witness :
    ∃ c, canonicalJSON (encodingJSON goLib) docBA = (c, none) ∧
      Json.unmarshal c = .ok valueAB ∧
      canonicalJSON (encodingJSON goLib) c = (c, none) ∧
      jsonMatcher (encodingJSON goLib) docBA c = (true, none) ∧
      jsonMatcher (encodingJSON goLib) docBA docBA = (true, none) ∧
      ∀ (d1 : Bytes) (v1 : Json.JValue), Json.unmarshal d1 = .ok v1 →
        (jsonMatcher (encodingJSON goLib) docBA d1).2 = none ∧
        jsonMatcher (encodingJSON goLib) docBA d1 = jsonMatcher (encodingJSON goLib) d1 docBA :=
  canonicalJSON_canonical goLib docBA valueAB rfl

/-- The canonical form of the document `{"b":2, "a":1}` of the spec. -/
theorem canonicalJSON_docBA :
    canonicalJSON goLib docBA = (docAB, none) ∧ canonicalJSON goLib docAB = (docAB, none) := by
  decide

/-! ## Equals mode beyond ASCII -/

/-- While both strings hold ASCII bytes, `strings.EqualFold` compares them ignoring case:
when no position of both strings holds a non-ASCII byte, the result is equality ignoring
case. -/
theorem stringsEqualFold_aligned (L : Lib) (s : GoString) :
    ∀ t : GoString, isASCII (s.take t.length) → isASCII (t.take s.length) →
    stringsEqualFold L s t = equalIgnoringCase s t := by
  induction s with
  | nil =>
    intro t _ _
    cases t <;> simp [stringsEqualFold, equalIgnoringCase]
  | cons a s ih =>
    intro t hs ht
    cases t with
    | nil => simp [stringsEqualFold, equalIgnoringCase]
    | cons b t =>
      have ha : a.toNat < 0x80 := hs a (by simp)
      have hb : b.toNat < 0x80 := ht b (by simp)
      have ih' := ih t
        (fun c hc => hs c (by
          simp only [List.length_cons, List.take_succ_cons]
          exact List.mem_cons_of_mem _ hc))
        (fun c hc => ht c (by
          simp only [List.length_cons, List.take_succ_cons]
          exact List.mem_cons_of_mem _ hc))
      have hnon : ¬ (0x80 ≤ a.toNat ∨ 0x80 ≤ b.toNat) := by omega
      unfold stringsEqualFold
      simp only [hnon, if_false]
      by_cases hba : b = a
      · subst hba
        simp only [if_true, ih']
        simp [equalIgnoringCase]
      · simp only [hba, if_false]
        by_cases hl : lowerCode a.toNat = lowerCode b.toNat
        · rw [if_pos ((foldCond_iff a b hba).mpr hl), ih']
          simp [equalIgnoringCase, hl]
        · rw [if_neg (fun hc => hl ((foldCond_iff a b hba).mp hc))]
          simp [equalIgnoringCase, hl]

/-- From the first position at which either string holds a non-ASCII byte,
`strings.EqualFold` hands the two remainders to its Unicode path; the ASCII bytes in front
of that position are compared ignoring case. -/
theorem stringsEqualFold_split (L : Lib) (p : GoString) :
    ∀ (q : GoString) (a b : Char) (s1 t1 : GoString), isASCII p → isASCII q →
    p.length = q.length → (0x80 ≤ a.toNat ∨ 0x80 ≤ b.toNat) →
    stringsEqualFold L (p ++ a :: s1) (q ++ b :: t1)
      = (equalIgnoringCase p q && L.equalFoldUnicode (a :: s1) (b :: t1)) := by
  induction p with
  | nil =>
    intro q a b s1 t1 _ _ hlen hab
    cases q with
    | cons y q => simp at hlen
    | nil =>
      simp only [List.nil_append]
      unfold stringsEqualFold
      simp only [hab, if_true]
      simp [equalIgnoringCase]
  | cons x p ih =>
    intro q a b s1 t1 hp hq hlen hab
    cases q with
    | nil => simp at hlen
    | cons y q =>
      have hx : x.toNat < 0x80 := hp x (List.mem_cons_self _ _)
      have hy : y.toNat < 0x80 := hq y (List.mem_cons_self _ _)
      have ih' := ih q a b s1 t1 (fun c hc => hp c (List.mem_cons_of_mem _ hc))
        (fun c hc => hq c (List.mem_cons_of_mem _ hc)) (by simpa using hlen) hab
      have hnon : ¬ (0x80 ≤ x.toNat ∨ 0x80 ≤ y.toNat) := by omega
      simp only [List.cons_append]
      unfold stringsEqualFold
      simp only [hnon, if_false]
      by_cases hyx : y = x
      · subst hyx
        simp only [if_true, ih']
        simp [equalIgnoringCase]
      · simp only [hyx, if_false]
        by_cases hl : lowerCode x.toNat = lowerCode y.toNat
        · rw [if_pos ((foldCond_iff x y hyx).mpr hl), ih']
          simp [equalIgnoringCase, hl]
        · rw [if_neg (fun hc => hl ((foldCond_iff x y hyx).mp hc))]
          simp [equalIgnoringCase, hl]

/-- C10 (amended): equals mode compares with `strings.EqualFold`. For a pattern in equals
mode (`partial` unset, target `t` not empty) whose query yields a non-empty result: when the
result is the JSON string `s` there is no error and the verdict is `strings.EqualFold(s, t)`.
When no position of both strings holds a non-ASCII byte, as for ASCII strings, that verdict
is positive exactly when `s` and `t` are equal ignoring ASCII case; from the first position
at which either string holds a non-ASCII byte it is positive exactly when the ASCII bytes in
front are equal ignoring case and the Unicode path of the library accepts the two
remainders. When the result is the JSON `null` the verdict is negative and there is no
error; when the result is any other JSON value, or is not JSON, the decoding error is
returned with a negative verdict. The value `bearer` matches the target `Bearer` and the
value `Bear` does not. -/
theorem jsonPathMatcher_equals (base : Lib) (json : Bytes) (pattern : JSONPathWrapper)
    (val : Bytes) (hp : pattern.Partial = false) (ht : pattern.Equals ≠ [])
    (hg : base.jsonsliceGet json pattern.Expression = .ok val) (hv : val ≠ []) :
    (∀ s, Json.parse val = .ok (.string s) →
      jsonPathMatcher (encodingJSON base) json pattern
        = (stringsEqualFold (encodingJSON base) s pattern.Equals, none) ∧
      (isASCII s → isASCII pattern.Equals →
        ((jsonPathMatcher (encodingJSON base) json pattern).1 = true ↔
          equalIgnoringCase s pattern.Equals = true)) ∧
      (isASCII (s.take pattern.Equals.length) → isASCII (pattern.Equals.take s.length) →
        ((jsonPathMatcher (encodingJSON base) json pattern).1 = true ↔
          equalIgnoringCase s pattern.Equals = true)) ∧
      (∀ (p q : GoString) (a b : Char) (s1 t1 : GoString),
        s = p ++ a :: s1 → pattern.Equals = q ++ b :: t1 → isASCII p → isASCII q →
        p.length = q.length → (0x80 ≤ a.toNat ∨ 0x80 ≤ b.toNat) →
        ((jsonPathMatcher (encodingJSON base) json pattern).1 = true ↔
          equalIgnoringCase p q = true ∧
            base.equalFoldUnicode (a :: s1) (b :: t1) = true))) ∧
    (Json.parse val = .ok .null →
      jsonPathMatcher (encodingJSON base) json pattern = (false, none)) ∧
    (∀ d, Json.parse val = .ok d → (∀ s, d ≠ .string s) → d ≠ .null →
      ∃ e, jsonPathMatcher (encodingJSON base) json pattern = (false, some (.external e))) ∧
    (∀ e, Json.parse val = .error e →
      jsonPathMatcher (encodingJSON base) json pattern = (false, some (.external e))) ∧
    stringsEqualFold (encodingJSON base) "bearer".data "Bearer".data = true ∧
    stringsEqualFold (encodingJSON base) "Bear".data "Bearer".data = false ∧
    jsonPathMatcher goLib tokenBearer equalsBearer = (true, none) ∧
    jsonPathMatcher goLib tokenBear equalsBearer = (false, none) := by
  have hlen : ¬ val.length = 0 := by
    cases val with
    | nil => exact absurd rfl hv
    | cons c rest => simp
  have hg' : (encodingJSON base).jsonsliceGet json pattern.Expression = .ok val := hg
  have hstep : jsonPathMatcher (encodingJSON base) json pattern
      = match Json.unmarshalString val with
        | .error err => (false, some (.external err))
        | .ok strVal => (stringsEqualFold (encodingJSON base) strVal pattern.Equals, none) := by
    unfold jsonPathMatcher
    rw [hg']
    simp only [hlen, hp, ht, if_false, ne_eq, not_false_eq_true, if_true, Bool.false_eq_true]
    rfl
  refine ⟨?_, ?_, ?_, ?_, rfl, rfl, by decide, by decide⟩
  · intro s hs
    have heq : jsonPathMatcher (encodingJSON base) json pattern
        = (stringsEqualFold (encodingJSON base) s pattern.Equals, none) := by
      rw [hstep]
      simp [Json.unmarshalString, hs]
    refine ⟨heq, ?_, ?_, ?_⟩
    · intro has hat
      rw [heq, stringsEqualFold_ascii (encodingJSON base) s pattern.Equals has hat]
    · intro has hat
      rw [heq, stringsEqualFold_aligned (encodingJSON base) s pattern.Equals has hat]
    · intro p q a b s1 t1 hs1 ht1 hap haq hl hab
      rw [heq, hs1, ht1, stringsEqualFold_split (encodingJSON base) p q a b s1 t1 hap haq hl hab]
      simp only [Bool.and_eq_true]
      rfl
  · intro hn
    rw [hstep]
    simp only [Json.unmarshalString, hn]
    cases ht' : pattern.Equals with
    | nil => exact absurd ht' ht
    | cons c rest => simp [stringsEqualFold]
  · intro d hd hns hnn
    rw [hstep]
    cases d with
    | null => exact absurd rfl hnn
    | string s => exact absurd rfl (hns s)
    | bool x =>
      exact ⟨"json: cannot unmarshal value into Go value of type string".data,
        by simp [Json.unmarshalString, hd]⟩
    | number n =>
      exact ⟨"json: cannot unmarshal value into Go value of type string".data,
        by simp [Json.unmarshalString, hd]⟩
    | array xs =>
      exact ⟨"json: cannot unmarshal value into Go value of type string".data,
        by simp [Json.unmarshalString, hd]⟩
    | object ms =>
      exact ⟨"json: cannot unmarshal value into Go value of type string".data,
        by simp [Json.unmarshalString, hd]⟩
  · intro e he
    rw [hstep]
    simp [Json.unmarshalString, he]

/-- An instance of `jsonPathMatcher_equals`: the target `Bearer` against the
payload `{"token":"bearer"}`. -/
theorem jsonPathMatcher_equals_witness :
    (∀ s, Json.parse "\"bearer\"".data = .ok (.string s) →
      jsonPathMatcher (encodingJSON goLib) tokenBearer equalsBearer
        = (stringsEqualFold (encodingJSON goLib) s equalsBearer.Equals, none) ∧
      (isASCII s → isASCII equalsBearer.Equals →
        ((jsonPathMatcher (encodingJSON goLib) tokenBearer equalsBearer).1 = true ↔
          equalIgnoringCase s equalsBearer.Equals = true)) ∧
      (isASCII (s.take equalsBearer.Equals.length) →
        isASCII (equalsBearer.Equals.take s.length) →
        ((jsonPathMatcher (encodingJSON goLib) tokenBearer equalsBearer).1 = true ↔
          equalIgnoringCase s equalsBearer.Equals = true)) ∧
      (∀ (p q : GoString) (a b : Char) (s1 t1 : GoString),
        s = p ++ a :: s1 → equalsBearer.Equals = q ++ b :: t1 → isASCII p → isASCII q →
        p.length = q.length → (0x80 ≤ a.toNat ∨ 0x80 ≤ b.toNat) →
        ((jsonPathMatcher (encodingJSON goLib) tokenBearer equalsBearer).1 = true ↔
          equalIgnoringCase p q = true ∧
            goLib.equalFoldUnicode (a :: s1) (b :: t1) = true))) ∧
    (Json.parse "\"bearer\"".data = .ok .null →
      jsonPathMatcher (encodingJSON goLib) tokenBearer equalsBearer = (false, none)) ∧
    (∀ d, Json.parse "\"bearer\"".data = .ok d → (∀ s, d ≠ .string s) → d ≠ .null →
      ∃ e, jsonPathMatcher (encodingJSON goLib) tokenBearer equalsBearer
        = (false, some (.external e))) ∧
    (∀ e, Json.parse "\"bearer\"".data = .error e →
      jsonPathMatcher (encodingJSON goLib) tokenBearer equalsBearer
        = (false, some (.external e))) ∧
    stringsEqualFold (encodingJSON goLib) "bearer".data "Bearer".data = true ∧
    stringsEqualFold (encodingJSON goLib) "Bear".data "Bearer".data = false ∧
    jsonPathMatcher goLib tokenBearer equalsBearer = (true, none) ∧
    jsonPathMatcher goLib tokenBear equalsBearer = (false, none) :=
  jsonPathMatcher_equals goLib tokenBearer equalsBearer "\"bearer\"".data
    rfl (by decide) rfl (by decide)

/-! ## White space in front of tokens -/

/-- The tokenizer skips white space and reads one token at a time. -/
theorem Json.tokenizeAux_step (fuel : Nat) (c : Char) (rest : List Char) :
    tokenizeAux (fuel + 1) (c :: rest)
      = if isSpace c then tokenizeAux fuel rest
        else
          match nextToken (c :: rest) with
          | .error e => .error e
          | .ok (t, r) => prepend [t] (tokenizeAux fuel r) := by
  have hp : ∀ (t : Token) (x : Except LibError (List Token)),
      (match x with
        | .error e => (.error e : Except LibError (List Token))
        | .ok ts => .ok (t :: ts)) = prepend [t] x := by
    intro t x
    cases x <;> rfl
  simp only [tokenizeAux, nextToken]
  by_cases h0 : isSpace c = true
  · simp only [h0, if_true]
  simp only [h0, Bool.false_eq_true, if_false]
  by_cases h1 : c = '{'
  · simp only [h1, if_true]
    exact hp _ _
  simp only [h1, if_false]
  by_cases h2 : c = '}'
  · simp only [h2, if_true]
    exact hp _ _
  simp only [h2, if_false]
  by_cases h3 : c = '['
  · simp only [h3, if_true]
    exact hp _ _
  simp only [h3, if_false]
  by_cases h4 : c = ']'
  · simp only [h4, if_true]
    exact hp _ _
  simp only [h4, if_false]
  by_cases h5 : c = ':'
  · simp only [h5, if_true]
    exact hp _ _
  simp only [h5, if_false]
  by_cases h6 : c = ','
  · simp only [h6, if_true]
    exact hp _ _
  simp only [h6, if_false]
  by_cases h7 : c = '"'
  · simp only [h7, if_true]
    cases scanString (rest.length + 1) rest with
    | none => rfl
    | some r => exact hp _ _
  simp only [h7, if_false]
  by_cases h8 : c = '-' ∨ isDigit c = true
  · simp only [h8, if_true]
    cases scanNumber (c :: rest) with
    | none => rfl
    | some r => exact hp _ _
  simp only [h8, if_false]
  by_cases h9 : c :: rest.take 3 = "true".data
  · simp only [h9, if_true]
    exact hp _ _
  simp only [h9, if_false]
  by_cases h10 : c :: rest.take 4 = "false".data
  · simp only [h10, if_true]
    exact hp _ _
  simp only [h10, if_false]
  by_cases h11 : c :: rest.take 3 = "null".data
  · simp only [h11, if_true]
    exact hp _ _
  simp only [h11, if_false]

theorem Json.getu4_some (s : List Char) (rr : Nat) (h : getu4 s = some rr) :
    ∃ a1 a2 a3 a4 tail, s = '\\' :: 'u' :: a1 :: a2 :: a3 :: a4 :: tail ∧
      hex4 a1 a2 a3 a4 = some rr := by
  match s, h with
  | b :: u :: a1 :: a2 :: a3 :: a4 :: tail, h =>
    simp only [getu4] at h
    split_ifs at h with hc
    obtain ⟨rfl, rfl⟩ := hc
    exact ⟨a1, a2, a3, a4, tail, rfl, h⟩
  | [], h => simp [getu4] at h
  | [_], h => simp [getu4] at h
  | [_, _], h => simp [getu4] at h
  | [_, _, _], h => simp [getu4] at h
  | [_, _, _, _], h => simp [getu4] at h
  | [_, _, _, _, _], h => simp [getu4] at h

theorem Json.getu4_head (c : Char) (l : List Char) (h : c ≠ '\\') : getu4 (c :: l) = none := by
  cases hg : getu4 (c :: l) with
  | none => rfl
  | some rr =>
    obtain ⟨a1, a2, a3, a4, tail, hs, _⟩ := getu4_some _ rr hg
    simp only [List.cons.injEq] at hs
    exact absurd hs.1 h

theorem Json.getu4_second (c e : Char) (l : List Char) (h : e ≠ 'u') :
    getu4 (c :: e :: l) = none := by
  cases hg : getu4 (c :: e :: l) with
  | none => rfl
  | some rr =>
    obtain ⟨a1, a2, a3, a4, tail, hs, _⟩ := getu4_some _ rr hg
    simp only [List.cons.injEq] at hs
    exact absurd hs.2.1 h

theorem Json.decodeUnit_pair (rr : Nat) (next : Option Nat) (h : (decodeUnit rr next).2 = true) :
    ∃ rr1, next = some rr1 := by
  cases next with
  | some rr1 => exact ⟨rr1, rfl⟩
  | none =>
    unfold decodeUnit at h
    split_ifs at h

theorem Json.scanString_escU (fuel : Nat) (t : List Char) :
    scanString (fuel + 1) ('\\' :: 'u' :: t)
      = match getu4 ('\\' :: 'u' :: t) with
        | none => none
        | some rr =>
          match scanString fuel (List.drop
              (if (decodeUnit rr (getu4 (List.drop 5 ('u' :: t)))).2 then 11 else 5)
              ('u' :: t)) with
          | none => none
          | some (s, rest2) =>
            some ((decodeUnit rr (getu4 (List.drop 5 ('u' :: t)))).1 :: s, rest2) := rfl

/-- A string literal is read from the bytes up to its closing quote alone: whatever
follows them, the scanner returns the same string and stops at the same place. -/
theorem Json.scanString_rest : ∀ (fuel : Nat) (s : List Char) (v : GoString) (r : List Char),
    scanString fuel s = some (v, r) →
    ∃ p, s = p ++ r ∧ p ≠ [] ∧ (∀ Y, getu4 (p ++ Y) = getu4 s) ∧
      ∀ (X : List Char) (fuel1 : Nat), p.length ≤ fuel1 →
        scanString fuel1 (p ++ X) = some (v, X) := by
  intro fuel
  induction fuel with
  | zero => intro s v r h; simp [scanString] at h
  | succ fuel ih =>
    intro s v r h
    cases s with
    | nil => simp [scanString] at h
    | cons c rest =>
      unfold scanString at h
      by_cases hq : c = '"'
      · simp only [hq, if_true, Option.some.injEq, Prod.mk.injEq] at h
        obtain ⟨rfl, rfl⟩ := h
        subst hq
        refine ⟨['"'], rfl, by simp, ?_, ?_⟩
        · intro Y
          rw [List.singleton_append, getu4_head _ _ (by decide), getu4_head _ _ (by decide)]
        · intro X fuel1 hf
          simp only [List.length_cons, List.length_nil] at hf
          obtain ⟨f, rfl⟩ : ∃ f, fuel1 = f + 1 := ⟨fuel1 - 1, by omega⟩
          simp [scanString]
      · simp only [hq, if_false] at h
        by_cases hb : c = '\\'
        · simp only [hb, if_true] at h
          subst hb
          cases rest with
          | nil => simp at h
          | cons e rest1 =>
            simp only at h
            by_cases hu : e = 'u'
            · simp only [hu, if_true] at h
              subst hu
              cases hg : getu4 ('\\' :: 'u' :: rest1) with
              | none => simp [hg] at h
              | some rr =>
                obtain ⟨a1, a2, a3, a4, tail, hs, hhex⟩ := getu4_some _ rr hg
                simp only [List.cons.injEq, true_and] at hs
                subst hs
                simp only [hg] at h
                have hd5 : List.drop 5 ('u' :: a1 :: a2 :: a3 :: a4 :: tail) = tail := rfl
                rw [hd5] at h
                by_cases hpair : (decodeUnit rr (getu4 tail)).2 = true
                · simp only [hpair, if_true] at h
                  obtain ⟨rr1, hrr1⟩ := decodeUnit_pair _ _ hpair
                  obtain ⟨b1, b2, b3, b4, tail2, hs2, hhex2⟩ := getu4_some _ rr1 hrr1
                  subst hs2
                  have hd11 : List.drop 11
                      ('u' :: a1 :: a2 :: a3 :: a4 :: '\\' :: 'u' :: b1 :: b2 :: b3 :: b4 :: tail2)
                      = tail2 := rfl
                  rw [hd11] at h
                  cases hrec : scanString fuel tail2 with
                  | none => simp [hrec] at h
                  | some res =>
                    obtain ⟨v1, r1⟩ := res
                    simp only [hrec, Option.some.injEq, Prod.mk.injEq] at h
                    obtain ⟨rfl, rfl⟩ := h
                    obtain ⟨p1, hp1, _, _, hre⟩ := ih tail2 v1 r1 hrec
                    subst hp1
                    refine ⟨'\\' :: 'u' :: a1 :: a2 :: a3 :: a4 :: '\\' :: 'u' :: b1 :: b2 :: b3
                      :: b4 :: p1, by simp, by simp, ?_, ?_⟩
                    · intro Y
                      simp only [List.cons_append, getu4, and_self, if_true, hhex]
                    · intro X fuel1 hf
                      simp only [List.length_cons, List.length_nil] at hf
                      obtain ⟨f, rfl⟩ : ∃ f, fuel1 = f + 1 := ⟨fuel1 - 1, by omega⟩
                      have hg' : getu4 ('\\' :: 'u' :: a1 :: a2 :: a3 :: a4 :: '\\' :: 'u' :: b1
                          :: b2 :: b3 :: b4 :: (p1 ++ X)) = some rr := by
                        simp only [getu4, and_self, if_true, hhex]
                      have hl' : getu4 ('\\' :: 'u' :: b1 :: b2 :: b3 :: b4 :: (p1 ++ X))
                          = some rr1 := by
                        simp only [getu4, and_self, if_true, hhex2]
                      have hl0 : getu4 ('\\' :: 'u' :: b1 :: b2 :: b3 :: b4 :: (p1 ++ r1))
                          = some rr1 := by
                        simp only [getu4, and_self, if_true, hhex2]
                      rw [hl0] at hpair
                      have hd5' : List.drop 5 ('u' :: a1 :: a2 :: a3 :: a4 :: '\\' :: 'u' :: b1
                          :: b2 :: b3 :: b4 :: (p1 ++ X))
                          = '\\' :: 'u' :: b1 :: b2 :: b3 :: b4 :: (p1 ++ X) := rfl
                      have hd11' : List.drop 11 ('u' :: a1 :: a2 :: a3 :: a4 :: '\\' :: 'u' :: b1
                          :: b2 :: b3 :: b4 :: (p1 ++ X)) = p1 ++ X := rfl
                      simp only [List.cons_append]
                      rw [scanString_escU, hg']
                      simp only [hd5', hl', hpair, if_true, hd11', hre X f (by omega), hl0]
                · simp only [hpair, Bool.false_eq_true, if_false] at h
                  rw [hd5] at h
                  cases hrec : scanString fuel tail with
                  | none => simp [hrec] at h
                  | some res =>
                    obtain ⟨v1, r1⟩ := res
                    simp only [hrec, Option.some.injEq, Prod.mk.injEq] at h
                    obtain ⟨rfl, rfl⟩ := h
                    obtain ⟨p1, hp1, _, hlook, hre⟩ := ih tail v1 r1 hrec
                    refine ⟨'\\' :: 'u' :: a1 :: a2 :: a3 :: a4 :: p1, by simp [hp1], by simp,
                      ?_, ?_⟩
                    · intro Y
                      simp only [List.cons_append, getu4, and_self, if_true, hhex]
                    · intro X fuel1 hf
                      simp only [List.length_cons, List.length_nil] at hf
                      obtain ⟨f, rfl⟩ : ∃ f, fuel1 = f + 1 := ⟨fuel1 - 1, by omega⟩
                      have hg' : getu4 ('\\' :: 'u' :: a1 :: a2 :: a3 :: a4 :: (p1 ++ X))
                          = some rr := by
                        simp only [getu4, and_self, if_true, hhex]
                      have hd5' : List.drop 5 ('u' :: a1 :: a2 :: a3 :: a4 :: (p1 ++ X))
                          = p1 ++ X := rfl
                      simp only [List.cons_append]
                      rw [scanString_escU, hg']
                      simp only [hd5', hlook X, hpair, Bool.false_eq_true, if_false,
                        hre X f (by omega)]
            · simp only [hu, if_false] at h
              cases hse : simpleEscape e with
              | none => simp [hse] at h
              | some ch =>
                simp only [hse] at h
                cases hrec : scanString fuel rest1 with
                | none => simp [hrec] at h
                | some res =>
                  obtain ⟨v1, r1⟩ := res
                  simp only [hrec, Option.some.injEq, Prod.mk.injEq] at h
                  obtain ⟨rfl, rfl⟩ := h
                  obtain ⟨p1, hp1, _, _, hre⟩ := ih rest1 v1 r1 hrec
                  refine ⟨'\\' :: e :: p1, by simp [hp1], by simp, ?_, ?_⟩
                  · intro Y
                    rw [List.cons_append, List.cons_append, getu4_second _ _ _ hu,
                      getu4_second _ _ _ hu]
                  · intro X fuel1 hf
                    simp only [List.length_cons, List.length_nil] at hf
                    obtain ⟨f, rfl⟩ : ∃ f, fuel1 = f + 1 := ⟨fuel1 - 1, by omega⟩
                    simp only [List.cons_append]
                    unfold scanString
                    simp only [if_true, hu, if_false, hse, (by decide : ¬ ('\\' = '"')),
                      hre X f (by omega)]
        · simp only [hb, if_false] at h
          by_cases hctl : c.toNat < 0x20
          · simp [hctl] at h
          · simp only [hctl, if_false] at h
            cases hrec : scanString fuel rest with
            | none => simp [hrec] at h
            | some res =>
              obtain ⟨v1, r1⟩ := res
              simp only [hrec, Option.some.injEq, Prod.mk.injEq] at h
              obtain ⟨rfl, rfl⟩ := h
              obtain ⟨p1, hp1, _, _, hre⟩ := ih rest v1 r1 hrec
              refine ⟨c :: p1, by simp [hp1], by simp, ?_, ?_⟩
              · intro Y
                rw [List.cons_append, getu4_head _ _ hb, getu4_head _ _ hb]
              · intro X fuel1 hf
                simp only [List.length_cons, List.length_nil] at hf
                obtain ⟨f, rfl⟩ : ∃ f, fuel1 = f + 1 := ⟨fuel1 - 1, by omega⟩
                simp only [List.cons_append]
                unfold scanString
                simp only [hq, hb, hctl, if_false, hre X f (by omega)]

theorem Json.spanDigits_eq (s : List Char) :
    s = (spanDigits s).1 ++ (spanDigits s).2 ∧ (∀ c ∈ (spanDigits s).1, isDigit c = true) ∧
      ∀ c t, (spanDigits s).2 = c :: t → isDigit c = false := by
  induction s with
  | nil => simp [spanDigits]
  | cons c s ih =>
    unfold spanDigits
    by_cases h : isDigit c = true
    · simp only [h, if_true, List.cons_append, List.mem_cons]
      refine ⟨by rw [← ih.1], ?_, ih.2.2⟩
      rintro x (rfl | hx)
      · exact h
      · exact ih.2.1 x hx
    · simp only [h, Bool.false_eq_true, if_false, List.nil_append, List.not_mem_nil,
        false_implies, implies_true, true_and]
      intro x t hx
      simp only [List.cons.injEq] at hx
      rw [← hx.1]
      simpa using h

/-- What holds of the byte a number stops at, when it holds of every byte that is not
written in numbers, holds of the byte another text that stops the number starts with. -/
theorem Json.stop_transfer (Q : Char → Prop) (hQ : ∀ c, numChar c = false → Q c)
    (X r : List Char) (hX : X.head? = r.head? ∨ Closed X) (hr : ∀ c t, r = c :: t → Q c) :
    ∀ c t, X = c :: t → Q c := by
  intro c t hc
  rcases hX with h | h
  · subst hc
    cases r with
    | nil => simp at h
    | cons d r' =>
      simp only [List.head?_cons, Option.some.injEq] at h
      rw [h]
      exact hr d r' rfl
  · exact hQ c (h c t hc)

theorem Json.stop_append (q X r : List Char) (hX : X.head? = r.head? ∨ Closed X) :
    (q ++ X).head? = (q ++ r).head? ∨ Closed (q ++ X) := by
  cases q with
  | nil => simpa using hX
  | cons c q => left; rfl

theorem Json.numChar_digit (c : Char) (h : numChar c = false) : isDigit c = false := by
  cases hd : isDigit c with
  | false => rfl
  | true => simp [numChar, hd] at h

theorem Json.scanInt_rest (s ip r : List Char) (h : scanInt s = some (ip, r)) :
    s = ip ++ r ∧ ip ≠ [] ∧ (∀ c t, ip = c :: t → isDigit c = true) ∧
      ∀ X, (X.head? = r.head? ∨ Closed X) → scanInt (ip ++ X) = some (ip, X) := by
  cases s with
  | nil => simp [scanInt] at h
  | cons c t =>
    unfold scanInt at h
    by_cases h0 : c = '0'
    · simp only [h0, if_true, Option.some.injEq, Prod.mk.injEq] at h
      obtain ⟨rfl, rfl⟩ := h
      subst h0
      refine ⟨rfl, by simp, ?_, ?_⟩
      · intro c t hc
        simp only [List.cons.injEq] at hc
        rw [← hc.1]
        rfl
      · intro X _
        rfl
    · by_cases hd : isDigit c = true
      · simp only [h0, hd, if_true, if_false, Option.some.injEq] at h
        obtain ⟨h1, h2, h3⟩ := spanDigits_eq (c :: t)
        rw [h] at h1 h2 h3
        simp only at h1 h2 h3
        have hne : ip ≠ [] := by
          intro hc
          have hsp : spanDigits (c :: t) = (c :: (spanDigits t).1, (spanDigits t).2) := by
            simp [spanDigits, hd]
          rw [hsp] at h
          simp only [Prod.mk.injEq] at h
          rw [hc] at h
          exact absurd h.1 (by simp)
        refine ⟨h1, hne, ?_, ?_⟩
        · intro x t' hx
          exact h2 x (by rw [hx]; exact List.mem_cons_self _ _)
        · intro X hX
          have hXd := stop_transfer (fun c => isDigit c = false) numChar_digit X r hX h3
          cases ip with
          | nil => exact absurd rfl hne
          | cons x ip' =>
            have hx : x = c := by
              simp only [List.cons_append, List.cons.injEq] at h1
              exact h1.1.symm
            subst hx
            have hsp := spanDigits_append (x :: ip') X h2 hXd
            rw [List.cons_append] at hsp ⊢
            unfold scanInt
            simp only [h0, if_false, hd, if_true, hsp]
      · simp [h0, hd] at h

theorem Json.scanFraction_rest (s fp r : List Char) (h : scanFraction s = some (fp, r)) :
    ∃ pf, s = pf ++ r ∧ (∀ c t, pf = c :: t → c = '.') ∧
      ∀ X, (X.head? = r.head? ∨ Closed X) → scanFraction (pf ++ X) = some (fp, X) := by
  have hdotQ : ∀ c, numChar c = false → c ≠ '.' := by
    intro c hc hx
    rw [hx] at hc
    revert hc
    decide
  cases s with
  | nil =>
    simp only [scanFraction, Option.some.injEq, Prod.mk.injEq] at h
    obtain ⟨rfl, rfl⟩ := h
    refine ⟨[], rfl, ?_, ?_⟩
    · intro c t hc
      exact absurd hc (List.noConfusion)
    intro X hX
    rw [List.nil_append]
    apply scanFraction_none
    rcases hX with hX | hX
    · cases X with
      | nil => intro c t hc; cases hc
      | cons x X' => simp at hX
    · exact fun c t hc => hdotQ c (hX c t hc)
  | cons c t =>
    unfold scanFraction at h
    by_cases hc : c = '.'
    · simp only [hc, if_true] at h
      subst hc
      obtain ⟨h1, h2, h3⟩ := spanDigits_eq t
      rcases hsp : spanDigits t with ⟨ds, r1⟩
      rw [hsp] at h h1 h2 h3
      simp only at h1 h2 h3
      cases ds with
      | nil => simp at h
      | cons d ds =>
        simp only [Option.some.injEq, Prod.mk.injEq] at h
        obtain ⟨rfl, rfl⟩ := h
        refine ⟨'.' :: d :: ds, by rw [h1]; rfl, ?_, ?_⟩
        · intro c t hc
          simp only [List.cons.injEq] at hc
          exact hc.1.symm
        · intro X hX
          have hXd := stop_transfer (fun c => isDigit c = false) numChar_digit X r1 hX h3
          exact scanFraction_digits (d :: ds) X h2 (by simp) hXd
    · simp only [hc, if_false, Option.some.injEq, Prod.mk.injEq] at h
      obtain ⟨rfl, rfl⟩ := h
      refine ⟨[], rfl, ?_, ?_⟩
      · intro c t hc
        exact absurd hc (List.noConfusion)
      intro X hX
      rw [List.nil_append]
      apply scanFraction_none
      exact stop_transfer (fun c => c ≠ '.') hdotQ X (c :: t) hX
        (fun x t' hx => by
          simp only [List.cons.injEq] at hx
          rw [← hx.1]
          exact hc)

theorem Json.scanExponent_none (rest : List Char)
    (h : ∀ c r, rest = c :: r → ¬ (c = 'e' ∨ c = 'E')) : scanExponent rest = some (0, rest) := by
  cases rest with
  | nil => rfl
  | cons c r =>
    unfold scanExponent
    simp only [h c r rfl, if_false]

theorem Json.scanExponent_rest (s : List Char) (e : Int) (r : List Char)
    (h : scanExponent s = some (e, r)) :
    ∃ pe, s = pe ++ r ∧ (∀ c t, pe = c :: t → c = 'e' ∨ c = 'E') ∧
      ∀ X, (X.head? = r.head? ∨ Closed X) → scanExponent (pe ++ X) = some (e, X) := by
  have heQ : ∀ c, numChar c = false → ¬ (c = 'e' ∨ c = 'E') := by
    intro c hc hx
    rcases hx with hx | hx <;> (rw [hx] at hc; revert hc; decide)
  cases s with
  | nil =>
    simp only [scanExponent, Option.some.injEq, Prod.mk.injEq] at h
    obtain ⟨rfl, rfl⟩ := h
    refine ⟨[], rfl, ?_, ?_⟩
    · intro c t hc
      exact absurd hc (List.noConfusion)
    intro X hX
    rw [List.nil_append]
    apply scanExponent_none
    rcases hX with hX | hX
    · cases X with
      | nil => intro c t hc; cases hc
      | cons x X' => simp at hX
    · exact fun c t hc => heQ c (hX c t hc)
  | cons c t =>
    unfold scanExponent at h
    by_cases hc : c = 'e' ∨ c = 'E'
    · simp only [hc, if_true] at h
      obtain ⟨h1, h2, h3⟩ := spanDigits_eq (scanSign t).2
      rcases hsp : spanDigits (scanSign t).2 with ⟨ds, r1⟩
      rw [hsp] at h h1 h2 h3
      simp only at h1 h2 h3
      cases ds with
      | nil => simp at h
      | cons d ds =>
        simp only [Option.some.injEq, Prod.mk.injEq] at h
        obtain ⟨rfl, rfl⟩ := h
        have hd : isDigit d = true := h2 d (List.mem_cons_self _ _)
        -- the sign in front of the digits
        obtain ⟨sg, hsg, hsign⟩ : ∃ sg : List Char, t = sg ++ (d :: ds ++ r1) ∧
            ∀ Y, scanSign (sg ++ (d :: ds ++ Y)) = ((scanSign t).1, d :: ds ++ Y) := by
          cases t with
          | nil => simp [scanSign] at h1
          | cons x t' =>
            by_cases hx1 : x = '-'
            · subst hx1
              have : (scanSign ('-' :: t')).2 = t' := rfl
              rw [this] at h1
              exact ⟨['-'], by rw [h1]; rfl, fun Y => rfl⟩
            · by_cases hx2 : x = '+'
              · subst hx2
                have : (scanSign ('+' :: t')).2 = t' := rfl
                rw [this] at h1
                exact ⟨['+'], by rw [h1]; rfl, fun Y => rfl⟩
              · have hs : scanSign (x :: t') = (false, x :: t') := by
                  simp [scanSign, hx1, hx2]
                rw [hs] at h1 ⊢
                simp only at h1
                refine ⟨[], by rw [h1]; rfl, ?_⟩
                intro Y
                have hxd : x = d := by
                  simp only [List.cons_append, List.cons.injEq] at h1
                  exact h1.1
                subst hxd
                simp [scanSign, hx1, hx2]
        refine ⟨c :: (sg ++ d :: ds), by rw [hsg]; simp, ?_, ?_⟩
        · intro x t' hx
          simp only [List.cons.injEq] at hx
          rw [← hx.1]
          exact hc
        · intro X hX
          have hXd := stop_transfer (fun c => isDigit c = false) numChar_digit X r1 hX h3
          have hsp' := spanDigits_append (d :: ds) X h2 hXd
          have htxt : c :: (sg ++ d :: ds) ++ X = c :: (sg ++ (d :: ds ++ X)) := by simp
          rw [htxt]
          unfold scanExponent
          simp only [hc, if_true, hsign X, hsp']
    · simp only [hc, if_false, Option.some.injEq, Prod.mk.injEq] at h
      obtain ⟨rfl, rfl⟩ := h
      refine ⟨[], rfl, ?_, ?_⟩
      · intro c t hc
        exact absurd hc (List.noConfusion)
      intro X hX
      rw [List.nil_append]
      apply scanExponent_none
      exact stop_transfer (fun c => ¬ (c = 'e' ∨ c = 'E')) heQ X (c :: t) hX
        (fun x t' hx => by
          simp only [List.cons.injEq] at hx
          rw [← hx.1]
          exact hc)

/-- A number literal is read from its own bytes and the byte that stops it: in front of
any text that starts with the same byte, or with a byte not written in numbers, the scanner
returns the same literal and stops at the same place. -/
theorem Json.scanNumber_rest (s : List Char) (lit : NumLit) (r : List Char)
    (h : scanNumber s = some (lit, r)) :
    ∃ p, s = p ++ r ∧ p ≠ [] ∧
      ∀ X, (X.head? = r.head? ∨ Closed X) → scanNumber (p ++ X) = some (lit, X) := by
  unfold scanNumber at h
  rcases hi : scanInt (scanMinus s).2 with _ | ⟨ip, s2⟩
  · simp [hi] at h
  · simp only [hi] at h
    rcases hf : scanFraction s2 with _ | ⟨fp, s3⟩
    · simp [hf] at h
    · simp only [hf] at h
      rcases he : scanExponent s3 with _ | ⟨e, s4⟩
      · simp [he] at h
      · simp only [he, Option.some.injEq, Prod.mk.injEq] at h
        obtain ⟨rfl, rfl⟩ := h
        obtain ⟨hi1, hi2, hi3, hi4⟩ := scanInt_rest _ ip s2 hi
        obtain ⟨pf, hf1, hf2, hf3⟩ := scanFraction_rest s2 fp s3 hf
        obtain ⟨pe, he1, he2, he3⟩ := scanExponent_rest s3 e s4 he
        obtain ⟨x, ip', hip⟩ : ∃ x ip', ip = x :: ip' := by
          cases ip with
          | nil => exact absurd rfl hi2
          | cons x ip' => exact ⟨x, ip', rfl⟩
        have hxd : isDigit x = true := hi3 x ip' hip
        have hxm : x ≠ '-' := (isDigit_ne x hxd).1
        obtain ⟨pm, hpm, hminus⟩ : ∃ pm : List Char, s = pm ++ (scanMinus s).2 ∧
            ∀ Y, scanMinus (pm ++ (x :: Y)) = ((scanMinus s).1, x :: Y) := by
          cases s with
          | nil => simp [scanMinus, scanInt] at hi
          | cons c t =>
            by_cases hc : c = '-'
            · subst hc
              exact ⟨['-'], rfl, fun Y => rfl⟩
            · have hs : scanMinus (c :: t) = (false, c :: t) := by simp [scanMinus, hc]
              rw [hs]
              refine ⟨[], rfl, ?_⟩
              intro Y
              simp [scanMinus, hxm]
        refine ⟨pm ++ ip ++ pf ++ pe, ?_, ?_, ?_⟩
        · have hall : (scanMinus s).2 = ip ++ (pf ++ (pe ++ s4)) := by
            rw [hi1, hf1, he1]
          rw [hall] at hpm
          simpa using hpm
        · rw [hip]
          simp
        · intro X hX
          have h3 := stop_append pe X s4 hX
          rw [← he1] at h3
          have h2 := stop_append pf (pe ++ X) s3 h3
          rw [← hf1] at h2
          have hE := he3 X hX
          have hF := hf3 (pe ++ X) h3
          have hI := hi4 (pf ++ (pe ++ X)) h2
          have hM := hminus (ip' ++ (pf ++ (pe ++ X)))
          have htxt : pm ++ ip ++ pf ++ pe ++ X = pm ++ (x :: (ip' ++ (pf ++ (pe ++ X)))) := by
            rw [hip]
            simp
          rw [htxt]
          rw [hip] at hI
          exact scanNumber_of _ _ _ _ _ ip fp _ e hM (by rw [hip]; exact hI) hF hE

/-- A token is read from its own bytes and, for a number, the byte that stops it: the
input is the bytes of the token followed by the rest, and in front of any other rest that
starts with the same byte, or with a byte not written in numbers, the same token is
read. -/
theorem Json.nextToken_rest (s : List Char) (t : Token) (r : List Char)
    (h : nextToken s = .ok (t, r)) :
    ∃ p, s = p ++ r ∧ p ≠ [] ∧
      ∀ X, (X.head? = r.head? ∨ Closed X) → nextToken (p ++ X) = .ok (t, X) := by
  cases s with
  | nil => simp [nextToken] at h
  | cons c rest =>
    have single : ∀ (d : Char) (tk : Token), c = d →
        (∀ X, nextToken (d :: X) = .ok (tk, X)) → nextToken (c :: rest) = .ok (tk, rest) →
        ∃ p, c :: rest = p ++ r ∧ p ≠ [] ∧
          ∀ X, (X.head? = r.head? ∨ Closed X) → nextToken (p ++ X) = .ok (t, X) := by
      intro d tk hd hX hs
      rw [hs] at h
      simp only [Except.ok.injEq, Prod.mk.injEq] at h
      obtain ⟨rfl, rfl⟩ := h
      exact ⟨[d], by rw [hd]; rfl, by simp, fun X _ => hX X⟩
    by_cases h1 : c = '{'
    · exact single '{' .beginObject h1 (fun X => rfl) (by rw [h1]; rfl)
    by_cases h2 : c = '}'
    · exact single '}' .endObject h2 (fun X => rfl) (by rw [h2]; rfl)
    by_cases h3 : c = '['
    · exact single '[' .beginArray h3 (fun X => rfl) (by rw [h3]; rfl)
    by_cases h4 : c = ']'
    · exact single ']' .endArray h4 (fun X => rfl) (by rw [h4]; rfl)
    by_cases h5 : c = ':'
    · exact single ':' .colon h5 (fun X => rfl) (by rw [h5]; rfl)
    by_cases h6 : c = ','
    · exact single ',' .comma h6 (fun X => rfl) (by rw [h6]; rfl)
    unfold nextToken at h
    simp only [h1, h2, h3, h4, h5, h6, if_false] at h
    by_cases h7 : c = '"'
    · simp only [h7, if_true] at h
      rcases hs : scanString (rest.length + 1) rest with _ | ⟨v, r1⟩
      · simp [hs] at h
      · simp only [hs, Except.ok.injEq, Prod.mk.injEq] at h
        obtain ⟨rfl, rfl⟩ := h
        obtain ⟨p, hp1, hp2, _, hp4⟩ := scanString_rest _ _ _ _ hs
        refine ⟨'"' :: p, by rw [h7, hp1]; rfl, by simp, ?_⟩
        intro X _
        have hfuel : p.length ≤ (p ++ X).length + 1 := by
          simp only [List.length_append]
          omega
        have := hp4 X _ hfuel
        show nextToken ('"' :: (p ++ X)) = _
        unfold nextToken
        simp only [this]
        rfl
    simp only [h7, if_false] at h
    by_cases h8 : c = '-' ∨ isDigit c = true
    · simp only [h8, if_true] at h
      rcases hs : scanNumber (c :: rest) with _ | ⟨n, r1⟩
      · simp [hs] at h
      · simp only [hs, Except.ok.injEq, Prod.mk.injEq] at h
        obtain ⟨rfl, rfl⟩ := h
        obtain ⟨p, hp1, hp2, hp3⟩ := scanNumber_rest _ _ _ hs
        refine ⟨p, hp1, hp2, ?_⟩
        intro X hX
        have := hp3 X hX
        cases p with
        | nil => exact absurd rfl hp2
        | cons x p' =>
          have hx : x = c := by
            simp only [List.cons_append, List.cons.injEq] at hp1
            exact hp1.1.symm
          subst hx
          rw [List.cons_append] at this ⊢
          unfold nextToken
          simp only [h1, h2, h3, h4, h5, h6, h7, if_false, h8, if_true, this]
    simp only [h8, if_false] at h
    have lit : ∀ (w : List Char) (tk : Token) (k : Nat), w.length = k + 1 →
        c :: rest.take k = w → (∀ X, nextToken (w ++ X) = .ok (tk, X)) →
        t = tk → r = rest.drop k →
        ∃ p, c :: rest = p ++ r ∧ p ≠ [] ∧
          ∀ X, (X.head? = r.head? ∨ Closed X) → nextToken (p ++ X) = .ok (t, X) := by
      intro w tk k hw hcw hX ht hr
      subst ht hr
      refine ⟨w, ?_, ?_, fun X _ => hX X⟩
      · rw [← hcw, List.cons_append, List.take_append_drop]
      · intro hc
        rw [hc] at hw
        simp at hw
    by_cases h9 : c :: rest.take 3 = "true".data
    · simp only [h9, if_true, Except.ok.injEq, Prod.mk.injEq] at h
      exact lit "true".data .litTrue 3 rfl h9 (fun X => rfl) h.1.symm h.2.symm
    simp only [h9, if_false] at h
    by_cases h10 : c :: rest.take 4 = "false".data
    · simp only [h10, if_true, Except.ok.injEq, Prod.mk.injEq] at h
      exact lit "false".data .litFalse 4 rfl h10 (fun X => rfl) h.1.symm h.2.symm
    simp only [h10, if_false] at h
    by_cases h11 : c :: rest.take 3 = "null".data
    · simp only [h11, if_true, Except.ok.injEq, Prod.mk.injEq] at h
      exact lit "null".data .litNull 3 rfl h11 (fun X => rfl) h.1.symm h.2.symm
    simp [h11] at h

/-- The token read is never empty: the rest is shorter than the input. -/
theorem Json.nextToken_length (s : List Char) (t : Token) (r : List Char)
    (h : nextToken s = .ok (t, r)) : r.length < s.length := by
  obtain ⟨p, hp1, hp2, _⟩ := nextToken_rest s t r h
  rw [hp1, List.length_append]
  have : 0 < p.length := List.length_pos.mpr hp2
  omega

/-- With fuel for every byte the tokenizer does not depend on the fuel. -/
theorem Json.tokenizeAux_fuel : ∀ (f1 f2 : Nat) (s : List Char),
    s.length < f1 → s.length < f2 → tokenizeAux f1 s = tokenizeAux f2 s := by
  intro f1
  induction f1 with
  | zero => intro f2 s h1; omega
  | succ k ih =>
    intro f2 s h1 h2
    cases f2 with
    | zero => omega
    | succ m =>
      cases s with
      | nil => rfl
      | cons c rest =>
        simp only [List.length_cons] at h1 h2
        rw [tokenizeAux_step, tokenizeAux_step]
        by_cases hc : isSpace c = true
        · simp only [hc, if_true]
          exact ih m rest (by omega) (by omega)
        · simp only [hc, Bool.false_eq_true, if_false]
          rcases hn : nextToken (c :: rest) with e | ⟨t, r⟩
          · rfl
          · have hl := nextToken_length _ _ _ hn
            simp only [List.length_cons] at hl
            simp only
            rw [ih m r (by omega) (by omega)]

theorem Json.tokenize_fuel (f : Nat) (s : List Char) (h : s.length < f) :
    tokenizeAux f s = tokenize s :=
  tokenizeAux_fuel f (s.length + 1) s h (by omega)

/-- White space in front of the input is skipped. -/
theorem Json.tokenizeAux_skip : ∀ (w : List Char) (n : Nat) (s : List Char),
    (∀ c ∈ w, isSpace c = true) → tokenizeAux (n + w.length) (w ++ s) = tokenizeAux n s := by
  intro w
  induction w with
  | nil => intro n s _; rfl
  | cons c w ih =>
    intro n s hw
    have hc : isSpace c = true := hw c (List.mem_cons_self _ _)
    rw [List.length_cons, ← Nat.add_assoc, List.cons_append, tokenizeAux_step]
    simp only [hc, if_true]
    exact ih n s (fun x hx => hw x (List.mem_cons_of_mem _ hx))

theorem Json.tokenize_skip (w s : List Char) (hw : ∀ c ∈ w, isSpace c = true) :
    tokenize (w ++ s) = tokenize s := by
  unfold tokenize
  rw [List.length_append, show w.length + s.length + 1 = (s.length + 1) + w.length by omega]
  exact tokenizeAux_skip w _ s hw

theorem Json.isSpace_numChar (c : Char) (h : isSpace c = true) : numChar c = false := by
  simp only [isSpace, Bool.or_eq_true, beq_iff_eq] at h
  rcases h with ((h | h) | h) | h <;> (subst h; rfl)

theorem Json.respaceAux_token (f : Nat → Bytes) (fuel i : Nat) (s : List Char) (t : Token)
    (r : List Char) (hs : ∀ c rest, s = c :: rest → isSpace c = false)
    (h : nextToken s = .ok (t, r)) :
    ∃ p, s = p ++ r ∧ p ≠ [] ∧
      respaceAux f (fuel + 1) i s = f i ++ p ++ respaceAux f fuel (i + 1) r ∧
      ∀ X, (X.head? = r.head? ∨ Closed X) → nextToken (p ++ X) = .ok (t, X) := by
  obtain ⟨p, hp1, hp2, hp3⟩ := nextToken_rest s t r h
  refine ⟨p, hp1, hp2, ?_, hp3⟩
  cases s with
  | nil => simp [nextToken] at h
  | cons c rest =>
    have htake : (c :: rest).take ((c :: rest).length - r.length) = p := by
      rw [hp1, List.length_append, Nat.add_sub_cancel, List.take_left]
    simp only [respaceAux, hs c rest rfl, Bool.false_eq_true, if_false, h, htake]

theorem Json.respaceAux_length (f : Nat → Bytes) : ∀ (fuel i : Nat) (s : List Char),
    s.length ≤ (respaceAux f fuel i s).length := by
  intro fuel
  induction fuel with
  | zero => intro i s; simp [respaceAux]
  | succ fuel ih =>
    intro i s
    cases s with
    | nil => simp
    | cons c rest =>
      by_cases hc : isSpace c = true
      · simp only [respaceAux, hc, if_true, List.length_cons]
        have := ih i rest
        omega
      · rcases hn : nextToken (c :: rest) with e | ⟨t, r⟩
        · simp [respaceAux, hc, hn]
        · obtain ⟨p, hp1, _, hp3, _⟩ := respaceAux_token f fuel i (c :: rest) t r
            (fun x y hx => by
              simp only [List.cons.injEq] at hx
              rw [← hx.1]
              simpa using hc) hn
          rw [hp3]
          have := ih (i + 1) r
          rw [hp1]
          simp only [List.length_append]
          omega

/-- What the new input starts with: the byte the old one starts with, or white space. -/
theorem Json.respaceAux_head (f : Nat → Bytes) (hf : ∀ i, ∀ c ∈ f i, isSpace c = true) :
    ∀ (fuel i : Nat) (s : List Char),
      (respaceAux f fuel i s).head? = s.head? ∨ Closed (respaceAux f fuel i s) := by
  have hsp : ∀ (w rest : List Char), w ≠ [] → (∀ c ∈ w, isSpace c = true) →
      Closed (w ++ rest) := by
    intro w rest hw hall c t hc
    cases w with
    | nil => exact absurd rfl hw
    | cons x w =>
      simp only [List.cons_append, List.cons.injEq] at hc
      rw [← hc.1]
      exact isSpace_numChar x (hall x (List.mem_cons_self _ _))
  intro fuel i s
  cases fuel with
  | zero => left; rfl
  | succ fuel =>
    cases s with
    | nil =>
      by_cases hw : f i = []
      · left
        simp [respaceAux, hw]
      · right
        have := hsp (f i) [] hw (hf i)
        simpa [respaceAux] using this
    | cons c rest =>
      by_cases hc : isSpace c = true
      · left
        simp [respaceAux, hc]
      · rcases hn : nextToken (c :: rest) with e | ⟨t, r⟩
        · left
          simp [respaceAux, hc, hn]
        · obtain ⟨p, hp1, hp2, hp3, _⟩ := respaceAux_token f fuel i (c :: rest) t r
            (fun x y hx => by
              simp only [List.cons.injEq] at hx
              rw [← hx.1]
              simpa using hc) hn
          rw [hp3]
          by_cases hw : f i = []
          · left
            rw [hw, List.nil_append]
            cases p with
            | nil => exact absurd rfl hp2
            | cons x p' =>
              simp only [List.cons_append, List.cons.injEq] at hp1
              rw [hp1.1]
              rfl
          · right
            rw [List.append_assoc]
            exact hsp (f i) _ hw (hf i)

theorem Json.tokenize_step (c : Char) (rest : List Char) :
    tokenize (c :: rest)
      = if isSpace c then tokenize rest
        else
          match nextToken (c :: rest) with
          | .error e => .error e
          | .ok (t, r) => prepend [t] (tokenize r) := by
  unfold tokenize
  rw [List.length_cons, tokenizeAux_step]
  by_cases hc : isSpace c = true
  · simp only [hc, if_true]
  · simp only [hc, Bool.false_eq_true, if_false]
    rcases hn : nextToken (c :: rest) with e | ⟨t, r⟩
    · rfl
    · have hl := nextToken_length _ _ _ hn
      simp only [List.length_cons] at hl
      simp only
      rw [tokenizeAux_fuel (rest.length + 1) (r.length + 1) r (by omega) (by omega)]

/-- White space added in front of tokens and at the end of the input is not seen by the
tokenizer. -/
theorem Json.tokenize_respaceAux (f : Nat → Bytes) (hf : ∀ i, ∀ c ∈ f i, isSpace c = true) :
    ∀ (fuel i : Nat) (s : List Char), s.length < fuel →
      tokenize (respaceAux f fuel i s) = tokenize s := by
  intro fuel
  induction fuel with
  | zero => intro i s h; omega
  | succ fuel ih =>
    intro i s h
    cases s with
    | nil =>
      have := tokenize_skip (f i) [] (hf i)
      simpa [respaceAux] using this
    | cons c rest =>
      simp only [List.length_cons] at h
      by_cases hc : isSpace c = true
      · have h1 : respaceAux f (fuel + 1) i (c :: rest) = c :: respaceAux f fuel i rest := by
          simp [respaceAux, hc]
        rw [h1, tokenize_step, tokenize_step]
        simp only [hc, if_true]
        exact ih i rest (by omega)
      · rcases hn : nextToken (c :: rest) with e | ⟨t, r⟩
        · have h1 : respaceAux f (fuel + 1) i (c :: rest) = c :: rest := by
            simp [respaceAux, hc, hn]
          rw [h1]
        · obtain ⟨p, hp1, hp2, hp3, hp4⟩ := respaceAux_token f fuel i (c :: rest) t r
            (fun x y hx => by
              simp only [List.cons.injEq] at hx
              rw [← hx.1]
              simpa using hc) hn
          have hl := nextToken_length _ _ _ hn
          simp only [List.length_cons] at hl
          have hX := hp4 (respaceAux f fuel (i + 1) r) (respaceAux_head f hf fuel (i + 1) r)
          rw [hp3, List.append_assoc, tokenize_skip _ _ (hf i)]
          cases p with
          | nil => exact absurd rfl hp2
          | cons x p' =>
            have hx : x = c := by
              simp only [List.cons_append, List.cons.injEq] at hp1
              exact hp1.1.symm
            subst hx
            rw [List.cons_append] at hX ⊢
            rw [tokenize_step, tokenize_step]
            simp only [hc, Bool.false_eq_true, if_false, hX, hn]
            rw [ih (i + 1) r (by omega)]

theorem Json.tokenize_respace (f : Nat → Bytes) (hf : ∀ i, ∀ c ∈ f i, isSpace c = true)
    (s : Bytes) : tokenize (respace f s) = tokenize s :=
  tokenize_respaceAux f hf (s.length + 1) 0 s (by omega)

/-- White space added in front of tokens and at the end of a document changes neither the
value it decodes to nor the error it is rejected with. -/
theorem Json.unmarshal_respace (f : Nat → Bytes) (hf : ∀ i, ∀ c ∈ f i, isSpace c = true)
    (s : Bytes) : unmarshal (respace f s) = unmarshal s := by
  simp only [unmarshal, parse, tokenize_respace f hf]

theorem canonicalJSON_congr (base : Lib) (a b : Bytes) (h : Json.unmarshal a = Json.unmarshal b) :
    canonicalJSON (encodingJSON base) a = canonicalJSON (encodingJSON base) b := by
  have key : ∀ (src : Bytes) (r : Except LibError Json.JValue), Json.unmarshal src = r →
      canonicalJSON (encodingJSON base) src
        = match r with
          | .error err => ([], some (.external err))
          | .ok val =>
            match Json.marshal val with
            | .error err => ([], some (.external err))
            | .ok canonicalJson => (canonicalJson, none) := by
    intro src r hr
    have h1 : (encodingJSON base).jsonUnmarshal src = r := hr
    unfold canonicalJSON
    rw [h1]
    cases r with
    | error e => rfl
    | ok v => rfl
  rw [key a _ h, key b _ rfl]

theorem jsonMatcher_congr (base : Lib) (a a1 b b1 : Bytes)
    (ha : Json.unmarshal a = Json.unmarshal a1) (hb : Json.unmarshal b = Json.unmarshal b1) :
    jsonMatcher (encodingJSON base) a b = jsonMatcher (encodingJSON base) a1 b1 := by
  unfold jsonMatcher
  rw [canonicalJSON_congr base a a1 ha, canonicalJSON_congr base b b1 hb]

/-- C7 (amended): canonical equality compares the Go values the documents
decode to. For two documents that `json.Unmarshal` accepts, `jsonMatcher`
returns no error, and a positive verdict exactly when the two values are
equal, a negative one exactly when they differ; a number is the `float64` it
is stored as, sign included. White space does not count: with any white space
added in front of any tokens and at the end of either document
(`Json.respace`) both decode to the same values as before and the outcome is
the same, and for every input, accepted or not, `json.Unmarshal` returns the
same result with the white space added. The value of an object does not depend
on the order of members with different keys, nor does the value of an object
or array depend on anything in a member or element but what it decodes to.
`{"a":1,"b":2}` matches `{"b":2, "a":1}`, also with a blank in front of each
token; `-0` does not match `0`. -/
theorem jsonMatcher_canonical (base : Lib) (a b : Bytes) (va vb : Json.JValue)
    (ha : Json.unmarshal a = .ok va) (hb : Json.unmarshal b = .ok vb) :
    (jsonMatcher (encodingJSON base) a b).2 = none ∧
    ((jsonMatcher (encodingJSON base) a b).1 = true ↔ va = vb) ∧
    ((jsonMatcher (encodingJSON base) a b).1 = false ↔ va ≠ vb) ∧
    (∀ f g : Nat → Bytes,
      (∀ i, ∀ c ∈ f i, Json.isSpace c = true) → (∀ i, ∀ c ∈ g i, Json.isSpace c = true) →
      Json.unmarshal (Json.respace f a) = .ok va ∧
      Json.unmarshal (Json.respace g b) = .ok vb ∧
      jsonMatcher (encodingJSON base) (Json.respace f a) (Json.respace g b)
        = jsonMatcher (encodingJSON base) a b) ∧
    (∀ (f : Nat → Bytes) (s : Bytes), (∀ i, ∀ c ∈ f i, Json.isSpace c = true) →
      Json.unmarshal (Json.respace f s) = Json.unmarshal s) ∧
    (∀ (ms ms1 ms2 : List (GoString × Json.Doc)) (v : Json.JValue),
      ms.Perm ms1 →
      List.Forall₂ (fun m n => m.1 = n.1 ∧ Json.decode m.2 = Json.decode n.2) ms1 ms2 →
      (ms.map Prod.fst).Nodup →
      Json.decode (.object ms) = .ok v → Json.decode (.object ms2) = .ok v) ∧
    (∀ xs ys : List Json.Doc,
      List.Forall₂ (fun d e => Json.decode d = Json.decode e) xs ys →
      Json.decode (.array xs) = Json.decode (.array ys)) ∧
    Json.respace (fun _ => " ".data) docBA = " \x7b \"b\" : 2 ,  \"a\" : 1 \x7d ".data ∧
    jsonMatcher goLib docAB docBA = (true, none) ∧
    jsonMatcher goLib (Json.respace (fun _ => " ".data) docAB)
      (Json.respace (fun _ => " ".data) docBA) = (true, none) ∧
    jsonMatcher goLib "-0".data "0".data = (false, none) := by
  obtain ⟨x, hx0, _⟩ := Json.unmarshal_marshal a va ha
  obtain ⟨y, hy0, _⟩ := Json.unmarshal_marshal b vb hb
  have hx : Json.marshal va = .ok x := (marshal_ok_iff va x).mpr hx0
  have hy : Json.marshal vb = .ok y := (marshal_ok_iff vb y).mpr hy0
  have hca := canonicalJSON_of_value base a x va ha hx
  have hcb := canonicalJSON_of_value base b y vb hb hy
  have hm : jsonMatcher (encodingJSON base) a b = (decide (x = y), none) := by
    unfold jsonMatcher
    rw [hca, hcb]
  have hiff : x = y ↔ va = vb := by
    constructor
    · intro hxy
      subst hxy
      exact (Json.encode_inj va vb x x [] [] hx0 hy0 rfl
        (fun c rest hc => by cases hc) (fun c rest hc => by cases hc)).1
    · intro hv
      subst hv
      rw [hx] at hy
      exact Except.ok.inj hy
  refine ⟨by rw [hm], ?_, ?_, ?_, ?_, ?_, ?_, by decide, by decide, by decide, by decide⟩
  · rw [hm]; simpa using hiff
  · rw [hm]; simpa using hiff.not
  · intro f g hf hg
    have h1 := Json.unmarshal_respace f hf a
    have h2 := Json.unmarshal_respace g hg b
    exact ⟨by rw [h1, ha], by rw [h2, hb], jsonMatcher_congr base _ _ _ _ h1 h2⟩
  · intro f s hf
    exact Json.unmarshal_respace f hf s
  · intro ms ms1 ms2 v hperm hcongr hnd hv
    have hdec : ∀ l : List (GoString × Json.Doc),
        Json.decode (.object l) = .ok v ↔
          ∃ m, Json.decodeMembers l [] = .ok m ∧ v = .object m := by
      intro l
      rw [Json.decode]
      cases h : Json.decodeMembers l [] with
      | error e =>
        constructor
        · intro h1
          cases h1
        · rintro ⟨m', h1, _⟩
          cases h1
      | ok m =>
        constructor
        · intro h1
          exact ⟨m, rfl, (Except.ok.inj h1).symm⟩
        · rintro ⟨m', h1, h2⟩
          rw [Except.ok.inj h1, h2]
    obtain ⟨m, hm1, hm2⟩ := (hdec ms).mp hv
    refine (hdec ms2).mpr ⟨m, ?_, hm2⟩
    rw [← Json.decodeMembers_congr ms1 ms2 hcongr []]
    exact Json.decodeMembers_perm hperm hnd [] m hm1
  · intro xs ys h
    rw [Json.decode, Json.decode, Json.decodeElems_congr xs ys h]

/-- An instance of `jsonMatcher_canonical`: the two documents of the spec,
which decode to `valueAB`. -/
theorem jsonMatcher_canonical_witness :
    (jsonMatcher (encodingJSON goLib) docAB docBA).2 = none ∧
    ((jsonMatcher (encodingJSON goLib) docAB docBA).1 = true ↔ valueAB = valueAB) ∧
    ((jsonMatcher (encodingJSON goLib) docAB docBA).1 = false ↔ valueAB ≠ valueAB) ∧
    (∀ f g : Nat → Bytes,
      (∀ i, ∀ c ∈ f i, Json.isSpace c = true) → (∀ i, ∀ c ∈ g i, Json.isSpace c = true) →
      Json.unmarshal (Json.respace f docAB) = .ok valueAB ∧
      Json.unmarshal (Json.respace g docBA) = .ok valueAB ∧
      jsonMatcher (encodingJSON goLib) (Json.respace f docAB) (Json.respace g docBA)
        = jsonMatcher (encodingJSON goLib) docAB docBA) ∧
    (∀ (f : Nat → Bytes) (s : Bytes), (∀ i, ∀ c ∈ f i, Json.isSpace c = true) →
      Json.unmarshal (Json.respace f s) = Json.unmarshal s) ∧
    (∀ (ms ms1 ms2 : List (GoString × Json.Doc)) (v : Json.JValue),
      ms.Perm ms1 →
      List.Forall₂ (fun m n => m.1 = n.1 ∧ Json.decode m.2 = Json.decode n.2) ms1 ms2 →
      (ms.map Prod.fst).Nodup →
      Json.decode (.object ms) = .ok v → Json.decode (.object ms2) = .ok v) ∧
    (∀ xs ys : List Json.Doc,
      List.Forall₂ (fun d e => Json.decode d = Json.decode e) xs ys →
      Json.decode (.array xs) = Json.decode (.array ys)) ∧
    Json.respace (fun _ => " ".data) docBA = " \x7b \"b\" : 2 ,  \"a\" : 1 \x7d ".data ∧
    jsonMatcher goLib docAB docBA = (true, none) ∧
    jsonMatcher goLib (Json.respace (fun _ => " ".data) docAB)
      (Json.respace (fun _ => " ".data) docBA) = (true, none) ∧
    jsonMatcher goLib "-0".data "0".data = (false, none) :=
  jsonMatcher_canonical goLib docAB docBA valueAB valueAB rfl rfl

/-! ## Definition files: the raw message and the elements of an array -/

/-- The parser reads a value from its own tokens alone: whatever follows them, under no
more enclosing arrays and objects, and with fuel for each of the tokens, it builds the same
document and stops at the same place. -/
theorem Json.parse_local : ∀ (fuel : Nat),
    (∀ (depth : Nat) (ts : List Token) (x : Doc) (rest : List Token),
      parseValue fuel depth ts = some (x, rest) →
      ∃ c, ts = c ++ rest ∧
        (∃ t c1, c = t :: c1 ∧ t ≠ .endArray ∧ t ≠ .endObject ∧
          (t = .beginArray ↔ ∃ xs, x = .array xs)) ∧
        ∀ (rest1 : List Token) (depth1 fuel1 : Nat), depth1 ≤ depth → c.length ≤ fuel1 →
          parseValue fuel1 depth1 (c ++ rest1) = some (x, rest1)) ∧
    (∀ (depth : Nat) (ts : List Token) (xs : List Doc) (rest : List Token),
      parseElements fuel depth ts = some (xs, rest) →
      ∃ c, ts = c ++ rest ∧ (∃ t c1, c = t :: c1 ∧ t ≠ .endArray) ∧
        ∀ (rest1 : List Token) (depth1 fuel1 : Nat), depth1 ≤ depth → c.length ≤ fuel1 →
          parseElements fuel1 depth1 (c ++ rest1) = some (xs, rest1)) ∧
    (∀ (depth : Nat) (ts : List Token) (ms : List (GoString × Doc)) (rest : List Token),
      parseMembers fuel depth ts = some (ms, rest) →
      ∃ c, ts = c ++ rest ∧ (∃ t c1, c = t :: c1 ∧ t ≠ .endObject) ∧
        ∀ (rest1 : List Token) (depth1 fuel1 : Nat), depth1 ≤ depth → c.length ≤ fuel1 →
          parseMembers fuel1 depth1 (c ++ rest1) = some (ms, rest1)) := by
  intro fuel
  induction fuel with
  | zero =>
    refine ⟨?_, ?_, ?_⟩
    · intro depth ts doc rest h
      simp [parseValue] at h
    · intro depth ts xs rest h
      simp [parseElements] at h
    · intro depth ts ms rest h
      simp [parseMembers] at h
  | succ fuel ih =>
    obtain ⟨ihv, ihe, ihm⟩ := ih
    have single : ∀ (t : Token) (x : Doc) (ts rest : List Token) (x0 : Doc),
        t ≠ .endArray → t ≠ .endObject → t ≠ .beginArray → (∀ xs, x ≠ .array xs) →
        (∀ f d r, parseValue (f + 1) d (t :: r) = some (x, r)) →
        x = x0 → ts = rest →
        ∃ c, t :: ts = c ++ rest ∧
          (∃ t0 c1, c = t0 :: c1 ∧ t0 ≠ .endArray ∧ t0 ≠ .endObject ∧
            (t0 = .beginArray ↔ ∃ xs, x0 = .array xs)) ∧
          ∀ (rest1 : List Token) (depth1 fuel1 : Nat), depth1 ≤ 0 + depth1 → c.length ≤ fuel1 →
            parseValue fuel1 depth1 (c ++ rest1) = some (x0, rest1) := by
      intro t x ts rest x0 h1 h2 h3 h4 hp hx hts
      subst hx hts
      refine ⟨[t], rfl, ⟨t, [], rfl, h1, h2, ?_⟩, ?_⟩
      · constructor
        · intro h; exact absurd h h3
        · rintro ⟨xs, h⟩; exact absurd h (h4 xs)
      · intro rest1 depth1 fuel1 _ hf
        simp only [List.length_cons, List.length_nil] at hf
        obtain ⟨f, rfl⟩ : ∃ f, fuel1 = f + 1 := ⟨fuel1 - 1, by omega⟩
        exact hp f depth1 rest1
    refine ⟨?_, ?_, ?_⟩
    · intro depth ts doc rest h
      cases ts with
      | nil => simp [parseValue] at h
      | cons t ts =>
        cases t with
        | litNull =>
          simp only [parseValue, Option.some.injEq, Prod.mk.injEq] at h
          obtain ⟨c, h1, h2, h3⟩ := single .litNull .null ts rest doc (by simp) (by simp)
            (by simp) (by simp) (fun f d r => by simp [parseValue]) h.1 h.2
          exact ⟨c, h1, h2, fun r d f _ hf => h3 r d f (by omega) hf⟩
        | litTrue =>
          simp only [parseValue, Option.some.injEq, Prod.mk.injEq] at h
          obtain ⟨c, h1, h2, h3⟩ := single .litTrue (.bool true) ts rest doc (by simp) (by simp)
            (by simp) (by simp) (fun f d r => by simp [parseValue]) h.1 h.2
          exact ⟨c, h1, h2, fun r d f _ hf => h3 r d f (by omega) hf⟩
        | litFalse =>
          simp only [parseValue, Option.some.injEq, Prod.mk.injEq] at h
          obtain ⟨c, h1, h2, h3⟩ := single .litFalse (.bool false) ts rest doc (by simp) (by simp)
            (by simp) (by simp) (fun f d r => by simp [parseValue]) h.1 h.2
          exact ⟨c, h1, h2, fun r d f _ hf => h3 r d f (by omega) hf⟩
        | number n =>
          simp only [parseValue, Option.some.injEq, Prod.mk.injEq] at h
          obtain ⟨c, h1, h2, h3⟩ := single (.number n) (.number n) ts rest doc (by simp) (by simp)
            (by simp) (by simp) (fun f d r => by simp [parseValue]) h.1 h.2
          exact ⟨c, h1, h2, fun r d f _ hf => h3 r d f (by omega) hf⟩
        | string s =>
          simp only [parseValue, Option.some.injEq, Prod.mk.injEq] at h
          obtain ⟨c, h1, h2, h3⟩ := single (.string s) (.string s) ts rest doc (by simp) (by simp)
            (by simp) (by simp) (fun f d r => by simp [parseValue]) h.1 h.2
          exact ⟨c, h1, h2, fun r d f _ hf => h3 r d f (by omega) hf⟩
        | beginArray =>
          simp only [parseValue] at h
          split_ifs at h with hlim
          split at h
          · rename_i rest1
            simp only [Option.some.injEq, Prod.mk.injEq] at h
            obtain ⟨rfl, rfl⟩ := h
            refine ⟨[.beginArray, .endArray], rfl,
              ⟨.beginArray, [.endArray], rfl, by simp, by simp, by simp⟩, ?_⟩
            intro r d1 f1 hd hf
            simp only [List.length_cons, List.length_nil] at hf
            obtain ⟨f, rfl⟩ : ∃ f, f1 = f + 1 := ⟨f1 - 1, by omega⟩
            have hlim1 : ¬ d1 + 1 > maxNestingDepth := by omega
            simp [parseValue, hlim1]
          · cases he : parseElements fuel (depth + 1) ts with
            | none => simp [he] at h
            | some r =>
              obtain ⟨xs, rest1⟩ := r
              simp only [he, Option.some.injEq, Prod.mk.injEq] at h
              obtain ⟨rfl, rfl⟩ := h
              obtain ⟨c, hc1, ⟨t0, c1, hc2, hc3⟩, hc4⟩ := ihe (depth + 1) ts xs rest1 he
              refine ⟨.beginArray :: c, by rw [hc1]; rfl,
                ⟨.beginArray, c, rfl, by simp, by simp, by simp⟩, ?_⟩
              intro r d1 f1 hd hf
              simp only [List.length_cons] at hf
              obtain ⟨f, rfl⟩ : ∃ f, f1 = f + 1 := ⟨f1 - 1, by omega⟩
              have := hc4 r (d1 + 1) f (by omega) (by omega)
              subst hc2
              rw [List.cons_append, List.cons_append,
                parseValue_array f d1 t0 (c1 ++ r) hc3 (by omega)]
              rw [List.cons_append] at this
              simp only [this]
        | beginObject =>
          simp only [parseValue] at h
          split_ifs at h with hlim
          split at h
          · rename_i rest1
            simp only [Option.some.injEq, Prod.mk.injEq] at h
            obtain ⟨rfl, rfl⟩ := h
            refine ⟨[.beginObject, .endObject], rfl,
              ⟨.beginObject, [.endObject], rfl, by simp, by simp, by simp⟩, ?_⟩
            intro r d1 f1 hd hf
            simp only [List.length_cons, List.length_nil] at hf
            obtain ⟨f, rfl⟩ : ∃ f, f1 = f + 1 := ⟨f1 - 1, by omega⟩
            have hlim1 : ¬ d1 + 1 > maxNestingDepth := by omega
            simp [parseValue, hlim1]
          · cases he : parseMembers fuel (depth + 1) ts with
            | none => simp [he] at h
            | some r =>
              obtain ⟨ms, rest1⟩ := r
              simp only [he, Option.some.injEq, Prod.mk.injEq] at h
              obtain ⟨rfl, rfl⟩ := h
              obtain ⟨c, hc1, ⟨t0, c1, hc2, hc3⟩, hc4⟩ := ihm (depth + 1) ts ms rest1 he
              refine ⟨.beginObject :: c, by rw [hc1]; rfl,
                ⟨.beginObject, c, rfl, by simp, by simp, by simp⟩, ?_⟩
              intro r d1 f1 hd hf
              simp only [List.length_cons] at hf
              obtain ⟨f, rfl⟩ : ∃ f, f1 = f + 1 := ⟨f1 - 1, by omega⟩
              have := hc4 r (d1 + 1) f (by omega) (by omega)
              subst hc2
              rw [List.cons_append, List.cons_append,
                parseValue_object f d1 t0 (c1 ++ r) hc3 (by omega)]
              rw [List.cons_append] at this
              simp only [this]
        | endArray => simp [parseValue] at h
        | endObject => simp [parseValue] at h
        | colon => simp [parseValue] at h
        | comma => simp [parseValue] at h
    · intro depth ts xs rest h
      simp only [parseElements] at h
      cases hv : parseValue fuel depth ts with
      | none => simp [hv] at h
      | some r =>
        obtain ⟨x, rest0⟩ := r
        obtain ⟨c, hc1, ⟨t0, c1, hc2, hc3, _, _⟩, hc4⟩ := ihv depth ts x rest0 hv
        simp only [hv] at h
        split at h
        · rename_i rest1
          simp only [Option.some.injEq, Prod.mk.injEq] at h
          obtain ⟨rfl, rfl⟩ := h
          refine ⟨c ++ [.endArray], by rw [hc1]; simp, ⟨t0, c1 ++ [.endArray], by rw [hc2]; rfl, hc3⟩,
            ?_⟩
          intro r d1 f1 hd hf
          simp only [List.length_append, List.length_cons, List.length_nil] at hf
          obtain ⟨f, rfl⟩ : ∃ f, f1 = f + 1 := ⟨f1 - 1, by omega⟩
          have := hc4 (.endArray :: r) d1 f hd (by omega)
          rw [List.append_assoc, List.singleton_append]
          simp only [parseElements, this]
        · rename_i rest1
          cases he : parseElements fuel depth rest1 with
          | none => simp [he] at h
          | some r1 =>
            obtain ⟨xs1, rest2⟩ := r1
            simp only [he, Option.some.injEq, Prod.mk.injEq] at h
            obtain ⟨rfl, rfl⟩ := h
            obtain ⟨c2, hd1, _, hd4⟩ := ihe depth rest1 xs1 rest2 he
            refine ⟨c ++ .comma :: c2, by rw [hc1, hd1]; simp,
              ⟨t0, c1 ++ .comma :: c2, by rw [hc2]; rfl, hc3⟩, ?_⟩
            intro r d1 f1 hd hf
            simp only [List.length_append, List.length_cons] at hf
            obtain ⟨f, rfl⟩ : ∃ f, f1 = f + 1 := ⟨f1 - 1, by omega⟩
            have h1 := hc4 (.comma :: (c2 ++ r)) d1 f hd (by omega)
            have h2 := hd4 r d1 f hd (by omega)
            rw [List.append_assoc, List.cons_append]
            simp only [parseElements, h1, h2]
        · simp at h
    · intro depth ts ms rest h
      simp only [parseMembers] at h
      split at h
      · rename_i k rest0
        cases hv : parseValue fuel depth rest0 with
        | none => simp [hv] at h
        | some r =>
          obtain ⟨x, rest1⟩ := r
          obtain ⟨c, hc1, _, hc4⟩ := ihv depth rest0 x rest1 hv
          simp only [hv] at h
          split at h
          · rename_i rest2
            simp only [Option.some.injEq, Prod.mk.injEq] at h
            obtain ⟨rfl, rfl⟩ := h
            refine ⟨.string k :: .colon :: (c ++ [.endObject]), by rw [hc1]; simp,
              ⟨.string k, _, rfl, by simp⟩, ?_⟩
            intro r d1 f1 hd hf
            simp only [List.length_append, List.length_cons, List.length_nil] at hf
            obtain ⟨f, rfl⟩ : ∃ f, f1 = f + 1 := ⟨f1 - 1, by omega⟩
            have := hc4 (.endObject :: r) d1 f hd (by omega)
            simp only [List.cons_append, List.append_assoc, List.singleton_append,
              List.nil_append, parseMembers, this]
          · rename_i rest2
            cases he : parseMembers fuel depth rest2 with
            | none => simp [he] at h
            | some r1 =>
              obtain ⟨ms1, rest3⟩ := r1
              simp only [he, Option.some.injEq, Prod.mk.injEq] at h
              obtain ⟨rfl, rfl⟩ := h
              obtain ⟨c2, hd1, _, hd4⟩ := ihm depth rest2 ms1 rest3 he
              refine ⟨.string k :: .colon :: (c ++ .comma :: c2), by rw [hc1, hd1]; simp,
                ⟨.string k, _, rfl, by simp⟩, ?_⟩
              intro r d1 f1 hd hf
              simp only [List.length_append, List.length_cons] at hf
              obtain ⟨f, rfl⟩ : ∃ f, f1 = f + 1 := ⟨f1 - 1, by omega⟩
              have h1 := hc4 (.comma :: (c2 ++ r)) d1 f hd (by omega)
              have h2 := hd4 r d1 f hd (by omega)
              simp only [List.cons_append, List.append_assoc, parseMembers, h1, h2]
          · simp at h
      · simp at h

theorem Json.nextToken_not_space (c : Char) (rest : List Char) (t : Token) (r : List Char)
    (h : nextToken (c :: rest) = .ok (t, r)) : isSpace c = false := by
  cases hc : isSpace c with
  | false => rfl
  | true =>
    simp only [isSpace, Bool.or_eq_true, beq_iff_eq] at hc
    rcases hc with ((hc | hc) | hc) | hc <;> (subst hc; simp [nextToken, isDigit] at h)

theorem Json.dropWhile_head (s : List Char) (c : Char) (rest : List Char)
    (h : s.dropWhile isSpace = c :: rest) : isSpace c = false := by
  have := List.head?_dropWhile_not isSpace s
  rw [h] at this
  simpa using this

theorem Json.tokenize_dropWhile (s : List Char) :
    tokenize (s.dropWhile isSpace) = tokenize s := by
  induction s with
  | nil => rfl
  | cons c rest ih =>
    by_cases hc : isSpace c = true
    · rw [List.dropWhile_cons_of_pos hc, ih, tokenize_step c rest]
      simp only [hc, if_true]
    · rw [List.dropWhile_cons_of_neg hc]

theorem Json.dropWhile_split (s : List Char) :
    ∃ w, s = w ++ s.dropWhile isSpace ∧ ∀ c ∈ w, isSpace c = true :=
  ⟨s.takeWhile isSpace, (List.takeWhile_append_dropWhile isSpace s).symm,
    fun _ hc => List.mem_takeWhile_imp hc⟩

/-- The first token of an input that is split into tokens, and the tokens after it. -/
theorem Json.tokenize_cons (s : List Char) (t : Token) (ts : List Token)
    (h : tokenize s = .ok (t :: ts)) :
    ∃ r, nextToken (s.dropWhile isSpace) = .ok (t, r) ∧ tokenize r = .ok ts := by
  rw [← tokenize_dropWhile] at h
  cases hs : s.dropWhile isSpace with
  | nil =>
    rw [hs] at h
    simp [tokenize, tokenizeAux] at h
  | cons c rest =>
    rw [hs, tokenize_step] at h
    have hc := dropWhile_head s c rest hs
    simp only [hc, Bool.false_eq_true, if_false] at h
    rcases hn : nextToken (c :: rest) with e | ⟨t1, r⟩
    · simp [hn] at h
    · simp only [hn] at h
      cases hr : tokenize r with
      | error e => simp [hr, prepend] at h
      | ok ts1 =>
        simp only [hr, prepend, List.singleton_append, Except.ok.injEq, List.cons.injEq] at h
        exact ⟨r, by rw [h.1], by rw [hr, h.2]⟩

/-- An input without tokens is white space. -/
theorem Json.tokenize_nil (s : List Char) (h : tokenize s = .ok []) :
    ∀ c ∈ s, isSpace c = true := by
  induction s with
  | nil => intro c hc; cases hc
  | cons c rest ih =>
    rw [tokenize_step] at h
    by_cases hc : isSpace c = true
    · simp only [hc, if_true] at h
      intro x hx
      rcases List.mem_cons.mp hx with rfl | hx
      · exact hc
      · exact ih h x hx
    · simp only [hc, Bool.false_eq_true, if_false] at h
      rcases hn : nextToken (c :: rest) with e | ⟨t1, r⟩
      · simp [hn] at h
      · simp only [hn] at h
        cases hr : tokenize r with
        | error e => simp [hr, prepend] at h
        | ok ts1 => simp [hr, prepend] at h

/-- The input after `k` tokens: the bytes in front of it spell the first `k` tokens and
the bytes from it on the others. -/
theorem Json.dropTokens_spec : ∀ (k : Nat) (s : List Char) (ts : List Token),
    tokenize s = .ok ts → k ≤ ts.length →
    ∃ p r, s = p ++ r ∧ dropTokens k s = some r ∧ tokenize p = .ok (ts.take k) ∧
      tokenize r = .ok (ts.drop k) := by
  intro k
  induction k with
  | zero =>
    intro s ts h _
    exact ⟨[], s, rfl, rfl, rfl, h⟩
  | succ k ih =>
    intro s ts h hk
    cases ts with
    | nil => simp at hk
    | cons t ts1 =>
      simp only [List.length_cons] at hk
      obtain ⟨r0, hn, hr0⟩ := tokenize_cons s t ts1 h
      obtain ⟨w, hw1, hw2⟩ := dropWhile_split s
      obtain ⟨q, hq1, hq2, hq3⟩ := nextToken_rest _ _ _ hn
      obtain ⟨p1, r, hp1, hp2, hp3, hp4⟩ := ih r0 ts1 hr0 (by omega)
      refine ⟨w ++ (q ++ p1), r, ?_, ?_, ?_, ?_⟩
      · rw [List.append_assoc, List.append_assoc, ← hp1, ← hq1, ← hw1]
      · simp only [dropTokens, hn, hp2]
      · rw [tokenize_skip w _ hw2]
        have hX : nextToken (q ++ p1) = .ok (t, p1) := by
          apply hq3
          cases p1 with
          | nil => right; intro c rest hc; cases hc
          | cons x p1 => left; rw [hp1]; rfl
        cases q with
        | nil => exact absurd rfl hq2
        | cons c q1 =>
          rw [List.cons_append] at hX ⊢
          have hc := nextToken_not_space _ _ _ _ hX
          rw [tokenize_step]
          simp only [hc, Bool.false_eq_true, if_false, hX, hp3, prepend, List.singleton_append,
            List.take_succ_cons]
      · simpa using hp4

/-- The value at the head of an input that is split into tokens of which the parser reads
a value: its bytes spell the value, and the rest spells the tokens the parser leaves. -/
theorem Json.splitValue_spec (s : List Char) (ts : List Token) (fuel depth : Nat) (x : Doc)
    (rest : List Token) (ht : tokenize s = .ok ts)
    (hp : parseValue fuel depth ts = some (x, rest)) :
    ∃ e r, splitValue s = some (e, r) ∧ s.dropWhile isSpace = e ++ r ∧ e ≠ [] ∧
      parse e = .ok x ∧ tokenize e = .ok (ts.take (ts.length - rest.length)) ∧
      tokenize r = .ok rest := by
  obtain ⟨c, hc1, ⟨t0, c1, hc2, _⟩, hc3⟩ := (parse_local fuel).1 depth ts x rest hp
  have hlen : ts.length - rest.length = c.length := by
    rw [hc1, List.length_append]
    omega
  have ht1 : tokenize (s.dropWhile isSpace) = .ok ts := by rw [tokenize_dropWhile, ht]
  have hpv : parseValue (ts.length + 1) 0 ts = some (x, rest) := by
    have := hc3 rest 0 (ts.length + 1) (by omega) (by rw [hc1, List.length_append]; omega)
    rw [← hc1] at this
    exact this
  obtain ⟨p, r, hs, hd, htp, htr⟩ := dropTokens_spec c.length _ ts ht1
    (by rw [hc1, List.length_append]; omega)
  have htake : ts.take c.length = c := by rw [hc1, List.take_left]
  have hdrop : ts.drop c.length = rest := by rw [hc1, List.drop_left]
  rw [htake] at htp
  rw [hdrop] at htr
  have hpne : p ≠ [] := by
    intro hp0
    rw [hp0, hc2] at htp
    simp [tokenize, tokenizeAux] at htp
  have hve : valueEnd (s.dropWhile isSpace) = some r := by
    simp only [valueEnd, ht1, hpv, hlen, hd]
  refine ⟨p, r, ?_, hs, hpne, ?_, ?_, htr⟩
  · have htk : (s.dropWhile isSpace).take ((s.dropWhile isSpace).length - r.length) = p := by
      rw [hs, List.length_append, Nat.add_sub_cancel, List.take_left]
    simp only [splitValue, hve, htk]
  · have := hc3 [] 0 (c.length + 1) (by omega) (by omega)
    rw [List.append_nil] at this
    simp only [parse, htp, parseTokens, this]
  · rw [hlen, htake, htp]

/-- The brackets and the comma are the tokens of one byte that they are read from. -/
theorem Json.nextToken_punct (c : Char) (rest : List Char) (t : Token) (r : List Char)
    (h : nextToken (c :: rest) = .ok (t, r)) :
    (c = '[' ↔ t = .beginArray) ∧ (c = ']' ↔ t = .endArray) ∧ (c = ',' ↔ t = .comma) ∧
      ((c = '[' ∨ c = ']' ∨ c = ',') → r = rest) := by
  unfold nextToken at h
  by_cases h1 : c = '{'
  · subst h1
    simp only [if_true, Except.ok.injEq, Prod.mk.injEq] at h
    obtain ⟨rfl, rfl⟩ := h
    simp
  by_cases h2 : c = '}'
  · subst h2
    simp only [if_true, Except.ok.injEq, Prod.mk.injEq] at h
    simp only [h1, if_false] at h
    obtain ⟨rfl, rfl⟩ := h
    simp
  by_cases h3 : c = '['
  · subst h3
    simp only [h1, h2, if_false, if_true, Except.ok.injEq, Prod.mk.injEq] at h
    obtain ⟨rfl, rfl⟩ := h
    simp
  by_cases h4 : c = ']'
  · subst h4
    simp only [h1, h2, h3, if_false, if_true, Except.ok.injEq, Prod.mk.injEq] at h
    obtain ⟨rfl, rfl⟩ := h
    simp
  by_cases h5 : c = ':'
  · subst h5
    simp only [h1, h2, h3, h4, if_false, if_true, Except.ok.injEq, Prod.mk.injEq] at h
    obtain ⟨rfl, rfl⟩ := h
    simp
  by_cases h6 : c = ','
  · subst h6
    simp only [h1, h2, h3, h4, h5, if_false, if_true, Except.ok.injEq, Prod.mk.injEq] at h
    obtain ⟨rfl, rfl⟩ := h
    simp
  simp only [h1, h2, h3, h4, h5, h6, if_false] at h
  by_cases h7 : c = '"'
  · simp only [h7, if_true] at h
    rcases hs : scanString (rest.length + 1) rest with _ | ⟨v, r1⟩
    · simp [hs] at h
    · simp only [hs, Except.ok.injEq, Prod.mk.injEq] at h
      obtain ⟨rfl, rfl⟩ := h
      simp [h3, h4, h6]
  simp only [h7, if_false] at h
  by_cases h8 : c = '-' ∨ isDigit c = true
  · simp only [h8, if_true] at h
    rcases hs : scanNumber (c :: rest) with _ | ⟨n, r1⟩
    · simp [hs] at h
    · simp only [hs, Except.ok.injEq, Prod.mk.injEq] at h
      obtain ⟨rfl, rfl⟩ := h
      simp [h3, h4, h6]
  simp only [h8, if_false] at h
  by_cases h9 : c :: rest.take 3 = "true".data
  · simp only [h9, if_true, Except.ok.injEq, Prod.mk.injEq] at h
    obtain ⟨rfl, rfl⟩ := h
    simp [h3, h4, h6]
  simp only [h9, if_false] at h
  by_cases h10 : c :: rest.take 4 = "false".data
  · simp only [h10, if_true, Except.ok.injEq, Prod.mk.injEq] at h
    obtain ⟨rfl, rfl⟩ := h
    simp [h3, h4, h6]
  simp only [h10, if_false] at h
  by_cases h11 : c :: rest.take 3 = "null".data
  · simp only [h11, if_true, Except.ok.injEq, Prod.mk.injEq] at h
    obtain ⟨rfl, rfl⟩ := h
    simp [h3, h4, h6]
  simp [h11] at h

/-- The first byte that is not white space of an input split into tokens, against its
first token. -/
theorem Json.tokenize_head (s : List Char) (t : Token) (ts : List Token)
    (h : tokenize s = .ok (t :: ts)) :
    ∃ c rest r, s.dropWhile isSpace = c :: rest ∧ tokenize r = .ok ts ∧
      (c = '[' ↔ t = .beginArray) ∧ (c = ']' ↔ t = .endArray) ∧ (c = ',' ↔ t = .comma) ∧
      ((c = '[' ∨ c = ']' ∨ c = ',') → r = rest) := by
  obtain ⟨r, hn, hr⟩ := tokenize_cons s t ts h
  cases hs : s.dropWhile isSpace with
  | nil =>
    rw [hs] at hn
    simp [nextToken] at hn
  | cons c rest =>
    rw [hs] at hn
    exact ⟨c, rest, r, rfl, hr, nextToken_punct c rest t r hn⟩

/-- The bytes of the elements of an array: as many as the parser reads elements, each
spelling the element at its place. -/
theorem Json.elementsAux_spec : ∀ (pfuel depth : Nat) (s : List Char) (ts : List Token)
    (xs : List Doc) (rest : List Token) (fuel : Nat),
    tokenize s = .ok ts → parseElements pfuel depth ts = some (xs, rest) → s.length < fuel →
    ∃ es, elementsAux fuel s = some es ∧ List.Forall₂ (fun e x => parse e = .ok x) es xs := by
  intro pfuel
  induction pfuel with
  | zero =>
    intro depth s ts xs rest fuel _ hp
    simp [parseElements] at hp
  | succ pfuel ih =>
    intro depth s ts xs rest fuel ht hp hf
    obtain ⟨fuel, rfl⟩ : ∃ f, fuel = f + 1 := ⟨fuel - 1, by omega⟩
    simp only [parseElements] at hp
    cases hv : parseValue pfuel depth ts with
    | none => simp [hv] at hp
    | some res =>
      obtain ⟨x, rest0⟩ := res
      simp only [hv] at hp
      obtain ⟨e, r, he1, he2, he3, he4, -, he6⟩ := splitValue_spec s ts pfuel depth x rest0 ht hv
      have hlen : r.length < s.length := by
        obtain ⟨w, hw, _⟩ := dropWhile_split s
        have h1 : s.length = w.length + (e.length + r.length) := by
          rw [hw, List.length_append, he2, List.length_append]
        have h2 : 0 < e.length := List.length_pos.mpr he3
        omega
      split at hp
      · rename_i rest1
        simp only [Option.some.injEq, Prod.mk.injEq] at hp
        obtain ⟨rfl, rfl⟩ := hp
        obtain ⟨c, r1, r2, hd, _, _, hc, _, _⟩ := tokenize_head r _ _ he6
        have hc1 : c = ']' := hc.mpr rfl
        refine ⟨[e], ?_, List.Forall₂.cons he4 List.Forall₂.nil⟩
        simp only [elementsAux, he1, hd, hc1, if_true]
      · rename_i rest1
        cases hre : parseElements pfuel depth rest1 with
        | none => simp [hre] at hp
        | some res1 =>
          obtain ⟨xs1, rest2⟩ := res1
          simp only [hre, Option.some.injEq, Prod.mk.injEq] at hp
          obtain ⟨rfl, rfl⟩ := hp
          obtain ⟨c, r1, r2, hd, hr2, _, _, hc, hrest⟩ := tokenize_head r _ _ he6
          have hc1 : c = ',' := hc.mpr rfl
          have hr : r2 = r1 := hrest (Or.inr (Or.inr hc1))
          subst hr
          have hl2 : r2.length < fuel := by
            obtain ⟨w, hw, _⟩ := dropWhile_split r
            have : r.length = w.length + (r2.length + 1) := by
              rw [hw, List.length_append, hd, List.length_cons]
            omega
          obtain ⟨es, hes1, hes2⟩ := ih depth r2 rest1 xs1 rest2 fuel hr2 hre hl2
          refine ⟨e :: es, ?_, List.Forall₂.cons he4 hes2⟩
          subst hc1
          simp only [elementsAux, he1, hd, hes1]
          simp
      · simp at hp

/-- The tokens of a document that the parser accepts, and the value it reads from them. -/
theorem Json.parse_ok (s : Bytes) (d : Doc) (h : parse s = .ok d) :
    ∃ ts, tokenize s = .ok ts ∧ parseValue (ts.length + 1) 0 ts = some (d, []) := by
  unfold parse at h
  cases ht : tokenize s with
  | error e => simp [ht] at h
  | ok ts =>
    simp only [ht, parseTokens] at h
    refine ⟨ts, rfl, ?_⟩
    cases hp : parseValue (ts.length + 1) 0 ts with
    | none => simp [hp] at h
    | some res =>
      obtain ⟨x, rest⟩ := res
      cases rest with
      | nil =>
        simp only [hp, Except.ok.injEq] at h
        rw [h]
      | cons t rest => simp [hp] at h

/-- The elements of an array document: `Json.elements` returns the bytes of each, in the
order written, and they spell the elements of the array the document is parsed to. -/
theorem Json.elements_spec (msg : Bytes) (ds : List Doc) (h : parse msg = .ok (.array ds)) :
    ∃ es, elements msg = some es ∧ List.Forall₂ (fun e d => parse e = .ok d) es ds := by
  obtain ⟨ts, ht, hp⟩ := parse_ok msg _ h
  obtain ⟨c, hc1, ⟨t0, c1, hc2, _, _, hc3⟩, _⟩ := (parse_local _).1 0 ts _ [] hp
  have ht0 : t0 = .beginArray := hc3.mpr ⟨ds, rfl⟩
  subst ht0
  rw [List.append_nil] at hc1
  rw [hc1, hc2] at ht hp
  obtain ⟨ch, rest, r, hd, hr, hch, _, _, hrest⟩ := tokenize_head msg _ _ ht
  have hch1 : ch = '[' := hch.mpr rfl
  have hrr : r = rest := hrest (Or.inl hch1)
  subst hrr hch1
  simp only [List.length_cons, parseValue] at hp
  split_ifs at hp with hlim
  split at hp
  · rename_i rest1
    simp only [Option.some.injEq, Prod.mk.injEq, Doc.array.injEq] at hp
    obtain ⟨hds, _⟩ := hp
    subst hds
    obtain ⟨dch, r1, r2, hd2, _, _, hdc, _, _⟩ := tokenize_head r _ _ hr
    have : dch = ']' := hdc.mpr rfl
    subst this
    refine ⟨[], ?_, List.Forall₂.nil⟩
    simp only [elements, hd, hd2, if_true]
  · rename_i hne
    cases hre : parseElements (c1.length + 1) (0 + 1) c1 with
    | none => simp [hre] at hp
    | some res =>
      obtain ⟨xs, rest2⟩ := res
      simp only [hre, Option.some.injEq, Prod.mk.injEq, Doc.array.injEq] at hp
      obtain ⟨rfl, rfl⟩ := hp
      obtain ⟨es, hes1, hes2⟩ := elementsAux_spec _ _ r c1 xs [] (r.length + 1) hr hre (by omega)
      refine ⟨es, ?_, hes2⟩
      cases c1 with
      | nil => simp [parseElements, parseValue] at hre
      | cons t1 c2 =>
        obtain ⟨dch, r1, r2, hd2, _, _, hdc, _, _⟩ := tokenize_head r _ _ hr
        have hne1 : dch ≠ ']' := by
          intro hx
          have := hdc.mp hx
          subst this
          exact hne c2 rfl
        simp only [elements, hd, hd2, if_true, hne1, if_false, hes1]

/-- The raw message of a document that the parser accepts: the document without the white
space at its two ends; it spells the same value, and it starts with `[` exactly when the
value is an array. -/
theorem Json.unmarshalRaw_spec (js : Bytes) (d : Doc) (h : parse js = .ok d) :
    ∃ c rest w1 w2, unmarshalRaw js = .ok (c :: rest) ∧ js = w1 ++ (c :: rest) ++ w2 ∧
      (∀ x ∈ w1, isSpace x = true) ∧ (∀ x ∈ w2, isSpace x = true) ∧
      parse (c :: rest) = .ok d ∧ (c = '[' ↔ ∃ ds, d = .array ds) := by
  obtain ⟨ts, ht, hp⟩ := parse_ok js _ h
  obtain ⟨c, hc1, ⟨t0, c1, hc2, _, _, hc3⟩, _⟩ := (parse_local _).1 0 ts _ [] hp
  rw [List.append_nil] at hc1
  obtain ⟨e, r, he1, he2, he3, he4, _, he6⟩ := splitValue_spec js ts _ 0 d [] ht hp
  obtain ⟨w, hw1, hw2⟩ := dropWhile_split js
  rw [hc1, hc2] at ht
  obtain ⟨ch, rest, r0, hd, _, hch, _⟩ := tokenize_head js _ _ ht
  cases e with
  | nil => exact absurd rfl he3
  | cons x e1 =>
    have hx : x = ch := by
      rw [he2] at hd
      simp only [List.cons_append, List.cons.injEq] at hd
      exact hd.1
    subst hx
    refine ⟨x, e1, w, r, ?_, ?_, hw2, tokenize_nil r he6, he4, ?_⟩
    · simp only [unmarshalRaw, h, he1]
    · rw [List.append_assoc, ← he2, ← hw1]
    · rw [hch, hc3]

/-- The braces and the colon are the tokens of one byte that they are read from, and a
string token stands for a key. -/
theorem Json.nextToken_brace (c : Char) (rest : List Char) (t : Token) (r : List Char)
    (h : nextToken (c :: rest) = .ok (t, r)) :
    (c = '{' ↔ t = .beginObject) ∧ (c = '}' ↔ t = .endObject) ∧ (c = ':' ↔ t = .colon) ∧
      ((c = '{' ∨ c = '}' ∨ c = ':') → r = rest) := by
  unfold nextToken at h
  by_cases h1 : c = '{'
  · subst h1
    simp only [if_true, Except.ok.injEq, Prod.mk.injEq] at h
    obtain ⟨rfl, rfl⟩ := h
    simp
  by_cases h2 : c = '}'
  · subst h2
    simp only [if_true, Except.ok.injEq, Prod.mk.injEq] at h
    simp only [h1, if_false] at h
    obtain ⟨rfl, rfl⟩ := h
    simp
  by_cases h3 : c = '['
  · subst h3
    simp only [h1, h2, if_false, if_true, Except.ok.injEq, Prod.mk.injEq] at h
    obtain ⟨rfl, rfl⟩ := h
    simp
  by_cases h4 : c = ']'
  · subst h4
    simp only [h1, h2, h3, if_false, if_true, Except.ok.injEq, Prod.mk.injEq] at h
    obtain ⟨rfl, rfl⟩ := h
    simp
  by_cases h5 : c = ':'
  · subst h5
    simp only [h1, h2, h3, h4, if_false, if_true, Except.ok.injEq, Prod.mk.injEq] at h
    obtain ⟨rfl, rfl⟩ := h
    simp
  by_cases h6 : c = ','
  · subst h6
    simp only [h1, h2, h3, h4, h5, if_false, if_true, Except.ok.injEq, Prod.mk.injEq] at h
    obtain ⟨rfl, rfl⟩ := h
    simp
  simp only [h1, h2, h3, h4, h5, h6, if_false] at h
  by_cases h7 : c = '"'
  · simp only [h7, if_true] at h
    rcases hs : scanString (rest.length + 1) rest with _ | ⟨v, r1⟩
    · simp [hs] at h
    · simp only [hs, Except.ok.injEq, Prod.mk.injEq] at h
      obtain ⟨rfl, rfl⟩ := h
      simp [h1, h2, h5]
  simp only [h7, if_false] at h
  by_cases h8 : c = '-' ∨ isDigit c = true
  · simp only [h8, if_true] at h
    rcases hs : scanNumber (c :: rest) with _ | ⟨n, r1⟩
    · simp [hs] at h
    · simp only [hs, Except.ok.injEq, Prod.mk.injEq] at h
      obtain ⟨rfl, rfl⟩ := h
      simp [h1, h2, h5]
  simp only [h8, if_false] at h
  by_cases h9 : c :: rest.take 3 = "true".data
  · simp only [h9, if_true, Except.ok.injEq, Prod.mk.injEq] at h
    obtain ⟨rfl, rfl⟩ := h
    simp [h1, h2, h5]
  simp only [h9, if_false] at h
  by_cases h10 : c :: rest.take 4 = "false".data
  · simp only [h10, if_true, Except.ok.injEq, Prod.mk.injEq] at h
    obtain ⟨rfl, rfl⟩ := h
    simp [h1, h2, h5]
  simp only [h10, if_false] at h
  by_cases h11 : c :: rest.take 3 = "null".data
  · simp only [h11, if_true, Except.ok.injEq, Prod.mk.injEq] at h
    obtain ⟨rfl, rfl⟩ := h
    simp [h1, h2, h5]
  simp [h11] at h

/-- The first byte that is not white space of an input split into tokens, against its
first token, for the braces and the colon. -/
theorem Json.tokenize_head_brace (s : List Char) (t : Token) (ts : List Token)
    (h : tokenize s = .ok (t :: ts)) :
    ∃ c rest r, s.dropWhile isSpace = c :: rest ∧ tokenize r = .ok ts ∧
      (c = '{' ↔ t = .beginObject) ∧ (c = '}' ↔ t = .endObject) ∧ (c = ':' ↔ t = .colon) ∧
      ((c = '{' ∨ c = '}' ∨ c = ':') → r = rest) := by
  obtain ⟨r, hn, hr⟩ := tokenize_cons s t ts h
  cases hs : s.dropWhile isSpace with
  | nil =>
    rw [hs] at hn
    simp [nextToken] at hn
  | cons c rest =>
    rw [hs] at hn
    exact ⟨c, rest, r, rfl, hr, nextToken_brace c rest t r hn⟩

/-- The members of an object: as many as the parser reads members, each with the key and
with bytes that spell the value of the member at its place. -/
theorem Json.membersAux_spec : ∀ (pfuel depth : Nat) (s : List Char) (ts : List Token)
    (ms : List (GoString × Doc)) (rest : List Token) (fuel : Nat),
    tokenize s = .ok ts → parseMembers pfuel depth ts = some (ms, rest) → s.length < fuel →
    ∃ kvs, membersAux fuel s = some kvs ∧
      List.Forall₂ (fun kv m => kv.1 = m.1 ∧ parse kv.2 = .ok m.2) kvs ms := by
  intro pfuel
  induction pfuel with
  | zero =>
    intro depth s ts ms rest fuel _ hp
    simp [parseMembers] at hp
  | succ pfuel ih =>
    intro depth s ts ms rest fuel ht hp hf
    obtain ⟨fuel, rfl⟩ : ∃ f, fuel = f + 1 := ⟨fuel - 1, by omega⟩
    simp only [parseMembers] at hp
    split at hp
    · rename_i k rest0
      obtain ⟨r, hn, hr⟩ := tokenize_cons s _ _ ht
      have hlr : r.length < s.length := by
        obtain ⟨w, hw, _⟩ := dropWhile_split s
        have h1 := nextToken_length _ _ _ hn
        have h2 : s.length = w.length + (s.dropWhile isSpace).length := by
          conv_lhs => rw [hw]
          rw [List.length_append]
        omega
      obtain ⟨c, r1, r2, hd, hr2, _, _, hc, hrest⟩ := tokenize_head_brace r _ _ hr
      have hc1 : c = ':' := hc.mpr rfl
      have hrr : r2 = r1 := hrest (Or.inr (Or.inr hc1))
      subst hrr hc1
      have hl2 : r2.length < r.length := by
        obtain ⟨w, hw, _⟩ := dropWhile_split r
        have : r.length = w.length + (r2.length + 1) := by
          conv_lhs => rw [hw]
          rw [List.length_append, hd, List.length_cons]
        omega
      cases hv : parseValue pfuel depth rest0 with
      | none => simp [hv] at hp
      | some res =>
        obtain ⟨x, rest1⟩ := res
        simp only [hv] at hp
        obtain ⟨e, r3, he1, he2, he3, he4, -, he6⟩ :=
          splitValue_spec r2 rest0 pfuel depth x rest1 hr2 hv
        have hl3 : r3.length < r2.length := by
          obtain ⟨w, hw, _⟩ := dropWhile_split r2
          have h1 : r2.length = w.length + (e.length + r3.length) := by
            conv_lhs => rw [hw]
            rw [List.length_append, he2, List.length_append]
          have h2 : 0 < e.length := List.length_pos.mpr he3
          omega
        split at hp
        · rename_i rest2
          simp only [Option.some.injEq, Prod.mk.injEq] at hp
          obtain ⟨rfl, rfl⟩ := hp
          obtain ⟨d, r4, r5, hd4, _, _, hdc, _, _⟩ := tokenize_head_brace r3 _ _ he6
          have hd1 : d = '}' := hdc.mpr rfl
          subst hd1
          refine ⟨[(k, e)], ?_, List.Forall₂.cons ⟨rfl, he4⟩ List.Forall₂.nil⟩
          simp only [membersAux, hn, hd, if_true, he1, hd4]
        · rename_i rest2
          cases hre : parseMembers pfuel depth rest2 with
          | none => simp [hre] at hp
          | some res1 =>
            obtain ⟨ms1, rest3⟩ := res1
            simp only [hre, Option.some.injEq, Prod.mk.injEq] at hp
            obtain ⟨rfl, rfl⟩ := hp
            obtain ⟨d, r4, r5, hd4, hr5, _, _, hdc, hrest5⟩ := tokenize_head r3 _ _ he6
            have hd1 : d = ',' := hdc.mpr rfl
            have hrr : r5 = r4 := hrest5 (Or.inr (Or.inr hd1))
            subst hrr hd1
            have hl5 : r5.length < fuel := by
              obtain ⟨w, hw, _⟩ := dropWhile_split r3
              have : r3.length = w.length + (r5.length + 1) := by
                conv_lhs => rw [hw]
                rw [List.length_append, hd4, List.length_cons]
              omega
            obtain ⟨kvs, hk1, hk2⟩ := ih depth r5 rest2 ms1 rest3 fuel hr5 hre hl5
            refine ⟨(k, e) :: kvs, ?_, List.Forall₂.cons ⟨rfl, he4⟩ hk2⟩
            simp only [membersAux, hn, hd, if_true, he1, hd4, hk1]
            simp
        · simp at hp
    · simp at hp

/-- The members of an object document: `Json.members` returns the key and the bytes of
each, in the order written, and the bytes spell the values of the members of the object
the document is parsed to. -/
theorem Json.members_spec (msg : Bytes) (ms : List (GoString × Doc))
    (h : parse msg = .ok (.object ms)) :
    ∃ kvs, members msg = some kvs ∧
      List.Forall₂ (fun kv m => kv.1 = m.1 ∧ parse kv.2 = .ok m.2) kvs ms := by
  obtain ⟨ts, ht, hp⟩ := parse_ok msg _ h
  cases ts with
  | nil => simp [parseValue] at hp
  | cons t0 c1 =>
    have ht0 : t0 = .beginObject := by
      cases t0 with
      | beginObject => rfl
      | beginArray =>
        exfalso
        simp only [List.length_cons, parseValue] at hp
        split_ifs at hp
        split at hp
        · simp at hp
        · cases hre : parseElements (c1.length + 1) (0 + 1) c1 with
          | none => simp [hre] at hp
          | some res => simp [hre] at hp
      | _ => simp [parseValue] at hp
    subst ht0
    obtain ⟨ch, rest, r, hd, hr, hch, _, _, hrest⟩ := tokenize_head_brace msg _ _ ht
    have hch1 : ch = '{' := hch.mpr rfl
    have hrr : r = rest := hrest (Or.inl hch1)
    subst hrr hch1
    simp only [List.length_cons, parseValue] at hp
    split_ifs at hp with hlim
    split at hp
    · rename_i rest1
      simp only [Option.some.injEq, Prod.mk.injEq, Doc.object.injEq] at hp
      obtain ⟨hms, _⟩ := hp
      subst hms
      obtain ⟨dch, r1, r2, hd2, _, _, hdc, _, _⟩ := tokenize_head_brace r _ _ hr
      have : dch = '}' := hdc.mpr rfl
      subst this
      refine ⟨[], ?_, List.Forall₂.nil⟩
      simp only [members, hd, hd2, if_true]
    · rename_i hne
      cases hre : parseMembers (c1.length + 1) (0 + 1) c1 with
      | none => simp [hre] at hp
      | some res =>
        obtain ⟨xs, rest2⟩ := res
        simp only [hre, Option.some.injEq, Prod.mk.injEq, Doc.object.injEq] at hp
        obtain ⟨rfl, rfl⟩ := hp
        obtain ⟨kvs, hk1, hk2⟩ :=
          membersAux_spec _ _ r c1 xs [] (r.length + 1) hr hre (by omega)
        refine ⟨kvs, ?_, hk2⟩
        cases c1 with
        | nil => simp [parseMembers] at hre
        | cons t1 c2 =>
          obtain ⟨dch, r1, r2, hd2, _, _, hdc, _, _⟩ := tokenize_head_brace r _ _ hr
          have hne1 : dch ≠ '}' := by
            intro hx
            have := hdc.mp hx
            subst this
            exact hne c2 rfl
          simp only [members, hd, hd2, if_true, hne1, if_false, hk1]

theorem Json.firstError_none (l : List (Option LibError)) (h : ∀ x ∈ l, x = none) :
    firstError l = none := by
  induction l with
  | nil => rfl
  | cons x l ih =>
    have hx : x = none := h x (List.mem_cons_self _ _)
    subst hx
    exact ih (fun y hy => h y (List.mem_cons_of_mem _ hy))

/-- What `loadMock` does with the raw message of a file that is read. -/
theorem loadMock_decoding (base : Lib) (mockJson : GoString) (js : Bytes) (c : Char)
    (rest : List Char) (hread : base.readFile mockJson = .ok js)
    (hraw : Json.unmarshalRaw js = .ok (c :: rest)) :
    loadMock (decodingMocks base) mockJson
      = if c = '[' then
          some ((Json.unmarshalSlice base.jsonUnmarshalMock (c :: rest)).1,
            (Json.unmarshalSlice base.jsonUnmarshalMock (c :: rest)).2.map .external)
        else
          match base.jsonUnmarshalMock (c :: rest) with
          | (_, some err) => some ([], some (.external err))
          | (m, none) => some ([m], none) := by
  have h1 : (decodingMocks base).readFile mockJson = .ok js := hread
  have h2 : (decodingMocks base).jsonUnmarshalRaw js = .ok (c :: rest) := hraw
  have h3 : (decodingMocks base).jsonUnmarshalMocks
      = Json.unmarshalSlice base.jsonUnmarshalMock := rfl
  have h4 : (decodingMocks base).jsonUnmarshalMock = base.jsonUnmarshalMock := rfl
  unfold loadMock
  rw [h1]
  simp only
  rw [h2]
  simp only [h3, h4]
  by_cases hc : c = '['
  · simp only [hc, if_true]
    rcases Json.unmarshalSlice base.jsonUnmarshalMock ('[' :: rest) with ⟨mocks, _ | e⟩ <;> rfl
  · simp only [hc, if_false]
    rcases base.jsonUnmarshalMock (c :: rest) with ⟨m, _ | e⟩ <;> rfl

/-- C8: definition loading normalises single-object and array documents. For a file
that is read, with the model of the decoder for the raw message and for the slice, and any
decoding `json.Unmarshal(e, &m)` of one mock. When the document parses to an array of `n`
elements, the loader returns `n` mocks in document order: the raw message stored is the
document without the white space at its ends, `Json.elements` cuts it into the bytes of its `n`
elements, each of which parses to the element at its place, and mock `i` is what element
`i` decodes to; the error is the first error of an element, none when every element
decodes. When the document parses to another value, the loader decodes the raw message
as one mock and returns the one-element sequence of it, or the error of the decoding and
no mock. When the document does not parse, the loader returns the error of the parser and
no mock. The file `mocks/pair.json` yields its two mocks, `mocks/single.json` its one,
and `mocks/broken.json` an error. -/
theorem loadMock_normalises (base : Lib) (mockJson : GoString) (js : Bytes)
    (hread : base.readFile mockJson = .ok js) :
    (∀ ds, Json.parse js = .ok (.array ds) →
      ∃ msg es w1 w2,
        Json.unmarshalRaw js = .ok msg ∧ js = w1 ++ msg ++ w2 ∧ (∀ c ∈ w1, Json.isSpace c = true) ∧
        (∀ c ∈ w2, Json.isSpace c = true) ∧
        Json.parse msg = .ok (.array ds) ∧ Json.elements msg = some es ∧
        es.length = ds.length ∧
        List.Forall₂ (fun e d => Json.parse e = .ok d) es ds ∧
        loadMock (decodingMocks base) mockJson
          = some (es.map (fun e => (base.jsonUnmarshalMock e).1),
              (Json.firstError (es.map (fun e => (base.jsonUnmarshalMock e).2))).map
                GoError.external) ∧
        ((∀ e ∈ es, (base.jsonUnmarshalMock e).2 = none) →
          loadMock (decodingMocks base) mockJson
            = some (es.map (fun e => (base.jsonUnmarshalMock e).1), none))) ∧
    (∀ d, Json.parse js = .ok d → (∀ ds, d ≠ .array ds) →
      ∃ msg w1 w2,
        Json.unmarshalRaw js = .ok msg ∧ js = w1 ++ msg ++ w2 ∧ (∀ c ∈ w1, Json.isSpace c = true) ∧
        (∀ c ∈ w2, Json.isSpace c = true) ∧
        Json.parse msg = .ok d ∧
        ((base.jsonUnmarshalMock msg).2 = none →
          loadMock (decodingMocks base) mockJson
            = some ([(base.jsonUnmarshalMock msg).1], none)) ∧
        (∀ e, (base.jsonUnmarshalMock msg).2 = some e →
          loadMock (decodingMocks base) mockJson = some ([], some (.external e)))) ∧
    (∀ e, Json.parse js = .error e →
      loadMock (decodingMocks base) mockJson = some ([], some (.external e))) ∧
    loadMock (decodingMocks mockBase) "mocks/pair.json".data
      = some (pairMocks, none) ∧
    loadMock (decodingMocks mockBase) "mocks/single.json".data
      = some (singleMocks, none) ∧
    loadMock (decodingMocks mockBase) "mocks/broken.json".data
      = some ([], some (.external "unexpected end of JSON input".data)) := by
  refine ⟨?_, ?_, ?_, by decide, by decide, by decide⟩
  · intro ds hp
    obtain ⟨c, rest, w1, w2, hraw, hjs, hw1, hw2, hpm, hc⟩ := Json.unmarshalRaw_spec js _ hp
    obtain ⟨es, hes1, hes2⟩ := Json.elements_spec _ ds hpm
    have hc1 : c = '[' := hc.mpr ⟨ds, rfl⟩
    have hload := loadMock_decoding base mockJson js c rest hread hraw
    have hslice : Json.unmarshalSlice base.jsonUnmarshalMock (c :: rest)
        = (es.map (fun e => (base.jsonUnmarshalMock e).1),
            Json.firstError (es.map (fun e => (base.jsonUnmarshalMock e).2))) := by
      simp only [Json.unmarshalSlice, hpm, hes1]
    rw [if_pos hc1, hslice] at hload
    refine ⟨c :: rest, es, w1, w2, hraw, hjs, hw1, hw2, hpm, hes1, hes2.length_eq, hes2, hload,
      ?_⟩
    intro hall
    rw [hload, Json.firstError_none]
    · rfl
    · intro x hx
      obtain ⟨e, he, rfl⟩ := List.mem_map.mp hx
      exact hall e he
  · intro d hp hna
    obtain ⟨c, rest, w1, w2, hraw, hjs, hw1, hw2, hpm, hc⟩ := Json.unmarshalRaw_spec js _ hp
    have hc1 : ¬ c = '[' := by
      intro h
      obtain ⟨ds, hds⟩ := hc.mp h
      exact hna ds hds
    have hload := loadMock_decoding base mockJson js c rest hread hraw
    rw [if_neg hc1] at hload
    refine ⟨c :: rest, w1, w2, hraw, hjs, hw1, hw2, hpm, ?_, ?_⟩
    · intro hm
      rw [hload]
      rcases hd : base.jsonUnmarshalMock (c :: rest) with ⟨m, _ | e⟩
      · rfl
      · rw [hd] at hm
        cases hm
    · intro e hm
      rw [hload]
      rcases hd : base.jsonUnmarshalMock (c :: rest) with ⟨m, _ | e1⟩
      · rw [hd] at hm
        cases hm
      · rw [hd] at hm
        simp only [Option.some.injEq] at hm
        rw [hm]
  · intro e hp
    have h1 : (decodingMocks base).readFile mockJson = .ok js := hread
    have h2 : (decodingMocks base).jsonUnmarshalRaw js = .error e := by
      show Json.unmarshalRaw js = .error e
      simp only [Json.unmarshalRaw, hp]
    unfold loadMock
    rw [h1]
    simp only
    rw [h2]

/-- An instance of `loadMock_normalises`: the file `mocks/pair.json`, an array of two
mocks. -/
theorem loadMock_normalises_witness :
    (∀ ds, Json.parse pairDocument = .ok (.array ds) →
      ∃ msg es w1 w2,
        Json.unmarshalRaw pairDocument = .ok msg ∧ pairDocument = w1 ++ msg ++ w2 ∧ (∀ c ∈ w1, Json.isSpace c = true) ∧
        (∀ c ∈ w2, Json.isSpace c = true) ∧
        Json.parse msg = .ok (.array ds) ∧ Json.elements msg = some es ∧
        es.length = ds.length ∧
        List.Forall₂ (fun e d => Json.parse e = .ok d) es ds ∧
        loadMock (decodingMocks mockBase) "mocks/pair.json".data
          = some (es.map (fun e => (mockBase.jsonUnmarshalMock e).1),
              (Json.firstError (es.map (fun e => (mockBase.jsonUnmarshalMock e).2))).map
                GoError.external) ∧
        ((∀ e ∈ es, (mockBase.jsonUnmarshalMock e).2 = none) →
          loadMock (decodingMocks mockBase) "mocks/pair.json".data
            = some (es.map (fun e => (mockBase.jsonUnmarshalMock e).1), none))) ∧
    (∀ d, Json.parse pairDocument = .ok d → (∀ ds, d ≠ .array ds) →
      ∃ msg w1 w2,
        Json.unmarshalRaw pairDocument = .ok msg ∧ pairDocument = w1 ++ msg ++ w2 ∧ (∀ c ∈ w1, Json.isSpace c = true) ∧
        (∀ c ∈ w2, Json.isSpace c = true) ∧
        Json.parse msg = .ok d ∧
        ((mockBase.jsonUnmarshalMock msg).2 = none →
          loadMock (decodingMocks mockBase) "mocks/pair.json".data
            = some ([(mockBase.jsonUnmarshalMock msg).1], none)) ∧
        (∀ e, (mockBase.jsonUnmarshalMock msg).2 = some e →
          loadMock (decodingMocks mockBase) "mocks/pair.json".data
            = some ([], some (.external e)))) ∧
    (∀ e, Json.parse pairDocument = .error e →
      loadMock (decodingMocks mockBase) "mocks/pair.json".data
        = some ([], some (.external e))) ∧
    loadMock (decodingMocks mockBase) "mocks/pair.json".data
      = some (pairMocks, none) ∧
    loadMock (decodingMocks mockBase) "mocks/single.json".data
      = some (singleMocks, none) ∧
    loadMock (decodingMocks mockBase) "mocks/broken.json".data
      = some ([], some (.external "unexpected end of JSON input".data)) :=
  loadMock_normalises mockBase "mocks/pair.json".data pairDocument rfl

end Dittomock
